import Mathlib

/-!
# fsmtrie: a shallow embedding of the trie store and its searches

The development follows `fsmtrie/private.h`, `fsmtrie/fsmtrie.c`,
`fsmtrie/subsearch.c` and `fsmtrie/asearch.c`.

Modelling conventions.

* A C string (`const char *`) is the list of its bytes before the terminating
  NUL; a well formed string has every byte in `1..255` (`IsCStr`).  A pointer
  argument that may be `NULL` is an `Option`.
* A `struct fsmtrie_node *` is a value of `fsmtrie_node`: either `NULL` or a
  node with its header fields and its child array `nodes[]`, a function from
  the slot index to the child pointer.  Every node is owned by exactly one
  slot of its parent and nodes are never freed or shared while the trie lives,
  so the heap is a tree.  A pointer that is kept across operations (the
  Aho-Corasick `suffix` link, the entries of the compile queue) is the path
  of slot indices from the root to the node it points to.
* The two bits of `type` (`FSMTRIE_NODE_LEAF`, `FSMTRIE_NODE_OUTPUT`) and the
  two bits of `flags` (`FSMTRIE_PM_OK`, `FSMTRIE_AC_COMPILED`) are one `Bool`
  each.  The per node copies of `mode` and `flags` are never read by the
  functions modelled here and are left out.
* `calloc`, `realloc` always succeed.  `size_t` counters are natural numbers;
  the 16 bit child counts (`nrnodes`, `nnodes`) and the `int` / `uint32_t`
  quantities of the approximate search wrap as in C.
* `err_buf` holds the last message as a value of `err_msg`.
-/

namespace FSM

/-! ## Data model (`private.h`) -/

/-- The three modes of operation (`enum fsmtrie_mode`). -/
inductive fsmtrie_mode where
  | fsmtrie_mode_ascii : fsmtrie_mode
  | fsmtrie_mode_eascii : fsmtrie_mode
  | fsmtrie_mode_token : fsmtrie_mode
  deriving DecidableEq

open fsmtrie_mode

/-- Size of an ASCII trie node. -/
def FSMTRIE_SIZE_ASCII : Nat := 128
/-- Size of an extended ASCII trie node. -/
def FSMTRIE_SIZE_EASCII : Nat := 256
/-- Size of a newly initialised token trie node. -/
def FSMTRIE_SIZE_TOKEN : Nat := 1

/-- The content of `err_buf`: which message was formatted last, with the
values that were formatted into it. -/
inductive err_msg where
  | empty : err_msg
  | uninitialized_trie : err_msg
  | empty_key : err_msg
  | key_too_long (n max_len : Nat) : err_msg
  | out_of_range (val pos : Nat) : err_msg
  | incompatible (func : String) (mode : fsmtrie_mode) : err_msg
  | token_string_too_long (n max_len : Nat) : err_msg
  | key_value_out_of_range (val : Nat) : err_msg
  | empty_key_or_keylen : err_msg
  | requires_max_len (func : String) : err_msg
  | cannot_insert_token : err_msg
  deriving DecidableEq

/-- A `struct fsmtrie_node *`: `NULL`, or a node with `suffix` (the path of
the node the failure link points to), the `LEAF` and `OUTPUT` bits of `type`,
`str`, `tval`, `nnodes` and the child array `nodes[]`. -/
inductive fsmtrie_node where
  | NULL : fsmtrie_node
  | mk (suffix : Option (List Nat)) (leaf output : Bool) (str : Option (List Nat))
      (tval nnodes : Nat) (nodes : Nat → fsmtrie_node) : fsmtrie_node

namespace fsmtrie_node

/-- Test `p == NULL`. -/
def isNull : fsmtrie_node → Bool
  | NULL => true
  | mk .. => false

/-- Read `p->suffix`. -/
def suffix : fsmtrie_node → Option (List Nat)
  | NULL => none
  | mk s _ _ _ _ _ _ => s

/-- Read `p->type & FSMTRIE_NODE_LEAF`. -/
def leaf : fsmtrie_node → Bool
  | NULL => false
  | mk _ l _ _ _ _ _ => l

/-- Read `p->type & FSMTRIE_NODE_OUTPUT`. -/
def output : fsmtrie_node → Bool
  | NULL => false
  | mk _ _ o _ _ _ _ => o

/-- Read `p->str`. -/
def str : fsmtrie_node → Option (List Nat)
  | NULL => none
  | mk _ _ _ s _ _ _ => s

/-- Read `p->tval`. -/
def tval : fsmtrie_node → Nat
  | NULL => 0
  | mk _ _ _ _ t _ _ => t

/-- Read `p->nnodes`. -/
def nnodes : fsmtrie_node → Nat
  | NULL => 0
  | mk _ _ _ _ _ n _ => n

/-- Read `p->nodes[i]`. -/
def nodes : fsmtrie_node → Nat → fsmtrie_node
  | NULL, _ => NULL
  | mk _ _ _ _ _ _ ns, i => ns i

/-- Write `p->suffix = s`. -/
def setSuffix : fsmtrie_node → Option (List Nat) → fsmtrie_node
  | NULL, _ => NULL
  | mk _ l o st t n ns, s => mk s l o st t n ns

/-- Write the `OUTPUT` bit of `p->type`. -/
def setOutput : fsmtrie_node → Bool → fsmtrie_node
  | NULL, _ => NULL
  | mk s l _ st t n ns, o => mk s l o st t n ns

/-- Write `p->tval = t`. -/
def setTval : fsmtrie_node → Nat → fsmtrie_node
  | NULL, _ => NULL
  | mk s l o st _ n ns, t => mk s l o st t n ns

/-- Write `p->nnodes = n`. -/
def setNnodes : fsmtrie_node → Nat → fsmtrie_node
  | NULL, _ => NULL
  | mk s l o st t _ ns, n => mk s l o st t n ns

/-- Write `p->nodes[i] = c`. -/
def setNode : fsmtrie_node → Nat → fsmtrie_node → fsmtrie_node
  | NULL, _, _ => NULL
  | mk s l o st t n ns, i, c => mk s l o st t n (Function.update ns i c)

/-- The terminal step of an insertion:
`p->type |= (FSMTRIE_NODE_LEAF | FSMTRIE_NODE_OUTPUT)` and, when a string is
supplied, `p->str` becomes a copy of it. -/
def markLeaf : fsmtrie_node → Option (List Nat) → fsmtrie_node
  | NULL, _ => NULL
  | mk s _ _ st0 t n ns, st =>
    mk s true true (match st with | some x => some x | none => st0) t n ns

end fsmtrie_node

open fsmtrie_node

/-- The options object (`struct fsmtrie_opt`); `pm_ok` is the `FSMTRIE_PM_OK`
bit of `flags`, the only bit the option setters touch. -/
structure fsmtrie_opt where
  mode : fsmtrie_mode
  pm_ok : Bool
  max_len : Nat

/-- The trie and its metadata (`struct fsmtrie`); `pm_ok` and `ac_compiled`
are the two bits of `flags`. -/
structure fsmtrie where
  nrnodes : Nat
  root : fsmtrie_node
  node_cnt : Nat
  key_cnt : Nat
  max_len : Nat
  mode : fsmtrie_mode
  pm_ok : Bool
  ac_compiled : Bool
  err_buf : err_msg

/-- A well formed C string: no byte is NUL and every byte fits in a char. -/
def IsCStr (s : List Nat) : Prop := ∀ b ∈ s, 0 < b ∧ b < 256

instance (s : List Nat) : Decidable (IsCStr s) := by unfold IsCStr; infer_instance

/-! ## Initialisation (`fsmtrie.c`) -/

/-- Create a new empty trie node: `calloc` zeroes every field; the second
component is the value stored through `pnnodes`. -/
def _fsmtrie_node_new (mode : fsmtrie_mode) : fsmtrie_node × Nat :=
  (mk none false false none 0 0 (fun _ => NULL),
   match mode with
   | fsmtrie_mode_ascii => FSMTRIE_SIZE_ASCII
   | fsmtrie_mode_eascii => FSMTRIE_SIZE_EASCII
   | fsmtrie_mode_token => FSMTRIE_SIZE_TOKEN)

/-- Initialise a trie from an options object (`NULL` gives the defaults).
`none` is the `NULL` return. -/
def fsmtrie_init (o : Option fsmtrie_opt) : Option fsmtrie :=
  let mode := match o with | none => fsmtrie_mode_ascii | some o => o.mode
  let pm := match o with | none => false | some o => o.pm_ok
  let max_len := match o with | none => 0 | some o => o.max_len
  match mode with
  | fsmtrie_mode_token =>
    if pm then none
    else some
      { nrnodes := 0, root := (_fsmtrie_node_new mode).1, node_cnt := 0, key_cnt := 0,
        max_len := max_len, mode := mode, pm_ok := pm, ac_compiled := false,
        err_buf := err_msg.empty }
  | _ =>
    some
      { nrnodes := (_fsmtrie_node_new mode).2, root := (_fsmtrie_node_new mode).1,
        node_cnt := 0, key_cnt := 0, max_len := max_len, mode := mode, pm_ok := pm,
        ac_compiled := false, err_buf := err_msg.empty }

/-! ## Byte keys: validation, insertion, exact search (`fsmtrie.c`) -/

/-- The scan of `fsmtrie_key_validate_ascii`: the first byte of the key, with
its position, for which `(int)*p < 0 || (int)*p > f->nrnodes - 1`. -/
def validate_scan (nrnodes : Nat) : List Nat → Nat → Option (Nat × Nat)
  | [], _ => none
  | p :: rest, n =>
    if (p : Int) < 0 ∨ (p : Int) > (nrnodes : Int) - 1 then some (p, n)
    else validate_scan nrnodes rest (n + 1)

/-- The function `fsmtrie_key_validate_ascii`: the result and the trie with
its error buffer. -/
def fsmtrie_key_validate_ascii (f : fsmtrie) (key : Option (List Nat)) : Bool × fsmtrie :=
  if f.root.isNull then (false, { f with err_buf := err_msg.uninitialized_trie })
  else match key with
    | none => (false, { f with err_buf := err_msg.empty_key })
    | some k =>
      if f.max_len > 0 ∧ k.length > f.max_len then
        (false, { f with err_buf := err_msg.key_too_long k.length f.max_len })
      else if f.mode = fsmtrie_mode_ascii then
        match validate_scan f.nrnodes k 0 with
        | some (v, n) => (false, { f with err_buf := err_msg.out_of_range v n })
        | none => (true, f)
      else (true, f)

/-- The body of `fsmtrie_insert` after validation, on the subtree below
`node_p` and the rest of the key: the walk that creates the missing nodes and
the terminal step.  The result is the updated node, the number of nodes
created (the increments of `node_cnt`) and whether the key was new (the
terminal node was not yet a leaf). -/
def insert_walk (nrnodes : Nat) (mode : fsmtrie_mode) (str : Option (List Nat)) :
    fsmtrie_node → List Nat → fsmtrie_node × Nat × Bool
  | node_p, [] =>
    if node_p.leaf then (node_p, 0, false) else (node_p.markLeaf str, 0, true)
  | node_p, p :: rest =>
    if (node_p.nodes p).isNull then
      let r := insert_walk nrnodes mode str ((_fsmtrie_node_new mode).1.setNnodes nrnodes) rest
      (node_p.setNode p r.1, r.2.1 + 1, r.2.2)
    else
      let r := insert_walk nrnodes mode str (node_p.nodes p) rest
      (node_p.setNode p r.1, r.2.1, r.2.2)

/-- The function `fsmtrie_insert`. -/
def fsmtrie_insert (f : fsmtrie) (key : Option (List Nat)) (str : Option (List Nat)) :
    Bool × fsmtrie :=
  if f.root.isNull then (false, { f with err_buf := err_msg.uninitialized_trie })
  else if f.mode ≠ fsmtrie_mode_ascii ∧ f.mode ≠ fsmtrie_mode_eascii then
    (false, { f with err_buf := err_msg.incompatible "fsmtrie_insert" f.mode })
  else
    let v := fsmtrie_key_validate_ascii f key
    if !v.1 then (false, v.2)
    else
      let r := insert_walk f.nrnodes f.mode str f.root (key.getD [])
      if r.2.2 then
        (true, { f with root := r.1, node_cnt := f.node_cnt + r.2.1,
                        ac_compiled := false, key_cnt := f.key_cnt + 1 })
      else
        (true, { f with root := r.1, node_cnt := f.node_cnt + r.2.1 })

/-- Outcome of the walk of an exact search. -/
inductive walk_result where
  | range_error (val : Nat) : walk_result
  | no_match : walk_result
  | arrived (node_p : fsmtrie_node) : walk_result

/-- The loop of `fsmtrie_search`. -/
def search_walk (nrnodes : Nat) : fsmtrie_node → List Nat → walk_result
  | node_p, [] => walk_result.arrived node_p
  | node_p, p :: rest =>
    if (p : Int) < 0 ∨ (p : Int) > (nrnodes : Int) - 1 then walk_result.range_error p
    else if (node_p.nodes p).isNull then walk_result.no_match
    else search_walk nrnodes (node_p.nodes p) rest

/-- What a search hands back: the return value, the value of `*str` after the
call, and the trie (only its error buffer can differ). -/
structure search_result where
  ret : Int
  str : Option (List Nat)
  f : fsmtrie

/-- The function `fsmtrie_search`; `str0` is the value `*str` holds before the
call. -/
def fsmtrie_search (f : fsmtrie) (key : Option (List Nat)) (str0 : Option (List Nat)) :
    search_result :=
  if f.root.isNull then ⟨-1, str0, { f with err_buf := err_msg.uninitialized_trie }⟩
  else match key with
    | none => ⟨-1, str0, { f with err_buf := err_msg.empty_key }⟩
    | some k =>
      if f.mode ≠ fsmtrie_mode_ascii ∧ f.mode ≠ fsmtrie_mode_eascii then
        ⟨-1, str0, { f with err_buf := err_msg.incompatible "fsmtrie_search" f.mode }⟩
      else
        match search_walk f.nrnodes f.root k with
        | walk_result.range_error v =>
          ⟨-1, none, { f with err_buf := err_msg.key_value_out_of_range v }⟩
        | walk_result.no_match => ⟨0, none, f⟩
        | walk_result.arrived node_p =>
          let str := if node_p.leaf then node_p.str else none
          if (if (!node_p.isNull && f.pm_ok) then true else node_p.leaf) then ⟨1, str, f⟩
          else ⟨0, str, f⟩

/-- Runs a sequence of `fsmtrie_insert` calls, each given as (key, str). -/
def run_inserts (f : fsmtrie) : List (List Nat × Option (List Nat)) → fsmtrie
  | [] => f
  | c :: rest => run_inserts (fsmtrie_insert f (some c.1) c.2).2 rest

/-- The calls of a sequence of `fsmtrie_insert` calls that returned true, in
call order. -/
def accepted_inserts (f : fsmtrie) :
    List (List Nat × Option (List Nat)) → List (List Nat × Option (List Nat))
  | [] => []
  | c :: rest =>
    if (fsmtrie_insert f (some c.1) c.2).1 then
      c :: accepted_inserts (fsmtrie_insert f (some c.1) c.2).2 rest
    else accepted_inserts (fsmtrie_insert f (some c.1) c.2).2 rest

/-- The node reached from `n` along the slots `w` (`NULL` when the path
leaves the trie): the dereference of the pointer `w`. -/
def lookup : fsmtrie_node → List Nat → fsmtrie_node
  | n, [] => n
  | n, c :: w => lookup (n.nodes c) w

/-- The fixed part of an initialised byte mode trie. -/
structure ByteTrie (f : fsmtrie) : Prop where
  root : f.root.isNull = false
  size : (f.mode = fsmtrie_mode_ascii ∧ f.nrnodes = 128) ∨
         (f.mode = fsmtrie_mode_eascii ∧ f.nrnodes = 256)

/-- The acceptance condition of `fsmtrie_insert`. -/
def accepts (f : fsmtrie) (k : List Nat) : Prop :=
  (f.max_len = 0 ∨ k.length ≤ f.max_len) ∧
  (f.mode = fsmtrie_mode_eascii ∨ ∀ b ∈ k, b < 128)

/-- The trie `f` stores exactly the accepted calls `A` (in call order): which
paths exist, which are leaves, and the string of each node. -/
structure Holds (f : fsmtrie) (A : List (List Nat × Option (List Nat))) : Prop where
  wf : ByteTrie f
  exist : ∀ w, (lookup f.root w).isNull = false ↔ (w = [] ∨ ∃ c ∈ A, w <+: c.1)
  leaf : ∀ w, (lookup f.root w).leaf = true ↔ ∃ c ∈ A, c.1 = w
  str : ∀ w, (lookup f.root w).str = (A.lookup w).getD none
  acc : ∀ c ∈ A, accepts f c.1 ∧ IsCStr c.1

/-- The fresh ASCII trie of scenario S1: `max_len` 64, `FSMTRIE_PM_OK` set. -/
def trie_S1 : fsmtrie :=
  { nrnodes := 128, root := (_fsmtrie_node_new fsmtrie_mode_ascii).1, node_cnt := 0,
    key_cnt := 0, max_len := 64, mode := fsmtrie_mode_ascii, pm_ok := true,
    ac_compiled := false, err_buf := err_msg.empty }

/-- The insert calls of scenario S1: foo, bar, baz, foobarbaz, dogs, each with
the key as its string. -/
def calls_S1 : List (List Nat × Option (List Nat)) :=
  [([102, 111, 111], some [102, 111, 111]), ([98, 97, 114], some [98, 97, 114]),
   ([98, 97, 122], some [98, 97, 122]),
   ([102, 111, 111, 98, 97, 114, 98, 97, 122], some [102, 111, 111, 98, 97, 114, 98, 97, 122]),
   ([100, 111, 103, 115], some [100, 111, 103, 115])]

/-- A fresh ASCII trie with `max_len` 3 and `FSMTRIE_PM_OK` clear. -/
def trie_ml3 : fsmtrie :=
  { nrnodes := 128, root := (_fsmtrie_node_new fsmtrie_mode_ascii).1, node_cnt := 0,
    key_cnt := 0, max_len := 3, mode := fsmtrie_mode_ascii, pm_ok := false,
    ac_compiled := false, err_buf := err_msg.empty }

/-! ## Token keys: child lookup, insertion, exact search (`fsmtrie.c`) -/

/-- The `while (sidx != -1)` loop of `_fsmtrie_get_token_idx`, with the loop
variables `slow`, `shigh`, `sidx` (of type `ssize_t`).  The result is `sidx` at
the exit and whether the exit was the `return (0)` of a match; `none` when the
fuel is used up. -/
def token_idx_loop (node : fsmtrie_node) (token : Nat) :
    Nat → Int → Int → Int → Option (Bool × Int)
  | 0, _, _, _ => none
  | fuel + 1, slow, shigh, sidx =>
    if sidx = -1 then some (false, sidx)
    else
      let sidx := ((shigh - slow) + 1) / 2 + slow
      let sval := (node.nodes sidx.toNat).tval
      if sval = token then some (true, sidx)
      else if slow = shigh then some (false, sidx)
      else
        let slow1 := if sval < token then sidx + 1 else slow
        let shigh1 := if sval < token then shigh else if sval > token then sidx - 1 else shigh
        if slow1 > shigh1 ∨ shigh1 < slow1 then some (false, sidx)
        else token_idx_loop node token fuel slow1 shigh1 sidx

/-- What `_fsmtrie_get_token_idx` hands back: the return value, the node
behind `*nodep` after the call, and the value stored through `pidx` (`none`
when nothing is stored). -/
structure token_idx_result where
  ret : Int
  node : fsmtrie_node
  pidx : Option Nat

/-- The children of `*nodep` after `realloc`, the `memmove` that takes the
slots from `sidx` on one place up, and `nodes[sidx] = NULL`: the slots
`0 .. nodecnt`, which are the ones the incremented child count covers.  The
`memmove` also shifts slots behind `nodecnt - 1` (see `token_idx_reads`);
they hold no child and are kept as `NULL` here. -/
def token_make_room (node : fsmtrie_node) (nodecnt sidx : Nat) : fsmtrie_node :=
  match node with
  | NULL => NULL
  | mk s l o st t n ns =>
    mk s l o st t n
      (fun i => if i < sidx then ns i else if i = sidx then NULL
                else if i ≤ nodecnt then ns (i - 1) else NULL)

/-- The function `_fsmtrie_get_token_idx`: binary search for `token` among the
first `nodecnt` children of `*nodep`; with `do_insert`, an empty slot is made
at the insertion point when the token is absent.  The loop runs at most
`nodecnt` times; `none` only if the fuel `nodecnt + 1` did not suffice. -/
def _fsmtrie_get_token_idx (node : fsmtrie_node) (nodecnt token : Nat) (do_insert : Bool) :
    Option token_idx_result :=
  match token_idx_loop node token (nodecnt + 1) 0 ((nodecnt : Int) - 1)
      (if nodecnt = 0 then -1 else 0) with
  | none => none
  | some (true, sidx) => some ⟨0, node, some sidx.toNat⟩
  | some (false, sidx) =>
    let sidx1 : Int :=
      if sidx < 0 then 0
      else if token > (node.nodes sidx.toNat).tval then sidx + 1 else sidx
    if !do_insert then some ⟨-1, node, none⟩
    else some ⟨1, token_make_room node nodecnt sidx1.toNat, some sidx1.toNat⟩

/-- How the walk of `fsmtrie_insert_token` ended. -/
inductive token_walk_end where
  | cannot_insert : token_walk_end
  | duplicate : token_walk_end
  | added : token_walk_end
  deriving DecidableEq

/-- The body of `fsmtrie_insert_token` after validation, on the subtree below
`node_p`, whose child count is `cnt` (`f->nrnodes` for the root, `nnodes` for
the others), and the rest of the key.  The result is the updated node, its
child count after the 16 bit increment and how the walk ended; `none` when a
child lookup ran out of fuel. -/
def insert_token_walk (str : Option (List Nat)) :
    fsmtrie_node → Nat → List Nat → Option (fsmtrie_node × Nat × token_walk_end)
  | node_p, cnt, [] =>
    if node_p.leaf then some (node_p, cnt, token_walk_end.duplicate)
    else some (node_p.markLeaf str, cnt, token_walk_end.added)
  | node_p, cnt, tok :: rest =>
    match _fsmtrie_get_token_idx node_p cnt tok true with
    | none => none
    | some r =>
      if r.ret < 0 then some (r.node, cnt, token_walk_end.cannot_insert)
      else
        let nidx := r.pidx.getD 0
        let node_pp :=
          if r.ret > 0 then
            r.node.setNode nidx ((_fsmtrie_node_new fsmtrie_mode_token).1.setTval tok)
          else r.node
        let cnt1 := if r.ret > 0 then (cnt + 1) % 65536 else cnt
        match insert_token_walk str (node_pp.nodes nidx) (node_pp.nodes nidx).nnodes rest with
        | none => none
        | some c => some (node_pp.setNode nidx (c.1.setNnodes c.2.1), cnt1, c.2.2)

/-- The function `fsmtrie_insert_token`; the key is the array `tkey[0..nkey)`.
`none` only when a child lookup ran out of fuel. -/
def fsmtrie_insert_token (f : fsmtrie) (tkey : List Nat) (str : Option (List Nat)) :
    Option (Bool × fsmtrie) :=
  if f.root.isNull then some (false, { f with err_buf := err_msg.uninitialized_trie })
  else if f.mode ≠ fsmtrie_mode_token then
    some (false, { f with err_buf := err_msg.incompatible "fsmtrie_insert_token" f.mode })
  else if f.max_len > 0 ∧ tkey.length > f.max_len then
    some (false, { f with err_buf := err_msg.token_string_too_long tkey.length f.max_len })
  else
    match insert_token_walk str f.root f.nrnodes tkey with
    | none => none
    | some (root, cnt, token_walk_end.cannot_insert) =>
      some (false, { f with root := root, nrnodes := cnt, err_buf := err_msg.cannot_insert_token })
    | some (root, cnt, token_walk_end.duplicate) =>
      some (true, { f with root := root, nrnodes := cnt })
    | some (root, cnt, token_walk_end.added) =>
      some (true, { f with root := root, nrnodes := cnt, node_cnt := f.node_cnt + 1,
                           ac_compiled := false, key_cnt := f.key_cnt + 1 })

/-- The inner `while (sidx != -1)` loop of `fsmtrie_search_token`; the result
is `sidx` at the exit, `none` when the fuel is used up. -/
def search_token_loop (node_p : fsmtrie_node) (pkey : Nat) :
    Nat → Int → Int → Int → Option Int
  | 0, _, _, _ => none
  | fuel + 1, slow, shigh, sidx =>
    if sidx = -1 then some sidx
    else
      let sidx := ((shigh - slow) + 1) / 2 + slow
      let sval := (node_p.nodes sidx.toNat).tval
      if sval = pkey ∨ slow = shigh then some sidx
      else
        let slow1 := if sval < pkey then sidx + 1 else slow
        let shigh1 := if sval < pkey then shigh else if sval > pkey then sidx - 1 else shigh
        if slow1 > shigh1 ∨ shigh1 < slow1 then some sidx
        else search_token_loop node_p pkey fuel slow1 shigh1 sidx

/-- The outer loop of `fsmtrie_search_token` from `node_p`, whose child count
is `nnodes`: `some none` is the `return (0)` inside the loop, `some (some n)`
the node the key leads to, `none` when a child lookup ran out of fuel. -/
def search_token_walk : fsmtrie_node → Nat → List Nat → Option (Option fsmtrie_node)
  | node_p, _, [] => some (some node_p)
  | node_p, nnodes, pkey :: rest =>
    match search_token_loop node_p pkey (nnodes + 1) 0 ((nnodes : Int) - 1)
        (if nnodes = 0 then -1 else 0) with
    | none => none
    | some sidx =>
      if sidx = -1 ∨ (node_p.nodes sidx.toNat).tval ≠ pkey then some none
      else search_token_walk (node_p.nodes sidx.toNat) (node_p.nodes sidx.toNat).nnodes rest

/-- The function `fsmtrie_search_token`; `key` is the array `key[0..keylen)` or
`NULL`, `str0` the value `*str` holds before the call.  `none` only when a
child lookup ran out of fuel. -/
def fsmtrie_search_token (f : fsmtrie) (key : Option (List Nat)) (str0 : Option (List Nat)) :
    Option search_result :=
  if f.root.isNull then some ⟨-1, str0, { f with err_buf := err_msg.uninitialized_trie }⟩
  else match key with
    | none => some ⟨-1, str0, { f with err_buf := err_msg.empty_key_or_keylen }⟩
    | some k =>
      if k.length = 0 then some ⟨-1, str0, { f with err_buf := err_msg.empty_key_or_keylen }⟩
      else if f.mode ≠ fsmtrie_mode_token then
        some ⟨-1, str0, { f with err_buf := err_msg.incompatible "fsmtrie_search_token" f.mode }⟩
      else
        match search_token_walk f.root f.nrnodes k with
        | none => none
        | some none => some ⟨0, none, f⟩
        | some (some node_p) =>
          let str := if node_p.leaf then node_p.str else none
          if (!node_p.isNull && node_p.leaf) then some ⟨1, str, f⟩ else some ⟨0, str, f⟩

/-- Runs a sequence of `fsmtrie_insert_token` calls, each given as (key, str). -/
def run_token_inserts (f : fsmtrie) : List (List Nat × Option (List Nat)) → Option fsmtrie
  | [] => some f
  | c :: rest =>
    match fsmtrie_insert_token f c.1 c.2 with
    | none => none
    | some r => run_token_inserts r.2 rest

/-- The calls of a sequence of `fsmtrie_insert_token` calls that returned
true, in call order. -/
def accepted_token_inserts (f : fsmtrie) :
    List (List Nat × Option (List Nat)) → List (List Nat × Option (List Nat))
  | [] => []
  | c :: rest =>
    match fsmtrie_insert_token f c.1 c.2 with
    | none => []
    | some r => if r.1 then c :: accepted_token_inserts r.2 rest
                else accepted_token_inserts r.2 rest

/-- The first `cnt` children of a token node are strictly increasing by
token value. -/
def SortedKids (node : fsmtrie_node) (cnt : Nat) : Prop :=
  ∀ i j, i < j → j < cnt → (node.nodes i).tval < (node.nodes j).tval

/-- The child of a token node reached by the token `tok`: the first of its
`cnt` children that carries `tok`, `NULL` when there is none. -/
def tchild (node : fsmtrie_node) (cnt tok : Nat) : fsmtrie_node :=
  match (List.range cnt).find? (fun i => decide ((node.nodes i).tval = tok)) with
  | some i => node.nodes i
  | none => NULL

/-- The node of a token trie reached from `n` (with `cnt` children) along the
tokens `w`, `NULL` when the path leaves the trie. -/
def tlookup : fsmtrie_node → Nat → List Nat → fsmtrie_node
  | n, _, [] => n
  | n, cnt, t :: w => tlookup (tchild n cnt t) (tchild n cnt t).nnodes w

/-- A well formed token subtree: the node exists, has at most `N` children,
all present and strictly increasing by token, and the same holds below. -/
inductive TokWF (N : Nat) : fsmtrie_node → Nat → Prop where
  | mk (node : fsmtrie_node) (cnt : Nat) (hn : node.isNull = false) (hc : cnt ≤ N)
      (hk : ∀ i, i < cnt → (node.nodes i).isNull = false)
      (hs : SortedKids node cnt)
      (hr : ∀ i, i < cnt → TokWF N (node.nodes i) (node.nodes i).nnodes) : TokWF N node cnt

/-- The token trie `f` stores exactly the accepted calls `A` (in call order),
and no node has more than `N` children. -/
structure THolds (f : fsmtrie) (A : List (List Nat × Option (List Nat))) (N : Nat) : Prop where
  mode : f.mode = fsmtrie_mode_token
  wf : TokWF N f.root f.nrnodes
  exist : ∀ w, (tlookup f.root f.nrnodes w).isNull = false ↔ (w = [] ∨ ∃ c ∈ A, w <+: c.1)
  leaf : ∀ w, (tlookup f.root f.nrnodes w).leaf = true ↔ ∃ c ∈ A, c.1 = w
  str : ∀ w, (tlookup f.root f.nrnodes w).str = (A.lookup w).getD none

/-- A fresh token trie with no length limit. -/
def trie_tok : fsmtrie :=
  { nrnodes := 0, root := (_fsmtrie_node_new fsmtrie_mode_token).1, node_cnt := 0,
    key_cnt := 0, max_len := 0, mode := fsmtrie_mode_token, pm_ok := false,
    ac_compiled := false, err_buf := err_msg.empty }

/-- The one token keys 0, 1, .., n - 1, inserted in this order without a
string. -/
def single_token_calls (n : Nat) : List (List Nat × Option (List Nat)) :=
  (List.range n).map (fun i => ([i], none))

/-- A fresh token trie with `max_len` 2. -/
def trie_tok2 : fsmtrie :=
  { nrnodes := 0, root := (_fsmtrie_node_new fsmtrie_mode_token).1, node_cnt := 0,
    key_cnt := 0, max_len := 2, mode := fsmtrie_mode_token, pm_ok := false,
    ac_compiled := false, err_buf := err_msg.empty }

/-! ## Approximate search (`asearch.c`) -/

/-- The value of a 32 bit unsigned quantity converted to `int`. -/
def toInt32 (n : Nat) : Int :=
  if n % 4294967296 < 2147483648 then ((n % 4294967296 : Nat) : Int)
  else ((n % 4294967296 : Nat) : Int) - 4294967296

/-- The value of an `int` converted to a 32 bit unsigned quantity. -/
def toUInt32 (z : Int) : Nat := (z % 4294967296).toNat

/-- An entry of the sparse matrix (`struct sim_entry`). -/
structure sim_entry where
  index : Int
  value : Int
  deriving DecidableEq

/-- A row of the sparse matrix (`struct sim_row`): `start` is the offset of
the row in the backing array `matrix`, `entries` the `len` entries stored from
there on. -/
structure sim_row where
  start : Int
  entries : List sim_entry
  deriving DecidableEq

/-- The function `sim_row_append`; `end_` is the length of `matrix`.  `none` is the
`false` return. -/
def sim_row_append (row : sim_row) (end_ : Int) (index value : Int) : Option sim_row :=
  if row.start + row.entries.length < end_ then
    some { row with entries := row.entries ++ [⟨index, value⟩] }
  else none

/-- The function `sim_row_first`. -/
def sim_row_first : sim_row := { start := 0, entries := [] }

/-- The function `sim_row_next`: the row that starts where `row` ends.
`none` is the `false` return. -/
def sim_row_next (row : sim_row) (end_ : Int) : Option sim_row :=
  if row.start + row.entries.length < end_ then
    some { start := row.start + row.entries.length, entries := [] }
  else none

/-- The function `sim_row_elem`. -/
def sim_row_elem (row : sim_row) (i : Nat) : Option sim_entry := row.entries.get? i

/-- The function `sim_row_last`. -/
def sim_row_last (row : sim_row) : Option sim_entry := row.entries.getLast?

/-- The byte `key_u[index]`: a byte of the query, its terminating NUL at
`index = keylen`; what lies behind the terminator is read as 0. -/
def key_at (key : List Nat) (index : Int) : Int :=
  if 0 ≤ index then ((key.getD index.toNat 0 : Nat) : Int) else 0

/-- The scan of row `i - 1` for the transposition: the loop over `k`. -/
def transp_scan : List sim_entry → Int → Int → Int → Int
  | [], _, _, dist => dist
  | l :: rest, index, cost, dist =>
    if l.index ≥ index then dist
    else transp_scan rest index cost
      (if l.index = index - 1 ∧ l.value + cost < dist then l.value + cost else dist)

/-- One pass of the loop over `j` in the descent step: the entry `e` of row
`i`, the entry `above` that follows it in row `i` (if any), the row `i + 1`
built so far.  `prev` is `chars[i - 1]`.  `none` is a failed assertion. -/
def approx_cell (key : List Nat) (max_dist end_ : Int) (c i : Int) (prev : Int)
    (row_im1 : sim_row) (e : sim_entry) (above : Option sim_entry) (next : sim_row) :
    Option sim_row :=
  let cost : Int := if c = key_at key e.index then 0 else 1
  let dist0 := e.value + cost
  let dist1 :=
    match sim_row_last next with
    | some l => if l.index = e.index ∧ l.value + 1 < dist0 then l.value + 1 else dist0
    | none => dist0
  let dist2 :=
    match above with
    | some l => if l.index = e.index + 1 ∧ l.value + 1 < dist1 then l.value + 1 else dist1
    | none => dist1
  let dist3 :=
    if i > 0 ∧ e.index > 0 ∧ key_at key e.index = prev - 1 ∧ key_at key (e.index - 1) = c then
      transp_scan row_im1.entries e.index cost dist2
    else dist2
  if dist3 ≤ max_dist ∧ e.index < (key.length : Int) then
    sim_row_append next end_ (e.index + 1) dist3
  else some next

/-- The loop over `j` of the descent step, on the entries of row `i` not yet
visited. -/
def approx_row_loop (key : List Nat) (max_dist end_ : Int) (c i : Int) (prev : Int)
    (row_im1 : sim_row) : List sim_entry → sim_row → Option sim_row
  | [], next => some next
  | e :: rest, next =>
    match approx_cell key max_dist end_ c i prev row_im1 e rest.head? next with
    | none => none
    | some next1 => approx_row_loop key max_dist end_ c i prev row_im1 rest next1

/-- The initial loop over `j` that fills row 0, from `j` on, at most `n` more
passes. -/
def approx_init_row (max_dist end_ ml : Int) : Nat → Int → sim_row → Option sim_row
  | 0, _, row => some row
  | n + 1, j, row =>
    if j ≤ max_dist ∧ j < ml then
      match sim_row_append row end_ j j with
      | none => none
      | some row1 => approx_init_row max_dist end_ ml n (j + 1) row1
    else some row

/-- The local variables of `fsmtrie_search_approx` that live across the
iterations of the traversal: the current node, the depth `i`, the loop
variable `c`, the stacks `chars[]` and `nodes[]`, the rows, and the callback
invocations made so far, in order.  The stacks are kept without their bounds:
the source declares `chars[keylen + 1]`, so a state with `i > keylen` is one
in which the C code has written behind the end of `chars[]`, and what the
traversal does from there on is that of a character stack that is large
enough, not something the C code is bound to do. -/
structure approx_state where
  node : fsmtrie_node
  i : Int
  c : Int
  chars : Nat → Nat
  nodes : Nat → fsmtrie_node
  rows : Nat → sim_row
  out : List (Option (List Nat) × Int)

/-- How `fsmtrie_search_approx` ends: it returns `ret` after the callback
invocations `out`, or an assertion fails (the process aborts) after the
invocations `out`. -/
inductive approx_outcome where
  | returned (ret : Int) (out : List (Option (List Nat) × Int)) (f : fsmtrie) : approx_outcome
  | aborted (out : List (Option (List Nat) × Int)) : approx_outcome

/-- One pass of the body of `for (c = chars[i]; c < f->nrnodes; c++)`, or the
exit of that loop (`node = nodes[i--]` and the initialisation of `c` for the
next round), for a state whose node is not `NULL`.  `none` is a failed
assertion. -/
def approx_step (f : fsmtrie) (key : List Nat) (max_dist end_ : Int) (s : approx_state) :
    Option approx_state :=
  if s.c < (f.nrnodes : Int) then
    let child := s.node.nodes s.c.toNat
    if child.isNull then some { s with c := s.c + 1 }
    else
      match sim_row_next (s.rows s.i.toNat) end_ with
      | none => none
      | some r0 =>
        match (if s.i < max_dist then sim_row_append r0 end_ 0 (s.i + 1) else some r0) with
        | none => none
        | some r1 =>
          match approx_row_loop key max_dist end_ s.c s.i ((s.chars (s.i - 1).toNat : Nat) : Int)
              (s.rows (s.i - 1).toNat) (s.rows s.i.toNat).entries r1 with
          | none => none
          | some r2 =>
            let rows1 := Function.update s.rows (s.i + 1).toNat r2
            match sim_row_elem r2 0 with
            | none => some { s with rows := rows1, c := s.c + 1 }
            | some _ =>
              let out1 :=
                if child.leaf then
                  match sim_row_last r2 with
                  | some l => if l.index = (key.length : Int) then s.out ++ [(child.str, l.value)]
                              else s.out
                  | none => s.out
                else s.out
              if s.i < toInt32 f.max_len then
                some { node := child, i := s.i + 1, c := 0 + 1,
                       chars := Function.update
                         (Function.update s.chars s.i.toNat ((s.c + 1).toNat % 256))
                         (s.i + 1).toNat 0,
                       nodes := Function.update s.nodes (s.i + 1).toNat s.node,
                       rows := rows1, out := out1 }
              else some { s with rows := rows1, out := out1, c := s.c + 1 }
  else
    some { s with node := s.nodes s.i.toNat, i := s.i - 1,
                  c := ((s.chars (s.i - 1).toNat : Nat) : Int) }

/-- The loop `while (node)`, at most `fuel` passes of `approx_step`; `none`
when the fuel is used up before the loop ends. -/
def approx_run (f : fsmtrie) (key : List Nat) (max_dist end_ : Int) :
    Nat → approx_state → Option approx_outcome
  | 0, _ => none
  | fuel + 1, s =>
    if s.node.isNull then some (approx_outcome.returned 1 s.out f)
    else
      match approx_step f key max_dist end_ s with
      | none => some (approx_outcome.aborted s.out)
      | some s1 => approx_run f key max_dist end_ fuel s1

/-- The function `fsmtrie_search_approx` with the query `key` and the bound
`max_dist`; the traversal is given `fuel` passes, `none` when they do not
suffice. -/
def fsmtrie_search_approx (f : fsmtrie) (key : List Nat) (max_dist : Int) (fuel : Nat) :
    Option approx_outcome :=
  if f.max_len = 0 then
    some (approx_outcome.returned (-1) []
      { f with err_buf := err_msg.requires_max_len "fsmtrie_search_approx" })
  else if f.mode = fsmtrie_mode_token then
    some (approx_outcome.returned (-1) []
      { f with err_buf := err_msg.incompatible "fsmtrie_search_approx" f.mode })
  else
    let mlen : Int :=
      toInt32 ((toUInt32 (toInt32 (toUInt32 (2 * max_dist + 1))) * ((f.max_len + 1) % 4294967296))
        % 4294967296)
    match approx_init_row max_dist mlen (toInt32 f.max_len) (max_dist + 1).toNat 0
        sim_row_first with
    | none => some (approx_outcome.aborted [])
    | some row0 =>
      approx_run f key max_dist mlen fuel
        { node := f.root, i := 0, c := 0, chars := fun _ => 0, nodes := fun _ => NULL,
          rows := fun _ => row0, out := [] }

/-- What can be observed of a run of `fsmtrie_search_approx`: `none` when the
fuel did not suffice; otherwise the return value (`none` when an assertion
failed and the process aborted) and the callback invocations in order. -/
def approx_view : Option approx_outcome → Option (Option Int × List (Option (List Nat) × Int))
  | none => none
  | some (approx_outcome.returned ret out _) => some (some ret, out)
  | some (approx_outcome.aborted out) => some (none, out)

/-- Row `i + 1` of the optimal string alignment table of `a` against `b`,
from row `i` (`rowi`) and row `i - 1` (`rowim1`): deletion, insertion,
substitution and the transposition of two adjacent symbols cost 1 each. -/
def osa_next (a b : List Nat) (i : Nat) (rowi rowim1 : Nat → Nat) : Nat → Nat
  | 0 => i + 1
  | j + 1 =>
    let cost := if a.getD i 0 = b.getD j 0 then 0 else 1
    let m := min (rowi j + cost) (min (osa_next a b i rowi rowim1 j + 1) (rowi (j + 1) + 1))
    if 1 ≤ i ∧ 1 ≤ j ∧ a.getD i 0 = b.getD (j - 1) 0 ∧ a.getD (i - 1) 0 = b.getD j 0 then
      min m (rowim1 (j - 1) + 1)
    else m

/-- Rows `i` and `i - 1` of the optimal string alignment table. -/
def osa_rows (a b : List Nat) : Nat → (Nat → Nat) × (Nat → Nat)
  | 0 => (fun j => j, fun _ => 0)
  | i + 1 => (osa_next a b i (osa_rows a b i).1 (osa_rows a b i).2, (osa_rows a b i).1)

/-- The optimal string alignment distance between the first `i` symbols of
`a` and the first `j` symbols of `b`. -/
def osa_table (a b : List Nat) (i j : Nat) : Nat := (osa_rows a b i).1 j

/-- The optimal string alignment distance between `a` and `b`: the least
number of insertions, deletions, substitutions and transpositions of adjacent
symbols that turn one into the other, no symbol being edited twice. -/
def osa_distance (a b : List Nat) : Nat := osa_table a b a.length b.length

/-- A fresh ASCII trie with `max_len` 1. -/
def trie_ml1 : fsmtrie :=
  { nrnodes := 128, root := (_fsmtrie_node_new fsmtrie_mode_ascii).1, node_cnt := 0,
    key_cnt := 0, max_len := 1, mode := fsmtrie_mode_ascii, pm_ok := false,
    ac_compiled := false, err_buf := err_msg.empty }

/-- A fresh ASCII trie with `max_len` 4294967295, the largest `uint32_t`. -/
def trie_mlmax : fsmtrie :=
  { nrnodes := 128, root := (_fsmtrie_node_new fsmtrie_mode_ascii).1, node_cnt := 0,
    key_cnt := 0, max_len := 4294967295, mode := fsmtrie_mode_ascii, pm_ok := false,
    ac_compiled := false, err_buf := err_msg.empty }

/-! ## Aho-Corasick compilation and substring search (`subsearch.c`) -/

/-- How a function with loops and assertions ends: with a result, with a
failed assertion (or a `NULL` dereference) that kills the process, or with the
fuel of one of its loops used up. -/
inductive outcome (α : Type) where
  | ok (a : α) : outcome α
  | aborted : outcome α
  | no_fuel : outcome α

/-- Sequencing of outcomes. -/
def outcome.bind {α β : Type} : outcome α → (α → outcome β) → outcome β
  | outcome.ok a, g => g a
  | outcome.aborted, _ => outcome.aborted
  | outcome.no_fuel, _ => outcome.no_fuel

/-- Write through the pointer `p`: the tree in which the node at the path `p`
is replaced by its image under `g`. -/
def update_at : fsmtrie_node → List Nat → (fsmtrie_node → fsmtrie_node) → fsmtrie_node
  | n, [], g => g n
  | n, c :: p, g => n.setNode c (update_at (n.nodes c) p g)

/-- The queue of the breadth first traversal (`struct _fsmtrie_nodeq`); a
queued node pointer is the path of the node, `none` is `NULL`. -/
structure _fsmtrie_nodeq where
  size : Int
  head : Int
  tail : Int
  queue : Nat → Option (List Nat)

/-- The function `_fsmtrie_nodeq_init` (`calloc` succeeds). -/
def _fsmtrie_nodeq_init (size : Int) : _fsmtrie_nodeq :=
  { size := size, head := 0, tail := 0, queue := fun _ => none }

/-- The function `_fsmtrie_nodeq_empty`. -/
def _fsmtrie_nodeq_empty (q : _fsmtrie_nodeq) : Bool := decide (q.head = q.tail)

/-- The function `_fsmtrie_nodeq_enqueue`; `none` is the `false` return of a
full queue. -/
def _fsmtrie_nodeq_enqueue (q : _fsmtrie_nodeq) (n : List Nat) : Option _fsmtrie_nodeq :=
  let next := (q.tail + 1) % q.size
  if next = q.head then none
  else some { q with queue := Function.update q.queue q.tail.toNat (some n), tail := next }

/-- The function `_fsmtrie_nodeq_dequeue`: the node returned (`none` is `NULL`)
and the queue after the call. -/
def _fsmtrie_nodeq_dequeue (q : _fsmtrie_nodeq) : Option (List Nat) × _fsmtrie_nodeq :=
  let next := (q.head + 1) % q.size
  if q.head = q.tail then (none, q)
  else (q.queue q.head.toNat, { q with head := next })

/-- The first loop of `_fsmtrie_ac_compile`, over the slots `cs` of the root:
every child gets the root as its suffix and is enqueued. -/
def ac_root_loop : List Nat → fsmtrie_node × _fsmtrie_nodeq → outcome (fsmtrie_node × _fsmtrie_nodeq)
  | [], s => outcome.ok s
  | c :: cs, (root, q) =>
    if (root.nodes c).isNull then ac_root_loop cs (root, q)
    else
      match _fsmtrie_nodeq_enqueue q [c] with
      | none => outcome.aborted
      | some q1 => ac_root_loop cs (update_at root [c] (fun n => n.setSuffix (some [])), q1)

/-- The loop `for (suffix = node->suffix; suffix; suffix = suffix->suffix)` of
`_fsmtrie_ac_compile` for the symbol `c`: the first node on the chain with a
child on `c` gives that child (`some (some t)`); `some none` when the chain
ends without one; `none` when the fuel is used up. -/
def ac_suffix_scan (root : fsmtrie_node) (c : Nat) :
    Nat → Option (List Nat) → Option (Option (List Nat))
  | 0, _ => none
  | _ + 1, none => some none
  | fuel + 1, some u =>
    if (lookup root (u ++ [c])).isNull then ac_suffix_scan root c fuel (lookup root u).suffix
    else some (some (u ++ [c]))

/-- The body of the loop over `c` in the `while` loop of
`_fsmtrie_ac_compile`, for the dequeued node `node` and an existing child on
`c`. -/
def ac_child (fuel : Nat) (node : List Nat) (c : Nat) (s : fsmtrie_node × _fsmtrie_nodeq) :
    outcome (fsmtrie_node × _fsmtrie_nodeq) :=
  match _fsmtrie_nodeq_enqueue s.2 (node ++ [c]) with
  | none => outcome.aborted
  | some q1 =>
    let root1 := update_at s.1 (node ++ [c]) (fun n => (n.setSuffix (some [])).setOutput n.leaf)
    match ac_suffix_scan root1 c fuel (lookup root1 node).suffix with
    | none => outcome.no_fuel
    | some none => outcome.ok (root1, q1)
    | some (some t) =>
      let root2 := update_at root1 (node ++ [c]) (fun n => n.setSuffix (some t))
      if (lookup root2 t).output then
        outcome.ok (update_at root2 (node ++ [c]) (fun n => n.setOutput true), q1)
      else outcome.ok (root2, q1)

/-- The loop over `c` in the `while` loop of `_fsmtrie_ac_compile`, over the
slots `cs` of the dequeued node. -/
def ac_node_loop (fuel : Nat) (node : List Nat) :
    List Nat → fsmtrie_node × _fsmtrie_nodeq → outcome (fsmtrie_node × _fsmtrie_nodeq)
  | [], s => outcome.ok s
  | c :: cs, s =>
    if (lookup s.1 (node ++ [c])).isNull then ac_node_loop fuel node cs s
    else (ac_child fuel node c s).bind (ac_node_loop fuel node cs)

/-- The `while` loop of `_fsmtrie_ac_compile`, at most `fuel` passes; the
inner scans of the suffix chains get `scan` passes each. -/
def ac_while (nrnodes scan : Nat) : Nat → fsmtrie_node × _fsmtrie_nodeq → outcome fsmtrie_node
  | 0, _ => outcome.no_fuel
  | fuel + 1, s =>
    if _fsmtrie_nodeq_empty s.2 then outcome.ok s.1
    else
      match (_fsmtrie_nodeq_dequeue s.2).1 with
      | none => outcome.aborted
      | some node =>
        (ac_node_loop scan node (List.range nrnodes) (s.1, (_fsmtrie_nodeq_dequeue s.2).2)).bind
          (ac_while nrnodes scan fuel)

/-- The function `_fsmtrie_ac_compile`; every loop gets `fuel` passes.  The
queue size `2 * f->node_cnt` is a `size_t` converted to the `int` parameter
of `_fsmtrie_nodeq_init`. -/
def _fsmtrie_ac_compile (f : fsmtrie) (fuel : Nat) : outcome fsmtrie :=
  ((ac_root_loop (List.range f.nrnodes)
      (update_at f.root [] (fun n => n.setSuffix none),
       _fsmtrie_nodeq_init (toInt32 (2 * f.node_cnt)))).bind
    (ac_while f.nrnodes fuel fuel)).bind
    (fun root => outcome.ok { f with root := root, ac_compiled := true })

/-- The loop `while (next == NULL)` of `fsmtrie_search_substring` together
with the read of `next` before it: from the node `node` (`none` is `NULL`,
for which `next = f->root`) the node reached on the byte `c`. -/
def ac_next (root : fsmtrie_node) (c : Nat) : Nat → Option (List Nat) → Option (List Nat)
  | 0, _ => none
  | _ + 1, none => some []
  | fuel + 1, some p =>
    if (lookup root (p ++ [c])).isNull then ac_next root c fuel (lookup root p).suffix
    else some (p ++ [c])

/-- The loop `for (n = node; n; n = n->suffix)` of `fsmtrie_search_substring`:
the callback is invoked for every leaf on the chain with `n->str` and
`int moff = amoff - strlen(n->str)`, a difference of unsigned values converted
to `int`; a leaf without a string makes `strlen` dereference `NULL`. -/
def ac_emit (root : fsmtrie_node) (amoff : Int) :
    Nat → Option (List Nat) → List (Option (List Nat) × Int) →
    outcome (List (Option (List Nat) × Int))
  | 0, _, _ => outcome.no_fuel
  | _ + 1, none, out => outcome.ok out
  | fuel + 1, some p, out =>
    if (lookup root p).leaf then
      match (lookup root p).str with
      | none => outcome.aborted
      | some s =>
        ac_emit root amoff fuel (lookup root p).suffix
          (out ++ [(some s, toInt32 (toUInt32 (amoff - (s.length : Int))))])
    else ac_emit root amoff fuel (lookup root p).suffix out

/-- The loop of `fsmtrie_search_substring` over the bytes of the subject that
are still to be read; `pos` is the offset of the next byte, `node` the current
node, `out` the callback invocations made so far; `amoff` is the `int`
`(int)(c - str) + 1`. -/
def ac_search_loop (root : fsmtrie_node) (fuel : Nat) :
    List Nat → Nat → List Nat → List (Option (List Nat) × Int) →
    outcome (List (Option (List Nat) × Int))
  | [], _, _, out => outcome.ok out
  | c :: rest, pos, node, out =>
    match ac_next root c fuel (some node) with
    | none => outcome.no_fuel
    | some node1 =>
      if (lookup root node1).output then
        (ac_emit root (toInt32 (pos + 1)) fuel (some node1) out).bind
          (ac_search_loop root fuel rest (pos + 1) node1)
      else ac_search_loop root fuel rest (pos + 1) node1 out

/-- What `fsmtrie_search_substring` hands back: the return value, the callback
invocations in order, and the trie after the call. -/
structure substring_result where
  ret : Int
  out : List (Option (List Nat) × Int)
  f : fsmtrie

/-- The function `fsmtrie_search_substring` on the subject `str`; every loop
gets `fuel` passes. -/
def fsmtrie_search_substring (f : fsmtrie) (str : List Nat) (fuel : Nat) :
    outcome substring_result :=
  if f.mode = fsmtrie_mode_token then
    outcome.ok ⟨-1, [], { f with err_buf := err_msg.incompatible "fsmtrie_search_substring" f.mode }⟩
  else if f.root.isNull then outcome.aborted
  else
    (if f.ac_compiled then outcome.ok f else _fsmtrie_ac_compile f fuel).bind (fun f1 =>
      (ac_search_loop f1.root fuel str 0 [] []).bind (fun out => outcome.ok ⟨1, out, f1⟩))

/-- The path `w` is a node of the trie below `R`. -/
def InT (R : fsmtrie_node) (w : List Nat) : Prop := (lookup R w).isNull = false

/-- The node `u` spells the longest proper suffix of `w` that is a path of the
trie. -/
def IsFail (R : fsmtrie_node) (w u : List Nat) : Prop :=
  u <:+ w ∧ u.length < w.length ∧ InT R u ∧
  ∀ v, v <:+ w → v.length < w.length → InT R v → v.length ≤ u.length

/-- Some inserted key is a non-empty suffix of `w`. -/
def OutSpec (R : fsmtrie_node) (w : List Nat) : Prop :=
  ∃ v, v <:+ w ∧ v ≠ [] ∧ (lookup R v).leaf = true

/-- The Aho-Corasick fields of the node `w` are final: its failure link is
the longest proper suffix and its output bit tells whether a key ends here. -/
def Done (R : fsmtrie_node) (w : List Nat) : Prop :=
  ∃ u, (lookup R w).suffix = some u ∧ IsFail R w u ∧
    ((lookup R w).output = true ↔ OutSpec R w)

/-- The trie below `R` carries valid Aho-Corasick metadata. -/
def Compiled (R : fsmtrie_node) : Prop :=
  (lookup R []).suffix = none ∧ ∀ w, InT R w → w ≠ [] → Done R w

/-- The function `g` writes header fields only: it keeps `NULL`, the children,
the leaf bit and the string. -/
def HeaderOnly (g : fsmtrie_node → fsmtrie_node) : Prop :=
  ∀ n, (g n).isNull = n.isNull ∧ (g n).leaf = n.leaf ∧ (g n).str = n.str ∧
    ∀ c, (g n).nodes c = n.nodes c

/-- What the substring search relies on between calls, for a byte trie that
stores the accepted calls `A`: the keys are not empty and are their own
payload, the root and the depth one nodes carry `OUTPUT` exactly when they
are leaves (the compilation never recomputes them), `node_cnt` bounds the
number of nodes below the root, and the `AC_COMPILED` flag is only set on a
trie whose Aho-Corasick metadata is valid. -/
structure ACInv (f : fsmtrie) (A : List (List Nat × Option (List Nat))) : Prop where
  holds : Holds f A
  nonempty : ∀ c ∈ A, c.1 ≠ []
  payload : ∀ c ∈ A, c.2 = some c.1
  rootout : f.root.output = false
  out1 : ∀ c, (f.root.nodes c).output = (f.root.nodes c).leaf
  cnt : ∀ L : List (List Nat), L.Nodup → (∀ w ∈ L, InT f.root w ∧ w ≠ []) →
    L.length ≤ f.node_cnt
  comp : f.ac_compiled = true → Compiled f.root

/-- The tries `R0` and `R` have the same nodes, leaf bits and strings: `R` is
`R0` up to the Aho-Corasick fields. -/
def Skel (R0 R : fsmtrie_node) : Prop :=
  ∀ w, (lookup R w).isNull = (lookup R0 w).isNull ∧ (lookup R w).leaf = (lookup R0 w).leaf ∧
    (lookup R w).str = (lookup R0 w).str

/-- The Aho-Corasick fields of the node `w` of `R` are final with respect to
the paths and leaves of `R0`. -/
def DoneS (R0 R : fsmtrie_node) (w : List Nat) : Prop :=
  ∃ u, (lookup R w).suffix = some u ∧ IsFail R0 w u ∧
    ((lookup R w).output = true ↔ OutSpec R0 w)

/-- The queue `q` of capacity `2 * N` has handed out the nodes `V` and holds
the nodes `Q`, oldest first, without having wrapped around. -/
structure QRep (q : _fsmtrie_nodeq) (N : Nat) (V Q : List (List Nat)) : Prop where
  size : q.size = 2 * (N : Int)
  head : q.head = (V.length : Int)
  tail : q.tail = ((V.length + Q.length : Nat) : Int)
  elems : ∀ i x, Q.get? i = some x → q.queue (V.length + i) = some x

/-- The invariant of the breadth first traversal of `_fsmtrie_ac_compile`:
`V` are the nodes already dequeued, `Q` the queued ones, `u` the node whose
children are being visited (the root in the first loop) and `m` the next slot
of `u` to look at. -/
structure BInv (R0 R : fsmtrie_node) (V Q : List (List Nat)) (u : List Nat) (m : Nat) :
    Prop where
  skel : Skel R0 R
  out1 : ∀ w : List Nat, w.length ≤ 1 → (lookup R w).output = (lookup R0 w).output
  rootsuf : (lookup R []).suffix = none
  mem : ∀ w ∈ V ++ Q, InT R0 w ∧ w ≠ [] ∧ DoneS R0 R w
  nodup : (V ++ Q).Nodup
  lens : ∀ x ∈ Q, u.length ≤ x.length ∧ x.length ≤ u.length + 1
  lensV : ∀ x ∈ V, x.length ≤ u.length
  sorted : Q.Pairwise (fun a b => a.length ≤ b.length)
  par : ∀ x ∈ V ++ Q, ∃ a c, x = a ++ [c] ∧ (a = [] ∨ a ∈ V) ∧ (a = u → c < m)
  uV : u = [] ∨ u ∈ V
  cover : ∀ w, InT R0 w → w ≠ [] →
    w ∈ V ++ Q ∨ (∃ a ∈ Q, a <+: w ∧ a ≠ w) ∨ (∃ c, m ≤ c ∧ (u ++ [c]) <+: w)

/-- The node `node` spells the longest suffix of the text read so far, `pre`,
that is a path of the trie: the state of the substring search. -/
def IsState (R : fsmtrie_node) (pre node : List Nat) : Prop :=
  node <:+ pre ∧ InT R node ∧ ∀ v, v <:+ pre → InT R v → v.length ≤ node.length

/-- The callback invocations `out` are, each once, the keys of the trie that
end in the subject `T` at one of the first `pos` positions, every key with the
offset of its first byte. -/
def Emitted (R : fsmtrie_node) (T : List Nat) (pos : Nat)
    (out : List (Option (List Nat) × Int)) : Prop :=
  out.Nodup ∧ ∀ e, e ∈ out ↔ ∃ (k : List Nat) (j : Nat), e = (some k, (j : Int) - (k.length : Int)) ∧ j ≤ pos ∧
    k <:+ T.take j ∧ (lookup R k).leaf = true

/-- One call of an interleaving of inserts and substring searches:
`fsmtrie_insert(f, key, key)` or `fsmtrie_search_substring(f, subject, ..)`. -/
inductive ac_op where
  | insert (key : List Nat) : ac_op
  | search (subject : List Nat) : ac_op

/-- Runs an interleaving of inserts and substring searches; every loop of a
search gets `fuel` passes. -/
def run_ac_ops (fuel : Nat) : fsmtrie → List ac_op → outcome fsmtrie
  | f, [] => outcome.ok f
  | f, ac_op.insert k :: rest => run_ac_ops fuel (fsmtrie_insert f (some k) (some k)).2 rest
  | f, ac_op.search t :: rest =>
    (fsmtrie_search_substring f t fuel).bind (fun r => run_ac_ops fuel r.f rest)

/-- The keys whose `fsmtrie_insert` call returned true in an interleaving, in
call order. -/
def inserted_keys (fuel : Nat) : fsmtrie → List ac_op → List (List Nat)
  | _, [] => []
  | f, ac_op.insert k :: rest =>
    (if (fsmtrie_insert f (some k) (some k)).1 then [k] else []) ++
      inserted_keys fuel (fsmtrie_insert f (some k) (some k)).2 rest
  | f, ac_op.search t :: rest =>
    match fsmtrie_search_substring f t fuel with
    | outcome.ok r => inserted_keys fuel r.f rest
    | _ => []

/-- The well formed calls of an interleaving: an inserted key is a non-empty
C string, a subject is a C string over the alphabet of the trie whose offsets
fit the `int` parameter of the callback. -/
def op_ok (nrnodes : Nat) : ac_op → Prop
  | ac_op.insert k => IsCStr k ∧ k ≠ []
  | ac_op.search t => IsCStr t ∧ (∀ b ∈ t, b < nrnodes) ∧ t.length < 2147483648

instance (nrnodes : Nat) (op : ac_op) : Decidable (op_ok nrnodes op) := by
  cases op <;> (unfold op_ok; infer_instance)

/-- The total length of the keys of an interleaving: a bound for the number
of nodes it creates. -/
def keys_length : List ac_op → Nat
  | [] => 0
  | ac_op.insert k :: rest => k.length + keys_length rest
  | ac_op.search _ :: rest => keys_length rest

/-- An interleaving on the trie of scenario S1: insert "he" and "she", search
"ushers", then insert "hers", "he" again and "his". -/
def ops_ushers : List ac_op :=
  [ac_op.insert [104, 101], ac_op.insert [115, 104, 101],
   ac_op.search [117, 115, 104, 101, 114, 115], ac_op.insert [104, 101, 114, 115],
   ac_op.insert [104, 101], ac_op.insert [104, 105, 115]]

/-- What the caller of `fsmtrie_search_substring` sees: the return value and
the callback invocations, `none` for a call that does not return. -/
def substring_view : outcome substring_result → Option (Int × List (Option (List Nat) × Int))
  | outcome.ok r => some (r.ret, r.out)
  | _ => none

/-- The substring part of the test `test_trie_insert_and_asearch_subsearch`
on the keys sigh, farsightsecurity and love: the subject love, then the
subject farsightsecurity on the trie the first search has compiled. -/
def ops_S4 : List ac_op :=
  [ac_op.insert [115, 105, 103, 104],
   ac_op.insert [102, 97, 114, 115, 105, 103, 104, 116, 115, 101, 99, 117, 114, 105, 116, 121],
   ac_op.insert [108, 111, 118, 101], ac_op.search [108, 111, 118, 101]]

/-- What the caller sees of a substring search of the subject `T` made after
the interleaving `ops`. -/
def search_after (fuel : Nat) (f : fsmtrie) (ops : List ac_op) (T : List Nat) :
    Option (Int × List (Option (List Nat) × Int)) :=
  match run_ac_ops fuel f ops with
  | outcome.ok f1 => substring_view (fsmtrie_search_substring f1 T fuel)
  | _ => none

/-- The optimal string alignment distance between the path `w` of the trie
and the first `j` symbols of the query `q`: the cell of the table that the
traversal keeps for the node `w` in column `j`. -/
def pdist (q w : List Nat) (j : Nat) : Nat := osa_table w q w.length j

/-- The entries `es` are the row of the node `w` for the query `q` and the
bound `d`: in increasing order of their column, the cells of the row of `w`
that do not exceed `d`, among them every such cell of a column up to the
length of the query. -/
def RowOK (q : List Nat) (d : Nat) (w : List Nat) (es : List sim_entry) : Prop :=
  es.Pairwise (fun x y => x.index < y.index) ∧
  (∀ e ∈ es, ∃ j : Nat, e.index = (j : Int) ∧ e.value = (pdist q w j : Int) ∧
    pdist q w j ≤ d) ∧
  (∀ j, j ≤ q.length → pdist q w j ≤ d →
    (⟨(j : Int), (pdist q w j : Int)⟩ : sim_entry) ∈ es)

/-- The update of the running minimum `cur` by a neighbouring cell: the
neighbour `o`, when it is present and sits in column `k`, offers its value
plus one. -/
def neighbour_min (o : Option sim_entry) (k cur : Int) : Int :=
  match o with
  | some l => if l.index = k ∧ l.value + 1 < cur then l.value + 1 else cur
  | none => cur

/-- The invariant of the loop over `j` that builds the row of the child
`w ++ [c]` from the row of `w`: `rest` are the entries of the row of `w` still
to be visited, all in columns from `J` on, and `next` holds the cells of the
new row in the columns up to `J`. -/
structure RowLoop (q : List Nat) (d : Nat) (w : List Nat) (c : Nat) (rest : List sim_entry)
    (next : sim_row) (J : Nat) : Prop where
  rsorted : rest.Pairwise (fun x y => x.index < y.index)
  rval : ∀ e ∈ rest, ∃ j : Nat, e.index = (j : Int) ∧ e.value = (pdist q w j : Int) ∧
    pdist q w j ≤ d ∧ J ≤ j
  rall : ∀ j, J ≤ j → j ≤ q.length → pdist q w j ≤ d →
    (⟨(j : Int), (pdist q w j : Int)⟩ : sim_entry) ∈ rest
  nsorted : next.entries.Pairwise (fun x y => x.index < y.index)
  nval : ∀ e ∈ next.entries, ∃ j : Nat, e.index = (j : Int) ∧
    e.value = (pdist q (w ++ [c]) j : Int) ∧ pdist q (w ++ [c]) j ≤ d ∧ j ≤ J ∧ j ≤ q.length
  nall : ∀ j, j ≤ J → j ≤ q.length → pdist q (w ++ [c]) j ≤ d →
    (⟨(j : Int), (pdist q (w ++ [c]) j : Int)⟩ : sim_entry) ∈ next.entries

/-- What the traversal of `fsmtrie_search_approx` relies on: sizes that fit
the `int` variables, symbols whose successor fits an `unsigned char`, keys no
longer than `max_len`, no child on the NUL byte, and an arena of
`(2 * d + 1) * (max_len + 1)` entries. -/
structure ApproxEnv (f : fsmtrie) (d : Nat) (end_ : Int) : Prop where
  ml : f.max_len < 2147483648
  nr : f.nrnodes ≤ 255
  depth : ∀ w, InT f.root w → w.length ≤ f.max_len
  alpha : ∀ w c, InT f.root (w ++ [c]) → 1 ≤ c ∧ c < f.nrnodes
  arena : (2 * (d : Int) + 1) * ((f.max_len : Int) + 1) ≤ end_

/-- The state `s` of the traversal is at the node `w`: the stacks hold the
path to `w`, and the rows of the prefixes of `w` are in the arena. -/
structure Ctx (f : fsmtrie) (q : List Nat) (d : Nat) (w : List Nat) (s : approx_state) :
    Prop where
  node : s.node = lookup f.root w
  inT : InT f.root w
  depth : s.i = (w.length : Int)
  rows_ok : ∀ t, t ≤ w.length → RowOK q d (w.take t) (s.rows t).entries
  room : (s.rows w.length).start + ((s.rows w.length).entries.length : Int) ≤
    (2 * (d : Int) + 1) * ((w.length : Int) + 1)
  chars_ok : ∀ t, t < w.length → s.chars t = w.getD t 0 + 1
  nodes_ok : ∀ t, t < w.length → s.nodes (t + 1) = lookup f.root (w.take t)

/-- The state in which the traversal goes down from the node `w` of the state
`s` to its child on `c`, whose row is `r2`. -/
def descend (f : fsmtrie) (q : List Nat) (d : Nat) (w : List Nat) (c : Nat) (r2 : sim_row)
    (s : approx_state) : approx_state :=
  { node := lookup f.root (w ++ [c]), i := (w.length : Int) + 1, c := 1,
    chars := Function.update (Function.update s.chars w.length (c + 1)) (w.length + 1) 0,
    nodes := Function.update s.nodes (w.length + 1) s.node,
    rows := Function.update s.rows (w.length + 1) r2,
    out := s.out ++
      (if (lookup f.root (w ++ [c])).leaf = true ∧ pdist q (w ++ [c]) q.length ≤ d then
        [((lookup f.root (w ++ [c])).str, (pdist q (w ++ [c]) q.length : Int))] else []) }

/-- The callback invocations `E` report, each once, in lexicographic order and
with its distance from the query, the keys within the bound `d` that lie below
the node `w` through a child on a symbol from `c0` on. -/
def Emits (f : fsmtrie) (q : List Nat) (d : Nat) (w : List Nat) (c0 : Nat)
    (E : List (Option (List Nat) × Int)) : Prop :=
  ∃ L : List (List Nat),
    E = L.map (fun k => ((lookup f.root k).str, (pdist q k q.length : Int))) ∧ L.Nodup ∧
    L.Pairwise (List.Lex (fun a b : Nat => a < b)) ∧
    ∀ k, k ∈ L ↔ (∃ c x, c0 ≤ c ∧ k = w ++ c :: x) ∧ (lookup f.root k).leaf = true ∧
      pdist q k q.length ≤ d

/-- The state `s1` is what the traversal leaves when it is done with the
children of the node `w` from the symbol `c0` on, starting in the state `s`:
it is back at the parent of `w`, the stacks up to `w` are as before, and the
keys below those children have been reported. -/
structure SubDone (f : fsmtrie) (q : List Nat) (d : Nat) (w : List Nat) (c0 : Nat)
    (s s1 : approx_state) : Prop where
  node : s1.node = s.nodes w.length
  depth : s1.i = (w.length : Int) - 1
  c : 1 ≤ w.length → s1.c = ((s.chars (w.length - 1) : Nat) : Int)
  rows : ∀ t, t ≤ w.length → s1.rows t = s.rows t
  chars : ∀ t, t < w.length → s1.chars t = s.chars t
  nodes : ∀ t, t ≤ w.length → s1.nodes t = s.nodes t
  out : ∃ E, s1.out = s.out ++ E ∧ Emits f q d w c0 E

/-- The cells `(t, t)` for `t` from `j`, `n` of them: what the loop that fills
row 0 appends. -/
def init_entries (j n : Nat) : List sim_entry :=
  (List.range' j n).map (fun t : Nat => (⟨(t : Int), (t : Int)⟩ : sim_entry))

/-- The string obtained from `k` by swapping `k[p]` and `k[p + 1]`. -/
def swap_adjacent (k : List Nat) (p : Nat) : List Nat :=
  (k.set p (k.getD (p + 1) 0)).set (p + 1) (k.getD p 0)

/-- The position in the subject at which the match of a callback invocation
of the substring search ends: the offset plus the length of the string. -/
def match_end (e : Option (List Nat) × Int) : Int := e.2 + ((e.1.getD []).length : Int)

/-- The length of the string of a callback invocation. -/
def match_len (e : Option (List Nat) × Int) : Nat := (e.1.getD []).length

/-- The order of the callback invocations of the substring search: `x` comes
before `y` when its match ends earlier, or ends at the same position and is
longer. -/
def emit_before (x y : Option (List Nat) × Int) : Prop :=
  match_end x < match_end y ∨ (match_end x = match_end y ∧ match_len y < match_len x)

/-- The function `fsmtrie_get_keycnt`: the `size_t` key count returned as a
`uint32_t`. -/
def fsmtrie_get_keycnt (f : fsmtrie) : Nat := f.key_cnt % 4294967296

/-- The function `fsmtrie_get_nodecnt`: the `size_t` node count returned as a
`uint32_t`. -/
def fsmtrie_get_nodecnt (f : fsmtrie) : Nat := f.node_cnt % 4294967296

/-- What every reachable token trie satisfies, whether or not a child count
has wrapped: the children counted by `nrnodes` / `nnodes` are present and
strictly increasing by token, and no path is longer than a positive
`max_len`. -/
structure TokInv (f : fsmtrie) : Prop where
  mode : f.mode = fsmtrie_mode_token
  wf : TokWF 65535 f.root f.nrnodes
  depth : ∀ w, (tlookup f.root f.nrnodes w).isNull = false →
    f.max_len = 0 ∨ w.length ≤ f.max_len

/-- A fresh EASCII trie with `max_len` 64. -/
def trie_eascii : fsmtrie :=
  { nrnodes := 256, root := (_fsmtrie_node_new fsmtrie_mode_eascii).1, node_cnt := 0,
    key_cnt := 0, max_len := 64, mode := fsmtrie_mode_eascii, pm_ok := false,
    ac_compiled := false, err_buf := err_msg.empty }

/-- The EASCII trie with `max_len` 64 that holds the one byte key 0xFF, stored
with itself as its string. -/
def trie_ff : fsmtrie := run_inserts trie_eascii [([255], some [255])]

/-- Row 0 of the approximate search with bound 1: the cells (0, 0), (1, 1). -/
def row0_d1 : sim_row := { start := 0, entries := [⟨0, 0⟩, ⟨1, 1⟩] }

/-- The states of the traversal of `trie_ff` for the query "a" and the bound
1: at the root with `c` below 256, or at the node of the key; in both
`chars[0]` is 0, which is where `chars[i++] = c + 1` has left it for
`c = 255`. -/
def loop_ff (s : approx_state) : Prop :=
  s.rows 0 = row0_d1 ∧ s.chars 0 = 0 ∧ 0 ≤ s.c ∧
  ((s.node = trie_ff.root ∧ s.i = 0 ∧ s.c ≤ 255) ∨
   (s.node = lookup trie_ff.root [255] ∧ s.i = 1 ∧ s.nodes 1 = trie_ff.root))

/-- A fresh EASCII trie with `max_len` 3. -/
def trie_eascii3 : fsmtrie :=
  { nrnodes := 256, root := (_fsmtrie_node_new fsmtrie_mode_eascii).1, node_cnt := 0,
    key_cnt := 0, max_len := 3, mode := fsmtrie_mode_eascii, pm_ok := false,
    ac_compiled := false, err_buf := err_msg.empty }

/-- The node of a token trie reached from `n` (with `cnt` children) along the
child indices `p`, together with its child count; `none` when an index is not
below the child count of the node it is applied to. -/
def tnode_at : fsmtrie_node → Nat → List Nat → Option (fsmtrie_node × Nat)
  | n, cnt, [] => some (n, cnt)
  | n, cnt, i :: p => if i < cnt then tnode_at (n.nodes i) (n.nodes i).nnodes p else none

/-- A substring search of the subject `T` followed by the insert of `key` with
the string `str`: the `AC_COMPILED` flag after the search, the return value of
the insert and the `AC_COMPILED` flag after the insert; `none` for a search
that does not return. -/
def insert_after_search (f : fsmtrie) (T : List Nat) (fuel : Nat) (key str : Option (List Nat)) :
    Option (Bool × Bool × Bool) :=
  match fsmtrie_search_substring f T fuel with
  | outcome.ok r =>
    some (r.f.ac_compiled, (fsmtrie_insert r.f key str).1,
      (fsmtrie_insert r.f key str).2.ac_compiled)
  | _ => none

/-- The indices `sidx` at which the `while (sidx != -1)` loop of
`_fsmtrie_get_token_idx` reads `(*nodep)->nodes[sidx]`, in order; the loop is
that of `token_idx_loop`. -/
def token_idx_loop_reads (node : fsmtrie_node) (token : Nat) :
    Nat → Int → Int → Int → List Int
  | 0, _, _, _ => []
  | fuel + 1, slow, shigh, sidx =>
    if sidx = -1 then []
    else
      let sidx := ((shigh - slow) + 1) / 2 + slow
      let sval := (node.nodes sidx.toNat).tval
      sidx ::
        (if sval = token then []
         else if slow = shigh then []
         else
           let slow1 := if sval < token then sidx + 1 else slow
           let shigh1 := if sval < token then shigh else if sval > token then sidx - 1 else shigh
           if slow1 > shigh1 ∨ shigh1 < slow1 then []
           else token_idx_loop_reads node token fuel slow1 shigh1 sidx)

/-- The value of `sizeof(struct fsmtrie_node)` in bytes on an LP64 platform:
`suffix` at offset 0, `type` at 8, `mode` at 12, `flags` at 16, `str` at 24,
`tval` at 32, `nnodes` at 36, and the flexible array `nodes[]` at 40. -/
def sizeof_fsmtrie_node : Nat := 40

/-- The value of `sizeof(struct fsmtrie_node *)`, the size of a slot of
`nodes[]`, in bytes on an LP64 platform. -/
def sizeof_node_ptr : Nat := 8

/-- The number of slots of `nodes[]` in the block that `_fsmtrie_get_token_idx`
asks `realloc` for: `alloc_size = sizeof(*nodep) + sizeof(**nodep) *
(nodecnt + 1)` bytes, of which `sizeof(**nodep)` are the header of the
node. -/
def token_block_slots (nodecnt : Nat) : Nat :=
  (sizeof_node_ptr + sizeof_fsmtrie_node * (nodecnt + 1) - sizeof_fsmtrie_node) / sizeof_node_ptr

/-- The indices of `(*nodep)->nodes[]` that `_fsmtrie_get_token_idx` reads, in
order: the reads of the loop, the read `(*nodep)->nodes[sidx]->tval` after a
loop that ended without a match at `sidx >= 0`, and with `do_insert` the
slots that `memmove` copies from `&nodes[sidx]` on.  The length of that copy
is `sizeof(**nodep) * (nodecnt - sidx)` bytes, the size of a node and not of
a slot for each child to move, which makes
`sizeof_fsmtrie_node * (nodecnt - sidx) / sizeof_node_ptr` slots. -/
def token_idx_reads (node : fsmtrie_node) (nodecnt token : Nat) (do_insert : Bool) : List Int :=
  token_idx_loop_reads node token (nodecnt + 1) 0 ((nodecnt : Int) - 1)
      (if nodecnt = 0 then -1 else 0) ++
    match token_idx_loop node token (nodecnt + 1) 0 ((nodecnt : Int) - 1)
        (if nodecnt = 0 then -1 else 0) with
    | some (false, sidx) =>
      let sidx1 : Int :=
        if sidx < 0 then 0
        else if token > (node.nodes sidx.toNat).tval then sidx + 1 else sidx
      (if sidx < 0 then [] else [sidx]) ++
        (if do_insert then
          (List.range' sidx1.toNat
            (sizeof_fsmtrie_node * (nodecnt - sidx1.toNat) / sizeof_node_ptr)).map
              (fun i : Nat => (i : Int))
         else [])
    | _ => []

/-- The state of the traversal after `n` passes of the loop `while (node)`
from the state `s`; `none` when the loop has ended (or an assertion has
failed) before. -/
def approx_passes (f : fsmtrie) (key : List Nat) (max_dist end_ : Int) :
    Nat → approx_state → Option approx_state
  | 0, s => some s
  | n + 1, s =>
    if s.node.isNull then none
    else
      match approx_step f key max_dist end_ s with
      | none => none
      | some s1 => approx_passes f key max_dist end_ n s1

/-- The local variables of `fsmtrie_search_approx` after `n` passes of its
loop `while (node)`, the callback invocations made so far among them; `none`
when the call has ended before: in the error cases, with a failed assertion,
or because the loop is over. -/
def approx_trace (f : fsmtrie) (key : List Nat) (max_dist : Int) (n : Nat) :
    Option approx_state :=
  if f.max_len = 0 then none
  else if f.mode = fsmtrie_mode_token then none
  else
    let mlen : Int :=
      toInt32 ((toUInt32 (toInt32 (toUInt32 (2 * max_dist + 1))) * ((f.max_len + 1) % 4294967296))
        % 4294967296)
    match approx_init_row max_dist mlen (toInt32 f.max_len) (max_dist + 1).toNat 0
        sim_row_first with
    | none => none
    | some row0 =>
      approx_passes f key max_dist mlen n
        { node := f.root, i := 0, c := 0, chars := fun _ => 0, nodes := fun _ => NULL,
          rows := fun _ => row0, out := [] }

/-- The state `s` of the traversal of `trie_ff` for the query "a" and the
bound 1 after `m` passes: a state of the loop in which 512 passes go with
every callback invocation, 256 at the root and 256 at the node of the key. -/
def loop_ff_at (m : Nat) (s : approx_state) : Prop :=
  loop_ff s ∧ s.c ≤ 256 ∧ (s.i = 1 → 1 ≤ s.c) ∧
  (m : Int) = if s.i = 0 then 512 * (s.out.length : Int) + s.c
              else 512 * (s.out.length : Int) - 257 + s.c

/-- The insert calls of scenario S3 (the test
`test_trie_insert_and_asearch_subsearch`): foo, bar, brad, brady, foobarbaz,
farsightsecurity, sigh, fsi, fsizn, love, hate, dogs and a run of 60 x, each
with the key as its string. -/
def calls_S3 : List (List Nat × Option (List Nat)) :=
  [[102, 111, 111], [98, 97, 114], [98, 114, 97, 100], [98, 114, 97, 100, 121],
   [102, 111, 111, 98, 97, 114, 98, 97, 122],
   [102, 97, 114, 115, 105, 103, 104, 116, 115, 101, 99, 117, 114, 105, 116, 121],
   [115, 105, 103, 104], [102, 115, 105], [102, 115, 105, 122, 110], [108, 111, 118, 101],
   [104, 97, 116, 101], [100, 111, 103, 115], List.replicate 60 120].map
    (fun k => (k, some k))

/-- The non-empty prefixes of the strings `ks`, with repetitions. -/
def nonempty_prefixes (ks : List (List Nat)) : List (List Nat) :=
  (ks.map (fun k => k.inits.tail)).flatten

/-- The tries below `R` and `R1` differ at most in the Aho-Corasick fields of
their nodes (the failure link and the `OUTPUT` bit): along every path they
have the same nodes, leaf bits, strings, token values and child counts. -/
def SameButAC (R R1 : fsmtrie_node) : Prop :=
  ∀ w, (lookup R1 w).isNull = (lookup R w).isNull ∧ (lookup R1 w).leaf = (lookup R w).leaf ∧
    (lookup R1 w).str = (lookup R w).str ∧ (lookup R1 w).tval = (lookup R w).tval ∧
    (lookup R1 w).nnodes = (lookup R w).nnodes

/-- The function `g` writes Aho-Corasick fields only. -/
def ACOnly (g : fsmtrie_node → fsmtrie_node) : Prop :=
  HeaderOnly g ∧ ∀ n, (g n).tval = n.tval ∧ (g n).nnodes = n.nnodes

/-- The states `s` and `s1` of the approximate search are at the same place
of two tries that differ at most in their Aho-Corasick fields. -/
def SameState (s s1 : approx_state) : Prop :=
  SameButAC s.node s1.node ∧ s1.i = s.i ∧ s1.c = s.c ∧ s1.chars = s.chars ∧
  (∀ t, SameButAC (s.nodes t) (s1.nodes t)) ∧ s1.rows = s.rows ∧ s1.out = s.out

/-- The result of an outcome, `d` when there is none. -/
def outcome.getD {α : Type} (o : outcome α) (d : α) : α :=
  match o with
  | outcome.ok a => a
  | _ => d

/-- Whether an outcome is a result. -/
def outcome.isOk {α : Type} (o : outcome α) : Bool :=
  match o with
  | outcome.ok _ => true
  | _ => false

/-- The trie of scenario S1 with the one key "he", stored with itself as its
string. -/
def trie_he : fsmtrie := (fsmtrie_insert trie_S1 (some [104, 101]) (some [104, 101])).2

/-- What the substring search of "he" on `trie_he` hands back. -/
def res_he : substring_result :=
  (fsmtrie_search_substring trie_he [104, 101] 40).getD ⟨0, [], trie_he⟩

/-- One call of an interleaving of inserts and compilations:
`fsmtrie_insert(f, key, str)` or `_fsmtrie_ac_compile(f)`. -/
inductive cop where
  | insert (key : List Nat) (str : Option (List Nat)) : cop
  | compile : cop

/-- Runs an interleaving of inserts and compilations; every loop of a
compilation gets `fuel` passes. -/
def run_cops (fuel : Nat) : fsmtrie → List cop → outcome fsmtrie
  | f, [] => outcome.ok f
  | f, cop.insert k s :: rest => run_cops fuel (fsmtrie_insert f (some k) s).2 rest
  | f, cop.compile :: rest =>
    (_fsmtrie_ac_compile f fuel).bind (fun f1 => run_cops fuel f1 rest)

/-- The insert calls of an interleaving that returned true, in call order. -/
def accepted_cops (fuel : Nat) : fsmtrie → List cop → List (List Nat × Option (List Nat))
  | _, [] => []
  | f, cop.insert k s :: rest =>
    (if (fsmtrie_insert f (some k) s).1 then [(k, s)] else []) ++
      accepted_cops fuel (fsmtrie_insert f (some k) s).2 rest
  | f, cop.compile :: rest =>
    match _fsmtrie_ac_compile f fuel with
    | outcome.ok f1 => accepted_cops fuel f1 rest
    | _ => []

/-- The well formed calls of an interleaving of inserts and compilations: an
inserted key is a non-empty C string. -/
def cop_ok : cop → Prop
  | cop.insert k _ => IsCStr k ∧ k ≠ []
  | cop.compile => True

instance (op : cop) : Decidable (cop_ok op) := by
  cases op <;> (unfold cop_ok; infer_instance)

/-- The total length of the keys of an interleaving of inserts and
compilations: a bound for the number of nodes it creates. -/
def cops_length : List cop → Nat
  | [] => 0
  | cop.insert k _ :: rest => k.length + cops_length rest
  | cop.compile :: rest => cops_length rest

/-- The nodes on the chain of failure links that starts at the node `p`
(`none` is `NULL`), `p` first: at most `fuel` of them. -/
def suffix_chain (R : fsmtrie_node) : Nat → Option (List Nat) → List (List Nat)
  | 0, _ => []
  | _ + 1, none => []
  | fuel + 1, some p => p :: suffix_chain R fuel (lookup R p).suffix

/-- What the compilation relies on between calls, for a byte trie that stores
the accepted calls `A`: the keys are not empty, the depth one nodes carry
`OUTPUT` exactly when they are leaves (the compilation never recomputes
them), and `node_cnt` bounds the number of nodes below the root. -/
structure CInv (f : fsmtrie) (A : List (List Nat × Option (List Nat))) : Prop where
  holds : Holds f A
  nonempty : ∀ c ∈ A, c.1 ≠ []
  out1 : ∀ c, (f.root.nodes c).output = (f.root.nodes c).leaf
  cnt : ∀ L : List (List Nat), L.Nodup → (∀ w ∈ L, InT f.root w ∧ w ≠ []) →
    L.length ≤ f.node_cnt

/-- An interleaving on the trie of scenario S1: insert "he" and "she",
compile, insert "hers" and "his", compile. -/
def cops_ushers : List cop :=
  [cop.insert [104, 101] (some [104, 101]), cop.insert [115, 104, 101] none, cop.compile,
   cop.insert [104, 101, 114, 115] (some [120]), cop.insert [104, 105, 115] (some [104]),
   cop.compile]

/-- The stacks of the state `s` of the traversal hold the path `w`: the
current node is the node of `w`, `chars[t]` is the symbol `w[t]` plus one and
`nodes[t + 1]` the node of the first `t` symbols of `w`, for every `t` below
the depth `i`, which is the length of `w`. -/
structure AtPath (f : fsmtrie) (w : List Nat) (s : approx_state) : Prop where
  node : s.node = lookup f.root w
  depth : s.i = (w.length : Int)
  c_nonneg : 0 ≤ s.c
  chars_ok : ∀ t, t < w.length → s.chars t = w.getD t 0 + 1
  nodes_ok : ∀ t, t < w.length → s.nodes (t + 1) = lookup f.root (w.take t)
  nodes_zero : s.nodes 0 = NULL

/-- The callback invocations `out` are those of the leaves at the paths `L`,
in this order, and the paths are strictly increasing in lexicographic
order. -/
def Increasing (f : fsmtrie) (out : List (Option (List Nat) × Int)) (L : List (List Nat)) :
    Prop :=
  out.map Prod.fst = L.map (fun k => (lookup f.root k).str) ∧
  L.Pairwise (List.Lex (fun a b : Nat => a < b)) ∧
  ∀ k ∈ L, (lookup f.root k).leaf = true

/-- The invariant of the loop `while (node)` of `fsmtrie_search_approx` that
does not depend on the rows: the leaves reported so far are in increasing
order, and either the loop is over or the stacks hold a path `w` and every
reported leaf comes before the child of `w` on the symbol `c`. -/
def TravInv (f : fsmtrie) (s : approx_state) : Prop :=
  ∃ L, Increasing f s.out L ∧
    (s.node.isNull = true ∨
      ∃ w, AtPath f w s ∧ ∀ k ∈ L, List.Lex (fun a b : Nat => a < b) k (w ++ [s.c.toNat]))

/-- The callback invocations `out` report the keys `L` of the accepted calls
`A`, in this order, each with the string stored for it. -/
def ReportsKeys (A : List (List Nat × Option (List Nat)))
    (out : List (Option (List Nat) × Int)) (L : List (List Nat)) : Prop :=
  out.map Prod.fst = L.map (fun k => (A.lookup k).getD none) ∧ ∀ k ∈ L, ∃ c ∈ A, c.1 = k

/-- The test that guards the transposition case in the descent step of
`fsmtrie_search_approx` from depth `i` along the symbol `c`, for the entry in
column `index`; `prev` is the value of `chars[i - 1]`. -/
def transp_test (key : List Nat) (c i prev index : Int) : Bool :=
  decide (i > 0 ∧ index > 0 ∧ key_at key index = prev - 1 ∧ key_at key (index - 1) = c)

/-- The state of the search for "ba" with the bound 1, on the ASCII trie of
the test with the key "ab", after 195 passes of the loop `while (node)`: at
the node of "a", about to go down along the symbol 98. -/
def state_ba : approx_state :=
  (approx_trace (run_inserts trie_S1 [([97, 98], some [97, 98])]) [98, 97] 1 195).getD
    { node := NULL, i := 0, c := 0, chars := fun _ => 0, nodes := fun _ => NULL,
      rows := fun _ => sim_row_first, out := [] }

/-- The first loop of `_fsmtrie_ac_compile` (`ac_root_loop`) with a log: the
nodes passed to `_fsmtrie_nodeq_enqueue`, in call order. -/
def ac_root_loop_log : List Nat → (fsmtrie_node × _fsmtrie_nodeq) × List (List Nat) →
    outcome ((fsmtrie_node × _fsmtrie_nodeq) × List (List Nat))
  | [], s => outcome.ok s
  | c :: cs, ((root, q), enq) =>
    if (root.nodes c).isNull then ac_root_loop_log cs ((root, q), enq)
    else
      match _fsmtrie_nodeq_enqueue q [c] with
      | none => outcome.aborted
      | some q1 =>
        ac_root_loop_log cs
          ((update_at root [c] (fun n => n.setSuffix (some [])), q1), enq ++ [[c]])

/-- The loop over `c` in the `while` loop of `_fsmtrie_ac_compile`
(`ac_node_loop`) with the log of the nodes passed to
`_fsmtrie_nodeq_enqueue`: the body `ac_child` makes one such call, for the
child on `c`. -/
def ac_node_loop_log (fuel : Nat) (node : List Nat) :
    List Nat → (fsmtrie_node × _fsmtrie_nodeq) × List (List Nat) →
    outcome ((fsmtrie_node × _fsmtrie_nodeq) × List (List Nat))
  | [], s => outcome.ok s
  | c :: cs, s =>
    if (lookup s.1.1 (node ++ [c])).isNull then ac_node_loop_log fuel node cs s
    else
      (ac_child fuel node c s.1).bind
        (fun s1 => ac_node_loop_log fuel node cs (s1, s.2 ++ [node ++ [c]]))

/-- What a run of `_fsmtrie_ac_compile` leaves: the trie, the queue as it is
before `_fsmtrie_nodeq_destroy`, the nodes passed to `_fsmtrie_nodeq_enqueue`
and the nodes returned by `_fsmtrie_nodeq_dequeue`, both in call order. -/
structure compile_trace where
  f : fsmtrie
  queue : _fsmtrie_nodeq
  enqueued : List (List Nat)
  dequeued : List (List Nat)

/-- The `while` loop of `_fsmtrie_ac_compile` (`ac_while`) with the logs of
the enqueued and of the dequeued nodes. -/
def ac_while_log (nrnodes scan : Nat) :
    Nat → (fsmtrie_node × _fsmtrie_nodeq) × List (List Nat) → List (List Nat) →
    outcome ((fsmtrie_node × _fsmtrie_nodeq) × List (List Nat) × List (List Nat))
  | 0, _, _ => outcome.no_fuel
  | fuel + 1, s, deq =>
    if _fsmtrie_nodeq_empty s.1.2 then outcome.ok (s.1, s.2, deq)
    else
      match (_fsmtrie_nodeq_dequeue s.1.2).1 with
      | none => outcome.aborted
      | some node =>
        (ac_node_loop_log scan node (List.range nrnodes)
            ((s.1.1, (_fsmtrie_nodeq_dequeue s.1.2).2), s.2)).bind
          (fun s1 => ac_while_log nrnodes scan fuel s1 (deq ++ [node]))

/-- The function `_fsmtrie_ac_compile` with the queue it leaves and the logs
of its enqueue and dequeue calls. -/
def ac_compile_log (f : fsmtrie) (fuel : Nat) : outcome compile_trace :=
  ((ac_root_loop_log (List.range f.nrnodes)
      ((update_at f.root [] (fun n => n.setSuffix none),
        _fsmtrie_nodeq_init (toInt32 (2 * f.node_cnt))), [])).bind
    (fun s => ac_while_log f.nrnodes fuel fuel s [])).bind
    (fun r => outcome.ok
      { f := { f with root := r.1.1, ac_compiled := true }, queue := r.1.2,
        enqueued := r.2.1, dequeued := r.2.2 })

/-! ## Theorems

### Pointer reads and writes -/

@[simp] theorem lookup_nil (n : fsmtrie_node) : lookup n [] = n := rfl
@[simp] theorem lookup_cons (n : fsmtrie_node) (c : Nat) (w : List Nat) :
    lookup n (c :: w) = lookup (n.nodes c) w := rfl

@[simp] theorem lookup_NULL (w : List Nat) : lookup NULL w = NULL := by
  induction w with
  | nil => rfl
  | cons c w ih => simpa [lookup, fsmtrie_node.nodes] using ih

theorem lookup_append (n : fsmtrie_node) (u w : List Nat) :
    lookup n (u ++ w) = lookup (lookup n u) w := by
  induction u generalizing n with
  | nil => rfl
  | cons c u ih => simp [ih]

@[simp] theorem nodes_setNode (n c : fsmtrie_node) (i j : Nat) :
    (n.setNode i c).nodes j = if n.isNull then NULL else if j = i then c else n.nodes j := by
  cases n <;> simp [setNode, fsmtrie_node.nodes, isNull, Function.update_apply]

@[simp] theorem isNull_setNode (n c : fsmtrie_node) (i : Nat) :
    (n.setNode i c).isNull = n.isNull := by cases n <;> rfl
@[simp] theorem leaf_setNode (n c : fsmtrie_node) (i : Nat) :
    (n.setNode i c).leaf = n.leaf := by cases n <;> rfl
@[simp] theorem str_setNode (n c : fsmtrie_node) (i : Nat) :
    (n.setNode i c).str = n.str := by cases n <;> rfl
@[simp] theorem isNull_markLeaf (n : fsmtrie_node) (s : Option (List Nat)) :
    (n.markLeaf s).isNull = n.isNull := by cases n <;> rfl
@[simp] theorem nodes_markLeaf (n : fsmtrie_node) (s : Option (List Nat)) (i : Nat) :
    (n.markLeaf s).nodes i = n.nodes i := by cases n <;> rfl
@[simp] theorem leaf_markLeaf (n : fsmtrie_node) (s : Option (List Nat)) :
    (n.markLeaf s).leaf = !n.isNull := by cases n <;> rfl
@[simp] theorem str_markLeaf (n : fsmtrie_node) (s : Option (List Nat)) :
    (n.markLeaf s).str = if n.isNull then none else (match s with | some x => some x | none => n.str) := by
  cases n <;> rfl
@[simp] theorem isNull_setNnodes (n : fsmtrie_node) (k : Nat) :
    (n.setNnodes k).isNull = n.isNull := by cases n <;> rfl
@[simp] theorem nodes_setNnodes (n : fsmtrie_node) (k i : Nat) :
    (n.setNnodes k).nodes i = n.nodes i := by cases n <;> rfl
@[simp] theorem leaf_setNnodes (n : fsmtrie_node) (k : Nat) :
    (n.setNnodes k).leaf = n.leaf := by cases n <;> rfl
@[simp] theorem str_setNnodes (n : fsmtrie_node) (k : Nat) :
    (n.setNnodes k).str = n.str := by cases n <;> rfl
@[simp] theorem isNull_NULL : NULL.isNull = true := rfl
@[simp] theorem leaf_NULL : NULL.leaf = false := rfl
@[simp] theorem str_NULL : NULL.str = none := rfl
@[simp] theorem nodes_NULL (i : Nat) : NULL.nodes i = NULL := rfl

@[simp] theorem node_new_isNull (m : fsmtrie_mode) : (_fsmtrie_node_new m).1.isNull = false := rfl
@[simp] theorem node_new_leaf (m : fsmtrie_mode) : (_fsmtrie_node_new m).1.leaf = false := rfl
@[simp] theorem node_new_str (m : fsmtrie_mode) : (_fsmtrie_node_new m).1.str = none := rfl
@[simp] theorem node_new_nodes (m : fsmtrie_mode) (i : Nat) : (_fsmtrie_node_new m).1.nodes i = NULL := rfl

theorem lookup_isNull_of_nodes_isNull (n : fsmtrie_node) (c : Nat) (w : List Nat)
    (h : (n.nodes c).isNull = true) : (lookup n (c :: w)).isNull = true := by
  have : n.nodes c = NULL := by cases hn : n.nodes c <;> simp_all [isNull]
  simp [this]

/-- Effect of the insertion walk on every path of the subtree. -/
theorem insert_walk_spec (nr : Nat) (mode : fsmtrie_mode) (st : Option (List Nat)) :
    ∀ (k : List Nat) (n : fsmtrie_node), n.isNull = false →
      (insert_walk nr mode st n k).1.isNull = false ∧
      (insert_walk nr mode st n k).2.2 = !(lookup n k).leaf ∧
      ∀ w : List Nat,
        ((lookup (insert_walk nr mode st n k).1 w).isNull =
            ((lookup n w).isNull && !decide (w <+: k))) ∧
        ((lookup (insert_walk nr mode st n k).1 w).leaf =
            ((lookup n w).leaf || decide (w = k))) ∧
        ((lookup (insert_walk nr mode st n k).1 w).str =
            if w = k ∧ (lookup n k).leaf = false then
              (match st with | some x => some x | none => (lookup n k).str)
            else (lookup n w).str) := by
  intro k
  induction k with
  | nil =>
    intro n hn
    by_cases hl : n.leaf = true
    · simp [insert_walk, hl, hn]
      intro w
      cases w <;> simp [hn, hl]
    · simp only [Bool.not_eq_true] at hl
      simp [insert_walk, hl, hn]
      intro w
      cases w with
      | nil => simp [hn, hl]
      | cons c w => simp
  | cons p rest ih =>
    intro n hn
    by_cases hc : (n.nodes p).isNull = true
    · have hnew : ((_fsmtrie_node_new mode).1.setNnodes nr).isNull = false := by simp
      obtain ⟨h1, h2, h3⟩ := ih _ hnew
      have hN : n.nodes p = NULL := by cases hn : n.nodes p <;> simp_all [isNull]
      have hlk : ∀ w, lookup ((_fsmtrie_node_new mode).1.setNnodes nr) w =
          if w = [] then (_fsmtrie_node_new mode).1.setNnodes nr else NULL := by
        intro w; cases w <;> simp
      simp only [insert_walk, hc, if_true]
      refine ⟨by simp [hn], ?_, ?_⟩
      · rw [h2]; simp [hN, hlk]
        cases rest <;> simp
      · intro w
        cases w with
        | nil => simp [hn]
        | cons c w =>
          simp only [lookup_cons, nodes_setNode, hn]
          by_cases hcp : c = p
          · subst hcp
            obtain ⟨a, b, d⟩ := h3 w
            simp only [if_true, Bool.false_eq_true, if_false, a, b, d, hN, lookup_NULL, hlk]
            simp [List.cons_prefix_cons]
            by_cases hw : w = [] <;> simp [hw]
            · cases rest <;> simp
            · by_cases hr : rest = []
              · subst hr; simp [hw]
              · simp [hr]
          · simp [hcp, List.cons_prefix_cons]
    · simp only [Bool.not_eq_true] at hc
      obtain ⟨h1, h2, h3⟩ := ih _ hc
      simp only [insert_walk, hc, Bool.false_eq_true, if_false]
      refine ⟨by simp [hn], by simp [h2], ?_⟩
      intro w
      cases w with
      | nil => simp [hn]
      | cons c w =>
        simp only [lookup_cons, nodes_setNode, hn]
        by_cases hcp : c = p
        · subst hcp
          obtain ⟨a, b, d⟩ := h3 w
          simp [a, b, d, List.cons_prefix_cons]
        · simp [hcp, List.cons_prefix_cons]

theorem search_walk_eq (nr : Nat) : ∀ (k : List Nat) (n : fsmtrie_node), n.isNull = false →
    (∀ b ∈ k, b < nr) →
    search_walk nr n k =
      if (lookup n k).isNull then walk_result.no_match else walk_result.arrived (lookup n k) := by
  intro k
  induction k with
  | nil => intro n hn _; simp [search_walk, hn]
  | cons p rest ih =>
    intro n hn hb
    have hp : p < nr := hb p (List.mem_cons_self _ _)
    have hr : ¬ ((p : Int) < 0 ∨ (p : Int) > (nr : Int) - 1) := by omega
    by_cases hc : (n.nodes p).isNull = true
    · have hN : n.nodes p = NULL := by cases hn : n.nodes p <;> simp_all [isNull]
      simp [search_walk, hr, hc, hN]
    · simp only [Bool.not_eq_true] at hc
      simp only [search_walk, hr, hc, if_false, Bool.false_eq_true, lookup_cons]
      exact ih _ hc (fun b hb' => hb b (List.mem_cons_of_mem _ hb'))

theorem search_walk_arrived (nr : Nat) : ∀ (k : List Nat) (n m : fsmtrie_node),
    n.isNull = false → search_walk nr n k = walk_result.arrived m →
    (∀ b ∈ k, b < nr) ∧ m = lookup n k ∧ m.isNull = false := by
  intro k
  induction k with
  | nil =>
    intro n m hn h
    simp only [search_walk, walk_result.arrived.injEq] at h
    subst h
    simp [hn]
  | cons p rest ih =>
    intro n m hn h
    by_cases hr : ((p : Int) < 0 ∨ (p : Int) > (nr : Int) - 1)
    · simp [search_walk, hr] at h
    · by_cases hc : (n.nodes p).isNull = true
      · simp [search_walk, hr, hc] at h
      · simp only [Bool.not_eq_true] at hc
        simp only [search_walk, hr, hc, if_false, Bool.false_eq_true] at h
        obtain ⟨h1, h2, h3⟩ := ih _ _ hc h
        refine ⟨?_, by simpa using h2, h3⟩
        intro b hb
        rcases List.mem_cons.1 hb with rfl | hb
        · omega
        · exact h1 b hb

theorem validate_scan_none (nr : Nat) : ∀ (k : List Nat) (n : Nat),
    validate_scan nr k n = none ↔ ∀ b ∈ k, b < nr := by
  intro k
  induction k with
  | nil => intro n; simp [validate_scan]
  | cons p rest ih =>
    intro n
    by_cases hr : ((p : Int) < 0 ∨ (p : Int) > (nr : Int) - 1)
    · simp only [validate_scan, hr, if_true, List.mem_cons, forall_eq_or_imp]
      constructor
      · intro h; cases h
      · intro h; omega
    · simp only [validate_scan, hr, if_false, List.mem_cons, forall_eq_or_imp, ih]
      constructor
      · intro h; exact ⟨by omega, h⟩
      · intro h; exact h.2

theorem ByteTrie_init (o : Option fsmtrie_opt) (f0 : fsmtrie) (h : fsmtrie_init o = some f0)
    (hm : f0.mode ≠ fsmtrie_mode_token) : ByteTrie f0 := by
  unfold fsmtrie_init at h
  rcases o with _ | ⟨m, pm, ml⟩
  · simp at h; subst h
    exact ⟨rfl, Or.inl ⟨rfl, rfl⟩⟩
  · cases m
    · simp at h; subst h; exact ⟨rfl, Or.inl ⟨rfl, rfl⟩⟩
    · simp at h; subst h; exact ⟨rfl, Or.inr ⟨rfl, rfl⟩⟩
    · simp at h
      obtain ⟨_, h⟩ := h
      subst h
      exact absurd rfl hm

theorem validate_true_iff (f : fsmtrie) (hf : ByteTrie f) (k : List Nat) :
    (fsmtrie_key_validate_ascii f (some k)).1 = true ↔ accepts f k := by
  unfold fsmtrie_key_validate_ascii accepts
  simp only [hf.root, Bool.false_eq_true, if_false]
  by_cases hl : f.max_len > 0 ∧ k.length > f.max_len
  · simp only [hl, and_self, if_true]
    constructor
    · intro h; cases h
    · intro h; omega
  · simp only [hl, if_false]
    have hl' : f.max_len = 0 ∨ k.length ≤ f.max_len := by omega
    rcases hf.size with ⟨hm, hs⟩ | ⟨hm, hs⟩
    · simp only [hm, if_true, hs, hl', true_and]
      cases hv : validate_scan 128 k 0 with
      | none =>
        have := (validate_scan_none 128 k 0).1 hv
        simpa using this
      | some x =>
        have h1 : ¬ (∀ b ∈ k, b < 128) := by
          intro h; rw [(validate_scan_none 128 k 0).2 h] at hv; cases hv
        simp [h1]
    · simp [hm, hl']

theorem validate_frame (f : fsmtrie) (key : Option (List Nat)) :
    (fsmtrie_key_validate_ascii f key).1 = true → (fsmtrie_key_validate_ascii f key).2 = f := by
  intro h
  unfold fsmtrie_key_validate_ascii at h ⊢
  by_cases h1 : f.root.isNull = true
  · simp [h1] at h
  · simp only [h1, if_false] at h ⊢
    cases key with
    | none => simp at h
    | some k =>
      simp only at h ⊢
      by_cases h2 : f.max_len > 0 ∧ k.length > f.max_len
      · simp [h2] at h
      · simp only [h2, if_false] at h ⊢
        by_cases h3 : f.mode = fsmtrie_mode_ascii
        · simp only [h3, if_true] at h ⊢
          cases hv : validate_scan f.nrnodes k 0 with
          | none => simp
          | some x => simp [hv] at h
        · simp [h3]

theorem validate_false_frame (f : fsmtrie) (key : Option (List Nat)) :
    ∃ e, (fsmtrie_key_validate_ascii f key).2 = { f with err_buf := e } := by
  unfold fsmtrie_key_validate_ascii
  split
  · exact ⟨_, rfl⟩
  · split
    · exact ⟨_, rfl⟩
    · split
      · exact ⟨_, rfl⟩
      · split
        · split
          · exact ⟨_, rfl⟩
          · exact ⟨f.err_buf, rfl⟩
        · exact ⟨f.err_buf, rfl⟩

/-- A rejected byte insert changes nothing but the error buffer. -/
theorem fsmtrie_insert_rejected (f : fsmtrie) (key str : Option (List Nat))
    (h : (fsmtrie_insert f key str).1 = false) :
    ∃ e, (fsmtrie_insert f key str).2 = { f with err_buf := e } := by
  unfold fsmtrie_insert at h ⊢
  split
  · exact ⟨_, rfl⟩
  · split
    · exact ⟨_, rfl⟩
    · rename_i h1 h2
      simp only [h1, h2, if_false] at h
      by_cases hv : (fsmtrie_key_validate_ascii f key).1 = true
      · simp only [hv, Bool.not_true, Bool.false_eq_true, if_false] at h
        split at h <;> cases h
      · simp only [Bool.not_eq_true] at hv
        simp only [hv, Bool.not_false, if_true]
        exact validate_false_frame f key

/-- The outcome of a byte insert on an initialised byte mode trie. -/
theorem fsmtrie_insert_byte (f : fsmtrie) (hf : ByteTrie f) (k : List Nat)
    (str : Option (List Nat)) :
    ((fsmtrie_insert f (some k) str).1 = true ↔ accepts f k) ∧
    (accepts f k →
      (fsmtrie_insert f (some k) str).2.root = (insert_walk f.nrnodes f.mode str f.root k).1) ∧
    (fsmtrie_insert f (some k) str).2.nrnodes = f.nrnodes ∧
    (fsmtrie_insert f (some k) str).2.mode = f.mode ∧
    (fsmtrie_insert f (some k) str).2.max_len = f.max_len ∧
    (fsmtrie_insert f (some k) str).2.pm_ok = f.pm_ok := by
  have hm : ¬ (f.mode ≠ fsmtrie_mode_ascii ∧ f.mode ≠ fsmtrie_mode_eascii) := by
    rcases hf.size with ⟨hm, _⟩ | ⟨hm, _⟩ <;> simp [hm]
  have hv := validate_true_iff f hf k
  by_cases ha : accepts f k
  · have hv1 := hv.2 ha
    have hv2 := validate_frame f (some k) hv1
    unfold fsmtrie_insert
    simp only [hf.root, hm, hv1, hv2, Bool.false_eq_true, if_false, Bool.not_true,
      Option.getD_some]
    split <;> simp [ha]
  · have hv1 : (fsmtrie_key_validate_ascii f (some k)).1 = false := by
      cases h : (fsmtrie_key_validate_ascii f (some k)).1
      · rfl
      · exact absurd (hv.1 h) ha
    obtain ⟨e, he⟩ := validate_false_frame f (some k)
    unfold fsmtrie_insert
    simp only [hf.root, hm, hv1, Bool.false_eq_true, if_false, Bool.not_false, if_true, he]
    simp [ha]

theorem ByteTrie_insert (f : fsmtrie) (hf : ByteTrie f) (k : List Nat)
    (str : Option (List Nat)) : ByteTrie (fsmtrie_insert f (some k) str).2 := by
  obtain ⟨h1, h2, h3, h4, _, _⟩ := fsmtrie_insert_byte f hf k str
  refine ⟨?_, by rw [h3, h4]; exact hf.size⟩
  by_cases ha : accepts f k
  · rw [h2 ha]
    exact (insert_walk_spec _ _ _ k f.root hf.root).1
  · have : (fsmtrie_insert f (some k) str).1 = false := by
      cases h : (fsmtrie_insert f (some k) str).1
      · rfl
      · exact absurd (h1.1 h) ha
    obtain ⟨e, he⟩ := fsmtrie_insert_rejected f (some k) str this
    rw [he]; exact hf.root

theorem lookup_new (m : fsmtrie_mode) (w : List Nat) :
    lookup (_fsmtrie_node_new m).1 w = if w = [] then (_fsmtrie_node_new m).1 else NULL := by
  cases w <;> simp

theorem Holds_init (o : Option fsmtrie_opt) (f0 : fsmtrie) (h : fsmtrie_init o = some f0)
    (hm : f0.mode ≠ fsmtrie_mode_token) : Holds f0 [] := by
  have hw := ByteTrie_init o f0 h hm
  have hr : f0.root = (_fsmtrie_node_new f0.mode).1 := by
    unfold fsmtrie_init at h
    rcases o with _ | ⟨m, pm, ml⟩
    · simp at h; subst h; rfl
    · cases m
      · simp at h; subst h; rfl
      · simp at h; subst h; rfl
      · simp at h; obtain ⟨_, h⟩ := h; subst h; rfl
  refine ⟨hw, ?_, ?_, ?_, by simp⟩
  · intro w; rw [hr, lookup_new]; by_cases hw : w = [] <;> simp [hw]
  · intro w; rw [hr, lookup_new]; by_cases hw : w = [] <;> simp [hw]
  · intro w; rw [hr, lookup_new]; by_cases hw : w = [] <;> simp [hw]

theorem lookup_none_of_not_mem (A : List (List Nat × Option (List Nat))) (w : List Nat)
    (h : ¬ ∃ c ∈ A, c.1 = w) : A.lookup w = none := by
  rw [List.lookup_eq_none_iff]
  intro p hp
  have : ¬ p.1 = w := fun e => h ⟨p, hp, e⟩
  simpa [bne_iff_ne, ne_comm] using this

theorem Holds_step (f : fsmtrie) (A : List (List Nat × Option (List Nat))) (hH : Holds f A)
    (k : List Nat) (s : Option (List Nat)) (hk : IsCStr k) :
    Holds (fsmtrie_insert f (some k) s).2
      (A ++ if (fsmtrie_insert f (some k) s).1 then [(k, s)] else []) := by
  obtain ⟨h1, h2, h3, h4, h5, h6⟩ := fsmtrie_insert_byte f hH.wf k s
  have hwf := ByteTrie_insert f hH.wf k s
  have hacc : ∀ k', accepts (fsmtrie_insert f (some k) s).2 k' ↔ accepts f k' := by
    intro k'; unfold accepts; rw [h4, h5]
  by_cases ha : accepts f k
  · have ht := h1.2 ha
    have hroot := h2 ha
    obtain ⟨_, _, hspec⟩ := insert_walk_spec f.nrnodes f.mode s k f.root hH.wf.root
    simp only [ht, if_true]
    refine ⟨hwf, ?_, ?_, ?_, ?_⟩
    · intro w
      rw [hroot, (hspec w).1]
      have := hH.exist w
      simp only [Bool.and_eq_false_imp, Bool.not_eq_eq_eq_not, Bool.not_false,
        decide_eq_true_eq, List.mem_append, List.mem_singleton]
      constructor
      · intro h
        by_cases hp : w <+: k
        · exact Or.inr ⟨(k, s), Or.inr rfl, hp⟩
        · have hx : (lookup f.root w).isNull = false := by
            cases hq : (lookup f.root w).isNull
            · rfl
            · exact absurd (h hq) hp
          rcases this.1 hx with h | ⟨c, hc, hcw⟩
          · exact Or.inl h
          · exact Or.inr ⟨c, Or.inl hc, hcw⟩
      · rintro (h | ⟨c, hc | hc, hcw⟩) hq
        · subst h; simp
        · have := this.2 (Or.inr ⟨c, hc, hcw⟩); rw [this] at hq; cases hq
        · subst hc; exact hcw
    · intro w
      rw [hroot, (hspec w).2.1]
      have := hH.leaf w
      simp only [Bool.or_eq_true, decide_eq_true_eq, this, List.mem_append, List.mem_singleton]
      constructor
      · rintro (⟨c, hc, hcw⟩ | h)
        · exact ⟨c, Or.inl hc, hcw⟩
        · exact ⟨(k, s), Or.inr rfl, h.symm⟩
      · rintro ⟨c, hc | hc, hcw⟩
        · exact Or.inl ⟨c, hc, hcw⟩
        · subst hc; exact Or.inr hcw.symm
    · intro w
      rw [hroot, (hspec w).2.2, List.lookup_append, hH.str w]
      by_cases hwk : w = k
      · subst hwk
        by_cases hl : (lookup f.root w).leaf = true
        · obtain ⟨c, hc, hcw⟩ := (hH.leaf w).1 hl
          have : (A.lookup w).isSome := by
            rw [List.lookup_isSome_iff]; exact ⟨c, hc, by simp [hcw]⟩
          obtain ⟨v, hv⟩ := Option.isSome_iff_exists.1 this
          simp [hl, hv]
        · simp only [Bool.not_eq_true] at hl
          have hn : A.lookup w = none :=
            lookup_none_of_not_mem A w (fun h => by
              have := (hH.leaf w).2 h; rw [hl] at this; cases this)
          have hs := hH.str w
          rw [hn] at hs
          simp only [hl, and_self, if_true, hn, hs]
          cases s <;> simp [List.lookup]
      · have : (List.lookup w [(k, s)]) = none := by
          have hb : (w == k) = false := by simpa using hwk
          simp [List.lookup, hb]
        simp [hwk, this]
    · intro c hc
      rcases List.mem_append.1 hc with hc | hc
      · exact ⟨(hacc _).2 (hH.acc c hc).1, (hH.acc c hc).2⟩
      · simp only [List.mem_singleton] at hc; subst hc
        exact ⟨(hacc _).2 ha, hk⟩
  · have hf : (fsmtrie_insert f (some k) s).1 = false := by
      cases h : (fsmtrie_insert f (some k) s).1
      · rfl
      · exact absurd (h1.1 h) ha
    obtain ⟨e, he⟩ := fsmtrie_insert_rejected f (some k) s hf
    have hr : (fsmtrie_insert f (some k) s).2.root = f.root := by rw [he]
    simp only [hf, Bool.false_eq_true, if_false, List.append_nil]
    exact ⟨hwf, by rw [hr]; exact hH.exist, by rw [hr]; exact hH.leaf, by rw [hr]; exact hH.str,
      fun c hc => ⟨(hacc _).2 (hH.acc c hc).1, (hH.acc c hc).2⟩⟩

theorem Holds_run (ops : List (List Nat × Option (List Nat))) :
    ∀ (f : fsmtrie) (A : List (List Nat × Option (List Nat))), Holds f A →
      (∀ c ∈ ops, IsCStr c.1) → Holds (run_inserts f ops) (A ++ accepted_inserts f ops) := by
  induction ops with
  | nil => intro f A h _; simpa [run_inserts, accepted_inserts] using h
  | cons c rest ih =>
    intro f A h hc
    have hs := Holds_step f A h c.1 c.2 (hc c (List.mem_cons_self _ _))
    have := ih _ _ hs (fun c' hc' => hc c' (List.mem_cons_of_mem _ hc'))
    simp only [run_inserts, accepted_inserts]
    by_cases hb : (fsmtrie_insert f (some c.1) c.2).1 = true
    · simp only [hb, if_true, List.append_assoc, List.singleton_append] at this ⊢
      exact this
    · simp only [hb, if_false, List.append_nil] at this ⊢
      simpa using this

/-- After any sequence of byte inserts on a fresh byte mode trie the trie
stores exactly the accepted calls. -/
theorem Holds_reach (o : Option fsmtrie_opt) (f0 : fsmtrie)
    (ops : List (List Nat × Option (List Nat)))
    (hinit : fsmtrie_init o = some f0) (hmode : f0.mode ≠ fsmtrie_mode_token)
    (hops : ∀ c ∈ ops, IsCStr c.1) :
    Holds (run_inserts f0 ops) (accepted_inserts f0 ops) := by
  simpa using Holds_run ops f0 [] (Holds_init o f0 hinit hmode) hops

theorem fsmtrie_insert_fixed (f : fsmtrie) (key str : Option (List Nat)) :
    (fsmtrie_insert f key str).2.nrnodes = f.nrnodes ∧
    (fsmtrie_insert f key str).2.mode = f.mode ∧
    (fsmtrie_insert f key str).2.max_len = f.max_len ∧
    (fsmtrie_insert f key str).2.pm_ok = f.pm_ok := by
  cases hb : (fsmtrie_insert f key str).1
  · obtain ⟨e, he⟩ := fsmtrie_insert_rejected f key str hb
    rw [he]; exact ⟨rfl, rfl, rfl, rfl⟩
  · unfold fsmtrie_insert at hb ⊢
    split
    · exact ⟨rfl, rfl, rfl, rfl⟩
    · split
      · exact ⟨rfl, rfl, rfl, rfl⟩
      · dsimp only
        split
        · rename_i h1 h2 h3
          simp [h1, h2, h3] at hb
        · split <;> exact ⟨rfl, rfl, rfl, rfl⟩

theorem run_inserts_fixed (ops : List (List Nat × Option (List Nat))) : ∀ (f : fsmtrie),
    (run_inserts f ops).nrnodes = f.nrnodes ∧ (run_inserts f ops).mode = f.mode ∧
    (run_inserts f ops).max_len = f.max_len ∧ (run_inserts f ops).pm_ok = f.pm_ok := by
  induction ops with
  | nil => intro f; exact ⟨rfl, rfl, rfl, rfl⟩
  | cons c rest ih =>
    intro f
    obtain ⟨a, b, c', d⟩ := ih (fsmtrie_insert f (some c.1) c.2).2
    obtain ⟨a', b', c'', d'⟩ := fsmtrie_insert_fixed f (some c.1) c.2
    simp only [run_inserts]
    exact ⟨a.trans a', b.trans b', c'.trans c'', d.trans d'⟩

theorem accepts_bytes (f : fsmtrie) (hf : ByteTrie f) (k : List Nat) (ha : accepts f k)
    (hk : IsCStr k) : ∀ b ∈ k, b < f.nrnodes := by
  intro b hb
  rcases hf.size with ⟨hm, hs⟩ | ⟨hm, hs⟩
  · rcases ha.2 with h | h
    · rw [hm] at h; cases h
    · have := h b hb; omega
  · have := (hk b hb).2; omega

/-- The exact search on an initialised byte mode trie, by the outcome of its
walk. -/
theorem fsmtrie_search_byte (f : fsmtrie) (hf : ByteTrie f) (s : List Nat)
    (str0 : Option (List Nat)) :
    fsmtrie_search f (some s) str0 =
      match search_walk f.nrnodes f.root s with
      | walk_result.range_error v =>
        ⟨-1, none, { f with err_buf := err_msg.key_value_out_of_range v }⟩
      | walk_result.no_match => ⟨0, none, f⟩
      | walk_result.arrived node_p =>
        if (f.pm_ok = true ∨ node_p.leaf = true) then
          ⟨1, if node_p.leaf then node_p.str else none, f⟩
        else ⟨0, if node_p.leaf then node_p.str else none, f⟩ := by
  have hm : ¬ (f.mode ≠ fsmtrie_mode_ascii ∧ f.mode ≠ fsmtrie_mode_eascii) := by
    rcases hf.size with ⟨hm, _⟩ | ⟨hm, _⟩ <;> simp [hm]
  unfold fsmtrie_search
  simp only [hf.root, hm, Bool.false_eq_true, if_false]
  cases hw : search_walk f.nrnodes f.root s with
  | range_error v => rfl
  | no_match => rfl
  | arrived m =>
    have hnn := (search_walk_arrived _ _ _ _ hf.root hw).2.2
    simp only [hnn, Bool.not_false, Bool.true_and]
    cases f.pm_ok <;> cases m.leaf <;> simp

/-- The exact search at a path all of whose bytes are in the alphabet. -/
theorem fsmtrie_search_in_range (f : fsmtrie) (hf : ByteTrie f) (s : List Nat)
    (str0 : Option (List Nat)) (hs : ∀ b ∈ s, b < f.nrnodes) :
    fsmtrie_search f (some s) str0 =
      if (lookup f.root s).isNull then ⟨0, none, f⟩
      else if (f.pm_ok = true ∨ (lookup f.root s).leaf = true) then
        ⟨1, if (lookup f.root s).leaf then (lookup f.root s).str else none, f⟩
      else ⟨0, if (lookup f.root s).leaf then (lookup f.root s).str else none, f⟩ := by
  rw [fsmtrie_search_byte f hf, search_walk_eq _ _ _ hf.root hs]
  by_cases h : (lookup f.root s).isNull = true
  · simp [h]
  · simp [h]

/-- A search that returns 1 arrived at an existing node. -/
theorem fsmtrie_search_one (f : fsmtrie) (hf : ByteTrie f) (s : List Nat)
    (str0 : Option (List Nat)) (h : (fsmtrie_search f (some s) str0).ret = 1) :
    (∀ b ∈ s, b < f.nrnodes) ∧ (lookup f.root s).isNull = false ∧
      (f.pm_ok = true ∨ (lookup f.root s).leaf = true) := by
  rw [fsmtrie_search_byte f hf] at h
  cases hw : search_walk f.nrnodes f.root s with
  | range_error v => rw [hw] at h; simp at h
  | no_match => rw [hw] at h; simp at h
  | arrived m =>
    rw [hw] at h
    obtain ⟨h1, h2, h3⟩ := search_walk_arrived _ _ _ _ hf.root hw
    subst h2
    refine ⟨h1, h3, ?_⟩
    by_contra hc
    simp [hc] at h

/-- A search that returns -1 on an initialised byte mode trie met a byte
outside the alphabet. -/
theorem fsmtrie_search_neg (f : fsmtrie) (hf : ByteTrie f) (s : List Nat)
    (str0 : Option (List Nat)) (h : (fsmtrie_search f (some s) str0).ret = -1) :
    ∃ b ∈ s, f.nrnodes ≤ b := by
  by_contra hc
  have hs : ∀ b ∈ s, b < f.nrnodes := by
    intro b hb
    by_contra hlt
    exact hc ⟨b, hb, by omega⟩
  rw [fsmtrie_search_in_range f hf s str0 hs] at h
  split at h
  · simp at h
  · split at h <;> simp at h

/-- C1: after any sequence of `fsmtrie_insert` calls on a fresh ASCII or
EASCII trie, searching a key `k` whose first accepted insert supplied the
string `s` (`none` for `NULL`) returns 1 and stores `s` through the out
parameter, whatever else was inserted before or after. -/
theorem C1_exact_search_round_trip (o : Option fsmtrie_opt) (f0 : fsmtrie)
    (ops : List (List Nat × Option (List Nat))) (k : List Nat) (s str0 : Option (List Nat))
    (hinit : fsmtrie_init o = some f0) (hmode : f0.mode ≠ fsmtrie_mode_token)
    (hops : ∀ c ∈ ops, IsCStr c.1)
    (hk : (accepted_inserts f0 ops).lookup k = some s) :
    fsmtrie_search (run_inserts f0 ops) (some k) str0 = ⟨1, s, run_inserts f0 ops⟩ := by
  have hH := Holds_reach o f0 ops hinit hmode hops
  have hmem : ∃ c ∈ accepted_inserts f0 ops, c.1 = k := by
    have : ((accepted_inserts f0 ops).lookup k).isSome := by rw [hk]; rfl
    rw [List.lookup_isSome_iff] at this
    obtain ⟨p, hp, hpk⟩ := this
    exact ⟨p, hp, (by simpa using hpk : k = p.1).symm⟩
  obtain ⟨c, hc, hck⟩ := hmem
  have hb : ∀ b ∈ k, b < (run_inserts f0 ops).nrnodes := by
    subst hck
    exact accepts_bytes _ hH.wf _ (hH.acc c hc).1 (hH.acc c hc).2
  have hex : (lookup (run_inserts f0 ops).root k).isNull = false :=
    (hH.exist k).2 (Or.inr ⟨c, hc, by rw [hck]⟩)
  have hl : (lookup (run_inserts f0 ops).root k).leaf = true := (hH.leaf k).2 ⟨c, hc, hck⟩
  rw [fsmtrie_search_in_range _ hH.wf k str0 hb]
  simp [hex, hl, hH.str k, hk]

theorem C1_exact_search_round_trip_witness :
    fsmtrie_init (some ⟨fsmtrie_mode_ascii, true, 64⟩) = some trie_S1 ∧
    trie_S1.mode ≠ fsmtrie_mode_token ∧ (∀ c ∈ calls_S1, IsCStr c.1) ∧
    (accepted_inserts trie_S1 calls_S1).lookup [102, 111, 111] = some (some [102, 111, 111]) ∧
    fsmtrie_search (run_inserts trie_S1 calls_S1) (some [102, 111, 111]) none =
      ⟨1, some [102, 111, 111], run_inserts trie_S1 calls_S1⟩ :=
  ⟨rfl, by decide, by decide, by decide,
   C1_exact_search_round_trip (some ⟨fsmtrie_mode_ascii, true, 64⟩) trie_S1 calls_S1
     [102, 111, 111] (some [102, 111, 111]) none rfl (by decide) (by decide) (by decide)⟩

/-- C2 as stated fails: on an ASCII trie without partial matching that holds
the key "a", the string "a\x80" extends an inserted key and is not a key, yet
`fsmtrie_search` returns -1, not 0. -/
theorem C2_extension_not_zero :
    (fsmtrie_insert trie_ml3 (some [97]) none).1 = true ∧
    trie_ml3.pm_ok = false ∧ [97] <+: [97, 128] ∧ IsCStr [97, 128] ∧
    (fsmtrie_search (run_inserts trie_ml3 [([97], none)]) (some [97, 128]) none).ret = -1 := by
  refine ⟨by decide, rfl, by decide, by decide, by decide⟩

/-- C2 (amended): with partial matching disabled, after any sequence of
inserts on a fresh ASCII or EASCII trie, `fsmtrie_search` returns 1 exactly
for the accepted keys; for a string that is not a key it returns 0 when all
its bytes are in the alphabet, in particular for every proper prefix of a key,
and every -1 comes from a byte outside the alphabet. -/
theorem C2_exact_search_iff_key (o : Option fsmtrie_opt) (f0 : fsmtrie)
    (ops : List (List Nat × Option (List Nat))) (s : List Nat) (str0 : Option (List Nat))
    (hinit : fsmtrie_init o = some f0) (hmode : f0.mode ≠ fsmtrie_mode_token)
    (hpm : f0.pm_ok = false) (hops : ∀ c ∈ ops, IsCStr c.1) :
    ((fsmtrie_search (run_inserts f0 ops) (some s) str0).ret = 1 ↔
        s ∈ (accepted_inserts f0 ops).map Prod.fst) ∧
    (s ∉ (accepted_inserts f0 ops).map Prod.fst → (∀ b ∈ s, b < f0.nrnodes) →
        (fsmtrie_search (run_inserts f0 ops) (some s) str0).ret = 0) ∧
    (s ∉ (accepted_inserts f0 ops).map Prod.fst →
        (∃ k ∈ (accepted_inserts f0 ops).map Prod.fst, s <+: k) →
        (fsmtrie_search (run_inserts f0 ops) (some s) str0).ret = 0) ∧
    ((fsmtrie_search (run_inserts f0 ops) (some s) str0).ret = -1 →
        ∃ b ∈ s, f0.nrnodes ≤ b) := by
  have hH := Holds_reach o f0 ops hinit hmode hops
  obtain ⟨hnr, _, _, hpm'⟩ := run_inserts_fixed ops f0
  rw [hpm] at hpm'
  have hkey : s ∈ (accepted_inserts f0 ops).map Prod.fst ↔
      (lookup (run_inserts f0 ops).root s).leaf = true := by
    rw [hH.leaf s]; simp
  have hzero : s ∉ (accepted_inserts f0 ops).map Prod.fst → (∀ b ∈ s, b < f0.nrnodes) →
      (fsmtrie_search (run_inserts f0 ops) (some s) str0).ret = 0 := by
    intro hs hb
    have hl : (lookup (run_inserts f0 ops).root s).leaf = false := by
      cases h : (lookup (run_inserts f0 ops).root s).leaf
      · rfl
      · exact absurd (hkey.2 h) hs
    rw [fsmtrie_search_in_range _ hH.wf s str0 (by rw [hnr]; exact hb)]
    by_cases hn : (lookup (run_inserts f0 ops).root s).isNull = true
    · simp [hn]
    · simp [hn, hl, hpm']
  refine ⟨?_, hzero, ?_, ?_⟩
  · constructor
    · intro h
      obtain ⟨_, _, h3⟩ := fsmtrie_search_one _ hH.wf s str0 h
      rcases h3 with h3 | h3
      · rw [hpm'] at h3; cases h3
      · exact hkey.2 h3
    · intro h
      obtain ⟨c, hc, hcs⟩ := List.mem_map.1 h
      have hb : ∀ b ∈ s, b < (run_inserts f0 ops).nrnodes := by
        subst hcs
        exact accepts_bytes _ hH.wf _ (hH.acc c hc).1 (hH.acc c hc).2
      have hex : (lookup (run_inserts f0 ops).root s).isNull = false :=
        (hH.exist s).2 (Or.inr ⟨c, hc, by rw [hcs]⟩)
      rw [fsmtrie_search_in_range _ hH.wf s str0 hb]
      simp [hex, hkey.1 h]
  · rintro hs ⟨k, hk, hsk⟩
    obtain ⟨c, hc, hck⟩ := List.mem_map.1 hk
    apply hzero hs
    intro b hb
    rw [← hnr]
    subst hck
    exact accepts_bytes _ hH.wf _ (hH.acc c hc).1 (hH.acc c hc).2 b (hsk.subset hb)
  · intro h
    rw [← hnr]
    exact fsmtrie_search_neg _ hH.wf s str0 h

theorem C2_exact_search_iff_key_witness :
    fsmtrie_init (some ⟨fsmtrie_mode_ascii, false, 3⟩) = some trie_ml3 ∧
    trie_ml3.mode ≠ fsmtrie_mode_token ∧ trie_ml3.pm_ok = false ∧
    (∀ c ∈ [(([97, 98] : List Nat), (none : Option (List Nat)))], IsCStr c.1) ∧
    (((fsmtrie_search (run_inserts trie_ml3 [([97, 98], none)]) (some [97]) none).ret = 1 ↔
        [97] ∈ (accepted_inserts trie_ml3 [([97, 98], none)]).map Prod.fst) ∧
    ([97] ∉ (accepted_inserts trie_ml3 [([97, 98], none)]).map Prod.fst →
        (∀ b ∈ [97], b < trie_ml3.nrnodes) →
        (fsmtrie_search (run_inserts trie_ml3 [([97, 98], none)]) (some [97]) none).ret = 0) ∧
    ([97] ∉ (accepted_inserts trie_ml3 [([97, 98], none)]).map Prod.fst →
        (∃ k ∈ (accepted_inserts trie_ml3 [([97, 98], none)]).map Prod.fst, [97] <+: k) →
        (fsmtrie_search (run_inserts trie_ml3 [([97, 98], none)]) (some [97]) none).ret = 0) ∧
    ((fsmtrie_search (run_inserts trie_ml3 [([97, 98], none)]) (some [97]) none).ret = -1 →
        ∃ b ∈ [97], trie_ml3.nrnodes ≤ b)) :=
  ⟨rfl, by decide, rfl, by decide,
   C2_exact_search_iff_key (some ⟨fsmtrie_mode_ascii, false, 3⟩) trie_ml3 [([97, 98], none)]
     [97] none rfl (by decide) rfl (by decide)⟩

/-- C3: with partial matching enabled, after any sequence of inserts on a fresh
ASCII or EASCII trie and for every non-empty string whose bytes are in the
alphabet, `fsmtrie_search` returns 1 exactly when the string is a prefix of
an accepted key; the out parameter then holds the stored string of the key
when the string is itself a key and `NULL` otherwise. -/
theorem C3_prefix_search (o : Option fsmtrie_opt) (f0 : fsmtrie)
    (ops : List (List Nat × Option (List Nat))) (s : List Nat) (str0 : Option (List Nat))
    (hinit : fsmtrie_init o = some f0) (hmode : f0.mode ≠ fsmtrie_mode_token)
    (hpm : f0.pm_ok = true) (hops : ∀ c ∈ ops, IsCStr c.1)
    (hne : s ≠ []) (hs : ∀ b ∈ s, b < f0.nrnodes) :
    ((fsmtrie_search (run_inserts f0 ops) (some s) str0).ret = 1 ↔
        ∃ k ∈ (accepted_inserts f0 ops).map Prod.fst, s <+: k) ∧
    ((fsmtrie_search (run_inserts f0 ops) (some s) str0).ret = 1 →
        (fsmtrie_search (run_inserts f0 ops) (some s) str0).str =
          ((accepted_inserts f0 ops).lookup s).getD none) := by
  have hH := Holds_reach o f0 ops hinit hmode hops
  obtain ⟨hnr, _, _, hpm'⟩ := run_inserts_fixed ops f0
  rw [hpm] at hpm'
  have hex := hH.exist s
  simp only [hne, false_or] at hex
  have hstr : (if (lookup (run_inserts f0 ops).root s).leaf = true then
      (lookup (run_inserts f0 ops).root s).str else none) =
      ((accepted_inserts f0 ops).lookup s).getD none := by
    by_cases hl : (lookup (run_inserts f0 ops).root s).leaf = true
    · simp [hl, hH.str s]
    · have hn : (accepted_inserts f0 ops).lookup s = none :=
        lookup_none_of_not_mem _ s (fun h => hl ((hH.leaf s).2 h))
      simp [hl, hn]
  rw [fsmtrie_search_in_range _ hH.wf s str0 (by rw [hnr]; exact hs)]
  by_cases hn : (lookup (run_inserts f0 ops).root s).isNull = true
  · have : ¬ ∃ c ∈ accepted_inserts f0 ops, s <+: c.1 := by
      intro h; rw [hex.2 h] at hn; cases hn
    simp only [hn, if_true]
    constructor
    · constructor
      · intro h; simp at h
      · rintro ⟨k, hk, hsk⟩
        obtain ⟨c, hc, hck⟩ := List.mem_map.1 hk
        exact absurd ⟨c, hc, by rw [hck]; exact hsk⟩ this
    · intro h; simp at h
  · simp only [Bool.not_eq_true] at hn
    obtain ⟨c, hc, hcs⟩ := hex.1 hn
    simp only [hn, Bool.false_eq_true, if_false, hpm', true_or, if_true, true_iff, hstr,
      implies_true, and_true]
    exact ⟨c.1, List.mem_map.2 ⟨c, hc, rfl⟩, hcs⟩

theorem C3_prefix_search_witness :
    fsmtrie_init (some ⟨fsmtrie_mode_ascii, true, 64⟩) = some trie_S1 ∧
    trie_S1.mode ≠ fsmtrie_mode_token ∧ trie_S1.pm_ok = true ∧
    (∀ c ∈ calls_S1, IsCStr c.1) ∧ ([102, 111] : List Nat) ≠ [] ∧
    (∀ b ∈ [102, 111], b < trie_S1.nrnodes) ∧
    (((fsmtrie_search (run_inserts trie_S1 calls_S1) (some [102, 111]) none).ret = 1 ↔
        ∃ k ∈ (accepted_inserts trie_S1 calls_S1).map Prod.fst, [102, 111] <+: k) ∧
    ((fsmtrie_search (run_inserts trie_S1 calls_S1) (some [102, 111]) none).ret = 1 →
        (fsmtrie_search (run_inserts trie_S1 calls_S1) (some [102, 111]) none).str =
          ((accepted_inserts trie_S1 calls_S1).lookup [102, 111]).getD none)) :=
  ⟨rfl, by decide, rfl, by decide, by decide, by decide,
   C3_prefix_search (some ⟨fsmtrie_mode_ascii, true, 64⟩) trie_S1 calls_S1 [102, 111] none
     rfl (by decide) rfl (by decide) (by decide) (by decide)⟩

/-- C9: on every ASCII or EASCII trie reached by inserts from a fresh one,
`fsmtrie_insert` returns true exactly when (`max_len` is 0 or the key is no
longer than `max_len`) and (the mode is EASCII or every byte is below 128);
so with `max_len = n > 0` a key of length `n` with valid bytes is accepted
and every key of length `n + 1` is rejected, and when `max_len > 0` every key
present in the trie is no longer than `max_len`. -/
theorem C9_insert_acceptance (o : Option fsmtrie_opt) (f0 : fsmtrie)
    (ops : List (List Nat × Option (List Nat))) (k : List Nat) (str : Option (List Nat))
    (hinit : fsmtrie_init o = some f0) (hmode : f0.mode ≠ fsmtrie_mode_token)
    (hops : ∀ c ∈ ops, IsCStr c.1) :
    ((fsmtrie_insert (run_inserts f0 ops) (some k) str).1 = true ↔
        (f0.max_len = 0 ∨ k.length ≤ f0.max_len) ∧
        (f0.mode = fsmtrie_mode_eascii ∨ ∀ b ∈ k, b < 128)) ∧
    (k.length = f0.max_len → (f0.mode = fsmtrie_mode_eascii ∨ ∀ b ∈ k, b < 128) →
        (fsmtrie_insert (run_inserts f0 ops) (some k) str).1 = true) ∧
    (0 < f0.max_len → k.length = f0.max_len + 1 →
        (fsmtrie_insert (run_inserts f0 ops) (some k) str).1 = false) ∧
    (0 < f0.max_len → ∀ w : List Nat, (lookup (run_inserts f0 ops).root w).leaf = true →
        w.length ≤ f0.max_len) := by
  have hH := Holds_reach o f0 ops hinit hmode hops
  obtain ⟨_, hmo, hml, _⟩ := run_inserts_fixed ops f0
  have hiff := (fsmtrie_insert_byte _ hH.wf k str).1
  unfold accepts at hiff
  rw [hmo, hml] at hiff
  refine ⟨hiff, ?_, ?_, ?_⟩
  · intro hl hb
    exact hiff.2 ⟨Or.inr (by omega), hb⟩
  · intro hpos hl
    cases h : (fsmtrie_insert (run_inserts f0 ops) (some k) str).1
    · rfl
    · have := (hiff.1 h).1; omega
  · intro hpos w hw
    obtain ⟨c, hc, hcw⟩ := (hH.leaf w).1 hw
    have := (hH.acc c hc).1.1
    rw [hml, hcw] at this
    omega

theorem C9_insert_acceptance_witness :
    fsmtrie_init (some ⟨fsmtrie_mode_ascii, false, 3⟩) = some trie_ml3 ∧
    trie_ml3.mode ≠ fsmtrie_mode_token ∧
    (∀ c ∈ [(([97, 98] : List Nat), (none : Option (List Nat)))], IsCStr c.1) ∧
    (((fsmtrie_insert (run_inserts trie_ml3 [([97, 98], none)]) (some [97, 98, 99, 100])
          none).1 = true ↔
        (trie_ml3.max_len = 0 ∨ [97, 98, 99, 100].length ≤ trie_ml3.max_len) ∧
        (trie_ml3.mode = fsmtrie_mode_eascii ∨ ∀ b ∈ [97, 98, 99, 100], b < 128)) ∧
    ([97, 98, 99, 100].length = trie_ml3.max_len →
        (trie_ml3.mode = fsmtrie_mode_eascii ∨ ∀ b ∈ [97, 98, 99, 100], b < 128) →
        (fsmtrie_insert (run_inserts trie_ml3 [([97, 98], none)]) (some [97, 98, 99, 100])
          none).1 = true) ∧
    (0 < trie_ml3.max_len → [97, 98, 99, 100].length = trie_ml3.max_len + 1 →
        (fsmtrie_insert (run_inserts trie_ml3 [([97, 98], none)]) (some [97, 98, 99, 100])
          none).1 = false) ∧
    (0 < trie_ml3.max_len → ∀ w : List Nat,
        (lookup (run_inserts trie_ml3 [([97, 98], none)]).root w).leaf = true →
        w.length ≤ trie_ml3.max_len)) :=
  ⟨rfl, by decide, by decide,
   C9_insert_acceptance (some ⟨fsmtrie_mode_ascii, false, 3⟩) trie_ml3 [([97, 98], none)]
     [97, 98, 99, 100] none rfl (by decide) (by decide)⟩

theorem SortedKids_le (node : fsmtrie_node) (cnt : Nat) (hs : SortedKids node cnt)
    (i j : Nat) (hij : i ≤ j) (hj : j < cnt) : (node.nodes i).tval ≤ (node.nodes j).tval := by
  rcases Nat.eq_or_lt_of_le hij with h | h
  · subst h; exact le_rfl
  · exact le_of_lt (hs i j h hj)

/-- The binary search of `_fsmtrie_get_token_idx` on sorted children: it ends
within the fuel, either at a child with the token or at the place from which
the insertion point is read off. -/
theorem token_idx_loop_spec (node : fsmtrie_node) (token cnt : Nat)
    (hs : SortedKids node cnt) :
    ∀ (fuel lo hi : Nat) (sidx : Int), lo ≤ hi → hi < cnt → hi - lo < fuel → sidx ≠ -1 →
      (∀ i, i < lo → (node.nodes i).tval < token) →
      (∀ i, hi < i → i < cnt → token < (node.nodes i).tval) →
      ∃ (b : Bool) (m : Nat),
        token_idx_loop node token fuel (lo : Int) (hi : Int) sidx = some (b, (m : Int)) ∧
        m < cnt ∧ (b = true → (node.nodes m).tval = token) ∧
        (b = false → (node.nodes m).tval ≠ token ∧
          (∀ i, i < (if token > (node.nodes m).tval then m + 1 else m) →
              (node.nodes i).tval < token) ∧
          (∀ i, (if token > (node.nodes m).tval then m + 1 else m) ≤ i → i < cnt →
              token < (node.nodes i).tval)) := by
  intro fuel
  induction fuel with
  | zero => intro lo hi sidx _ _ h; omega
  | succ fuel ih =>
    intro lo hi sidx hle hhi hfuel hsidx hlo hup
    have hm : (((hi : Int) - (lo : Int)) + 1) / 2 + (lo : Int) = ((lo + (hi - lo + 1) / 2 : Nat) : Int) := by
      omega
    have hmr : lo + (hi - lo + 1) / 2 ≤ hi := by omega
    have hml : lo ≤ lo + (hi - lo + 1) / 2 := by omega
    unfold token_idx_loop
    simp only [hsidx, if_false, hm, Int.toNat_ofNat]
    generalize hmdef : lo + (hi - lo + 1) / 2 = m at hm hmr hml
    by_cases heq : (node.nodes m).tval = token
    · exact ⟨true, m, by simp [heq], by omega, fun _ => heq, fun h => by cases h⟩
    · simp only [heq, if_false]
      by_cases hlh : (lo : Int) = (hi : Int)
      · have hlh' : lo = hi := by omega
        have hmlo : m = lo := by omega
        refine ⟨false, m, by simp [hlh], by omega, (fun h => by cases h), fun _ => ⟨heq, ?_, ?_⟩⟩
        · intro i hi'
          by_cases hgt : token > (node.nodes m).tval
          · simp only [hgt, if_true] at hi'
            rcases Nat.lt_or_ge i m with h | h
            · exact hlo i (by omega)
            · have : i = m := by omega
              subst this; exact hgt
          · simp only [hgt, if_false] at hi'
            exact hlo i (by omega)
        · intro i hi' hic
          by_cases hgt : token > (node.nodes m).tval
          · simp only [hgt, if_true] at hi'
            exact hup i (by omega) hic
          · simp only [hgt, if_false] at hi'
            rcases Nat.lt_or_ge m i with h | h
            · exact hup i (by omega) hic
            · have : i = m := by omega
              subst this; omega
      · simp only [hlh, if_false]
        have hlt : lo < hi := by omega
        have hmgt : lo < m := by omega
        by_cases hsv : (node.nodes m).tval < token
        · simp only [hsv, if_true]
          have hbelow : ∀ i, i < m + 1 → (node.nodes i).tval < token := by
            intro i hi'
            exact lt_of_le_of_lt (SortedKids_le node cnt hs i m (by omega) (by omega)) hsv
          by_cases hex : ((m : Int) + 1 > (hi : Int) ∨ (hi : Int) < (m : Int) + 1)
          · simp only [hex, if_true]
            have hmh : m = hi := by omega
            refine ⟨false, m, rfl, by omega, (fun h => by cases h), fun _ => ⟨heq, ?_, ?_⟩⟩
            · intro i hi'
              simp only [gt_iff_lt, hsv, if_true] at hi'
              exact hbelow i hi'
            · intro i hi' hic
              simp only [gt_iff_lt, hsv, if_true] at hi'
              exact hup i (by omega) hic
          · simp only [hex, if_false]
            have hc : ((m : Int) + 1) = ((m + 1 : Nat) : Int) := by omega
            rw [hc]
            exact ih (m + 1) hi (m : Int) (by omega) hhi (by omega) (by omega) hbelow hup
        · simp only [hsv, if_false]
          have hgt : (node.nodes m).tval > token := by omega
          simp only [hgt, if_true]
          have habove : ∀ i, m - 1 < i → i < cnt → token < (node.nodes i).tval := by
            intro i hi' hic
            exact lt_of_lt_of_le hgt (SortedKids_le node cnt hs m i (by omega) hic)
          have hex : ¬ ((lo : Int) > (m : Int) - 1 ∨ (m : Int) - 1 < (lo : Int)) := by omega
          simp only [hex, if_false]
          have hc : ((m : Int) - 1) = ((m - 1 : Nat) : Int) := by omega
          rw [hc]
          exact ih lo (m - 1) (m : Int) (by omega) (by omega) (by omega) (by omega) hlo habove

/-- The child lookup with `do_insert` on sorted children: either the token is
at index `m` and nothing changes, or it is absent and an empty slot is made
at the insertion point `p`. -/
theorem get_token_idx_spec (node : fsmtrie_node) (token cnt : Nat)
    (hs : SortedKids node cnt) :
    (∃ m, m < cnt ∧ (node.nodes m).tval = token ∧
        _fsmtrie_get_token_idx node cnt token true = some ⟨0, node, some m⟩) ∨
    (∃ p, p ≤ cnt ∧ (∀ i, i < p → (node.nodes i).tval < token) ∧
        (∀ i, p ≤ i → i < cnt → token < (node.nodes i).tval) ∧
        _fsmtrie_get_token_idx node cnt token true =
          some ⟨1, token_make_room node cnt p, some p⟩) := by
  by_cases hc : cnt = 0
  · subst hc
    refine Or.inr ⟨0, le_rfl, fun i hi => by omega, fun i _ hi => by omega, ?_⟩
    simp [_fsmtrie_get_token_idx, token_idx_loop]
  · obtain ⟨b, m, hloop, hm, ht, hf⟩ :=
      token_idx_loop_spec node token cnt hs (cnt + 1) 0 (cnt - 1) 0 (by omega) (by omega)
        (by omega) (by omega) (fun i hi => by omega) (fun i h1 h2 => by omega)
    have hcast : ((cnt : Int) - 1) = ((cnt - 1 : Nat) : Int) := by omega
    cases b with
    | true =>
      refine Or.inl ⟨m, hm, ht rfl, ?_⟩
      simp only [_fsmtrie_get_token_idx, hc, if_false, hcast]
      simp only [Nat.cast_zero] at hloop
      rw [hloop]
      simp
    | false =>
      obtain ⟨hne, hlow, hup⟩ := hf rfl
      refine Or.inr ⟨if token > (node.nodes m).tval then m + 1 else m, ?_, hlow, hup, ?_⟩
      · split <;> omega
      · simp only [_fsmtrie_get_token_idx, hc, if_false, hcast]
        simp only [Nat.cast_zero] at hloop
        rw [hloop]
        have hnn : ¬ ((m : Int) < 0) := by omega
        simp only [hnn, if_false, Int.toNat_ofNat, Bool.not_true, Bool.false_eq_true]
        by_cases hgt : token > (node.nodes m).tval
        · simp only [hgt, if_true]
          have : ((m : Int) + 1).toNat = m + 1 := by omega
          simp [this]
        · simp [hgt]

/-- The binary search of `fsmtrie_search_token` on sorted children ends
within the fuel at an index below `cnt`; when the child there does not carry
the token, no child does. -/
theorem search_token_loop_spec (node : fsmtrie_node) (token cnt : Nat)
    (hs : SortedKids node cnt) :
    ∀ (fuel lo hi : Nat) (sidx : Int), lo ≤ hi → hi < cnt → hi - lo < fuel → sidx ≠ -1 →
      (∀ i, i < lo → (node.nodes i).tval < token) →
      (∀ i, hi < i → i < cnt → token < (node.nodes i).tval) →
      ∃ (m : Nat),
        search_token_loop node token fuel (lo : Int) (hi : Int) sidx = some (m : Int) ∧
        m < cnt ∧
        ((node.nodes m).tval ≠ token → ∀ i, i < cnt → (node.nodes i).tval ≠ token) := by
  intro fuel
  induction fuel with
  | zero => intro lo hi sidx _ _ h; omega
  | succ fuel ih =>
    intro lo hi sidx hle hhi hfuel hsidx hlo hup
    have hm : (((hi : Int) - (lo : Int)) + 1) / 2 + (lo : Int) = ((lo + (hi - lo + 1) / 2 : Nat) : Int) := by
      omega
    have hmr : lo + (hi - lo + 1) / 2 ≤ hi := by omega
    have hml : lo ≤ lo + (hi - lo + 1) / 2 := by omega
    unfold search_token_loop
    simp only [hsidx, if_false, hm, Int.toNat_ofNat]
    generalize hmdef : lo + (hi - lo + 1) / 2 = m at hm hmr hml
    by_cases heq : (node.nodes m).tval = token
    · exact ⟨m, by simp [heq], by omega, fun h => absurd heq h⟩
    · by_cases hlh : (lo : Int) = (hi : Int)
      · have hlh' : lo = hi := by omega
        have hmlo : m = lo := by omega
        refine ⟨m, by simp [hlh], by omega, fun _ i hic => ?_⟩
        rcases Nat.lt_trichotomy i m with h | h | h
        · have := hlo i (by omega); omega
        · subst h; exact heq
        · have := hup i (by omega) hic; omega
      · simp only [heq, hlh, false_or, if_false]
        have hlt : lo < hi := by omega
        have hmgt : lo < m := by omega
        by_cases hsv : (node.nodes m).tval < token
        · simp only [hsv, if_true]
          have hbelow : ∀ i, i < m + 1 → (node.nodes i).tval < token := by
            intro i hi'
            exact lt_of_le_of_lt (SortedKids_le node cnt hs i m (by omega) (by omega)) hsv
          by_cases hex : ((m : Int) + 1 > (hi : Int) ∨ (hi : Int) < (m : Int) + 1)
          · simp only [hex, if_true]
            have hmh : m = hi := by omega
            refine ⟨m, rfl, by omega, fun _ i hic => ?_⟩
            rcases Nat.lt_or_ge i (m + 1) with h | h
            · have := hbelow i h; omega
            · have := hup i (by omega) hic; omega
          · simp only [hex, if_false]
            have hc : ((m : Int) + 1) = ((m + 1 : Nat) : Int) := by omega
            rw [hc]
            exact ih (m + 1) hi (m : Int) (by omega) hhi (by omega) (by omega) hbelow hup
        · simp only [hsv, if_false]
          have hgt : (node.nodes m).tval > token := by omega
          simp only [hgt, if_true]
          have habove : ∀ i, m - 1 < i → i < cnt → token < (node.nodes i).tval := by
            intro i hi' hic
            exact lt_of_lt_of_le hgt (SortedKids_le node cnt hs m i (by omega) hic)
          have hex : ¬ ((lo : Int) > (m : Int) - 1 ∨ (m : Int) - 1 < (lo : Int)) := by omega
          simp only [hex, if_false]
          have hc : ((m : Int) - 1) = ((m - 1 : Nat) : Int) := by omega
          rw [hc]
          exact ih lo (m - 1) (m : Int) (by omega) (by omega) (by omega) (by omega) hlo habove

@[simp] theorem tval_setNode (n c : fsmtrie_node) (i : Nat) :
    (n.setNode i c).tval = n.tval := by cases n <;> rfl
@[simp] theorem tval_setNnodes (n : fsmtrie_node) (k : Nat) :
    (n.setNnodes k).tval = n.tval := by cases n <;> rfl
@[simp] theorem tval_markLeaf (n : fsmtrie_node) (s : Option (List Nat)) :
    (n.markLeaf s).tval = n.tval := by cases n <;> rfl
@[simp] theorem tval_setTval (n : fsmtrie_node) (t : Nat) :
    (n.setTval t).tval = if n.isNull then 0 else t := by cases n <;> rfl
@[simp] theorem isNull_setTval (n : fsmtrie_node) (t : Nat) :
    (n.setTval t).isNull = n.isNull := by cases n <;> rfl
@[simp] theorem nodes_setTval (n : fsmtrie_node) (t i : Nat) :
    (n.setTval t).nodes i = n.nodes i := by cases n <;> rfl
@[simp] theorem leaf_setTval (n : fsmtrie_node) (t : Nat) :
    (n.setTval t).leaf = n.leaf := by cases n <;> rfl
@[simp] theorem str_setTval (n : fsmtrie_node) (t : Nat) :
    (n.setTval t).str = n.str := by cases n <;> rfl
@[simp] theorem nnodes_setTval (n : fsmtrie_node) (t : Nat) :
    (n.setTval t).nnodes = n.nnodes := by cases n <;> rfl
@[simp] theorem nnodes_setNnodes (n : fsmtrie_node) (k : Nat) :
    (n.setNnodes k).nnodes = if n.isNull then 0 else k := by cases n <;> rfl
@[simp] theorem nnodes_setNode (n c : fsmtrie_node) (i : Nat) :
    (n.setNode i c).nnodes = n.nnodes := by cases n <;> rfl
@[simp] theorem nnodes_markLeaf (n : fsmtrie_node) (s : Option (List Nat)) :
    (n.markLeaf s).nnodes = n.nnodes := by cases n <;> rfl
@[simp] theorem tval_NULL : NULL.tval = 0 := rfl
@[simp] theorem nnodes_NULL : NULL.nnodes = 0 := rfl
@[simp] theorem node_new_nnodes (m : fsmtrie_mode) : (_fsmtrie_node_new m).1.nnodes = 0 := rfl
@[simp] theorem node_new_tval (m : fsmtrie_mode) : (_fsmtrie_node_new m).1.tval = 0 := rfl

@[simp] theorem isNull_make_room (n : fsmtrie_node) (cnt p : Nat) :
    (token_make_room n cnt p).isNull = n.isNull := by cases n <;> rfl
@[simp] theorem leaf_make_room (n : fsmtrie_node) (cnt p : Nat) :
    (token_make_room n cnt p).leaf = n.leaf := by cases n <;> rfl
@[simp] theorem str_make_room (n : fsmtrie_node) (cnt p : Nat) :
    (token_make_room n cnt p).str = n.str := by cases n <;> rfl
@[simp] theorem tval_make_room (n : fsmtrie_node) (cnt p : Nat) :
    (token_make_room n cnt p).tval = n.tval := by cases n <;> rfl
@[simp] theorem nnodes_make_room (n : fsmtrie_node) (cnt p : Nat) :
    (token_make_room n cnt p).nnodes = n.nnodes := by cases n <;> rfl
theorem nodes_make_room (n : fsmtrie_node) (cnt p i : Nat) :
    (token_make_room n cnt p).nodes i =
      if i < p then n.nodes i else if i = p then NULL
      else if i ≤ cnt then n.nodes (i - 1) else NULL := by
  cases n <;> simp [token_make_room, fsmtrie_node.nodes]

theorem tchild_of_idx (node : fsmtrie_node) (cnt tok i : Nat) (hs : SortedKids node cnt)
    (hi : i < cnt) (ht : (node.nodes i).tval = tok) : tchild node cnt tok = node.nodes i := by
  unfold tchild
  cases h : (List.range cnt).find? (fun i => decide ((node.nodes i).tval = tok)) with
  | none =>
    rw [List.find?_eq_none] at h
    have := h i (List.mem_range.2 hi)
    simp [ht] at this
  | some j =>
    have hj := List.mem_range.1 (List.mem_of_find?_eq_some h)
    have hjt : (node.nodes j).tval = tok := by simpa using List.find?_some h
    rcases Nat.lt_trichotomy i j with hlt | heq | hgt
    · have := hs i j hlt hj; omega
    · subst heq; rfl
    · have := hs j i hgt hi; omega

theorem tchild_none (node : fsmtrie_node) (cnt tok : Nat)
    (h : ∀ i, i < cnt → (node.nodes i).tval ≠ tok) : tchild node cnt tok = NULL := by
  unfold tchild
  cases h' : (List.range cnt).find? (fun i => decide ((node.nodes i).tval = tok)) with
  | none => rfl
  | some j =>
    have hj := List.mem_range.1 (List.mem_of_find?_eq_some h')
    have hjt : (node.nodes j).tval = tok := by simpa using List.find?_some h'
    exact absurd hjt (h j hj)

theorem tchild_cases (node : fsmtrie_node) (cnt tok : Nat) (hs : SortedKids node cnt) :
    (∃ i, i < cnt ∧ (node.nodes i).tval = tok ∧ tchild node cnt tok = node.nodes i) ∨
    ((∀ i, i < cnt → (node.nodes i).tval ≠ tok) ∧ tchild node cnt tok = NULL) := by
  by_cases h : ∃ i, i < cnt ∧ (node.nodes i).tval = tok
  · obtain ⟨i, hi, ht⟩ := h
    exact Or.inl ⟨i, hi, ht, tchild_of_idx node cnt tok i hs hi ht⟩
  · refine Or.inr ⟨fun i hi ht => h ⟨i, hi, ht⟩, tchild_none node cnt tok (fun i hi ht => h ⟨i, hi, ht⟩)⟩

@[simp] theorem tchild_NULL (cnt tok : Nat) : tchild NULL cnt tok = NULL := by
  unfold tchild; split <;> rfl

@[simp] theorem tlookup_NULL (w : List Nat) : ∀ cnt, tlookup NULL cnt w = NULL := by
  induction w with
  | nil => intro cnt; rfl
  | cons t w ih => intro cnt; simp [tlookup, ih]

/-- Replacing the child at index `m` by a node with the same token. -/
theorem replace_child (node c' : fsmtrie_node) (cnt m : Nat) (hn : node.isNull = false)
    (hs : SortedKids node cnt) (hm : m < cnt) (hc : c'.tval = (node.nodes m).tval) :
    SortedKids (node.setNode m c') cnt ∧
    ∀ t', tchild (node.setNode m c') cnt t' =
      if t' = (node.nodes m).tval then c' else tchild node cnt t' := by
  have htv : ∀ i, ((node.setNode m c').nodes i).tval = (node.nodes i).tval := by
    intro i
    by_cases him : i = m
    · subst him; simp [hn, hc]
    · simp [hn, him]
  have hs' : SortedKids (node.setNode m c') cnt := by
    intro i j hij hj
    rw [htv, htv]; exact hs i j hij hj
  refine ⟨hs', fun t' => ?_⟩
  by_cases ht : t' = (node.nodes m).tval
  · simp only [ht, if_true]
    rw [tchild_of_idx _ cnt _ m hs' hm (by rw [htv])]
    simp [hn]
  · simp only [ht, if_false]
    rcases tchild_cases node cnt t' hs with ⟨i, hi, hit, he⟩ | ⟨hall, he⟩
    · rw [he, tchild_of_idx _ cnt t' i hs' hi (by rw [htv]; exact hit)]
      have him : i ≠ m := by
        intro h; subst h; exact ht hit.symm
      simp [hn, him]
    · rw [he]
      exact tchild_none _ cnt t' (fun i hi => by rw [htv]; exact hall i hi)

/-- Making room at the insertion point `p` and storing there a node with the
absent token `t`. -/
theorem insert_child (node c' : fsmtrie_node) (cnt p t : Nat) (hn : node.isNull = false)
    (hs : SortedKids node cnt) (hp : p ≤ cnt)
    (hlow : ∀ i, i < p → (node.nodes i).tval < t)
    (hup : ∀ i, p ≤ i → i < cnt → t < (node.nodes i).tval) (hc : c'.tval = t) :
    (∀ i, ((token_make_room node cnt p).setNode p c').nodes i =
        if i < p then node.nodes i else if i = p then c'
        else if i ≤ cnt then node.nodes (i - 1) else NULL) ∧
    SortedKids ((token_make_room node cnt p).setNode p c') (cnt + 1) ∧
    ∀ t', tchild ((token_make_room node cnt p).setNode p c') (cnt + 1) t' =
      if t' = t then c' else tchild node cnt t' := by
  have hnodes : ∀ i, ((token_make_room node cnt p).setNode p c').nodes i =
        if i < p then node.nodes i else if i = p then c'
        else if i ≤ cnt then node.nodes (i - 1) else NULL := by
    intro i
    simp only [nodes_setNode, isNull_make_room, hn, Bool.false_eq_true, if_false,
      nodes_make_room]
    by_cases h1 : i = p
    · subst h1; simp
    · simp [h1]
  have hs' : SortedKids ((token_make_room node cnt p).setNode p c') (cnt + 1) := by
    intro i j hij hj
    rw [hnodes, hnodes]
    by_cases hip : i < p
    · simp only [hip, if_true]
      by_cases hjp : j < p
      · simp only [hjp, if_true]; exact hs i j hij (by omega)
      · by_cases hjp' : j = p
        · subst hjp'; simp only [lt_irrefl, if_false, if_true, hc]; exact hlow i hip
        · have : j ≤ cnt := by omega
          simp only [hjp, hjp', this, if_false, if_true]
          exact lt_trans (hlow i hip) (hup (j - 1) (by omega) (by omega))
    · by_cases hip' : i = p
      · subst hip'
        have h1 : ¬ j < i := by omega
        have h2 : ¬ j = i := by omega
        have h3 : j ≤ cnt := by omega
        simp only [lt_irrefl, if_false, if_true, h1, h2, h3, hc]
        exact hup (j - 1) (by omega) (by omega)
      · have h1 : ¬ j < p := by omega
        have h2 : ¬ j = p := by omega
        have h3 : j ≤ cnt := by omega
        have h4 : i ≤ cnt := by omega
        simp only [hip, hip', h1, h2, h3, h4, if_false, if_true]
        exact hs (i - 1) (j - 1) (by omega) (by omega)
  refine ⟨hnodes, hs', fun t' => ?_⟩
  by_cases ht : t' = t
  · simp only [ht, if_true]
    rw [tchild_of_idx _ (cnt + 1) t p hs' (by omega) (by rw [hnodes]; simp [hc])]
    rw [hnodes]; simp
  · simp only [ht, if_false]
    rcases tchild_cases node cnt t' hs with ⟨i, hi, hit, he⟩ | ⟨hall, he⟩
    · rw [he]
      by_cases hip : i < p
      · rw [tchild_of_idx _ (cnt + 1) t' i hs' (by omega) (by rw [hnodes]; simp [hip, hit])]
        rw [hnodes]; simp [hip]
      · have h1 : ¬ i + 1 < p := by omega
        have h2 : ¬ i + 1 = p := by omega
        have h3 : i + 1 ≤ cnt := by omega
        rw [tchild_of_idx _ (cnt + 1) t' (i + 1) hs' (by omega)
          (by rw [hnodes]; simp [h1, h2, h3, hit])]
        rw [hnodes]; simp [h1, h2, h3]
    · rw [he]
      apply tchild_none
      intro i hi
      rw [hnodes]
      by_cases hip : i < p
      · simp only [hip, if_true]; exact hall i (by omega)
      · by_cases hip' : i = p
        · simp only [hip', lt_irrefl, if_false, if_true, hc]; exact fun h => ht h.symm
        · have : i ≤ cnt := by omega
          simp only [hip, hip', this, if_false, if_true]
          exact hall (i - 1) (by omega)

theorem TokWF_mono (N M : Nat) (hNM : N ≤ M) (node : fsmtrie_node) (cnt : Nat)
    (h : TokWF N node cnt) : TokWF M node cnt := by
  induction h with
  | mk node cnt hn hc hk hs _ ih => exact TokWF.mk node cnt hn (by omega) hk hs ih

theorem TokWF_congr (N : Nat) (node node' : fsmtrie_node) (cnt : Nat)
    (h : TokWF N node cnt) (hn : node'.isNull = node.isNull)
    (hk : ∀ i, node'.nodes i = node.nodes i) : TokWF N node' cnt := by
  cases h with
  | mk _ _ h1 h2 h3 h4 h5 =>
    refine TokWF.mk node' cnt (by rw [hn]; exact h1) h2 (fun i hi => by rw [hk]; exact h3 i hi)
      (fun i j hij hj => by rw [hk, hk]; exact h4 i j hij hj)
      (fun i hi => by rw [hk]; exact h5 i hi)

theorem tchild_congr (node node' : fsmtrie_node) (cnt t : Nat)
    (hk : ∀ i, node'.nodes i = node.nodes i) : tchild node' cnt t = tchild node cnt t := by
  have : node'.nodes = node.nodes := funext hk
  unfold tchild
  simp only [this]

/-- The fields of a node that the exact searches read. -/
theorem tlookup_congr (node node' : fsmtrie_node) (cnt : Nat) (w : List Nat)
    (hn : node'.isNull = node.isNull) (hl : node'.leaf = node.leaf) (hs : node'.str = node.str)
    (hk : ∀ i, node'.nodes i = node.nodes i) :
    (tlookup node' cnt w).isNull = (tlookup node cnt w).isNull ∧
    (tlookup node' cnt w).leaf = (tlookup node cnt w).leaf ∧
    (tlookup node' cnt w).str = (tlookup node cnt w).str := by
  cases w with
  | nil => exact ⟨hn, hl, hs⟩
  | cons t w => simp only [tlookup, tchild_congr node node' cnt t hk, and_self]

theorem tlookup_leafless (node : fsmtrie_node) (hl : node.leaf = false) (w : List Nat) :
    (tlookup node 0 w).leaf = false ∧ (w ≠ [] → tlookup node 0 w = NULL) := by
  cases w with
  | nil => exact ⟨hl, fun h => absurd rfl h⟩
  | cons t w =>
    have : tchild node 0 t = NULL := tchild_none node 0 t (fun i hi => by omega)
    simp [tlookup, this]

/-- The exact token search follows `tlookup`. -/
theorem search_token_walk_spec (N : Nat) : ∀ (k : List Nat) (node : fsmtrie_node) (cnt : Nat),
    TokWF N node cnt →
    search_token_walk node cnt k =
      some (if (tlookup node cnt k).isNull then none else some (tlookup node cnt k)) := by
  intro k
  induction k with
  | nil =>
    intro node cnt h
    cases h with
    | mk _ _ hn _ _ _ _ => simp [search_token_walk, tlookup, hn]
  | cons t rest ih =>
    intro node cnt h
    cases h with
    | mk _ _ hn hc hk hs hr =>
      by_cases hz : cnt = 0
      · subst hz
        have : tchild node 0 t = NULL := tchild_none node 0 t (fun i hi => by omega)
        simp [search_token_walk, search_token_loop, tlookup, this]
      · obtain ⟨m, hloop, hm, hnf⟩ :=
          search_token_loop_spec node t cnt hs (cnt + 1) 0 (cnt - 1) 0 (by omega) (by omega)
            (by omega) (by omega) (fun i hi => by omega) (fun i h1 h2 => by omega)
        have hcast : ((cnt : Int) - 1) = ((cnt - 1 : Nat) : Int) := by omega
        simp only [Nat.cast_zero] at hloop
        simp only [search_token_walk, hz, if_false, hcast, hloop]
        have hne : ¬ ((m : Int) = -1) := by omega
        by_cases heq : (node.nodes m).tval = t
        · have hch := tchild_of_idx node cnt t m hs hm heq
          simp only [hne, false_or, heq, ne_eq, not_true_eq_false, if_false, Int.toNat_ofNat,
            tlookup, hch]
          exact ih _ _ (hr m hm)
        · have hch := tchild_none node cnt t (hnf heq)
          simp [hne, heq, tlookup, hch]

/-- Effect of the token insertion walk on every path of the subtree, as long
as no child count can wrap. -/
theorem insert_token_walk_spec (N : Nat) (hN : N < 65535) (str : Option (List Nat)) :
    ∀ (k : List Nat) (node : fsmtrie_node) (cnt : Nat), TokWF N node cnt →
      ∃ node' cnt',
        insert_token_walk str node cnt k =
          some (node', cnt', if (tlookup node cnt k).leaf then token_walk_end.duplicate
                             else token_walk_end.added) ∧
        TokWF (N + 1) node' cnt' ∧ node'.tval = node.tval ∧
        ∀ w : List Nat,
          ((tlookup node' cnt' w).isNull =
              ((tlookup node cnt w).isNull && !decide (w <+: k))) ∧
          ((tlookup node' cnt' w).leaf = ((tlookup node cnt w).leaf || decide (w = k))) ∧
          ((tlookup node' cnt' w).str =
              if w = k ∧ (tlookup node cnt k).leaf = false then
                (match str with | some x => some x | none => (tlookup node cnt k).str)
              else (tlookup node cnt w).str) := by
  intro k
  induction k with
  | nil =>
    intro node cnt h
    have h' := TokWF_mono N (N + 1) (by omega) node cnt h
    cases h with
    | mk _ _ hn hc hk hs hr =>
      by_cases hl : node.leaf = true
      · refine ⟨node, cnt, by simp [insert_token_walk, tlookup, hl], h', rfl, fun w => ?_⟩
        cases w <;> simp [tlookup, hn, hl]
      · simp only [Bool.not_eq_true] at hl
        refine ⟨node.markLeaf str, cnt, by simp [insert_token_walk, tlookup, hl],
          TokWF_congr _ node _ cnt h' (by simp) (by simp), by simp, fun w => ?_⟩
        cases w with
        | nil => cases str <;> simp [tlookup, hn, hl]
        | cons t w =>
          have := tchild_congr node (node.markLeaf str) cnt t (by simp)
          simp [tlookup, this]
  | cons t rest ih =>
    intro node cnt h
    have h' := TokWF_mono N (N + 1) (by omega) node cnt h
    cases h with
    | mk _ _ hn hc hk hs hr =>
      rcases get_token_idx_spec node t cnt hs with ⟨m, hm, hmt, hget⟩ | ⟨p, hp, hlow, hup, hget⟩
      · -- the token is present at index `m`
        obtain ⟨c', cc', hwalk, hwf, htv, hfacts⟩ := ih (node.nodes m) (node.nodes m).nnodes (hr m hm)
        have hch := tchild_of_idx node cnt t m hs hm hmt
        have hcn : c'.isNull = false := by cases hwf with | mk _ _ h1 _ _ _ _ => exact h1
        obtain ⟨hs', hch'⟩ := replace_child node (c'.setNnodes cc') cnt m hn hs hm
          (by simp [htv])
        refine ⟨node.setNode m (c'.setNnodes cc'), cnt, ?_, ?_, by simp, fun w => ?_⟩
        · simp only [insert_token_walk, hget, Option.getD_some, tlookup, hch]
          simp only [show ¬ ((0 : Int) < 0) by omega, show ¬ ((0 : Int) > 0) by omega, if_false,
            hwalk]
        · refine TokWF.mk _ cnt (by simp [hn]) (by omega) (fun i hi => ?_) hs' (fun i hi => ?_)
          · by_cases him : i = m
            · subst him; simp [hn, hcn]
            · simp [hn, him]; exact hk i hi
          · by_cases him : i = m
            · subst him
              simp only [nodes_setNode, hn, Bool.false_eq_true, if_false, if_true,
                nnodes_setNnodes, hcn]
              exact TokWF_congr _ c' _ cc' hwf (by simp) (by simp)
            · simp only [nodes_setNode, hn, Bool.false_eq_true, if_false, him]
              exact TokWF_mono N (N + 1) (by omega) _ _ (hr i hi)
        · cases w with
          | nil => simp [tlookup, hn]
          | cons t' w' =>
            simp only [tlookup, hch', hmt, hch]
            by_cases htt : t' = t
            · subst htt
              obtain ⟨a, b, c⟩ := hfacts w'
              obtain ⟨a', b', c''⟩ := tlookup_congr c' (c'.setNnodes cc') cc' w' (by simp)
                (by simp) (by simp) (by simp)
              simp only [if_true, nnodes_setNnodes, hcn, Bool.false_eq_true, if_false, a', b',
                c'', a, b, c, List.cons_prefix_cons, true_and, List.cons.injEq, hch, and_self]
            · simp [htt, List.cons_prefix_cons]
      · -- the token is absent: a new child is created at index `p`
        have hnew : TokWF N ((_fsmtrie_node_new fsmtrie_mode_token).1.setTval t) 0 :=
          TokWF.mk _ 0 (by simp) (by omega) (fun i hi => by omega)
            (fun i j _ hj => by omega) (fun i hi => by omega)
        obtain ⟨c', cc', hwalk, hwf, htv, hfacts⟩ := ih _ 0 hnew
        have hcn : c'.isNull = false := by cases hwf with | mk _ _ h1 _ _ _ _ => exact h1
        have hall : ∀ i, i < cnt → (node.nodes i).tval ≠ t := by
          intro i hi
          rcases Nat.lt_or_ge i p with h | h
          · have := hlow i h; omega
          · have := hup i h hi; omega
        have hch := tchild_none node cnt t hall
        have hc't : (c'.setNnodes cc').tval = t := by simp [htv]
        obtain ⟨hnodes, hs', hch'⟩ := insert_child node (c'.setNnodes cc') cnt p t hn hs hp hlow
          hup hc't
        have hll := fun w => tlookup_leafless ((_fsmtrie_node_new fsmtrie_mode_token).1.setTval t)
          (by simp) w
        have hsame : ((token_make_room node cnt p).setNode p
              ((_fsmtrie_node_new fsmtrie_mode_token).1.setTval t)).setNode p (c'.setNnodes cc')
            = (token_make_room node cnt p).setNode p (c'.setNnodes cc') := by
          cases node with
          | NULL => rfl
          | mk s l o st tv n ns => simp [token_make_room, setNode]
        have hmod : (cnt + 1) % 65536 = cnt + 1 := Nat.mod_eq_of_lt (by omega)
        refine ⟨(token_make_room node cnt p).setNode p (c'.setNnodes cc'), cnt + 1, ?_, ?_,
          by simp, fun w => ?_⟩
        · simp only [insert_token_walk, hget, Option.getD_some, tlookup, hch]
          simp only [show ¬ ((1 : Int) < 0) by omega, show ((1 : Int) > 0) by omega, if_false,
            if_true, nodes_setNode, isNull_make_room, hn, Bool.false_eq_true, nnodes_setTval,
            node_new_nnodes, hwalk, hsame, hmod, (hll rest).1, leaf_NULL, tlookup_NULL]
        · refine TokWF.mk _ (cnt + 1) (by simp [hn]) (by omega) (fun i hi => ?_) hs'
            (fun i hi => ?_)
          · rw [hnodes]
            by_cases h1 : i < p
            · simp only [h1, if_true]; exact hk i (by omega)
            · by_cases h2 : i = p
              · simp [h2, hcn]
              · have h3 : i ≤ cnt := by omega
                simp only [h1, h2, h3, if_false, if_true]; exact hk (i - 1) (by omega)
          · rw [hnodes]
            by_cases h1 : i < p
            · simp only [h1, if_true]; exact TokWF_mono N (N + 1) (by omega) _ _ (hr i (by omega))
            · by_cases h2 : i = p
              · simp only [h2, lt_irrefl, if_false, if_true, nnodes_setNnodes, hcn,
                  Bool.false_eq_true]
                exact TokWF_congr _ c' _ cc' hwf (by simp) (by simp)
              · have h3 : i ≤ cnt := by omega
                simp only [h1, h2, h3, if_false, if_true]
                exact TokWF_mono N (N + 1) (by omega) _ _ (hr (i - 1) (by omega))
        · cases w with
          | nil => simp [tlookup, hn]
          | cons t' w' =>
            simp only [tlookup, hch', hch]
            by_cases htt : t' = t
            · subst htt
              obtain ⟨a, b, c⟩ := hfacts w'
              obtain ⟨a', b', c''⟩ := tlookup_congr c' (c'.setNnodes cc') cc' w' (by simp)
                (by simp) (by simp) (by simp)
              simp only [if_true, nnodes_setNnodes, hcn, Bool.false_eq_true, if_false, a', b',
                c'', a, b, c, List.cons_prefix_cons, true_and, List.cons.injEq, hch,
                tlookup_NULL, nnodes_NULL, (hll rest).1, (hll w').1]
              by_cases hw : w' = []
              · subst hw
                simp [tlookup]
                cases rest <;> simp [tlookup]
              · simp only [(hll w').2 hw]
                by_cases hwr : w' = rest
                · subst hwr; simp [(hll w').2 hw]
                · simp [hwr]
            · simp [htt, List.cons_prefix_cons]

theorem THolds_init (o : Option fsmtrie_opt) (f0 : fsmtrie) (h : fsmtrie_init o = some f0)
    (hm : f0.mode = fsmtrie_mode_token) : THolds f0 [] 0 := by
  have hr : f0.root = (_fsmtrie_node_new fsmtrie_mode_token).1 ∧ f0.nrnodes = 0 := by
    unfold fsmtrie_init at h
    rcases o with _ | ⟨m, pm, ml⟩
    · simp at h; subst h; cases hm
    · cases m
      · simp at h; subst h; cases hm
      · simp at h; subst h; cases hm
      · simp at h; obtain ⟨_, h⟩ := h; subst h; exact ⟨rfl, rfl⟩
  have hl := fun w => tlookup_leafless (_fsmtrie_node_new fsmtrie_mode_token).1 rfl w
  have hw : TokWF 0 (_fsmtrie_node_new fsmtrie_mode_token).1 0 :=
    TokWF.mk _ 0 rfl (by omega) (fun i hi => by omega) (fun i j _ hj => by omega)
      (fun i hi => by omega)
  refine ⟨hm, by rw [hr.1, hr.2]; exact hw, ?_, ?_, ?_⟩
  · intro w; rw [hr.1, hr.2]
    by_cases hw : w = []
    · subst hw; simp [tlookup]
    · simp [(hl w).2 hw, hw]
  · intro w; rw [hr.1, hr.2]; simp [(hl w).1]
  · intro w; rw [hr.1, hr.2]
    by_cases hw : w = []
    · subst hw; simp [tlookup]
    · simp [(hl w).2 hw]

/-- One `fsmtrie_insert_token` call on a token trie without a full node: it
returns, true exactly when the key is not longer than a positive `max_len`,
and the trie then stores the key as well. -/
theorem THolds_step (f : fsmtrie) (A : List (List Nat × Option (List Nat))) (N : Nat)
    (hH : THolds f A N) (hN : N < 65535) (k : List Nat) (s : Option (List Nat)) :
    ∃ b f', fsmtrie_insert_token f k s = some (b, f') ∧
      (b = true ↔ (f.max_len = 0 ∨ k.length ≤ f.max_len)) ∧
      f'.max_len = f.max_len ∧
      THolds f' (A ++ if b then [(k, s)] else []) (N + 1) := by
  have hroot : f.root.isNull = false := by
    cases hH.wf with | mk _ _ h1 _ _ _ _ => exact h1
  have hmode : ¬ (f.mode ≠ fsmtrie_mode_token) := by simp [hH.mode]
  by_cases hlen : f.max_len > 0 ∧ k.length > f.max_len
  · refine ⟨false, { f with err_buf := err_msg.token_string_too_long k.length f.max_len }, ?_,
      ?_, rfl, ?_⟩
    · simp [fsmtrie_insert_token, hroot, hmode, hlen]
    · constructor
      · intro h; cases h
      · intro h; omega
    · simp only [Bool.false_eq_true, if_false, List.append_nil]
      exact ⟨hH.mode, TokWF_mono N (N + 1) (by omega) _ _ hH.wf, hH.exist, hH.leaf, hH.str⟩
  · obtain ⟨node', cnt', hwalk, hwf, _, hfacts⟩ :=
      insert_token_walk_spec N hN s k f.root f.nrnodes hH.wf
    have hacc : f.max_len = 0 ∨ k.length ≤ f.max_len := by omega
    have key : ∀ (f' : fsmtrie), f'.root = node' → f'.nrnodes = cnt' → f'.mode = f.mode →
        THolds f' (A ++ [(k, s)]) (N + 1) := by
      intro f' hr hc hm
      refine ⟨by rw [hm]; exact hH.mode, by rw [hr, hc]; exact hwf, ?_, ?_, ?_⟩
      · intro w
        rw [hr, hc, (hfacts w).1]
        have := hH.exist w
        simp only [Bool.and_eq_false_imp, Bool.not_eq_eq_eq_not, Bool.not_false,
          decide_eq_true_eq, List.mem_append, List.mem_singleton]
        constructor
        · intro h
          by_cases hp : w <+: k
          · exact Or.inr ⟨(k, s), Or.inr rfl, hp⟩
          · have hx : (tlookup f.root f.nrnodes w).isNull = false := by
              cases hq : (tlookup f.root f.nrnodes w).isNull
              · rfl
              · exact absurd (h hq) hp
            rcases this.1 hx with h | ⟨c, hc, hcw⟩
            · exact Or.inl h
            · exact Or.inr ⟨c, Or.inl hc, hcw⟩
        · rintro (h | ⟨c, hc | hc, hcw⟩) hq
          · subst h; simp
          · have := this.2 (Or.inr ⟨c, hc, hcw⟩); rw [this] at hq; cases hq
          · subst hc; exact hcw
      · intro w
        rw [hr, hc, (hfacts w).2.1]
        have := hH.leaf w
        simp only [Bool.or_eq_true, decide_eq_true_eq, this, List.mem_append,
          List.mem_singleton]
        constructor
        · rintro (⟨c, hc, hcw⟩ | h)
          · exact ⟨c, Or.inl hc, hcw⟩
          · exact ⟨(k, s), Or.inr rfl, h.symm⟩
        · rintro ⟨c, hc | hc, hcw⟩
          · exact Or.inl ⟨c, hc, hcw⟩
          · subst hc; exact Or.inr hcw.symm
      · intro w
        rw [hr, hc, (hfacts w).2.2, List.lookup_append, hH.str w]
        by_cases hwk : w = k
        · subst hwk
          by_cases hl : (tlookup f.root f.nrnodes w).leaf = true
          · obtain ⟨c, hc, hcw⟩ := (hH.leaf w).1 hl
            have : (A.lookup w).isSome := by
              rw [List.lookup_isSome_iff]; exact ⟨c, hc, by simp [hcw]⟩
            obtain ⟨v, hv⟩ := Option.isSome_iff_exists.1 this
            simp [hl, hv]
          · simp only [Bool.not_eq_true] at hl
            have hn : A.lookup w = none :=
              lookup_none_of_not_mem A w (fun h => by
                have := (hH.leaf w).2 h; rw [hl] at this; cases this)
            have hs := hH.str w
            rw [hn] at hs
            simp only [hl, and_self, if_true, hn, hs]
            cases s <;> simp [List.lookup]
        · have : (List.lookup w [(k, s)]) = none := by
            have hb : (w == k) = false := by simpa using hwk
            simp [List.lookup, hb]
          simp [hwk, this]
    by_cases hl : (tlookup f.root f.nrnodes k).leaf = true
    · simp only [hl, if_true] at hwalk
      refine ⟨true, { f with root := node', nrnodes := cnt' }, ?_, by simp [hacc], rfl, ?_⟩
      · simp [fsmtrie_insert_token, hroot, hmode, hlen, hwalk]
      · simp only [if_true]; exact key _ rfl rfl rfl
    · simp only [hl, if_false] at hwalk
      refine ⟨true,
        { f with root := node', nrnodes := cnt', node_cnt := f.node_cnt + 1,
                 ac_compiled := false, key_cnt := f.key_cnt + 1 },
        ?_, by simp [hacc], rfl, ?_⟩
      · simp [fsmtrie_insert_token, hroot, hmode, hlen, hwalk]
      · simp only [if_true]; exact key _ rfl rfl rfl

theorem THolds_run (ops : List (List Nat × Option (List Nat))) :
    ∀ (f : fsmtrie) (A : List (List Nat × Option (List Nat))) (N : Nat), THolds f A N →
      N + ops.length ≤ 65535 →
      ∃ F, run_token_inserts f ops = some F ∧ F.max_len = f.max_len ∧
        THolds F (A ++ accepted_token_inserts f ops) (N + ops.length) := by
  induction ops with
  | nil => intro f A N h _; exact ⟨f, rfl, rfl, by simpa [accepted_token_inserts] using h⟩
  | cons c rest ih =>
    intro f A N h hlen
    simp only [List.length_cons] at hlen
    obtain ⟨b, f', hins, _, hml, hH'⟩ := THolds_step f A N h (by omega) c.1 c.2
    obtain ⟨F, hrun, hml', hF⟩ := ih f' _ (N + 1) hH' (by omega)
    refine ⟨F, by simp [run_token_inserts, hins, hrun], by rw [hml', hml], ?_⟩
    have hN : N + 1 + rest.length = N + (c :: rest).length := by simp; omega
    rw [hN] at hF
    simp only [accepted_token_inserts, hins]
    cases b
    · simpa using hF
    · simpa using hF

/-- Exact token search on a token trie without a full node. -/
theorem token_search_of_THolds (f : fsmtrie) (A : List (List Nat × Option (List Nat)))
    (N : Nat) (hH : THolds f A N) (q : List Nat) (hq : q ≠ []) (str0 : Option (List Nat)) :
    fsmtrie_search_token f (some q) str0 =
      some (match A.lookup q with
            | some s => ⟨1, s, f⟩
            | none => ⟨0, none, f⟩) := by
  have hroot : f.root.isNull = false := by
    cases hH.wf with | mk _ _ h1 _ _ _ _ => exact h1
  have hmode : ¬ (f.mode ≠ fsmtrie_mode_token) := by simp [hH.mode]
  have hlen : ¬ (q.length = 0) := by
    intro h; exact hq (List.length_eq_zero.1 h)
  simp only [fsmtrie_search_token, hroot, Bool.false_eq_true, if_false, hlen, hmode,
    search_token_walk_spec N q f.root f.nrnodes hH.wf]
  cases hl : A.lookup q with
  | none =>
    have hnl : (tlookup f.root f.nrnodes q).leaf = false := by
      cases h : (tlookup f.root f.nrnodes q).leaf
      · rfl
      · obtain ⟨c, hc, hcq⟩ := (hH.leaf q).1 h
        have : (A.lookup q).isSome := by
          rw [List.lookup_isSome_iff]; exact ⟨c, hc, by simp [hcq]⟩
        rw [hl] at this; cases this
    by_cases hn : (tlookup f.root f.nrnodes q).isNull = true
    · simp [hn]
    · simp [hn, hnl]
  | some s =>
    have hmem : ∃ c ∈ A, c.1 = q := by
      have : (A.lookup q).isSome := by rw [hl]; rfl
      rw [List.lookup_isSome_iff] at this
      obtain ⟨p, hp, hpk⟩ := this
      exact ⟨p, hp, (by simpa using hpk : q = p.1).symm⟩
    obtain ⟨c, hc, hcq⟩ := hmem
    have hex : (tlookup f.root f.nrnodes q).isNull = false :=
      (hH.exist q).2 (Or.inr ⟨c, hc, by rw [hcq]⟩)
    have hlf : (tlookup f.root f.nrnodes q).leaf = true := (hH.leaf q).2 ⟨c, hc, hcq⟩
    simp [hex, hlf, hH.str q, hl]

/-- Token round trip below the wrap of the 16 bit child counts: after at most
65535 `fsmtrie_insert_token` calls on a fresh token trie every call and every
search returns, and a non-empty query is found with the string of its first
accepted insert exactly when it is one of the accepted keys. -/
theorem token_round_trip_below_wrap (o : Option fsmtrie_opt) (f0 : fsmtrie)
    (ops : List (List Nat × Option (List Nat))) (q : List Nat) (str0 : Option (List Nat))
    (hinit : fsmtrie_init o = some f0) (hmode : f0.mode = fsmtrie_mode_token)
    (hlen : ops.length ≤ 65535) (hq : q ≠ []) :
    ∃ F, run_token_inserts f0 ops = some F ∧
      fsmtrie_search_token F (some q) str0 =
        some (match (accepted_token_inserts f0 ops).lookup q with
              | some s => ⟨1, s, F⟩
              | none => ⟨0, none, F⟩) := by
  obtain ⟨F, hrun, _, hH⟩ := THolds_run ops f0 [] 0 (THolds_init o f0 hinit hmode) (by omega)
  refine ⟨F, hrun, ?_⟩
  simp only [List.nil_append] at hH
  exact token_search_of_THolds F _ _ hH q hq str0

theorem run_token_inserts_append (a b : List (List Nat × Option (List Nat))) :
    ∀ f : fsmtrie, run_token_inserts f (a ++ b) =
      (run_token_inserts f a).bind (fun g => run_token_inserts g b) := by
  induction a with
  | nil => intro f; rfl
  | cons c a ih =>
    intro f
    simp only [List.cons_append, run_token_inserts]
    cases fsmtrie_insert_token f c.1 c.2 with
    | none => rfl
    | some r => exact ih r.2

theorem accepted_token_inserts_append (a b : List (List Nat × Option (List Nat))) :
    ∀ f g : fsmtrie, run_token_inserts f a = some g →
      accepted_token_inserts f (a ++ b) =
        accepted_token_inserts f a ++ accepted_token_inserts g b := by
  induction a with
  | nil => intro f g h; simp only [run_token_inserts, Option.some.injEq] at h; subst h; rfl
  | cons c a ih =>
    intro f g h
    simp only [List.cons_append, run_token_inserts, accepted_token_inserts] at h ⊢
    cases hins : fsmtrie_insert_token f c.1 c.2 with
    | none => rw [hins] at h; cases h
    | some r =>
      rw [hins] at h
      simp only [List.append_eq] at h ⊢
      rw [ih r.2 g h]
      split <;> simp

theorem accepted_all (ops : List (List Nat × Option (List Nat))) :
    ∀ (f : fsmtrie) (A : List (List Nat × Option (List Nat))) (N : Nat), THolds f A N →
      N + ops.length ≤ 65535 → f.max_len = 0 → accepted_token_inserts f ops = ops := by
  induction ops with
  | nil => intro f A N _ _ _; rfl
  | cons c rest ih =>
    intro f A N h hlen hml
    simp only [List.length_cons] at hlen
    obtain ⟨b, f', hins, hb, hml', hH'⟩ := THolds_step f A N h (by omega) c.1 c.2
    have hbt : b = true := hb.2 (Or.inl hml)
    subst hbt
    simp only [accepted_token_inserts, hins, if_true]
    rw [ih f' _ (N + 1) hH' (by omega) (by rw [hml', hml])]

/-- Counting the children of a node that carries every token below `n`. -/
theorem kids_ge (node : fsmtrie_node) (cnt n : Nat)
    (h : ∀ i, i < n → ∃ j, j < cnt ∧ (node.nodes j).tval = i) : n ≤ cnt := by
  have hsub : Finset.range n ⊆ (Finset.range cnt).image (fun j => (node.nodes j).tval) := by
    intro i hi
    obtain ⟨j, hj, hji⟩ := h i (Finset.mem_range.1 hi)
    exact Finset.mem_image.2 ⟨j, Finset.mem_range.2 hj, hji⟩
  have := Finset.card_le_card hsub
  have h2 := Finset.card_image_le (s := Finset.range cnt) (f := fun j => (node.nodes j).tval)
  simp only [Finset.card_range] at this h2
  omega

/-- The insert of a new first token into a root that already has 65535
children: the call returns true and the 16 bit child count wraps to 0. -/
theorem wrap_step (f : fsmtrie) (A : List (List Nat × Option (List Nat)))
    (hH : THolds f A 65535) (hcnt : f.nrnodes = 65535) (hml : f.max_len = 0) (t : Nat)
    (habs : ¬ ∃ c ∈ A, [t] <+: c.1) (s : Option (List Nat)) :
    ∃ f', fsmtrie_insert_token f [t] s = some (true, f') ∧ f'.nrnodes = 0 ∧
      f'.root.isNull = false ∧ f'.mode = fsmtrie_mode_token := by
  have hmode : ¬ (f.mode ≠ fsmtrie_mode_token) := by simp [hH.mode]
  cases hwf : hH.wf with
  | mk _ _ hn hc hk hs hr =>
    have hnull : (tchild f.root f.nrnodes t).isNull = true := by
      have := hH.exist [t]
      simp only [tlookup, List.cons_ne_self, false_or] at this
      cases h : (tchild f.root f.nrnodes t).isNull
      · exact absurd (this.1 h) habs
      · rfl
    have hall : ∀ i, i < f.nrnodes → (f.root.nodes i).tval ≠ t := by
      intro i hi hit
      rw [tchild_of_idx f.root f.nrnodes t i hs hi hit, hk i hi] at hnull
      cases hnull
    rcases get_token_idx_spec f.root t f.nrnodes hs with ⟨m, hm, hmt, _⟩ | ⟨p, hp, _, _, hget⟩
    · exact absurd hmt (hall m hm)
    · have hw : insert_token_walk s f.root f.nrnodes [t] =
          some ((token_make_room f.root f.nrnodes p).setNode p
            ((((_fsmtrie_node_new fsmtrie_mode_token).1.setTval t).markLeaf s).setNnodes 0),
            0, token_walk_end.added) := by
        simp only [insert_token_walk, hget, Option.getD_some]
        simp only [show ¬ ((1 : Int) < 0) by omega, show ((1 : Int) > 0) by omega, if_false,
          if_true, nodes_setNode, isNull_make_room, hn, Bool.false_eq_true, leaf_setTval,
          node_new_leaf, nnodes_setTval, node_new_nnodes, hcnt]
        have hsame : ∀ (x y : fsmtrie_node), ((token_make_room f.root 65535 p).setNode p x).setNode p y
            = (token_make_room f.root 65535 p).setNode p y := by
          intro x y
          cases f.root with
          | NULL => rfl
          | mk s l o st tv n ns => simp [token_make_room, setNode]
        simp [hsame]
      have hnn : ((token_make_room f.root f.nrnodes p).setNode p
            ((((_fsmtrie_node_new fsmtrie_mode_token).1.setTval t).markLeaf s).setNnodes 0)).isNull
          = false := by simp [hn]
      generalize (token_make_room f.root f.nrnodes p).setNode p
            ((((_fsmtrie_node_new fsmtrie_mode_token).1.setTval t).markLeaf s).setNnodes 0)
          = node' at hw hnn
      refine ⟨{ f with root := node', nrnodes := 0, node_cnt := f.node_cnt + 1,
                       ac_compiled := false, key_cnt := f.key_cnt + 1 }, ?_, rfl, hnn, hH.mode⟩
      simp only [fsmtrie_insert_token, hn, Bool.false_eq_true, if_false, hmode, hml,
        gt_iff_lt, lt_irrefl, false_and, hw]

theorem single_token_calls_succ (n : Nat) :
    single_token_calls (n + 1) = single_token_calls n ++ [([n], none)] := by
  simp [single_token_calls, List.range_succ]

/-- C4 fails once a node has 65536 children: after the 65536 accepted inserts
of the one token keys 0 .. 65535 on a fresh token trie, the root child count
`nrnodes` has wrapped to 0 and `fsmtrie_search_token` returns 0 for the
inserted key 0. -/
theorem C4_child_count_wraps :
    fsmtrie_init (some ⟨fsmtrie_mode_token, false, 0⟩) = some trie_tok ∧
    (∀ c ∈ single_token_calls 65536, c.1 ≠ []) ∧
    ∃ F, run_token_inserts trie_tok (single_token_calls 65536) = some F ∧
      accepted_token_inserts trie_tok (single_token_calls 65536) = single_token_calls 65536 ∧
      ([0], none) ∈ single_token_calls 65536 ∧ F.nrnodes = 0 ∧
      fsmtrie_search_token F (some [0]) none = some ⟨0, none, F⟩ := by
  refine ⟨rfl, ?_, ?_⟩
  · intro c hc
    obtain ⟨i, _, hi⟩ := List.mem_map.1 hc
    subst hi; simp
  · have hlen : (single_token_calls 65535).length = 65535 := by simp [single_token_calls]
    have h0 := THolds_init (some ⟨fsmtrie_mode_token, false, 0⟩) trie_tok rfl rfl
    obtain ⟨F1, hrun1, hml1, hH1⟩ := THolds_run (single_token_calls 65535) trie_tok [] 0 h0
      (by rw [hlen])
    have hacc1 := accepted_all (single_token_calls 65535) trie_tok [] 0 h0 (by rw [hlen]) rfl
    rw [hlen] at hH1
    simp only [List.nil_append, hacc1, Nat.zero_add] at hH1
    have hml : F1.max_len = 0 := hml1
    have hcnt : F1.nrnodes = 65535 := by
      cases hwf : hH1.wf with
      | mk _ _ hn hc hk hs hr =>
        have := kids_ge F1.root F1.nrnodes 65535 (by
          intro i hi
          have hex := (hH1.exist [i]).2 (Or.inr ⟨([i], none),
            List.mem_map.2 ⟨i, List.mem_range.2 hi, rfl⟩, List.prefix_refl _⟩)
          simp only [tlookup] at hex
          rcases tchild_cases F1.root F1.nrnodes i hs with ⟨j, hj, hji, _⟩ | ⟨_, hnone⟩
          · exact ⟨j, hj, hji⟩
          · rw [hnone] at hex; cases hex)
        omega
    have habs : ¬ ∃ c ∈ single_token_calls 65535, [65535] <+: c.1 := by
      rintro ⟨c, hc, hpre⟩
      obtain ⟨i, hi, hic⟩ := List.mem_map.1 hc
      subst hic
      have hi' := List.mem_range.1 hi
      have : (65535 : Nat) = i := (List.cons_prefix_cons.1 hpre).1
      omega
    obtain ⟨F, hins, hnr, hroot, hmode⟩ := wrap_step F1 _ hH1 hcnt hml 65535 habs none
    have hrun : run_token_inserts trie_tok (single_token_calls 65536) = some F := by
      rw [single_token_calls_succ, run_token_inserts_append, hrun1]
      simp [run_token_inserts, hins]
    refine ⟨F, hrun, ?_, List.mem_map.2 ⟨0, List.mem_range.2 (by omega), rfl⟩, hnr, ?_⟩
    · rw [single_token_calls_succ, accepted_token_inserts_append _ _ _ _ hrun1, hacc1]
      simp [accepted_token_inserts, hins]
    · simp [fsmtrie_search_token, hroot, hmode, hnr, search_token_walk, search_token_loop]

theorem get_token_idx_ret (node : fsmtrie_node) (cnt tok : Nat) (r : token_idx_result)
    (h : _fsmtrie_get_token_idx node cnt tok true = some r) : ¬ (r.ret < 0) := by
  unfold _fsmtrie_get_token_idx at h
  split at h
  · cases h
  · simp only [Option.some.injEq] at h; subst h; simp
  · simp only [Bool.not_true, Bool.false_eq_true, if_false, Option.some.injEq] at h
    subst h; simp

theorem insert_token_walk_never_fails (str : Option (List Nat)) : ∀ (k : List Nat)
    (node : fsmtrie_node) (cnt : Nat) (r : fsmtrie_node × Nat × token_walk_end),
    insert_token_walk str node cnt k = some r → r.2.2 ≠ token_walk_end.cannot_insert := by
  intro k
  induction k with
  | nil =>
    intro node cnt r h
    simp only [insert_token_walk] at h
    split at h <;> (simp only [Option.some.injEq] at h; subst h; simp)
  | cons t rest ih =>
    intro node cnt r h
    simp only [insert_token_walk] at h
    cases hg : _fsmtrie_get_token_idx node cnt t true with
    | none => rw [hg] at h; cases h
    | some g =>
      rw [hg] at h
      have hret := get_token_idx_ret node cnt t g hg
      simp only [hret, if_false] at h
      split at h
      · cases h
      · rename_i c hc
        simp only [Option.some.injEq] at h
        subst h
        exact ih _ _ c hc

/-- A rejected token insert changes nothing but the error buffer. -/
theorem fsmtrie_insert_token_rejected (f f' : fsmtrie) (tkey : List Nat)
    (str : Option (List Nat)) (h : fsmtrie_insert_token f tkey str = some (false, f')) :
    ∃ e, f' = { f with err_buf := e } := by
  unfold fsmtrie_insert_token at h
  split at h
  · simp only [Option.some.injEq, Prod.mk.injEq, true_and] at h; exact ⟨_, h.symm⟩
  · split at h
    · simp only [Option.some.injEq, Prod.mk.injEq, true_and] at h; exact ⟨_, h.symm⟩
    · split at h
      · simp only [Option.some.injEq, Prod.mk.injEq, true_and] at h; exact ⟨_, h.symm⟩
      · split at h
        · cases h
        · rename_i root cnt hw
          exact absurd rfl (insert_token_walk_never_fails str tkey f.root f.nrnodes _ hw)
        · simp at h
        · simp at h

theorem fsmtrie_search_err_buf (f : fsmtrie) (e : err_msg) (q str0 : Option (List Nat)) :
    (fsmtrie_search { f with err_buf := e } q str0).ret = (fsmtrie_search f q str0).ret ∧
    (fsmtrie_search { f with err_buf := e } q str0).str = (fsmtrie_search f q str0).str := by
  unfold fsmtrie_search
  by_cases h1 : f.root.isNull = true
  · simp [h1]
  · cases q with
    | none => simp [h1]
    | some k =>
      by_cases h2 : (f.mode ≠ fsmtrie_mode_ascii ∧ f.mode ≠ fsmtrie_mode_eascii)
      · simp [h1, h2]
      · simp only [h1, h2, if_false]
        cases search_walk f.nrnodes f.root k with
        | range_error v => exact ⟨rfl, rfl⟩
        | no_match => exact ⟨rfl, rfl⟩
        | arrived m =>
          simp only
          by_cases hl : m.leaf = true <;> by_cases hp : (!m.isNull && f.pm_ok) = true <;>
            simp [hl, hp]

theorem fsmtrie_search_token_err_buf (f : fsmtrie) (e : err_msg) (q str0 : Option (List Nat)) :
    (fsmtrie_search_token { f with err_buf := e } q str0).map (fun r => (r.ret, r.str)) =
    (fsmtrie_search_token f q str0).map (fun r => (r.ret, r.str)) := by
  unfold fsmtrie_search_token
  by_cases h1 : f.root.isNull = true
  · simp [h1]
  · cases q with
    | none => simp [h1]
    | some k =>
      by_cases h2 : k.length = 0
      · simp [h1, h2]
      · by_cases h3 : f.mode ≠ fsmtrie_mode_token
        · simp [h1, h2, h3]
        · simp only [h1, h2, h3, if_false]
          cases search_token_walk f.root f.nrnodes k with
          | none => rfl
          | some r =>
            cases r with
            | none => rfl
            | some m =>
              simp only
              by_cases hl : (!m.isNull && m.leaf) = true <;> simp [hl]

/-- C10: a rejected insert is atomic.  When `fsmtrie_insert` returns false, or
`fsmtrie_insert_token` returns false, the trie after the call is the trie
before it with another error message (same nodes, leaf bits, strings, key
count, node count and AC-compiled flag), and every exact search, by bytes or
by tokens, returns the same value and the same string as before. -/
theorem C10_rejected_insert_atomic (f : fsmtrie) (key str : Option (List Nat))
    (tkey : List Nat) :
    ((fsmtrie_insert f key str).1 = false →
      (∃ e, (fsmtrie_insert f key str).2 = { f with err_buf := e }) ∧
      ∀ q str0 : Option (List Nat),
        (fsmtrie_search (fsmtrie_insert f key str).2 q str0).ret = (fsmtrie_search f q str0).ret ∧
        (fsmtrie_search (fsmtrie_insert f key str).2 q str0).str = (fsmtrie_search f q str0).str ∧
        (fsmtrie_search_token (fsmtrie_insert f key str).2 q str0).map (fun r => (r.ret, r.str)) =
          (fsmtrie_search_token f q str0).map (fun r => (r.ret, r.str))) ∧
    (∀ f', fsmtrie_insert_token f tkey str = some (false, f') →
      (∃ e, f' = { f with err_buf := e }) ∧
      ∀ q str0 : Option (List Nat),
        (fsmtrie_search f' q str0).ret = (fsmtrie_search f q str0).ret ∧
        (fsmtrie_search f' q str0).str = (fsmtrie_search f q str0).str ∧
        (fsmtrie_search_token f' q str0).map (fun r => (r.ret, r.str)) =
          (fsmtrie_search_token f q str0).map (fun r => (r.ret, r.str))) := by
  constructor
  · intro h
    obtain ⟨e, he⟩ := fsmtrie_insert_rejected f key str h
    refine ⟨⟨e, he⟩, fun q str0 => ?_⟩
    rw [he]
    exact ⟨(fsmtrie_search_err_buf f e q str0).1, (fsmtrie_search_err_buf f e q str0).2,
      fsmtrie_search_token_err_buf f e q str0⟩
  · intro f' h
    obtain ⟨e, he⟩ := fsmtrie_insert_token_rejected f f' tkey str h
    refine ⟨⟨e, he⟩, fun q str0 => ?_⟩
    rw [he]
    exact ⟨(fsmtrie_search_err_buf f e q str0).1, (fsmtrie_search_err_buf f e q str0).2,
      fsmtrie_search_token_err_buf f e q str0⟩

theorem C10_rejected_insert_atomic_witness :
    (fsmtrie_insert (run_inserts trie_ml3 [([97, 98], none)]) (some [97, 98, 99, 100])
        (some [120])).1 = false ∧
    fsmtrie_insert_token trie_tok2 [1, 2, 3] (some [120]) =
      some (false, { trie_tok2 with err_buf := err_msg.token_string_too_long 3 2 }) ∧
    (∃ e, (fsmtrie_insert (run_inserts trie_ml3 [([97, 98], none)]) (some [97, 98, 99, 100])
        (some [120])).2 = { run_inserts trie_ml3 [([97, 98], none)] with err_buf := e }) ∧
    (∃ e, ({ trie_tok2 with err_buf := err_msg.token_string_too_long 3 2 } : fsmtrie) =
        { trie_tok2 with err_buf := e }) :=
  ⟨by decide, rfl,
   ((C10_rejected_insert_atomic (run_inserts trie_ml3 [([97, 98], none)])
      (some [97, 98, 99, 100]) (some [120]) []).1 (by decide)).1,
   ((C10_rejected_insert_atomic trie_tok2 none (some [120]) [1, 2, 3]).2 _ rfl).1⟩

set_option maxRecDepth 100000 in
/-- C6 fails for a bound that is not below `max_len`: on an ASCII trie with
`max_len` 1 that holds the key "b" (string "b"), the query "ab" is at distance
1 from the key, yet `fsmtrie_search_approx` with bound 1 returns 1 without
invoking the callback. -/
theorem C6_bound_at_max_len_misses :
    fsmtrie_init (some ⟨fsmtrie_mode_ascii, false, 1⟩) = some trie_ml1 ∧
    (fsmtrie_insert trie_ml1 (some [98]) (some [98])).1 = true ∧
    osa_distance [97, 98] [98] = 1 ∧
    approx_view (fsmtrie_search_approx (run_inserts trie_ml1 [([98], some [98])]) [97, 98] 1 300)
      = some (some 1, []) := by
  refine ⟨rfl, by decide, by decide, by decide!⟩

set_option maxRecDepth 100000 in
/-- C7 fails for the empty key: on the ASCII trie of the test (`max_len` 64)
the calls `fsmtrie_insert(f, "", "")` and `fsmtrie_insert(f, "b", "b")` return
true; both keys are at distance 1 from the query "a", and the bound 1 is below
`max_len`, yet `fsmtrie_search_approx` reports "b" only: the traversal tests
the leaf bit of the children it descends to, never that of the root. -/
theorem C7_empty_key_not_reported :
    fsmtrie_init (some ⟨fsmtrie_mode_ascii, true, 64⟩) = some trie_S1 ∧
    accepted_inserts trie_S1 [([], some []), ([98], some [98])] =
      [([], some []), ([98], some [98])] ∧
    osa_distance [97] [] = 1 ∧ osa_distance [97] [98] = 1 ∧ (1 : Int) < 64 ∧
    approx_view (fsmtrie_search_approx
      (run_inserts trie_S1 [([], some []), ([98], some [98])]) [97] 1 300) =
      some (some 1, [(some [98], 1)]) ∧
    (fsmtrie_search (run_inserts trie_S1 [([], some []), ([98], some [98])]) (some []) none).ret
      = 1 := by
  refine ⟨rfl, by decide, by decide, by decide, by decide, by decide!, by decide⟩

set_option maxRecDepth 100000 in
/-- The size of the arena can overflow: on an ASCII trie with `max_len`
4294967295 that holds the key "a" (string "a"), `f->max_len + 1` wraps to 0,
the arena has no cell, and `fsmtrie_search_approx` for the query "a" with
bound 0 fails its first assertion without invoking the callback, although the
key is at distance 0. -/
theorem approx_arena_size_overflow :
    fsmtrie_init (some ⟨fsmtrie_mode_ascii, false, 4294967295⟩) = some trie_mlmax ∧
    (fsmtrie_insert trie_mlmax (some [97]) (some [97])).1 = true ∧
    osa_distance [97] [97] = 0 ∧ (0 : Int) < 4294967295 ∧
    approx_view (fsmtrie_search_approx (run_inserts trie_mlmax [([97], some [97])]) [97] 0 300)
      = some (none, []) := by
  refine ⟨rfl, by decide, by decide, by decide, by decide!⟩

set_option maxRecDepth 100000 in
/-- C8 fails when the size of the arena overflows: on an ASCII trie with
`max_len` 4294967295 that holds the key "ab" (string "ab"), the query "ba",
the key with its two symbols swapped, is at distance 1, yet
`fsmtrie_search_approx` with bound 1 fails an assertion without invoking the
callback. -/
theorem C8_transposition_arena_overflow :
    fsmtrie_init (some ⟨fsmtrie_mode_ascii, false, 4294967295⟩) = some trie_mlmax ∧
    (fsmtrie_insert trie_mlmax (some [97, 98]) (some [97, 98])).1 = true ∧
    osa_distance [98, 97] [97, 98] = 1 ∧
    approx_view (fsmtrie_search_approx (run_inserts trie_mlmax [([97, 98], some [97, 98])])
      [98, 97] 1 300) = some (none, []) := by
  refine ⟨rfl, by decide, by decide, by decide!⟩

@[simp] theorem suffix_NULL : NULL.suffix = none := rfl
@[simp] theorem output_NULL : NULL.output = false := rfl
@[simp] theorem suffix_setNode (n c : fsmtrie_node) (i : Nat) :
    (n.setNode i c).suffix = n.suffix := by cases n <;> rfl
@[simp] theorem output_setNode (n c : fsmtrie_node) (i : Nat) :
    (n.setNode i c).output = n.output := by cases n <;> rfl
@[simp] theorem suffix_setSuffix (n : fsmtrie_node) (s : Option (List Nat)) :
    (n.setSuffix s).suffix = if n.isNull then none else s := by cases n <;> rfl
@[simp] theorem output_setSuffix (n : fsmtrie_node) (s : Option (List Nat)) :
    (n.setSuffix s).output = n.output := by cases n <;> rfl
@[simp] theorem isNull_setSuffix (n : fsmtrie_node) (s : Option (List Nat)) :
    (n.setSuffix s).isNull = n.isNull := by cases n <;> rfl
@[simp] theorem leaf_setSuffix (n : fsmtrie_node) (s : Option (List Nat)) :
    (n.setSuffix s).leaf = n.leaf := by cases n <;> rfl
@[simp] theorem str_setSuffix (n : fsmtrie_node) (s : Option (List Nat)) :
    (n.setSuffix s).str = n.str := by cases n <;> rfl
@[simp] theorem nodes_setSuffix (n : fsmtrie_node) (s : Option (List Nat)) (i : Nat) :
    (n.setSuffix s).nodes i = n.nodes i := by cases n <;> rfl
@[simp] theorem suffix_setOutput (n : fsmtrie_node) (o : Bool) :
    (n.setOutput o).suffix = n.suffix := by cases n <;> rfl
@[simp] theorem output_setOutput (n : fsmtrie_node) (o : Bool) :
    (n.setOutput o).output = (!n.isNull && o) := by cases n <;> rfl
@[simp] theorem isNull_setOutput (n : fsmtrie_node) (o : Bool) :
    (n.setOutput o).isNull = n.isNull := by cases n <;> rfl
@[simp] theorem leaf_setOutput (n : fsmtrie_node) (o : Bool) :
    (n.setOutput o).leaf = n.leaf := by cases n <;> rfl
@[simp] theorem str_setOutput (n : fsmtrie_node) (o : Bool) :
    (n.setOutput o).str = n.str := by cases n <;> rfl
@[simp] theorem nodes_setOutput (n : fsmtrie_node) (o : Bool) (i : Nat) :
    (n.setOutput o).nodes i = n.nodes i := by cases n <;> rfl
@[simp] theorem suffix_markLeaf (n : fsmtrie_node) (s : Option (List Nat)) :
    (n.markLeaf s).suffix = n.suffix := by cases n <;> rfl
@[simp] theorem output_markLeaf (n : fsmtrie_node) (s : Option (List Nat)) :
    (n.markLeaf s).output = !n.isNull := by cases n <;> rfl
@[simp] theorem suffix_setNnodes (n : fsmtrie_node) (k : Nat) :
    (n.setNnodes k).suffix = n.suffix := by cases n <;> rfl
@[simp] theorem output_setNnodes (n : fsmtrie_node) (k : Nat) :
    (n.setNnodes k).output = n.output := by cases n <;> rfl
@[simp] theorem node_new_suffix (m : fsmtrie_mode) : (_fsmtrie_node_new m).1.suffix = none := rfl
@[simp] theorem node_new_output (m : fsmtrie_mode) : (_fsmtrie_node_new m).1.output = false := rfl

theorem isNull_eq_true {n : fsmtrie_node} (h : n.isNull = true) : n = NULL := by
  cases n with
  | NULL => rfl
  | mk _ _ _ _ _ _ _ => cases h

theorem HeaderOnly_NULL {g : fsmtrie_node → fsmtrie_node} (hg : HeaderOnly g) : g NULL = NULL :=
  isNull_eq_true (by rw [(hg NULL).1]; rfl)

theorem HeaderOnly_setSuffix (s : Option (List Nat)) : HeaderOnly (fun n => n.setSuffix s) :=
  fun n => ⟨by simp, by simp, by simp, fun c => by simp⟩

theorem HeaderOnly_setOutput (o : Bool) : HeaderOnly (fun n => n.setOutput o) :=
  fun n => ⟨by simp, by simp, by simp, fun c => by simp⟩

theorem HeaderOnly_reset : HeaderOnly (fun n => (n.setSuffix (some [])).setOutput n.leaf) :=
  fun n => ⟨by simp, by simp, by simp, fun c => by simp⟩

/-- A header write at `p` is seen at `p` only; all paths keep their children,
leaf bits and strings. -/
theorem lookup_update_at (g : fsmtrie_node → fsmtrie_node) (hg : HeaderOnly g) :
    ∀ (p : List Nat) (R : fsmtrie_node) (w : List Nat),
      (lookup (update_at R p g) w).isNull = (lookup R w).isNull ∧
      (lookup (update_at R p g) w).leaf = (lookup R w).leaf ∧
      (lookup (update_at R p g) w).str = (lookup R w).str ∧
      (lookup (update_at R p g) w).suffix =
        (if w = p then (g (lookup R p)).suffix else (lookup R w).suffix) ∧
      (lookup (update_at R p g) w).output =
        (if w = p then (g (lookup R p)).output else (lookup R w).output) := by
  intro p
  induction p with
  | nil =>
    intro R w
    cases w with
    | nil => simp [update_at, (hg R).1, (hg R).2.1, (hg R).2.2.1]
    | cons c w => simp [update_at, (hg R).2.2.2 c]
  | cons c p ih =>
    intro R w
    by_cases hR : R.isNull = true
    · have hR' := isNull_eq_true hR
      subst hR'
      have hgn := HeaderOnly_NULL hg
      simp [update_at, setNode, hgn]
    · simp only [Bool.not_eq_true] at hR
      cases w with
      | nil => simp [update_at]
      | cons c' w =>
        by_cases hc : c' = c
        · subst hc
          have := ih (R.nodes c') w
          simpa [update_at, hR] using this
        · simp [update_at, hR, hc]

theorem InT_update_at (g : fsmtrie_node → fsmtrie_node) (hg : HeaderOnly g)
    (p : List Nat) (R : fsmtrie_node) (w : List Nat) :
    InT (update_at R p g) w ↔ InT R w := by
  unfold InT; rw [(lookup_update_at g hg p R w).1]

/-- Paths of the trie are closed under taking prefixes. -/
theorem InT_of_append (R : fsmtrie_node) (u v : List Nat) (h : InT R (u ++ v)) : InT R u := by
  unfold InT at *
  rw [lookup_append] at h
  cases hn : (lookup R u).isNull
  · rfl
  · rw [isNull_eq_true hn, lookup_NULL] at h; cases h

theorem ac_next_eq_scan (R : fsmtrie_node) (c : Nat) : ∀ (fuel : Nat) (cur : Option (List Nat)),
    ac_next R c fuel cur = (ac_suffix_scan R c fuel cur).map (fun r => r.getD []) := by
  intro fuel
  induction fuel with
  | zero => intro cur; rfl
  | succ fuel ih =>
    intro cur
    cases cur with
    | none => rfl
    | some p =>
      simp only [ac_next, ac_suffix_scan]
      split
      · exact ih _
      · rfl

/-- Walking the failure links from `u` for the symbol `c` finds the longest
suffix of `u` that has a child on `c`, or tells that there is none. -/
theorem suffix_scan_spec (R : fsmtrie_node) (c : Nat) (hroot : (lookup R []).suffix = none) :
    ∀ (n : Nat) (u : List Nat), u.length = n → InT R u →
      (∀ w, w <:+ u → w ≠ [] → InT R w → Done R w) →
      ∀ fuel, u.length + 2 ≤ fuel →
      (∃ v, v <:+ u ∧ InT R (v ++ [c]) ∧
          (∀ v', v' <:+ u → InT R (v' ++ [c]) → v'.length ≤ v.length) ∧
          ac_suffix_scan R c fuel (some u) = some (some (v ++ [c]))) ∨
      ((∀ v', v' <:+ u → ¬ InT R (v' ++ [c])) ∧
          ac_suffix_scan R c fuel (some u) = some none) := by
  intro n
  induction n using Nat.strong_induction_on with
  | _ n ih =>
    intro u hn hu hdone fuel hfuel
    obtain ⟨fuel, rfl⟩ : ∃ k, fuel = k + 1 := ⟨fuel - 1, by omega⟩
    by_cases hc : InT R (u ++ [c])
    · refine Or.inl ⟨u, List.suffix_rfl, hc, fun v' hv' _ => hv'.length_le, ?_⟩
      have : (lookup R (u ++ [c])).isNull = false := hc
      simp [ac_suffix_scan, this]
    · have hcn : (lookup R (u ++ [c])).isNull = true := by
        cases h : (lookup R (u ++ [c])).isNull
        · exact absurd h hc
        · rfl
      by_cases hu0 : u = []
      · subst hu0
        refine Or.inr ⟨?_, ?_⟩
        · intro v' hv'
          rw [List.suffix_nil.1 hv']; exact hc
        · obtain ⟨fuel, rfl⟩ : ∃ k, fuel = k + 1 := ⟨fuel - 1, by simp at hfuel; omega⟩
          simp only [ac_suffix_scan, hcn, if_true, hroot]
      · obtain ⟨u', hsu, ⟨hu'suf, hu'len, hu'T, hu'max⟩, _⟩ := hdone u List.suffix_rfl hu0 hu
        have hdone' : ∀ w, w <:+ u' → w ≠ [] → InT R w → Done R w :=
          fun w hw => hdone w (hw.trans hu'suf)
        have hstep : ac_suffix_scan R c (fuel + 1) (some u) = ac_suffix_scan R c fuel (some u') := by
          simp only [ac_suffix_scan, hcn, if_true, hsu]
        have hbelow : ∀ v', v' <:+ u → InT R (v' ++ [c]) → v' <:+ u' := by
          intro v' hv' hv'c
          have hne : v' ≠ u := fun h => hc (h ▸ hv'c)
          have hlt : v'.length < u.length := by
            rcases Nat.lt_or_ge v'.length u.length with h | h
            · exact h
            · exact absurd (hv'.eq_of_length_le h) hne
          have := hu'max v' hv' hlt (InT_of_append R v' [c] hv'c)
          exact List.suffix_of_suffix_length_le hv' hu'suf this
        rcases ih u'.length (by omega) u' rfl hu'T hdone' fuel (by omega) with
          ⟨v, hv, hvc, hvmax, hscan⟩ | ⟨hnone, hscan⟩
        · refine Or.inl ⟨v, hv.trans hu'suf, hvc, fun v' hv' hv'c => ?_, by rw [hstep, hscan]⟩
          exact hvmax v' (hbelow v' hv' hv'c) hv'c
        · refine Or.inr ⟨fun v' hv' hv'c => ?_, by rw [hstep, hscan]⟩
          exact hnone v' (hbelow v' hv' hv'c) hv'c

theorem setNode_self (n : fsmtrie_node) (c : Nat) : n.setNode c (n.nodes c) = n := by
  cases n with
  | NULL => rfl
  | mk _ _ _ _ _ _ ns => simp [setNode, fsmtrie_node.nodes]

theorem leaf_isNull {n : fsmtrie_node} (h : n.leaf = true) : n.isNull = false := by
  cases n with
  | NULL => cases h
  | mk _ _ _ _ _ _ _ => rfl

/-- Inserting a key that is already stored writes nothing. -/
theorem insert_walk_dup (nr : Nat) (mode : fsmtrie_mode) (st : Option (List Nat)) :
    ∀ (k : List Nat) (n : fsmtrie_node), (lookup n k).leaf = true →
      (insert_walk nr mode st n k).1 = n := by
  intro k
  induction k with
  | nil => intro n h; simp only [lookup_nil] at h; simp [insert_walk, h]
  | cons p rest ih =>
    intro n h
    simp only [lookup_cons] at h
    have hc : (n.nodes p).isNull = false := by
      cases hn : (n.nodes p).isNull
      · rfl
      · rw [isNull_eq_true hn, lookup_NULL] at h; cases h
    simp only [insert_walk, hc, Bool.false_eq_true, if_false, ih _ h, setNode_self]

theorem insert_walk_output_root (nr : Nat) (mode : fsmtrie_mode) (st : Option (List Nat))
    (n : fsmtrie_node) (p : Nat) (rest : List Nat) :
    (insert_walk nr mode st n (p :: rest)).1.output = n.output := by
  simp only [insert_walk]
  split <;> simp

theorem insert_walk_out_eq (nr : Nat) (mode : fsmtrie_mode) (st : Option (List Nat))
    (k : List Nat) (n : fsmtrie_node) (h : n.output = n.leaf) :
    (insert_walk nr mode st n k).1.output = (insert_walk nr mode st n k).1.leaf := by
  cases k with
  | nil =>
    simp only [insert_walk]
    split
    · exact h
    · simp
  | cons p rest =>
    simp only [insert_walk]
    split <;> simpa using h

theorem insert_walk_nodes (nr : Nat) (mode : fsmtrie_mode) (st : Option (List Nat))
    (n : fsmtrie_node) (hn : n.isNull = false) (p : Nat) (rest : List Nat) (c : Nat) :
    (insert_walk nr mode st n (p :: rest)).1.nodes c =
      if c = p then
        (insert_walk nr mode st
          (if (n.nodes p).isNull then (_fsmtrie_node_new mode).1.setNnodes nr else n.nodes p) rest).1
      else n.nodes c := by
  simp only [insert_walk]
  split <;> simp [hn]

/-- The depth one nodes keep `OUTPUT` equal to `LEAF` under an insertion. -/
theorem insert_walk_out1 (nr : Nat) (mode : fsmtrie_mode) (st : Option (List Nat))
    (n : fsmtrie_node) (hn : n.isNull = false) (k : List Nat)
    (h : ∀ c, (n.nodes c).output = (n.nodes c).leaf) (c : Nat) :
    ((insert_walk nr mode st n k).1.nodes c).output =
      ((insert_walk nr mode st n k).1.nodes c).leaf := by
  cases k with
  | nil =>
    simp only [insert_walk]
    split
    · exact h c
    · simpa using h c
  | cons p rest =>
    rw [insert_walk_nodes nr mode st n hn]
    split
    · apply insert_walk_out_eq
      split
      · simp
      · exact h p
    · exact h c

theorem insert_walk_created_le (nr : Nat) (mode : fsmtrie_mode) (st : Option (List Nat)) :
    ∀ (k : List Nat) (n : fsmtrie_node), (insert_walk nr mode st n k).2.1 ≤ k.length := by
  intro k
  induction k with
  | nil => intro n; simp only [insert_walk]; split <;> simp
  | cons p rest ih =>
    intro n
    simp only [insert_walk]
    split
    · simpa using ih _
    · exact Nat.le_succ_of_le (ih _)

/-- Every missing prefix of the key is paid for by a created node. -/
theorem insert_walk_created (nr : Nat) (mode : fsmtrie_mode) (st : Option (List Nat)) :
    ∀ (k : List Nat) (n : fsmtrie_node), n.isNull = false → ∀ j, j ≤ k.length →
      (lookup n (k.take j)).isNull = true →
      k.length + 1 ≤ (insert_walk nr mode st n k).2.1 + j := by
  intro k
  induction k with
  | nil =>
    intro n hn j hj h
    simp only [List.take_nil, lookup_nil] at h
    rw [hn] at h; cases h
  | cons p rest ih =>
    intro n hn j hj h
    cases j with
    | zero => simp only [List.take_zero, lookup_nil] at h; rw [hn] at h; cases h
    | succ j =>
      simp only [List.take_succ_cons, lookup_cons] at h
      simp only [List.length_cons] at hj ⊢
      simp only [insert_walk]
      split
      · rename_i hc
        simp only []
        have hfresh : ((_fsmtrie_node_new mode).1.setNnodes nr).isNull = false := by simp
        have hl : ∀ w : List Nat, w ≠ [] →
            (lookup ((_fsmtrie_node_new mode).1.setNnodes nr) w).isNull = true := by
          intro w hw
          cases w with
          | nil => exact absurd rfl hw
          | cons a w => simp
        cases rest with
        | nil => simp only [List.length_nil, Nat.zero_add] at hj ⊢; omega
        | cons a rest =>
          cases j with
          | zero =>
            have := ih _ hfresh 1 (by simp) (hl _ (by simp))
            simp only [List.length_cons] at this ⊢
            omega
          | succ j =>
            have := ih _ hfresh (j + 1) (by simpa using hj) (hl _ (by simp))
            simp only [List.length_cons] at this ⊢
            omega
      · rename_i hc
        simp only [Bool.not_eq_true] at hc
        have := ih _ hc j (by omega) h
        simp only []
        omega

/-- A key of length `n` lies at most `n` deep, so paths that share a length
and are prefixes of one list are equal. -/
theorem prefix_eq_of_length {w1 w2 k : List Nat} (h1 : w1 <+: k) (h2 : w2 <+: k)
    (h : w1.length = w2.length) : w1 = w2 := by
  rw [List.prefix_iff_eq_take] at h1 h2
  rw [h1, h2, h]

/-- A duplicate free list of missing prefixes of the key is no longer than
the number of nodes the insertion creates. -/
theorem insert_walk_new_count (nr : Nat) (mode : fsmtrie_mode) (st : Option (List Nat))
    (k : List Nat) (n : fsmtrie_node) (hn : n.isNull = false) (L : List (List Nat))
    (hL : L.Nodup) (hmem : ∀ w ∈ L, w <+: k ∧ (lookup n w).isNull = true) :
    L.length ≤ (insert_walk nr mode st n k).2.1 := by
  have hlen : ∀ w ∈ L, w.length ∈ Finset.Icc (k.length + 1 - (insert_walk nr mode st n k).2.1) k.length := by
    intro w hw
    obtain ⟨hp, hnull⟩ := hmem w hw
    have hle := hp.length_le
    have := insert_walk_created nr mode st k n hn w.length hle
      (by rw [← List.prefix_iff_eq_take.1 hp]; exact hnull)
    simp only [Finset.mem_Icc]
    omega
  have hinj : Set.InjOn List.length (↑L.toFinset : Set (List Nat)) := by
    intro a ha b hb hab
    simp only [Finset.mem_coe, List.mem_toFinset] at ha hb
    exact prefix_eq_of_length (hmem a ha).1 (hmem b hb).1 hab
  have hcard := Finset.card_le_card_of_injOn List.length
    (fun w hw => hlen w (List.mem_toFinset.1 hw)) hinj
  rw [List.toFinset_card_of_nodup hL, Nat.card_Icc] at hcard
  have := insert_walk_created_le nr mode st k n
  omega

theorem fsmtrie_insert_accepted (f : fsmtrie) (hf : ByteTrie f) (k : List Nat)
    (str : Option (List Nat)) (ha : accepts f k) :
    (fsmtrie_insert f (some k) str).2 =
      if (insert_walk f.nrnodes f.mode str f.root k).2.2 then
        { f with root := (insert_walk f.nrnodes f.mode str f.root k).1,
                 node_cnt := f.node_cnt + (insert_walk f.nrnodes f.mode str f.root k).2.1,
                 ac_compiled := false, key_cnt := f.key_cnt + 1 }
      else
        { f with root := (insert_walk f.nrnodes f.mode str f.root k).1,
                 node_cnt := f.node_cnt + (insert_walk f.nrnodes f.mode str f.root k).2.1 } := by
  have hm : ¬ (f.mode ≠ fsmtrie_mode_ascii ∧ f.mode ≠ fsmtrie_mode_eascii) := by
    rcases hf.size with ⟨hm, _⟩ | ⟨hm, _⟩ <;> simp [hm]
  have hv1 := (validate_true_iff f hf k).2 ha
  have hv2 := validate_frame f (some k) hv1
  unfold fsmtrie_insert
  simp only [hf.root, hm, hv1, hv2, Bool.false_eq_true, if_false, Bool.not_true,
    Option.getD_some]
  split <;> rfl

theorem ACInv_init (o : Option fsmtrie_opt) (f0 : fsmtrie) (h : fsmtrie_init o = some f0)
    (hm : f0.mode ≠ fsmtrie_mode_token) : ACInv f0 [] := by
  have hr : f0.root = (_fsmtrie_node_new f0.mode).1 ∧ f0.ac_compiled = false := by
    unfold fsmtrie_init at h
    rcases o with _ | ⟨m, pm, ml⟩
    · simp at h; subst h; exact ⟨rfl, rfl⟩
    · cases m
      · simp at h; subst h; exact ⟨rfl, rfl⟩
      · simp at h; subst h; exact ⟨rfl, rfl⟩
      · simp at h; obtain ⟨_, h⟩ := h; subst h; exact ⟨rfl, rfl⟩
  refine ⟨Holds_init o f0 h hm, by simp, by simp, by rw [hr.1]; rfl, fun c => by rw [hr.1]; rfl,
    ?_, fun hc => by rw [hr.2] at hc; cases hc⟩
  intro L _ hmem
  cases L with
  | nil => simp
  | cons w L =>
    obtain ⟨h1, h2⟩ := hmem w (List.mem_cons_self _ _)
    unfold InT at h1
    rw [hr.1, lookup_new] at h1
    simp [h2] at h1

/-- An insert of a non-empty key with the key as its string keeps the
invariant of the substring search. -/
theorem ACInv_insert (f : fsmtrie) (A : List (List Nat × Option (List Nat))) (hI : ACInv f A)
    (k : List Nat) (hk : IsCStr k) (hne : k ≠ []) :
    ACInv (fsmtrie_insert f (some k) (some k)).2
      (A ++ if (fsmtrie_insert f (some k) (some k)).1 then [(k, some k)] else []) := by
  have hH := Holds_step f A hI.holds k (some k) hk
  obtain ⟨h1, _⟩ := fsmtrie_insert_byte f hI.holds.wf k (some k)
  have hne' : ∀ c ∈ A ++ (if (fsmtrie_insert f (some k) (some k)).1 then [(k, some k)] else []),
      c.1 ≠ [] ∧ c.2 = some c.1 := by
    intro c hc
    rcases List.mem_append.1 hc with hc | hc
    · exact ⟨hI.nonempty c hc, hI.payload c hc⟩
    · split at hc
      · simp only [List.mem_singleton] at hc; subst hc; exact ⟨hne, rfl⟩
      · cases hc
  by_cases ha : accepts f k
  · have heq := fsmtrie_insert_accepted f hI.holds.wf k (some k) ha
    obtain ⟨_, hnew, hspec⟩ := insert_walk_spec f.nrnodes f.mode (some k) k f.root hI.holds.wf.root
    have hroot : (fsmtrie_insert f (some k) (some k)).2.root =
        (insert_walk f.nrnodes f.mode (some k) f.root k).1 := by rw [heq]; split <;> rfl
    have hcnt : (fsmtrie_insert f (some k) (some k)).2.node_cnt =
        f.node_cnt + (insert_walk f.nrnodes f.mode (some k) f.root k).2.1 := by
      rw [heq]; split <;> rfl
    refine ⟨hH, fun c hc => (hne' c hc).1, fun c hc => (hne' c hc).2, ?_, ?_, ?_, ?_⟩
    · rw [hroot]
      cases k with
      | nil => exact absurd rfl hne
      | cons p rest => rw [insert_walk_output_root]; exact hI.rootout
    · intro c
      rw [hroot]
      exact insert_walk_out1 _ _ _ _ hI.holds.wf.root _ hI.out1 c
    · intro L hL hmem
      rw [hcnt]
      have hsplit := List.length_eq_length_filter_add (l := L)
        (fun w => !(lookup f.root w).isNull)
      have hold : (L.filter (fun w => !(lookup f.root w).isNull)).length ≤ f.node_cnt := by
        apply hI.cnt _ (hL.filter _)
        intro w hw
        rw [List.mem_filter] at hw
        exact ⟨by simpa [InT] using hw.2, (hmem w hw.1).2⟩
      have hnw : (L.filter (fun w => !!(lookup f.root w).isNull)).length ≤
          (insert_walk f.nrnodes f.mode (some k) f.root k).2.1 := by
        apply insert_walk_new_count _ _ _ _ _ hI.holds.wf.root _ (hL.filter _)
        intro w hw
        rw [List.mem_filter] at hw
        have h3 : (lookup f.root w).isNull = true := by simpa using hw.2
        have h4 := (hmem w hw.1).1
        unfold InT at h4
        rw [hroot, (hspec w).1, h3] at h4
        simp only [Bool.true_and, Bool.not_eq_eq_eq_not, Bool.not_false, decide_eq_true_eq] at h4
        exact ⟨h4, h3⟩
      omega
    · intro hc
      rw [heq] at hc ⊢
      split at hc
      · cases hc
      · rename_i hb
        rw [if_neg hb]
        simp only [Bool.not_eq_true] at hb
        rw [hnew] at hb
        have hleaf : (lookup f.root k).leaf = true := by simpa using hb
        simp only [insert_walk_dup _ _ _ k f.root hleaf]
        exact hI.comp hc
  · have hf : (fsmtrie_insert f (some k) (some k)).1 = false := by
      cases h : (fsmtrie_insert f (some k) (some k)).1
      · rfl
      · exact absurd (h1.1 h) ha
    obtain ⟨e, he⟩ := fsmtrie_insert_rejected f (some k) (some k) hf
    refine ⟨hH, fun c hc => (hne' c hc).1, fun c hc => (hne' c hc).2, ?_, ?_, ?_, ?_⟩
    · rw [he]; exact hI.rootout
    · rw [he]; exact hI.out1
    · rw [he]; exact hI.cnt
    · rw [he]; exact hI.comp

theorem Skel.refl (R : fsmtrie_node) : Skel R R := fun _ => ⟨rfl, rfl, rfl⟩

theorem Skel.inT {R0 R : fsmtrie_node} (h : Skel R0 R) (w : List Nat) : InT R w ↔ InT R0 w := by
  unfold InT; rw [(h w).1]

theorem Skel.isFail {R0 R : fsmtrie_node} (h : Skel R0 R) (w u : List Nat) :
    IsFail R w u ↔ IsFail R0 w u := by
  unfold IsFail
  simp only [h.inT]

theorem Skel.outSpec {R0 R : fsmtrie_node} (h : Skel R0 R) (w : List Nat) :
    OutSpec R w ↔ OutSpec R0 w := by
  unfold OutSpec
  simp only [(h _).2.1]

theorem Skel.done {R0 R : fsmtrie_node} (h : Skel R0 R) (w : List Nat) :
    Done R w ↔ DoneS R0 R w := by
  unfold Done DoneS
  simp only [h.isFail, h.outSpec]

theorem Skel.update {R0 R : fsmtrie_node} (h : Skel R0 R) (g : fsmtrie_node → fsmtrie_node)
    (hg : HeaderOnly g) (p : List Nat) : Skel R0 (update_at R p g) := by
  intro w
  obtain ⟨h1, h2, h3, _⟩ := lookup_update_at g hg p R w
  rw [h1, h2, h3]; exact h w

theorem prefix_length_lt {a w : List Nat} (h : a <+: w) (hne : a ≠ w) : a.length < w.length := by
  rcases Nat.lt_or_ge a.length w.length with h1 | h1
  · exact h1
  · exact absurd (h.eq_of_length_le h1) hne

/-- Every node no deeper than the node being visited has been reached. -/
theorem BInv.low {R0 R : fsmtrie_node} {V Q : List (List Nat)} {u : List Nat} {m : Nat}
    (h : BInv R0 R V Q u m) (w : List Nat) (hw : InT R0 w) (hne : w ≠ [])
    (hlen : w.length ≤ u.length) : w ∈ V ++ Q := by
  rcases h.cover w hw hne with h1 | ⟨a, ha, hp, hn⟩ | ⟨c, _, hp⟩
  · exact h1
  · have := prefix_length_lt hp hn
    have := (h.lens a ha).1
    omega
  · have := hp.length_le
    simp at this
    omega

/-- The bookkeeping of one visit of an existing child `u ++ [m]`: once its
fields are final and no other node was written, the child joins the queue. -/
theorem BInv.child {R0 R R1 : fsmtrie_node} {V Q : List (List Nat)} {u : List Nat} {m : Nat}
    (h : BInv R0 R V Q u m) (hp : InT R0 (u ++ [m])) (hs : Skel R0 R1)
    (hsame : ∀ w, w ≠ u ++ [m] → (lookup R1 w).suffix = (lookup R w).suffix ∧
      (lookup R1 w).output = (lookup R w).output)
    (hout : ∀ w : List Nat, w.length ≤ 1 → (lookup R1 w).output = (lookup R w).output)
    (hdone : DoneS R0 R1 (u ++ [m])) :
    BInv R0 R1 V (Q ++ [u ++ [m]]) u (m + 1) := by
  have hnotin : u ++ [m] ∉ V ++ Q := by
    intro hin
    obtain ⟨a, c, he, _, hc⟩ := h.par _ hin
    obtain ⟨h1, h2⟩ := List.append_inj' he rfl
    have := hc h1.symm
    simp only [List.cons.injEq, and_true] at h2
    omega
  have hpne : u ++ [m] ≠ [] := by simp
  refine ⟨hs, fun w hw => by rw [hout w hw]; exact h.out1 w hw, ?_, ?_, ?_, ?_, h.lensV, ?_, ?_,
    h.uV, ?_⟩
  · rw [(hsame [] (Ne.symm hpne)).1]; exact h.rootsuf
  · intro w hw
    rw [← List.append_assoc, List.mem_append, List.mem_singleton] at hw
    rcases hw with hw | hw
    · obtain ⟨h1, h2, u1, h3, h4, h5⟩ := h.mem w hw
      have hwp : w ≠ u ++ [m] := fun e => hnotin (e ▸ hw)
      refine ⟨h1, h2, u1, ?_, h4, ?_⟩
      · rw [(hsame w hwp).1]; exact h3
      · rw [(hsame w hwp).2]; exact h5
    · subst hw; exact ⟨hp, hpne, hdone⟩
  · rw [← List.append_assoc]
    exact List.Nodup.append h.nodup (List.nodup_singleton _)
      (by simpa [List.disjoint_singleton] using hnotin)
  · intro x hx
    rcases List.mem_append.1 hx with hx | hx
    · exact h.lens x hx
    · simp only [List.mem_singleton] at hx; subst hx; simp
  · rw [List.pairwise_append]
    refine ⟨h.sorted, List.pairwise_singleton _ _, ?_⟩
    intro a ha b hb
    simp only [List.mem_singleton] at hb; subst hb
    have := (h.lens a ha).2
    simpa using this
  · intro x hx
    rw [← List.append_assoc, List.mem_append, List.mem_singleton] at hx
    rcases hx with hx | hx
    · obtain ⟨a, c, h1, h2, h3⟩ := h.par x hx
      exact ⟨a, c, h1, h2, fun e => Nat.lt_succ_of_lt (h3 e)⟩
    · exact ⟨u, m, hx, h.uV, fun _ => Nat.lt_succ_self m⟩
  · intro w hw hne
    rcases h.cover w hw hne with h1 | ⟨a, ha, hpre, hn⟩ | ⟨c, hc, hpre⟩
    · left; rw [← List.append_assoc]; exact List.mem_append_left _ h1
    · right; left; exact ⟨a, List.mem_append_left _ ha, hpre, hn⟩
    · rcases Nat.eq_or_lt_of_le hc with e | hlt
      · subst e
        by_cases hwp : u ++ [m] = w
        · left; rw [← hwp, ← List.append_assoc]
          exact List.mem_append_right _ (List.mem_singleton_self _)
        · right; left
          exact ⟨u ++ [m], List.mem_append_right _ (List.mem_singleton_self _), hpre, hwp⟩
      · right; right; exact ⟨c, hlt, hpre⟩

/-- An empty slot of the node being visited is passed over. -/
theorem BInv.skip {R0 R : fsmtrie_node} {V Q : List (List Nat)} {u : List Nat} {m : Nat}
    (h : BInv R0 R V Q u m) (hp : ¬ InT R0 (u ++ [m])) : BInv R0 R V Q u (m + 1) := by
  refine ⟨h.skel, h.out1, h.rootsuf, h.mem, h.nodup, h.lens, h.lensV, h.sorted, ?_, h.uV, ?_⟩
  · intro x hx
    obtain ⟨a, c, h1, h2, h3⟩ := h.par x hx
    exact ⟨a, c, h1, h2, fun e => Nat.lt_succ_of_lt (h3 e)⟩
  · intro w hw hne
    rcases h.cover w hw hne with h1 | h1 | ⟨c, hc, hpre⟩
    · exact Or.inl h1
    · exact Or.inr (Or.inl h1)
    · rcases Nat.eq_or_lt_of_le hc with e | hlt
      · subst e
        obtain ⟨t, ht⟩ := hpre
        exact absurd (InT_of_append R0 _ t (ht ▸ hw)) hp
      · exact Or.inr (Or.inr ⟨c, hlt, hpre⟩)

/-- When all slots of `u` have been looked at, the oldest queued node is
visited next. -/
theorem BInv.next {R0 R : fsmtrie_node} {V Q : List (List Nat)} {u u1 : List Nat} {m nr : Nat}
    (h : BInv R0 R V (u1 :: Q) u m) (hm : nr ≤ m)
    (halpha : ∀ w c, InT R0 (w ++ [c]) → c < nr) :
    BInv R0 R (V ++ [u1]) Q u1 0 := by
  have hnd := h.nodup
  have hu1 : u.length ≤ u1.length ∧ u1.length ≤ u.length + 1 := h.lens u1 (List.mem_cons_self _ _)
  have hso := List.pairwise_cons.1 h.sorted
  have hu1V : u1 ∉ V := by
    intro hin
    rw [List.nodup_append] at hnd
    exact hnd.2.2 hin (List.mem_cons_self _ _) 
  have hu1ne : u1 ≠ [] := (h.mem u1 (by simp)).2.1
  have hperm : ∀ x, x ∈ (V ++ [u1]) ++ Q ↔ x ∈ V ++ u1 :: Q := by
    intro x; simp
  refine ⟨h.skel, h.out1, h.rootsuf, fun w hw => h.mem w ((hperm w).1 hw), ?_, ?_, ?_, hso.2,
    ?_, Or.inr (by simp), ?_⟩
  · simpa using hnd
  · intro x hx
    have := h.lens x (List.mem_cons_of_mem _ hx)
    have := hso.1 x hx
    omega
  · intro x hx
    rcases List.mem_append.1 hx with hx | hx
    · have := h.lensV x hx; omega
    · simp only [List.mem_singleton] at hx; subst hx; exact Nat.le_refl _
  · intro x hx
    obtain ⟨a, c, h1, h2, _⟩ := h.par x ((hperm x).1 hx)
    refine ⟨a, c, h1, ?_, ?_⟩
    · rcases h2 with h2 | h2
      · exact Or.inl h2
      · exact Or.inr (List.mem_append_left _ h2)
    · intro e
      subst e
      rcases h2 with h2 | h2
      · exact absurd h2 hu1ne
      · exact absurd h2 hu1V
  · intro w hw hne
    rcases h.cover w hw hne with h1 | ⟨a, ha, hpre, hn⟩ | ⟨c, hc, hpre⟩
    · exact Or.inl ((hperm w).2 h1)
    · rcases List.mem_cons.1 ha with e | ha
      · subst e
        right; right
        obtain ⟨t, ht⟩ := hpre
        cases t with
        | nil => simp at ht; exact absurd ht hn
        | cons c t =>
          refine ⟨c, Nat.zero_le _, ⟨t, ?_⟩⟩
          rw [← ht]; simp
      · exact Or.inr (Or.inl ⟨a, ha, hpre, hn⟩)
    · obtain ⟨t, ht⟩ := hpre
      have := halpha u c (InT_of_append R0 _ t (ht ▸ hw))
      omega

theorem BInv.fresh {R0 R : fsmtrie_node} {V Q : List (List Nat)} {u : List Nat} {m : Nat}
    (h : BInv R0 R V Q u m) : u ++ [m] ∉ V ++ Q := by
  intro hin
  obtain ⟨a, c, he, _, hc⟩ := h.par _ hin
  obtain ⟨h1, h2⟩ := List.append_inj' he rfl
  have := hc h1.symm
  simp only [List.cons.injEq, and_true] at h2
  omega

/-- There is room in the queue for a node that has not been reached yet. -/
theorem BInv.room {R0 R : fsmtrie_node} {V Q : List (List Nat)} {u : List Nat} {m N : Nat}
    (h : BInv R0 R V Q u m) (hp : InT R0 (u ++ [m]))
    (hcnt : ∀ L : List (List Nat), L.Nodup → (∀ w ∈ L, InT R0 w ∧ w ≠ []) → L.length ≤ N) :
    V.length + Q.length + 1 ≤ N := by
  have := hcnt ((V ++ Q) ++ [u ++ [m]])
    (List.Nodup.append h.nodup (List.nodup_singleton _)
      (by simpa [List.disjoint_singleton] using h.fresh))
    (by
      intro w hw
      rcases List.mem_append.1 hw with hw | hw
      · exact ⟨(h.mem w hw).1, (h.mem w hw).2.1⟩
      · simp only [List.mem_singleton] at hw; subst hw; exact ⟨hp, by simp⟩)
  simpa using this

theorem BInv.count {R0 R : fsmtrie_node} {V Q : List (List Nat)} {u : List Nat} {m N : Nat}
    (h : BInv R0 R V Q u m)
    (hcnt : ∀ L : List (List Nat), L.Nodup → (∀ w ∈ L, InT R0 w ∧ w ≠ []) → L.length ≤ N) :
    V.length + Q.length ≤ N := by
  have := hcnt (V ++ Q) h.nodup (fun w hw => ⟨(h.mem w hw).1, (h.mem w hw).2.1⟩)
  simpa using this

/-- A node lies no deeper than the number of nodes below the root. -/
theorem depth_le {R0 : fsmtrie_node} {N : Nat}
    (hcnt : ∀ L : List (List Nat), L.Nodup → (∀ w ∈ L, InT R0 w ∧ w ≠ []) → L.length ≤ N)
    (w : List Nat) (hw : InT R0 w) : w.length ≤ N := by
  have := hcnt ((List.range w.length).map (fun j => w.take (j + 1)))
    (by
      rw [List.nodup_map_iff_inj_on (List.nodup_range _)]
      intro a ha b hb hab
      have := congrArg List.length hab
      simp only [List.mem_range] at ha hb
      simp only [List.length_take] at this
      omega)
    (by
      intro x hx
      simp only [List.mem_map, List.mem_range] at hx
      obtain ⟨j, hj, rfl⟩ := hx
      refine ⟨InT_of_append R0 _ (w.drop (j + 1)) (by rw [List.take_append_drop]; exact hw), ?_⟩
      intro e
      have := congrArg List.length e
      simp only [List.length_take, List.length_nil] at this
      omega)
  simpa using this

theorem QRep.enqueue {q : _fsmtrie_nodeq} {N : Nat} {V Q : List (List Nat)}
    (h : QRep q N V Q) (x : List Nat) (hroom : V.length + Q.length + 1 ≤ N) :
    ∃ q1, _fsmtrie_nodeq_enqueue q x = some q1 ∧ QRep q1 N V (Q ++ [x]) := by
  have hs := h.size
  have hh := h.head
  have ht : q.tail = (V.length : Int) + (Q.length : Int) := by rw [h.tail]; push_cast; rfl
  have hnext : (q.tail + 1) % q.size = q.tail + 1 := by
    apply Int.emod_eq_of_lt <;> omega
  have hne : ¬ (q.tail + 1) % q.size = q.head := by
    rw [hnext]; omega
  have htl : q.tail.toNat = V.length + Q.length := by omega
  refine ⟨{ q with queue := Function.update q.queue q.tail.toNat (some x),
                   tail := (q.tail + 1) % q.size },
    by simp only [_fsmtrie_nodeq_enqueue, hne, if_false], ?_⟩
  refine ⟨hs, hh, ?_, ?_⟩
  · show (q.tail + 1) % q.size = ((V.length + (Q ++ [x]).length : Nat) : Int)
    rw [hnext, List.length_append, List.length_singleton]; push_cast; omega
  · intro i y hy
    show Function.update q.queue q.tail.toNat (some x) (V.length + i) = some y
    rw [htl]
    rcases Nat.lt_or_ge i Q.length with hi | hi
    · rw [List.get?_eq_getElem?, List.getElem?_append_left hi] at hy
      rw [Function.update_noteq (by omega)]
      exact h.elems i y (by rw [List.get?_eq_getElem?]; exact hy)
    · rw [List.get?_eq_getElem?, List.getElem?_append_right hi] at hy
      have hi0 : i - Q.length = 0 := by
        rcases Nat.eq_zero_or_pos (i - Q.length) with h0 | h0
        · exact h0
        · rw [List.getElem?_eq_none (by simp only [List.length_singleton]; omega)] at hy; cases hy
      rw [hi0] at hy
      simp only [List.getElem?_cons_zero, Option.some.injEq] at hy
      have : i = Q.length := by omega
      subst this; subst hy
      rw [Function.update_same]

theorem QRep.dequeue {q : _fsmtrie_nodeq} {N : Nat} {V Q : List (List Nat)} {u1 : List Nat}
    (h : QRep q N V (u1 :: Q)) (hroom : V.length + Q.length + 1 ≤ N) :
    _fsmtrie_nodeq_empty q = false ∧ (_fsmtrie_nodeq_dequeue q).1 = some u1 ∧
      QRep (_fsmtrie_nodeq_dequeue q).2 N (V ++ [u1]) Q := by
  have hs := h.size
  have hh := h.head
  have ht : q.tail = (V.length : Int) + (Q.length : Int) + 1 := by
    rw [h.tail, List.length_cons]; push_cast; omega
  have hne : ¬ q.head = q.tail := by omega
  have hnext : (q.head + 1) % q.size = q.head + 1 := by
    apply Int.emod_eq_of_lt <;> omega
  have hhd : q.head.toNat = V.length + 0 := by omega
  refine ⟨by simp [_fsmtrie_nodeq_empty, hne], ?_, ?_⟩
  · simp only [_fsmtrie_nodeq_dequeue, hne, if_false, hhd]
    exact h.elems 0 u1 rfl
  · simp only [_fsmtrie_nodeq_dequeue, hne, if_false]
    refine ⟨hs, ?_, ?_, ?_⟩
    · show (q.head + 1) % q.size = (((V ++ [u1]).length : Nat) : Int)
      rw [hnext, List.length_append, List.length_singleton]; push_cast; omega
    · show q.tail = ((((V ++ [u1]).length + Q.length : Nat)) : Int)
      rw [List.length_append, List.length_singleton]; push_cast; omega
    · intro i y hy
      show q.queue ((V ++ [u1]).length + i) = some y
      have := h.elems (i + 1) y (by simpa using hy)
      rw [List.length_append, List.length_singleton]
      rw [← this]; congr 1; omega

theorem QRep.empty {q : _fsmtrie_nodeq} {N : Nat} {V : List (List Nat)}
    (h : QRep q N V []) : _fsmtrie_nodeq_empty q = true := by
  simp [_fsmtrie_nodeq_empty, h.head, h.tail]

theorem suffix_append_right {v u : List Nat} (h : v <:+ u) (c : Nat) : v ++ [c] <:+ u ++ [c] := by
  obtain ⟨t, ht⟩ := h
  exact ⟨t, by rw [← ht, List.append_assoc]⟩

theorem suffix_length_lt {a w : List Nat} (h : a <:+ w) (hne : a ≠ w) : a.length < w.length := by
  rcases Nat.lt_or_ge a.length w.length with h1 | h1
  · exact h1
  · exact absurd (h.eq_of_length_le h1) hne

/-- The failure link of a child, when the walk along the failure links of
the parent finds a node with a child on the same symbol. -/
theorem IsFail_child_some {R0 : fsmtrie_node} {u u1 v : List Nat} {c : Nat}
    (hu : IsFail R0 u u1) (hv : v <:+ u1) (hvc : InT R0 (v ++ [c]))
    (hmax : ∀ v', v' <:+ u1 → InT R0 (v' ++ [c]) → v'.length ≤ v.length) :
    IsFail R0 (u ++ [c]) (v ++ [c]) := by
  obtain ⟨h1, h2, h3, h4⟩ := hu
  refine ⟨suffix_append_right (hv.trans h1) c, ?_, hvc, ?_⟩
  · have := hv.length_le
    simp only [List.length_append, List.length_singleton]; omega
  · intro v' hv' hlen hin
    rcases List.suffix_concat_iff.1 hv' with e | ⟨t, rfl, ht⟩
    · subst e; simp
    · simp only [List.length_append, List.length_singleton] at hlen ⊢
      have hle := h4 t ht (by omega) (InT_of_append R0 t [c] hin)
      have := hmax t (List.suffix_of_suffix_length_le ht h1 hle) hin
      omega

/-- The failure link of a child is the root when no node on the failure
links of the parent has a child on the same symbol. -/
theorem IsFail_child_none {R0 : fsmtrie_node} {u u1 : List Nat} {c : Nat}
    (hroot : InT R0 []) (hu : IsFail R0 u u1)
    (hnone : ∀ v', v' <:+ u1 → ¬ InT R0 (v' ++ [c])) :
    IsFail R0 (u ++ [c]) [] := by
  obtain ⟨h1, h2, h3, h4⟩ := hu
  refine ⟨List.nil_suffix, by simp, hroot, ?_⟩
  intro v' hv' hlen hin
  rcases List.suffix_concat_iff.1 hv' with e | ⟨t, rfl, ht⟩
  · subst e; simp
  · simp only [List.length_append, List.length_singleton] at hlen
    have hle := h4 t ht (by omega) (InT_of_append R0 t [c] hin)
    exact absurd hin (hnone t (List.suffix_of_suffix_length_le ht h1 hle))

theorem IsFail_depth1 {R0 : fsmtrie_node} (hroot : InT R0 []) (c : Nat) : IsFail R0 [c] [] := by
  refine ⟨List.nil_suffix, by simp, hroot, ?_⟩
  intro v _ hlen _
  simpa using hlen

theorem not_OutSpec_nil (R0 : fsmtrie_node) : ¬ OutSpec R0 [] := by
  rintro ⟨v, hv, hne, _⟩
  exact hne (List.suffix_nil.1 hv)

/-- A key ends at a node exactly when the node is a leaf or a key ends at
the node its failure link points to. -/
theorem OutSpec_step {R0 : fsmtrie_node} {p t : List Nat} (hp : p ≠ []) (h : IsFail R0 p t) :
    OutSpec R0 p ↔ ((lookup R0 p).leaf = true ∨ OutSpec R0 t) := by
  obtain ⟨h1, h2, h3, h4⟩ := h
  constructor
  · rintro ⟨v, hv, hne, hl⟩
    by_cases e : v = p
    · subst e; exact Or.inl hl
    · right
      have hle := h4 v hv (suffix_length_lt hv e) (leaf_isNull hl)
      exact ⟨v, List.suffix_of_suffix_length_le hv h1 hle, hne, hl⟩
  · rintro (hl | ⟨v, hv, hne, hl⟩)
    · exact ⟨p, List.suffix_rfl, hp, hl⟩
    · exact ⟨v, hv.trans h1, hne, hl⟩

theorem toInt32_of_lt (n : Nat) (h : n < 2147483648) : toInt32 n = (n : Int) := by
  unfold toInt32
  have : n % 4294967296 = n := Nat.mod_eq_of_lt (by omega)
  rw [this, if_pos h]

theorem toInt32_toUInt32 (z : Int) (h0 : 0 ≤ z) (h1 : z < 2147483648) :
    toInt32 (toUInt32 z) = z := by
  have hz : toUInt32 z = z.toNat := by
    unfold toUInt32
    rw [Int.emod_eq_of_lt h0 (by omega)]
  rw [hz, toInt32_of_lt _ (by omega)]
  omega

theorem upd_other (g : fsmtrie_node → fsmtrie_node) (hg : HeaderOnly g) (p : List Nat)
    (R : fsmtrie_node) (w : List Nat) (hw : w ≠ p) :
    (lookup (update_at R p g) w).suffix = (lookup R w).suffix ∧
    (lookup (update_at R p g) w).output = (lookup R w).output := by
  obtain ⟨_, _, _, h1, h2⟩ := lookup_update_at g hg p R w
  rw [h1, h2, if_neg hw, if_neg hw]; exact ⟨rfl, rfl⟩

theorem upd_self (g : fsmtrie_node → fsmtrie_node) (hg : HeaderOnly g) (p : List Nat)
    (R : fsmtrie_node) :
    (lookup (update_at R p g) p).suffix = (g (lookup R p)).suffix ∧
    (lookup (update_at R p g) p).output = (g (lookup R p)).output := by
  obtain ⟨_, _, _, h1, h2⟩ := lookup_update_at g hg p R p
  rw [h1, h2, if_pos rfl, if_pos rfl]; exact ⟨rfl, rfl⟩

/-- One visit of an existing child in the `while` loop of the compilation:
the child is queued and gets its final failure link and output bit. -/
theorem ac_child_spec {R0 R : fsmtrie_node} {V Q : List (List Nat)} {u : List Nat} {m N : Nat}
    {q : _fsmtrie_nodeq} (fuel : Nat)
    (h : BInv R0 R V Q u m) (hu : u ∈ V) (hroot : InT R0 []) (hp : InT R0 (u ++ [m]))
    (hq : QRep q N V Q)
    (hcnt : ∀ L : List (List Nat), L.Nodup → (∀ w ∈ L, InT R0 w ∧ w ≠ []) → L.length ≤ N)
    (hfuel : N + 1 ≤ fuel) :
    ∃ R1 q1, ac_child fuel u m (R, q) = outcome.ok (R1, q1) ∧
      BInv R0 R1 V (Q ++ [u ++ [m]]) u (m + 1) ∧ QRep q1 N V (Q ++ [u ++ [m]]) := by
  obtain ⟨q1, hq1, hq1r⟩ := hq.enqueue (u ++ [m]) (h.room hp hcnt)
  obtain ⟨huT, hune, u1, hu1, hfail, _⟩ := h.mem u (List.mem_append_left _ hu)
  have hulen : 0 < u.length := List.length_pos.2 hune
  have hpu : u ≠ u ++ [m] := by
    intro e; have := congrArg List.length e; simp at this
  have hpne : u ++ [m] ≠ [] := by simp
  have hg1 := HeaderOnly_reset
  obtain ⟨R1, hR1⟩ : ∃ R1, R1 = update_at R (u ++ [m])
      (fun n => (n.setSuffix (some [])).setOutput n.leaf) := ⟨_, rfl⟩
  have hs1 : Skel R0 R1 := by rw [hR1]; exact h.skel.update _ hg1 _
  have ho1 : ∀ w, w ≠ u ++ [m] → (lookup R1 w).suffix = (lookup R w).suffix ∧
      (lookup R1 w).output = (lookup R w).output := by
    intro w hw; rw [hR1]; exact upd_other _ hg1 _ R w hw
  have hpnn : (lookup R (u ++ [m])).isNull = false := by rw [(h.skel _).1]; exact hp
  have hp1 : (lookup R1 (u ++ [m])).suffix = some [] ∧
      (lookup R1 (u ++ [m])).output = (lookup R0 (u ++ [m])).leaf := by
    rw [hR1]
    obtain ⟨h1, h2⟩ := upd_self _ hg1 (u ++ [m]) R
    rw [h1, h2]
    simp [hpnn, (h.skel (u ++ [m])).2.1]
  have hsuf1 : (lookup R1 u).suffix = some u1 := by rw [(ho1 u hpu).1]; exact hu1
  have hroot1 : (lookup R1 []).suffix = none := by
    rw [(ho1 [] (Ne.symm hpne)).1]; exact h.rootsuf
  have hdepth := depth_le hcnt u huT
  have hu1len : u1.length < u.length := hfail.2.1
  have hlowdone : ∀ w, InT R0 w → w ≠ [] → w.length ≤ u.length →
      ∃ t, (lookup R1 w).suffix = some t ∧ IsFail R0 w t ∧
        ((lookup R1 w).output = true ↔ OutSpec R0 w) := by
    intro w hw hne hlen
    have hin := h.low w hw hne hlen
    obtain ⟨_, _, t, h1, h2, h3⟩ := h.mem w hin
    have hwp : w ≠ u ++ [m] := by
      intro e; have := congrArg List.length e; simp at this; omega
    exact ⟨t, by rw [(ho1 w hwp).1]; exact h1, h2, by rw [(ho1 w hwp).2]; exact h3⟩
  have hscan := suffix_scan_spec R1 m hroot1 u1.length u1 rfl ((hs1.inT _).2 hfail.2.2.1)
    (by
      intro w hw hne hin
      rw [hs1.done]
      exact hlowdone w ((hs1.inT w).1 hin) hne (by have := hw.length_le; omega))
    fuel (by omega)
  have hout : ∀ (R' : fsmtrie_node), (∀ w, w ≠ u ++ [m] →
      (lookup R' w).suffix = (lookup R w).suffix ∧ (lookup R' w).output = (lookup R w).output) →
      ∀ w : List Nat, w.length ≤ 1 → (lookup R' w).output = (lookup R w).output := by
    intro R' hR' w hw
    refine (hR' w ?_).2
    intro e; have := congrArg List.length e; simp at this; omega
  rcases hscan with ⟨v, hv, hvc, hvmax, hsc⟩ | ⟨hnone, hsc⟩
  · rw [← hsuf1] at hsc
    have hvc0 := (hs1.inT _).1 hvc
    have hfailp : IsFail R0 (u ++ [m]) (v ++ [m]) :=
      IsFail_child_some hfail hv hvc0 (fun v' hv' hin => hvmax v' hv' ((hs1.inT _).2 hin))
    have hvlen := hv.length_le
    have htp : v ++ [m] ≠ u ++ [m] := by
      intro e; have := congrArg List.length e; simp at this; omega
    obtain ⟨t', _, _, hto⟩ := hlowdone (v ++ [m]) hvc0 (by simp) (by simp; omega)
    have hg2 := HeaderOnly_setSuffix (some (v ++ [m]))
    have hs2 := hs1.update _ hg2 (u ++ [m])
    have ho2 : ∀ w, w ≠ u ++ [m] →
        (lookup (update_at R1 (u ++ [m]) (fun n => n.setSuffix (some (v ++ [m])))) w).suffix =
          (lookup R w).suffix ∧
        (lookup (update_at R1 (u ++ [m]) (fun n => n.setSuffix (some (v ++ [m])))) w).output =
          (lookup R w).output := by
      intro w hw
      obtain ⟨h1, h2⟩ := upd_other _ hg2 (u ++ [m]) R1 w hw
      rw [h1, h2]; exact ho1 w hw
    have hp1n : (lookup R1 (u ++ [m])).isNull = false := by rw [(hs1 _).1]; exact hp
    have hp2 : (lookup (update_at R1 (u ++ [m]) (fun n => n.setSuffix (some (v ++ [m]))))
          (u ++ [m])).suffix = some (v ++ [m]) ∧
        (lookup (update_at R1 (u ++ [m]) (fun n => n.setSuffix (some (v ++ [m]))))
          (u ++ [m])).output = (lookup R0 (u ++ [m])).leaf := by
      obtain ⟨h1, h2⟩ := upd_self _ hg2 (u ++ [m]) R1
      rw [h1, h2]
      simp [hp1n, hp1.2]
    have hstep := OutSpec_step hpne hfailp
    have hoeq := (ho2 _ htp).2
    rw [← (ho1 _ htp).2] at hoeq
    by_cases ho : (lookup R1 (v ++ [m])).output = true
    · have ho' := ho
      rw [← hoeq] at ho'
      simp only [ac_child, hq1, ← hR1, hsc, ho', if_true]
      have hg3 := HeaderOnly_setOutput true
      refine ⟨_, q1, rfl, ?_, hq1r⟩
      have ho3 : ∀ w, w ≠ u ++ [m] →
          (lookup (update_at (update_at R1 (u ++ [m]) (fun n => n.setSuffix (some (v ++ [m]))))
            (u ++ [m]) (fun n => n.setOutput true)) w).suffix = (lookup R w).suffix ∧
          (lookup (update_at (update_at R1 (u ++ [m]) (fun n => n.setSuffix (some (v ++ [m]))))
            (u ++ [m]) (fun n => n.setOutput true)) w).output = (lookup R w).output := by
        intro w hw
        obtain ⟨h1, h2⟩ := upd_other _ hg3 (u ++ [m]) _ w hw
        rw [h1, h2]; exact ho2 w hw
      refine h.child hp (hs2.update _ hg3 _) ho3 (hout _ ho3) ⟨v ++ [m], ?_, hfailp, ?_⟩
      · rw [(upd_self _ hg3 (u ++ [m]) _).1]
        simpa using hp2.1
      · rw [(upd_self _ hg3 (u ++ [m]) _).2]
        have hn2 := (hs2 (u ++ [m])).1
        rw [show (lookup R0 (u ++ [m])).isNull = false from hp] at hn2
        simp only [output_setOutput, hn2, Bool.not_false, Bool.and_self, true_iff]
        exact hstep.2 (Or.inr (hto.1 ho))
    · have ho' := ho
      rw [← hoeq] at ho'
      simp only [ac_child, hq1, ← hR1, hsc, ho', if_false]
      refine ⟨_, q1, rfl, ?_, hq1r⟩
      refine h.child hp hs2 ho2 (hout _ ho2) ⟨v ++ [m], hp2.1, hfailp, ?_⟩
      rw [hp2.2, hstep]
      constructor
      · exact Or.inl
      · rintro (h1 | h1)
        · exact h1
        · exact absurd (hto.2 h1) ho
  · rw [← hsuf1] at hsc
    simp only [ac_child, hq1, ← hR1, hsc]
    refine ⟨_, q1, rfl, ?_, hq1r⟩
    have hfailp : IsFail R0 (u ++ [m]) [] :=
      IsFail_child_none hroot hfail (fun v' hv' hin => hnone v' hv' ((hs1.inT _).2 hin))
    refine h.child hp hs1 ho1 (hout _ ho1) ⟨[], hp1.1, hfailp, ?_⟩
    rw [hp1.2, OutSpec_step hpne hfailp]
    constructor
    · exact Or.inl
    · rintro (h1 | h1)
      · exact h1
      · exact absurd h1 (not_OutSpec_nil R0)

/-- One visit of an existing child of the root in the first loop of the
compilation. -/
theorem ac_root_step {R0 R : fsmtrie_node} {Q : List (List Nat)} {m N : Nat}
    {q : _fsmtrie_nodeq} (h : BInv R0 R [] Q [] m) (hroot : InT R0 []) (hp : InT R0 [m])
    (hq : QRep q N [] Q)
    (hcnt : ∀ L : List (List Nat), L.Nodup → (∀ w ∈ L, InT R0 w ∧ w ≠ []) → L.length ≤ N)
    (ho : (lookup R0 [m]).output = (lookup R0 [m]).leaf) :
    ∃ q1, _fsmtrie_nodeq_enqueue q [m] = some q1 ∧
      BInv R0 (update_at R [m] (fun n => n.setSuffix (some []))) [] (Q ++ [[m]]) [] (m + 1) ∧
      QRep q1 N [] (Q ++ [[m]]) := by
  obtain ⟨q1, hq1, hq1r⟩ := hq.enqueue [m] (h.room (u := []) hp hcnt)
  refine ⟨q1, hq1, ?_, hq1r⟩
  have hg := HeaderOnly_setSuffix (some [])
  have hpnn : (lookup R [m]).isNull = false := by rw [(h.skel _).1]; exact hp
  have hall : ∀ w, (lookup (update_at R [m] (fun n => n.setSuffix (some []))) w).output =
      (lookup R w).output := by
    intro w
    obtain ⟨_, _, _, _, h2⟩ := lookup_update_at _ hg [m] R w
    rw [h2]; split
    · rename_i e; subst e; simp
    · rfl
  refine h.child (u := []) hp (h.skel.update _ hg _) (fun w hw => upd_other _ hg _ R w hw)
    (fun w _ => hall w) ⟨[], ?_, IsFail_depth1 hroot m, ?_⟩
  · show (lookup (update_at R [m] (fun n => n.setSuffix (some []))) [m]).suffix = some []
    rw [(upd_self _ hg [m] R).1]
    simp only [suffix_setSuffix, hpnn, Bool.false_eq_true, if_false]
  · show (lookup (update_at R [m] (fun n => n.setSuffix (some []))) [m]).output = true ↔
      OutSpec R0 [m]
    rw [hall, h.out1 [m] (by simp), ho, OutSpec_step (by simp) (IsFail_depth1 hroot m)]
    constructor
    · exact Or.inl
    · rintro (h1 | h1)
      · exact h1
      · exact absurd h1 (not_OutSpec_nil R0)

/-- The first loop of the compilation over the slots `m, ..., m + k - 1` of
the root. -/
theorem ac_root_loop_spec {R0 : fsmtrie_node} {N : Nat} (hroot : InT R0 [])
    (hcnt : ∀ L : List (List Nat), L.Nodup → (∀ w ∈ L, InT R0 w ∧ w ≠ []) → L.length ≤ N)
    (ho1 : ∀ c, (lookup R0 [c]).output = (lookup R0 [c]).leaf) :
    ∀ (k m : Nat) (R : fsmtrie_node) (Q : List (List Nat)) (q : _fsmtrie_nodeq),
      BInv R0 R [] Q [] m → QRep q N [] Q →
      ∃ R1 Q1 q1, ac_root_loop (List.range' m k) (R, q) = outcome.ok (R1, q1) ∧
        BInv R0 R1 [] Q1 [] (m + k) ∧ QRep q1 N [] Q1 := by
  intro k
  induction k with
  | zero => intro m R Q q h hq; exact ⟨R, Q, q, rfl, h, hq⟩
  | succ k ih =>
    intro m R Q q h hq
    simp only [List.range'_succ, ac_root_loop]
    by_cases hn : (R.nodes m).isNull = true
    · simp only [hn, if_true]
      have hp : ¬ InT R0 ([] ++ [m]) := by
        intro hin
        have : (lookup R [m]).isNull = false := by rw [(h.skel _).1]; exact hin
        rw [show lookup R [m] = R.nodes m from rfl, hn] at this; cases this
      obtain ⟨R1, Q1, q1, h1, h2, h3⟩ := ih (m + 1) R Q q (h.skip hp) hq
      exact ⟨R1, Q1, q1, h1, by rw [Nat.add_succ, ← Nat.succ_add]; exact h2, h3⟩
    · simp only [hn, if_false]
      have hp : InT R0 [m] := by
        have : (lookup R [m]).isNull = false := by
          simpa [show lookup R [m] = R.nodes m from rfl] using hn
        rw [(h.skel _).1] at this; exact this
      obtain ⟨q1, hq1, hb, hq1r⟩ := ac_root_step h hroot hp hq hcnt (ho1 m)
      simp only [hq1]
      obtain ⟨R1, Q1, q2, h1, h2, h3⟩ := ih (m + 1) _ _ q1 hb hq1r
      exact ⟨R1, Q1, q2, h1, by rw [Nat.add_succ, ← Nat.succ_add]; exact h2, h3⟩

/-- The loop over the slots `m, ..., m + k - 1` of a dequeued node. -/
theorem ac_node_loop_spec {R0 : fsmtrie_node} {N : Nat} {V : List (List Nat)} {u : List Nat}
    (fuel : Nat) (hroot : InT R0 [])
    (hcnt : ∀ L : List (List Nat), L.Nodup → (∀ w ∈ L, InT R0 w ∧ w ≠ []) → L.length ≤ N)
    (hu : u ∈ V) (hfuel : N + 1 ≤ fuel) :
    ∀ (k m : Nat) (R : fsmtrie_node) (Q : List (List Nat)) (q : _fsmtrie_nodeq),
      BInv R0 R V Q u m → QRep q N V Q →
      ∃ R1 Q1 q1, ac_node_loop fuel u (List.range' m k) (R, q) = outcome.ok (R1, q1) ∧
        BInv R0 R1 V Q1 u (m + k) ∧ QRep q1 N V Q1 := by
  intro k
  induction k with
  | zero => intro m R Q q h hq; exact ⟨R, Q, q, rfl, h, hq⟩
  | succ k ih =>
    intro m R Q q h hq
    simp only [List.range'_succ, ac_node_loop]
    by_cases hn : (lookup R (u ++ [m])).isNull = true
    · simp only [hn, if_true]
      have hp : ¬ InT R0 (u ++ [m]) := by
        intro hin
        have : (lookup R (u ++ [m])).isNull = false := by rw [(h.skel _).1]; exact hin
        rw [hn] at this; cases this
      obtain ⟨R1, Q1, q1, h1, h2, h3⟩ := ih (m + 1) R Q q (h.skip hp) hq
      exact ⟨R1, Q1, q1, h1, by rw [Nat.add_succ, ← Nat.succ_add]; exact h2, h3⟩
    · simp only [hn, if_false]
      have hp : InT R0 (u ++ [m]) := by
        have : (lookup R (u ++ [m])).isNull = false := by simpa using hn
        rw [(h.skel _).1] at this; exact this
      obtain ⟨R1, q1, hc, hb, hq1r⟩ := ac_child_spec fuel h hu hroot hp hq hcnt hfuel
      rw [hc]
      simp only [outcome.bind]
      obtain ⟨R2, Q2, q2, h1, h2, h3⟩ := ih (m + 1) R1 _ q1 hb hq1r
      exact ⟨R2, Q2, q2, h1, by rw [Nat.add_succ, ← Nat.succ_add]; exact h2, h3⟩

/-- The `while` loop of the compilation ends with every node final. -/
theorem ac_while_spec {R0 : fsmtrie_node} {N : Nat} (nr scan : Nat) (hroot : InT R0 [])
    (hcnt : ∀ L : List (List Nat), L.Nodup → (∀ w ∈ L, InT R0 w ∧ w ≠ []) → L.length ≤ N)
    (halpha : ∀ w c, InT R0 (w ++ [c]) → c < nr) (hscan : N + 1 ≤ scan) :
    ∀ (fuel : Nat) (V Q : List (List Nat)) (R : fsmtrie_node) (q : _fsmtrie_nodeq)
      (u : List Nat), BInv R0 R V Q u nr → QRep q N V Q → N + 1 ≤ fuel + V.length →
      ∃ R1, ac_while nr scan fuel (R, q) = outcome.ok R1 ∧ Skel R0 R1 ∧
        (∀ w : List Nat, w.length ≤ 1 → (lookup R1 w).output = (lookup R0 w).output) ∧
        (lookup R1 []).suffix = none ∧ ∀ w, InT R0 w → w ≠ [] → DoneS R0 R1 w := by
  intro fuel
  induction fuel with
  | zero =>
    intro V Q R q u h _ hf
    have := h.count hcnt
    omega
  | succ fuel ih =>
    intro V Q R q u h hq hf
    cases Q with
    | nil =>
      refine ⟨R, by simp only [ac_while, hq.empty, if_true], h.skel, h.out1, h.rootsuf, ?_⟩
      intro w hw hne
      rcases h.cover w hw hne with h1 | ⟨a, ha, _⟩ | ⟨c, hc, t, ht⟩
      · exact (h.mem w h1).2.2
      · cases ha
      · have := halpha u c (InT_of_append R0 _ t (ht ▸ hw))
        omega
    | cons u1 Q =>
      have hcount := h.count hcnt
      simp only [List.length_cons] at hcount
      obtain ⟨he, hd, hqr⟩ := hq.dequeue (by omega)
      have hb := h.next (Nat.le_refl nr) halpha
      obtain ⟨R1, Q1, q1, h1, h2, h3⟩ := ac_node_loop_spec scan hroot hcnt
        (List.mem_append_right V (List.mem_singleton_self u1)) hscan nr 0 R Q _ hb hqr
      simp only [ac_while, he, Bool.false_eq_true, if_false, hd, List.range_eq_range', h1,
        outcome.bind]
      rw [Nat.zero_add] at h2
      exact ih _ _ R1 q1 u1 h2 h3 (by simp only [List.length_append, List.length_singleton]; omega)

/-- The function `_fsmtrie_ac_compile` returns, writes Aho-Corasick fields
only, and leaves every node below the root with its failure link pointing to
its longest proper suffix in the trie and its output bit set exactly when a
key ends there. -/
theorem ac_compile_spec (f : fsmtrie) (hroot : f.root.isNull = false)
    (halpha : ∀ w c, InT f.root (w ++ [c]) → c < f.nrnodes)
    (ho1 : ∀ c, (f.root.nodes c).output = (f.root.nodes c).leaf)
    (hcnt : ∀ L : List (List Nat), L.Nodup → (∀ w ∈ L, InT f.root w ∧ w ≠ []) →
      L.length ≤ f.node_cnt)
    (hsz : 2 * f.node_cnt < 2147483648)
    (fuel : Nat) (hfuel : f.node_cnt + 1 ≤ fuel) :
    ∃ R1, _fsmtrie_ac_compile f fuel = outcome.ok { f with root := R1, ac_compiled := true } ∧
      Skel f.root R1 ∧
      (∀ w : List Nat, w.length ≤ 1 → (lookup R1 w).output = (lookup f.root w).output) ∧
      Compiled R1 := by
  have hg := HeaderOnly_setSuffix none
  have hinit : BInv f.root (update_at f.root [] (fun n => n.setSuffix none)) [] [] [] 0 := by
    refine ⟨(Skel.refl f.root).update _ hg [], ?_, ?_, by simp, by simp, by simp, by simp,
      by simp, by simp, Or.inl rfl, ?_⟩
    · intro w _
      obtain ⟨_, _, _, _, h2⟩ := lookup_update_at _ hg [] f.root w
      rw [h2]; split
      · rename_i e; subst e; simp
      · rfl
    · rw [(upd_self _ hg [] f.root).1]; simp
    · intro w _ hne
      cases w with
      | nil => exact absurd rfl hne
      | cons c w => exact Or.inr (Or.inr ⟨c, Nat.zero_le _, ⟨w, rfl⟩⟩)
  have hq0 : QRep (_fsmtrie_nodeq_init (toInt32 (2 * f.node_cnt))) f.node_cnt [] [] :=
    ⟨by rw [toInt32_of_lt _ hsz]; simp [_fsmtrie_nodeq_init], rfl, rfl,
      fun i x hx => by simp at hx⟩
  obtain ⟨R1, Q1, q1, h1, h2, h3⟩ := ac_root_loop_spec (N := f.node_cnt) hroot hcnt ho1
    f.nrnodes 0 _ _ _ hinit hq0
  rw [Nat.zero_add] at h2
  obtain ⟨R2, h4, h5, h6, h7, h8⟩ := ac_while_spec f.nrnodes fuel hroot hcnt halpha hfuel
    fuel [] Q1 R1 q1 [] h2 h3 (by simpa using hfuel)
  refine ⟨R2, ?_, h5, h6, h7, ?_⟩
  · simp only [_fsmtrie_ac_compile, List.range_eq_range', h1, outcome.bind, h4]
  · intro w hw hne
    rw [h5.done]
    exact h8 w ((h5.inT w).1 hw) hne

/-- The step of the substring search on the byte `c`. -/
theorem ac_next_spec {R : fsmtrie_node} (hroot : InT R []) (hcomp : Compiled R)
    {pre node : List Nat} (c : Nat) (hs : IsState R pre node) (fuel : Nat)
    (hfuel : node.length + 2 ≤ fuel) :
    ∃ node1, ac_next R c fuel (some node) = some node1 ∧ IsState R (pre ++ [c]) node1 := by
  obtain ⟨h1, h2, h3⟩ := hs
  rw [ac_next_eq_scan]
  rcases suffix_scan_spec R c hcomp.1 node.length node rfl h2
    (fun w _ hne hin => hcomp.2 w hin hne) fuel hfuel with ⟨v, hv, hvc, hvmax, hsc⟩ | ⟨hnone, hsc⟩
  · refine ⟨v ++ [c], by rw [hsc]; rfl, suffix_append_right (hv.trans h1) c, hvc, ?_⟩
    intro v' hv' hin
    rcases List.suffix_concat_iff.1 hv' with e | ⟨t, rfl, ht⟩
    · subst e; simp
    · have hle := h3 t ht (InT_of_append R t [c] hin)
      have := hvmax t (List.suffix_of_suffix_length_le ht h1 hle) hin
      simp only [List.length_append, List.length_singleton]; omega
  · refine ⟨[], by rw [hsc]; rfl, List.nil_suffix, hroot, ?_⟩
    intro v' hv' hin
    rcases List.suffix_concat_iff.1 hv' with e | ⟨t, rfl, ht⟩
    · subst e; simp
    · have hle := h3 t ht (InT_of_append R t [c] hin)
      exact absurd hin (hnone t (List.suffix_of_suffix_length_le ht h1 hle))

/-- The walk along the failure links from the node `u` invokes the callback
once for every key that is a suffix of `u`. -/
theorem ac_emit_spec {R : fsmtrie_node} (hcomp : Compiled R)
    (hrl : (lookup R []).leaf = false)
    (hstr : ∀ w, (lookup R w).leaf = true → (lookup R w).str = some w)
    (a : Nat) (ha : a < 2147483648) :
    ∀ (n : Nat) (u : List Nat), u.length = n → u.length ≤ a → InT R u →
      ∀ fuel, u.length + 2 ≤ fuel →
      ∀ out, ∃ E, ac_emit R (a : Int) fuel (some u) out = outcome.ok (out ++ E) ∧ E.Nodup ∧
        ∀ e, e ∈ E ↔ ∃ k, e = (some k, (a : Int) - (k.length : Int)) ∧ k <:+ u ∧
          (lookup R k).leaf = true := by
  intro n
  induction n using Nat.strong_induction_on with
  | _ n ih =>
    intro u hn hua hu fuel hfuel out
    obtain ⟨fuel, rfl⟩ : ∃ k, fuel = k + 1 := ⟨fuel - 1, by omega⟩
    by_cases hu0 : u = []
    · subst hu0
      obtain ⟨fuel, rfl⟩ : ∃ k, fuel = k + 1 := ⟨fuel - 1, by simp at hfuel; omega⟩
      have hrl' : R.leaf = false := hrl
      have hrs : R.suffix = none := hcomp.1
      refine ⟨[], by simp [ac_emit, hrl', hrs], List.nodup_nil, ?_⟩
      intro e
      simp only [List.not_mem_nil, false_iff, not_exists, not_and]
      intro k _ hk hl
      rw [List.suffix_nil.1 hk, hrl] at hl; cases hl
    · obtain ⟨u1, hsuf, hfail, _⟩ := hcomp.2 u hu hu0
      obtain ⟨hf1, hf2, hf3, hf4⟩ := hfail
      have hsplit : ∀ k, (k <:+ u ∧ (lookup R k).leaf = true) ↔
          ((k = u ∧ (lookup R u).leaf = true) ∨ (k <:+ u1 ∧ (lookup R k).leaf = true)) := by
        intro k
        constructor
        · rintro ⟨hk, hl⟩
          by_cases e : k = u
          · subst e; exact Or.inl ⟨rfl, hl⟩
          · right
            have hle := hf4 k hk (suffix_length_lt hk e) (leaf_isNull hl)
            exact ⟨List.suffix_of_suffix_length_le hk hf1 hle, hl⟩
        · rintro (⟨e, hl⟩ | ⟨hk, hl⟩)
          · subst e; exact ⟨List.suffix_rfl, hl⟩
          · exact ⟨hk.trans hf1, hl⟩
      by_cases hl : (lookup R u).leaf = true
      · obtain ⟨E, hE, hnd, hmem⟩ := ih u1.length (by omega) u1 rfl (by omega) hf3 fuel
          (by omega) (out ++ [(some u, (a : Int) - (u.length : Int))])
        refine ⟨(some u, (a : Int) - (u.length : Int)) :: E, ?_, ?_, ?_⟩
        · simp only [ac_emit, hl, if_true, hstr u hl, hsuf,
            toInt32_toUInt32 ((a : Int) - (u.length : Int)) (by omega) (by omega), hE]
          simp
        · rw [List.nodup_cons]
          refine ⟨?_, hnd⟩
          intro hin
          obtain ⟨k, hk, hks, _⟩ := (hmem _).1 hin
          simp only [Prod.mk.injEq, Option.some.injEq] at hk
          have := hks.length_le
          rw [← hk.1] at this
          omega
        · intro e
          rw [List.mem_cons, hmem]
          constructor
          · rintro (e1 | ⟨k, hk, hk2⟩)
            · exact ⟨u, e1, (hsplit u).2 (Or.inl ⟨rfl, hl⟩)⟩
            · exact ⟨k, hk, (hsplit k).2 (Or.inr hk2)⟩
          · rintro ⟨k, hk, hk2⟩
            rcases (hsplit k).1 hk2 with ⟨e1, _⟩ | h2
            · subst e1; exact Or.inl hk
            · exact Or.inr ⟨k, hk, h2⟩
      · obtain ⟨E, hE, hnd, hmem⟩ := ih u1.length (by omega) u1 rfl (by omega) hf3 fuel
          (by omega) out
        refine ⟨E, ?_, hnd, ?_⟩
        · simp only [ac_emit, hl, hsuf, hE]
          simp
        · intro e
          rw [hmem]
          constructor
          · rintro ⟨k, hk, hk2⟩
            exact ⟨k, hk, (hsplit k).2 (Or.inr hk2)⟩
          · rintro ⟨k, hk, hk2⟩
            rcases (hsplit k).1 hk2 with ⟨_, h1⟩ | h2
            · exact absurd h1 hl
            · exact ⟨k, hk, h2⟩

theorem Emitted_step {R : fsmtrie_node} {T : List Nat} {pos : Nat}
    {out E : List (Option (List Nat) × Int)} (h : Emitted R T pos out) (hE : E.Nodup)
    (hmem : ∀ e, e ∈ E ↔ ∃ k : List Nat, e = (some k, ((pos : Int) + 1) - (k.length : Int)) ∧
      k <:+ T.take (pos + 1) ∧ (lookup R k).leaf = true) :
    Emitted R T (pos + 1) (out ++ E) := by
  obtain ⟨hnd, hout⟩ := h
  refine ⟨List.Nodup.append hnd hE ?_, ?_⟩
  · intro e h1 h2
    obtain ⟨k, j, he, hj, _⟩ := (hout e).1 h1
    obtain ⟨k', he', _⟩ := (hmem e).1 h2
    rw [he] at he'
    simp only [Prod.mk.injEq, Option.some.injEq] at he'
    obtain ⟨e1, e2⟩ := he'
    subst e1
    omega
  · intro e
    rw [List.mem_append, hout, hmem]
    constructor
    · rintro (⟨k, j, he, hj, h1, h2⟩ | ⟨k, he, h1, h2⟩)
      · exact ⟨k, j, he, Nat.le_succ_of_le hj, h1, h2⟩
      · exact ⟨k, pos + 1, by rw [he]; push_cast; rfl, Nat.le_refl _, h1, h2⟩
    · rintro ⟨k, j, he, hj, h1, h2⟩
      rcases Nat.eq_or_lt_of_le hj with e1 | hlt
      · subst e1
        exact Or.inr ⟨k, by rw [he]; push_cast; rfl, h1, h2⟩
      · exact Or.inl ⟨k, j, he, Nat.le_of_lt_succ hlt, h1, h2⟩

/-- The loop of the substring search over the rest of the subject. -/
theorem ac_search_loop_spec {R : fsmtrie_node} (hroot : InT R []) (hcomp : Compiled R)
    (hrl : (lookup R []).leaf = false)
    (hstr : ∀ w, (lookup R w).leaf = true → (lookup R w).str = some w)
    (D fuel : Nat) (hD : ∀ w, InT R w → w.length ≤ D) (hfuel : D + 2 ≤ fuel) (T : List Nat)
    (hTlen : T.length < 2147483648) :
    ∀ (rest pre node : List Nat) (out : List (Option (List Nat) × Int)),
      T = pre ++ rest → IsState R pre node → Emitted R T pre.length out →
      ∃ out1, ac_search_loop R fuel rest pre.length node out = outcome.ok out1 ∧
        Emitted R T T.length out1 := by
  intro rest
  induction rest with
  | nil =>
    intro pre node out hT _ hE
    refine ⟨out, rfl, ?_⟩
    rw [hT, List.append_nil]; rw [hT, List.append_nil] at hE; exact hE
  | cons c rest ih =>
    intro pre node out hT hs hE
    obtain ⟨node1, hn1, hs1⟩ := ac_next_spec hroot hcomp c hs fuel
      (by have := hD node hs.2.1; omega)
    have hT1 : T = (pre ++ [c]) ++ rest := by rw [hT]; simp
    have htake : T.take (pre.length + 1) = pre ++ [c] := by
      rw [hT1, ← List.length_singleton c, ← List.length_append, List.take_left]
    have hkey : ∀ k, (k <:+ T.take (pre.length + 1) ∧ (lookup R k).leaf = true) ↔
        (k <:+ node1 ∧ (lookup R k).leaf = true) := by
      intro k
      rw [htake]
      constructor
      · rintro ⟨hk, hl⟩
        exact ⟨List.suffix_of_suffix_length_le hk hs1.1 (hs1.2.2 k hk (leaf_isNull hl)), hl⟩
      · rintro ⟨hk, hl⟩
        exact ⟨hk.trans hs1.1, hl⟩
    have hlen1 : (pre ++ [c]).length = pre.length + 1 := by simp
    have hpos : pre.length + 1 < 2147483648 := by
      have := congrArg List.length hT1
      simp only [List.length_append, List.length_singleton] at this
      omega
    simp only [ac_search_loop, hn1, toInt32_of_lt _ hpos]
    by_cases ho : (lookup R node1).output = true
    · obtain ⟨E, hE1, hnd, hmem⟩ := ac_emit_spec hcomp hrl hstr (pre.length + 1) hpos
        node1.length node1 rfl (by have := hs1.1.length_le; rw [hlen1] at this; exact this)
        hs1.2.1 fuel (by have := hD node1 hs1.2.1; omega) out
      simp only [ho, if_true, hE1, outcome.bind]
      have hE2 : Emitted R T (pre.length + 1) (out ++ E) := by
        refine Emitted_step hE hnd ?_
        intro e
        rw [hmem]
        push_cast
        constructor
        · rintro ⟨k, he, hk⟩; exact ⟨k, he, (hkey k).2 hk⟩
        · rintro ⟨k, he, hk⟩; exact ⟨k, he, (hkey k).1 hk⟩
      rw [← hlen1] at hE2 ⊢
      exact ih (pre ++ [c]) node1 (out ++ E) hT1 hs1 hE2
    · simp only [ho, if_false]
      have hE2 : Emitted R T (pre.length + 1) (out ++ []) := by
        refine Emitted_step hE List.nodup_nil ?_
        intro e
        simp only [List.not_mem_nil, false_iff, not_exists, not_and]
        intro k _ hk hl
        obtain ⟨hk1, _⟩ := (hkey k).1 ⟨hk, hl⟩
        have hkne : k ≠ [] := by
          intro e1; rw [e1, hrl] at hl; cases hl
        have hn1ne : node1 ≠ [] := by
          intro e1; rw [e1] at hk1; exact hkne (List.suffix_nil.1 hk1)
        obtain ⟨_, _, _, hout⟩ := hcomp.2 node1 hs1.2.1 hn1ne
        exact ho (hout.2 ⟨k, hk1, hkne, hl⟩)
      rw [List.append_nil] at hE2
      rw [← hlen1] at hE2 ⊢
      exact ih (pre ++ [c]) node1 out hT1 hs1 hE2

theorem IsState_nil {R : fsmtrie_node} (hroot : InT R []) : IsState R [] [] :=
  ⟨List.suffix_rfl, hroot, fun v hv _ => by rw [List.suffix_nil.1 hv]⟩

theorem Emitted_zero {R : fsmtrie_node} (hrl : (lookup R []).leaf = false) (T : List Nat) :
    Emitted R T 0 [] := by
  refine ⟨List.nodup_nil, ?_⟩
  intro e
  simp only [List.not_mem_nil, false_iff, not_exists, not_and]
  intro k j _ hj hk hl
  have : j = 0 := by omega
  subst this
  rw [List.take_zero] at hk
  rw [List.suffix_nil.1 hk, hrl] at hl; cases hl

/-- An occurrence of `k` at offset `i` of `T`, told by the text before its
end. -/
theorem occurrence_iff (T k : List Nat) (i : Nat) (h : i + k.length ≤ T.length) :
    k <:+ T.take (i + k.length) ↔ (T.drop i).take k.length = k := by
  rw [List.take_add]
  have hlen : ((T.drop i).take k.length).length = k.length := by
    rw [List.length_take, List.length_drop]; omega
  constructor
  · intro hk
    have hB : (T.drop i).take k.length <:+ T.take i ++ (T.drop i).take k.length :=
      List.suffix_append _ _
    have := List.suffix_of_suffix_length_le hk hB (by omega)
    exact (this.eq_of_length hlen.symm).symm
  · intro hk
    rw [hk]; exact List.suffix_append _ _

theorem lookup_payload (w : List Nat) :
    ∀ A : List (List Nat × Option (List Nat)), (∀ c ∈ A, c.2 = some c.1) →
      (∃ c ∈ A, c.1 = w) → A.lookup w = some (some w) := by
  intro A
  induction A with
  | nil => intro _ h; obtain ⟨c, hc, _⟩ := h; cases hc
  | cons c A ih =>
    intro hp hex
    obtain ⟨k, s⟩ := c
    rw [List.lookup_cons]
    by_cases e : w = k
    · subst e
      have := hp (w, s) (List.mem_cons_self _ _)
      simp only at this
      simp [this]
    · have hb : (w == k) = false := by simpa using e
      simp only [hb]
      apply ih (fun c hc => hp c (List.mem_cons_of_mem _ hc))
      obtain ⟨c, hc, hcw⟩ := hex
      rcases List.mem_cons.1 hc with h1 | h1
      · subst h1; exact absurd hcw.symm e
      · exact ⟨c, h1, hcw⟩

theorem ACInv.rootleaf {f : fsmtrie} {A : List (List Nat × Option (List Nat))}
    (h : ACInv f A) : (lookup f.root []).leaf = false := by
  cases hl : (lookup f.root []).leaf
  · rfl
  · obtain ⟨c, hc, hcw⟩ := (h.holds.leaf []).1 hl
    exact absurd hcw (h.nonempty c hc)

theorem ACInv.str_leaf {f : fsmtrie} {A : List (List Nat × Option (List Nat))}
    (h : ACInv f A) (w : List Nat) (hl : (lookup f.root w).leaf = true) :
    (lookup f.root w).str = some w := by
  rw [h.holds.str w, lookup_payload w A h.payload ((h.holds.leaf w).1 hl)]
  rfl

theorem ACInv.alpha {f : fsmtrie} {A : List (List Nat × Option (List Nat))}
    (h : ACInv f A) (w : List Nat) (c : Nat) (hin : InT f.root (w ++ [c])) : c < f.nrnodes := by
  rcases (h.holds.exist (w ++ [c])).1 hin with e | ⟨k, hk, hpre⟩
  · simp at e
  · apply accepts_bytes f h.holds.wf k.1 (h.holds.acc k hk).1 (h.holds.acc k hk).2
    exact hpre.subset (by simp)

/-- The compilation keeps the invariant of the substring search. -/
theorem ACInv.compiled {f : fsmtrie} {A : List (List Nat × Option (List Nat))}
    (h : ACInv f A) {R1 : fsmtrie_node} (hs : Skel f.root R1)
    (ho : ∀ w : List Nat, w.length ≤ 1 → (lookup R1 w).output = (lookup f.root w).output)
    (hc : Compiled R1) : ACInv { f with root := R1, ac_compiled := true } A := by
  refine ⟨⟨⟨?_, h.holds.wf.size⟩, ?_, ?_, ?_, h.holds.acc⟩, h.nonempty, h.payload, ?_, ?_, ?_,
    fun _ => hc⟩
  · have := (hs []).1
    simp only [lookup_nil] at this
    show R1.isNull = false
    rw [this]; exact h.holds.wf.root
  · intro w; show (lookup R1 w).isNull = false ↔ _; rw [(hs w).1]; exact h.holds.exist w
  · intro w; show (lookup R1 w).leaf = true ↔ _; rw [(hs w).2.1]; exact h.holds.leaf w
  · intro w; show (lookup R1 w).str = _; rw [(hs w).2.2]; exact h.holds.str w
  · have := ho [] (by simp)
    simp only [lookup_nil] at this
    show R1.output = false
    rw [this]; exact h.rootout
  · intro c
    have h1 := ho [c] (by simp)
    have h2 := (hs [c]).2.1
    simp only [lookup_cons, lookup_nil] at h1 h2
    show (R1.nodes c).output = (R1.nodes c).leaf
    rw [h1, h2]; exact h.out1 c
  · intro L hL hmem
    exact h.cnt L hL (fun w hw => ⟨(hs.inT w).1 (hmem w hw).1, (hmem w hw).2⟩)

/-- The function `fsmtrie_search_substring` on a byte trie that stores
non-empty keys with themselves as payload: it returns 1 and the callback
invocations are, each once, the occurrences of the keys in the subject. -/
theorem substring_spec (f : fsmtrie) (A : List (List Nat × Option (List Nat)))
    (hI : ACInv f A) (T : List Nat) (hTlen : T.length < 2147483648)
    (hsz : 2 * f.node_cnt < 2147483648) (fuel : Nat) (hfuel : f.node_cnt + 2 ≤ fuel) :
    ∃ r, fsmtrie_search_substring f T fuel = outcome.ok r ∧ r.ret = 1 ∧ ACInv r.f A ∧
      r.f.node_cnt = f.node_cnt ∧ r.f.nrnodes = f.nrnodes ∧
      Emitted r.f.root T T.length r.out := by
  have hm : f.mode ≠ fsmtrie_mode_token := by
    rcases hI.holds.wf.size with ⟨hm, _⟩ | ⟨hm, _⟩ <;> simp [hm]
  have hloop : ∀ f1 : fsmtrie, ACInv f1 A → f1.ac_compiled = true → f1.node_cnt = f.node_cnt →
      ∃ out, ac_search_loop f1.root fuel T 0 [] [] = outcome.ok out ∧
        Emitted f1.root T T.length out := by
    intro f1 h1 hc hn
    exact ac_search_loop_spec h1.holds.wf.root (h1.comp hc) h1.rootleaf h1.str_leaf
      f1.node_cnt fuel (depth_le h1.cnt) (by omega) T hTlen T [] [] [] rfl
      (IsState_nil h1.holds.wf.root) (Emitted_zero h1.rootleaf T)
  unfold fsmtrie_search_substring
  simp only [hm, if_false, hI.holds.wf.root, Bool.false_eq_true]
  by_cases hc : f.ac_compiled = true
  · obtain ⟨out, h1, h2⟩ := hloop f hI hc rfl
    simp only [hc, if_true, outcome.bind, h1]
    exact ⟨_, rfl, rfl, hI, rfl, rfl, h2⟩
  · obtain ⟨R1, h1, h2, h3, h4⟩ := ac_compile_spec f hI.holds.wf.root hI.alpha hI.out1 hI.cnt
      hsz fuel (by omega)
    have hI1 := hI.compiled h2 h3 h4
    obtain ⟨out, h5, h6⟩ := hloop _ hI1 rfl rfl
    simp only [hc, Bool.false_eq_true, if_false, h1, outcome.bind, h5]
    exact ⟨_, rfl, rfl, hI1, rfl, rfl, h6⟩

theorem fsmtrie_insert_node_cnt (f : fsmtrie) (hf : ByteTrie f) (k : List Nat)
    (str : Option (List Nat)) :
    (fsmtrie_insert f (some k) str).2.node_cnt ≤ f.node_cnt + k.length := by
  by_cases ha : accepts f k
  · rw [fsmtrie_insert_accepted f hf k str ha]
    have := insert_walk_created_le f.nrnodes f.mode str k f.root
    split <;> simp only [] <;> omega
  · have hb : (fsmtrie_insert f (some k) str).1 = false := by
      cases h : (fsmtrie_insert f (some k) str).1
      · rfl
      · exact absurd ((fsmtrie_insert_byte f hf k str).1.1 h) ha
    obtain ⟨e, he⟩ := fsmtrie_insert_rejected f (some k) str hb
    rw [he]; exact Nat.le_add_right _ _

/-- Every interleaving of inserts and substring searches runs to its end
with enough fuel, and keeps the invariant of the substring search for the
keys whose inserts returned true. -/
theorem run_ac_ops_spec (fuel : Nat) : ∀ (ops : List ac_op) (f : fsmtrie)
    (A : List (List Nat × Option (List Nat))), ACInv f A →
    (∀ op ∈ ops, op_ok f.nrnodes op) → f.node_cnt + keys_length ops < 1073741824 →
    f.node_cnt + keys_length ops + 2 ≤ fuel →
    ∃ f1, run_ac_ops fuel f ops = outcome.ok f1 ∧
      ACInv f1 (A ++ (inserted_keys fuel f ops).map (fun k => (k, some k))) ∧
      f1.node_cnt < 1073741824 ∧ f1.node_cnt + 2 ≤ fuel := by
  intro ops
  induction ops with
  | nil =>
    intro f A hI _ hb hf
    exact ⟨f, rfl, by simpa [inserted_keys] using hI, by simpa [keys_length] using hb,
      by simpa [keys_length] using hf⟩
  | cons op ops ih =>
    intro f A hI hops hb hf
    cases op with
    | insert k =>
      have hk : IsCStr k ∧ k ≠ [] := hops _ (List.mem_cons_self _ _)
      have hI1 := ACInv_insert f A hI k hk.1 hk.2
      have hn := fsmtrie_insert_node_cnt f hI.holds.wf k (some k)
      obtain ⟨hnr, _⟩ := fsmtrie_insert_fixed f (some k) (some k)
      simp only [keys_length] at hf hb
      obtain ⟨f1, h1, h2, h3⟩ := ih _ _ hI1
        (fun op hop => by rw [hnr]; exact hops op (List.mem_cons_of_mem _ hop)) (by omega)
        (by omega)
      refine ⟨f1, by simp only [run_ac_ops, h1], ?_, h3⟩
      simp only [inserted_keys, List.map_append]
      rw [← List.append_assoc]
      convert h2 using 2
      split <;> simp
    | search t =>
      simp only [keys_length] at hf hb
      have ht : IsCStr t ∧ (∀ b ∈ t, b < f.nrnodes) ∧ t.length < 2147483648 :=
        hops _ (List.mem_cons_self _ _)
      obtain ⟨r, h1, _, h3, h4, h5, _⟩ := substring_spec f A hI t ht.2.2 (by omega) fuel
        (by omega)
      obtain ⟨f1, h6, h7, h8⟩ := ih r.f A h3
        (fun op hop => by rw [h5]; exact hops op (List.mem_cons_of_mem _ hop)) (by omega)
        (by omega)
      refine ⟨f1, by simp only [run_ac_ops, h1, outcome.bind, h6], ?_, h8⟩
      simpa only [inserted_keys, h1] using h7

/-- C5: on a fresh ASCII or EASCII trie, after any interleaving of inserts of
non-empty keys (each with the key as its string) and substring searches, a
substring search of a subject `T` over the alphabet of the trie returns (with
enough fuel for its loops) the value 1, and its callback invocations are
pairwise different and are exactly the pairs (`k`, `i`) such that the insert
of `k` returned true and `k` occurs in `T` at offset `i`: one invocation for
every occurrence of an inserted key and no other.  The sizes are those the
`int` variables of the code can hold: subjects shorter than 2^31 bytes (the
offset handed to the callback is an `int`) and keys of less than 2^30 bytes in
total (the queue size `2 * node_cnt` is an `int`). -/
theorem C5_substring_search_sound_complete (o : Option fsmtrie_opt) (f0 : fsmtrie)
    (ops : List ac_op) (T : List Nat)
    (hinit : fsmtrie_init o = some f0) (hmode : f0.mode ≠ fsmtrie_mode_token)
    (hops : ∀ op ∈ ops, op_ok f0.nrnodes op) (hkeys : keys_length ops < 1073741824)
    (hT : IsCStr T ∧ (∀ b ∈ T, b < f0.nrnodes) ∧ T.length < 2147483648) :
    ∃ N, ∀ fuel, N ≤ fuel →
      ∃ f r, run_ac_ops fuel f0 ops = outcome.ok f ∧
        fsmtrie_search_substring f T fuel = outcome.ok r ∧ r.ret = 1 ∧ r.out.Nodup ∧
        ∀ e, e ∈ r.out ↔ ∃ (k : List Nat) (i : Nat), e = (some k, (i : Int)) ∧
          k ∈ inserted_keys fuel f0 ops ∧ i + k.length ≤ T.length ∧
          (T.drop i).take k.length = k := by
  have hn0 : f0.node_cnt = 0 := by
    unfold fsmtrie_init at hinit
    rcases o with _ | ⟨m, pm, ml⟩
    · simp at hinit; subst hinit; rfl
    · cases m
      · simp at hinit; subst hinit; rfl
      · simp at hinit; subst hinit; rfl
      · simp at hinit; obtain ⟨_, h⟩ := hinit; subst h; rfl
  refine ⟨f0.node_cnt + keys_length ops + 2, fun fuel hfuel => ?_⟩
  obtain ⟨f, h1, h2, hsz, h3⟩ := run_ac_ops_spec fuel ops f0 []
    (ACInv_init o f0 hinit hmode) hops (by omega) hfuel
  have hT3 : T.length < 2147483648 := hT.2.2
  obtain ⟨r, h4, h5, h6, _, _, hnd, hmem⟩ := substring_spec f _ h2 T hT3 (by omega) fuel h3
  refine ⟨f, r, h1, h4, h5, hnd, ?_⟩
  have hleaf : ∀ k, (lookup r.f.root k).leaf = true ↔ k ∈ inserted_keys fuel f0 ops := by
    intro k
    rw [h6.holds.leaf k]
    simp only [List.nil_append, List.mem_map, exists_exists_and_eq_and]
    constructor
    · rintro ⟨a, ha, rfl⟩; exact ha
    · intro hk; exact ⟨k, hk, rfl⟩
  intro e
  rw [hmem]
  constructor
  · rintro ⟨k, j, he, hj, hk, hl⟩
    have hlen := hk.length_le
    rw [List.length_take] at hlen
    have hjk : j - k.length + k.length = j := by omega
    refine ⟨k, j - k.length, ?_, (hleaf k).1 hl, by omega, ?_⟩
    · rw [he]; congr 1; omega
    · rw [← occurrence_iff T k (j - k.length) (by omega), hjk]; exact hk
  · rintro ⟨k, i, he, hk, hlen, hocc⟩
    refine ⟨k, i + k.length, ?_, hlen, (occurrence_iff T k i hlen).2 hocc, (hleaf k).2 hk⟩
    rw [he]; congr 1; push_cast; omega

theorem C5_substring_search_sound_complete_witness :
    fsmtrie_init (some ⟨fsmtrie_mode_ascii, true, 64⟩) = some trie_S1 ∧
    trie_S1.mode ≠ fsmtrie_mode_token ∧ (∀ op ∈ ops_ushers, op_ok trie_S1.nrnodes op) ∧
    keys_length ops_ushers < 1073741824 ∧
    (IsCStr [117, 115, 104, 101, 114, 115] ∧
      (∀ b ∈ [117, 115, 104, 101, 114, 115], b < trie_S1.nrnodes) ∧
      [117, 115, 104, 101, 114, 115].length < 2147483648) ∧
    ∃ N, ∀ fuel, N ≤ fuel →
      ∃ f r, run_ac_ops fuel trie_S1 ops_ushers = outcome.ok f ∧
        fsmtrie_search_substring f [117, 115, 104, 101, 114, 115] fuel = outcome.ok r ∧
        r.ret = 1 ∧ r.out.Nodup ∧
        ∀ e, e ∈ r.out ↔ ∃ (k : List Nat) (i : Nat), e = (some k, (i : Int)) ∧
          k ∈ inserted_keys fuel trie_S1 ops_ushers ∧
          i + k.length ≤ [117, 115, 104, 101, 114, 115].length ∧
          ([117, 115, 104, 101, 114, 115].drop i).take k.length = k :=
  ⟨rfl, by decide, by decide, by decide, by decide,
   C5_substring_search_sound_complete (some ⟨fsmtrie_mode_ascii, true, 64⟩) trie_S1 ops_ushers
     [117, 115, 104, 101, 114, 115] rfl (by decide) (by decide) (by decide) (by decide)⟩

set_option maxRecDepth 100000 in
/-- Scenario S4 evaluated: searching farsightsecurity reports sigh at offset 3
and farsightsecurity at offset 0. -/
theorem substring_S4_eval :
    search_after 40 trie_S1 ops_S4
      [102, 97, 114, 115, 105, 103, 104, 116, 115, 101, 99, 117, 114, 105, 116, 121] =
    some (1, [(some [115, 105, 103, 104], 3),
      (some [102, 97, 114, 115, 105, 103, 104, 116, 115, 101, 99, 117, 114, 105, 116, 121], 0)]) := by
  decide!

/-! ### Approximate search: the traversal reports the keys within the bound -/

theorem osa_table_zero_row (a b : List Nat) (j : Nat) : osa_table a b 0 j = j := rfl

theorem osa_table_zero_col (a b : List Nat) (i : Nat) : osa_table a b i 0 = i := by
  cases i with
  | zero => rfl
  | succ i => simp [osa_table, osa_rows, osa_next]

theorem osa_rows_snd (a b : List Nat) (i : Nat) :
    (osa_rows a b (i + 1)).2 = osa_table a b i := rfl

/-- The recurrence of the optimal string alignment table. -/
theorem osa_table_succ (a b : List Nat) (i j : Nat) :
    osa_table a b (i + 1) (j + 1) =
      if 1 ≤ i ∧ 1 ≤ j ∧ a.getD i 0 = b.getD (j - 1) 0 ∧ a.getD (i - 1) 0 = b.getD j 0 then
        min (min (osa_table a b i j + (if a.getD i 0 = b.getD j 0 then 0 else 1))
              (min (osa_table a b (i + 1) j + 1) (osa_table a b i (j + 1) + 1)))
          (osa_table a b (i - 1) (j - 1) + 1)
      else
        min (osa_table a b i j + (if a.getD i 0 = b.getD j 0 then 0 else 1))
          (min (osa_table a b (i + 1) j + 1) (osa_table a b i (j + 1) + 1)) := by
  cases i with
  | zero => simp [osa_table, osa_rows, osa_next]
  | succ i =>
    simp only [osa_table, osa_rows, osa_next, Nat.add_sub_cancel]

/-- The table of `a` up to row `i` reads the first `i` symbols of `a` only. -/
theorem osa_table_congr (a a' b : List Nat) :
    ∀ i : Nat, (∀ t < i, a.getD t 0 = a'.getD t 0) →
      ∀ j, osa_table a b i j = osa_table a' b i j := by
  intro i
  induction i using Nat.strong_induction_on with
  | _ i ih =>
    intro h j
    cases i with
    | zero => rfl
    | succ i =>
      induction j with
      | zero => rw [osa_table_zero_col, osa_table_zero_col]
      | succ j ihj =>
        rw [osa_table_succ, osa_table_succ, ihj,
          ih i (Nat.lt_succ_self i) (fun t ht => h t (Nat.lt_succ_of_lt ht)) j,
          ih i (Nat.lt_succ_self i) (fun t ht => h t (Nat.lt_succ_of_lt ht)) (j + 1),
          h i (Nat.lt_succ_self i)]
        by_cases hi : 1 ≤ i
        · rw [ih (i - 1) (by omega) (fun t ht => h t (by omega)) (j - 1),
            h (i - 1) (by omega)]
        · have : ¬ (1 ≤ i ∧ 1 ≤ j ∧ a'.getD i 0 = b.getD (j - 1) 0 ∧
              a.getD (i - 1) 0 = b.getD j 0) := fun hh => hi hh.1
          have : ¬ (1 ≤ i ∧ 1 ≤ j ∧ a'.getD i 0 = b.getD (j - 1) 0 ∧
              a'.getD (i - 1) 0 = b.getD j 0) := fun hh => hi hh.1
          simp [*]

theorem osa_step_right (a b : List Nat) (i j : Nat) :
    osa_table a b i (j + 1) ≤ osa_table a b i j + 1 := by
  cases i with
  | zero => simp [osa_table_zero_row]
  | succ i =>
    rw [osa_table_succ]
    split <;> omega

theorem osa_step_down (a b : List Nat) (i j : Nat) :
    osa_table a b (i + 1) j ≤ osa_table a b i j + 1 := by
  cases j with
  | zero => simp [osa_table_zero_col]
  | succ j =>
    rw [osa_table_succ]
    split <;> omega

theorem osa_step_diag (a b : List Nat) (i j : Nat) :
    osa_table a b (i + 1) (j + 1) ≤ osa_table a b i j + 1 := by
  rw [osa_table_succ]
  split <;> split <;> omega

theorem osa_step_up (a b : List Nat) (i : Nat) :
    ∀ j, osa_table a b i j ≤ osa_table a b (i + 1) j + 1 := by
  intro j
  induction j with
  | zero => rw [osa_table_zero_col, osa_table_zero_col]; omega
  | succ j ih =>
    have h1 := osa_step_right a b i j
    rw [osa_table_succ]
    split
    · rename_i hc
      have h2 := osa_step_right a b (i - 1) (j - 1)
      have h3 := osa_step_diag a b (i - 1) j
      have e1 : i - 1 + 1 = i := by omega
      have e2 : j - 1 + 1 = j := by omega
      rw [e2] at h2
      rw [e1] at h3
      split <;> omega
    · split <;> omega

theorem osa_step_left (a b : List Nat) :
    ∀ i j, osa_table a b i j ≤ osa_table a b i (j + 1) + 1 := by
  intro i
  induction i with
  | zero => intro j; rw [osa_table_zero_row, osa_table_zero_row]; omega
  | succ i ih =>
    intro j
    have h1 := osa_step_down a b i j
    have h2 := ih j
    rw [osa_table_succ]
    split
    · rename_i hc
      have h3 := osa_step_diag a b (i - 1) (j - 1)
      have e1 : i - 1 + 1 = i := by omega
      have e2 : j - 1 + 1 = j := by omega
      rw [e1, e2] at h3
      have h4 := osa_step_down a b i j
      have h5 := osa_step_down a b (i - 1) (j - 1)
      rw [e1] at h5
      have h6 := osa_step_right a b (i + 1) (j - 1)
      rw [e2] at h6
      have h7 := osa_step_diag a b i (j - 1)
      rw [e2] at h7
      split <;> omega
    · split <;> omega

/-- The table never decreases along a diagonal. -/
theorem osa_diag_mono (a b : List Nat) (i j : Nat) :
    osa_table a b i j ≤ osa_table a b (i + 1) (j + 1) := by
  have h1 := osa_step_up a b i j
  have h2 := osa_step_left a b i j
  rw [osa_table_succ]
  split
  · rename_i hc
    have h3 := osa_step_diag a b (i - 1) (j - 1)
    have e1 : i - 1 + 1 = i := by omega
    have e2 : j - 1 + 1 = j := by omega
    rw [e1, e2] at h3
    split <;> omega
  · split <;> omega

/-- The distance is at least the difference of the lengths. -/
theorem osa_ge_diff (a b : List Nat) : ∀ i j, i ≤ osa_table a b i j + j ∧ j ≤ osa_table a b i j + i := by
  intro i
  induction i with
  | zero => intro j; simp [osa_table_zero_row]
  | succ i ih =>
    intro j
    cases j with
    | zero => simp [osa_table_zero_col]
    | succ j =>
      have := ih j
      have := osa_diag_mono a b i j
      omega

theorem pdist_nil (q : List Nat) (j : Nat) : pdist q [] j = j := rfl

theorem pdist_zero (q w : List Nat) : pdist q w 0 = w.length := osa_table_zero_col _ _ _

theorem getD_append_lt (w x : List Nat) (t : Nat) (h : t < w.length) :
    (w ++ x).getD t 0 = w.getD t 0 := by
  simp [List.getD_eq_getElem?_getD, List.getElem?_append_left h]

theorem getD_dropLast_lt (w : List Nat) (t : Nat) (h : t < w.length - 1) :
    w.dropLast.getD t 0 = w.getD t 0 := by
  rw [List.getD_eq_getElem?_getD, List.getD_eq_getElem?_getD, List.getElem?_dropLast, if_pos h]

theorem pdist_append_left (q w x : List Nat) (j : Nat) :
    osa_table (w ++ x) q w.length j = pdist q w j :=
  osa_table_congr _ _ _ _ (fun t ht => getD_append_lt w x t ht) j

theorem pdist_dropLast (q w x : List Nat) (j : Nat) :
    osa_table (w ++ x) q (w.length - 1) j = pdist q w.dropLast j := by
  unfold pdist
  rw [List.length_dropLast]
  apply osa_table_congr
  intro t ht
  rw [getD_append_lt w x t (by omega), getD_dropLast_lt w t ht]

/-- The recurrence of the table along a step of the traversal from the node
`w` to its child on `c`. -/
theorem pdist_snoc (q w : List Nat) (c j : Nat) :
    pdist q (w ++ [c]) (j + 1) =
      if 1 ≤ w.length ∧ 1 ≤ j ∧ c = q.getD (j - 1) 0 ∧ w.getD (w.length - 1) 0 = q.getD j 0 then
        min (min (pdist q w j + (if c = q.getD j 0 then 0 else 1))
              (min (pdist q (w ++ [c]) j + 1) (pdist q w (j + 1) + 1)))
          (pdist q w.dropLast (j - 1) + 1)
      else
        min (pdist q w j + (if c = q.getD j 0 then 0 else 1))
          (min (pdist q (w ++ [c]) j + 1) (pdist q w (j + 1) + 1)) := by
  have hlen : (w ++ [c]).length = w.length + 1 := by simp
  have hc : (w ++ [c]).getD w.length 0 = c := by
    simp [List.getD_eq_getElem?_getD]
  have h1 : pdist q (w ++ [c]) (j + 1) = osa_table (w ++ [c]) q (w.length + 1) (j + 1) := by
    unfold pdist; rw [hlen]
  have h2 : pdist q (w ++ [c]) j = osa_table (w ++ [c]) q (w.length + 1) j := by
    unfold pdist; rw [hlen]
  rw [h1, h2, osa_table_succ, pdist_append_left, pdist_append_left, pdist_dropLast, hc]
  by_cases hw : 1 ≤ w.length
  · rw [getD_append_lt w [c] (w.length - 1) (by omega)]
  · have e1 : ¬ (1 ≤ w.length ∧ 1 ≤ j ∧ c = q.getD (j - 1) 0 ∧
        (w ++ [c]).getD (w.length - 1) 0 = q.getD j 0) := fun h => hw h.1
    have e2 : ¬ (1 ≤ w.length ∧ 1 ≤ j ∧ c = q.getD (j - 1) 0 ∧
        w.getD (w.length - 1) 0 = q.getD j 0) := fun h => hw h.1
    rw [if_neg e1, if_neg e2]

theorem pdist_snoc_zero (q w : List Nat) (c : Nat) : pdist q (w ++ [c]) 0 = w.length + 1 := by
  rw [pdist_zero]; simp

theorem pdist_diag (q w : List Nat) (c j : Nat) : pdist q w j ≤ pdist q (w ++ [c]) (j + 1) := by
  have := osa_diag_mono (w ++ [c]) q w.length j
  rw [pdist_append_left] at this
  unfold pdist
  simpa using this

theorem pdist_diag_le (q w : List Nat) (c j : Nat) :
    pdist q (w ++ [c]) (j + 1) ≤ pdist q w j + (if c = q.getD j 0 then 0 else 1) := by
  rw [pdist_snoc]
  split <;> omega

theorem pdist_band (q w : List Nat) (j : Nat) :
    w.length ≤ pdist q w j + j ∧ j ≤ pdist q w j + w.length :=
  osa_ge_diff w q w.length j

/-- Once no cell of a row is within the bound, no cell of a row below is. -/
theorem pdist_prune (q : List Nat) (d : Nat) (x : List Nat) :
    ∀ w : List Nat, (∀ j, j ≤ q.length → d < pdist q w j) →
      ∀ j, j ≤ q.length → d < pdist q (w ++ x) j := by
  induction x with
  | nil => intro w h j hj; simpa using h j hj
  | cons c x ih =>
    intro w h j hj
    have : w ++ c :: x = (w ++ [c]) ++ x := by simp
    rw [this]
    apply ih (w ++ [c]) _ j hj
    intro j' hj'
    cases j' with
    | zero =>
      have := h 0 (Nat.zero_le _)
      rw [pdist_zero] at this
      rw [pdist_snoc_zero]; omega
    | succ j' =>
      have := h j' (by omega)
      have := pdist_diag q w c j'
      omega

theorem transp_scan_skip (idx cost : Int) :
    ∀ (es : List sim_entry) (dist : Int),
      (∀ l ∈ es, l.index = idx - 1 → ¬ (l.value + cost < dist)) →
      transp_scan es idx cost dist = dist := by
  intro es
  induction es with
  | nil => intro dist _; rfl
  | cons x rest ih =>
    intro dist h
    simp only [transp_scan]
    split
    · rfl
    · have hx := h x (List.mem_cons_self _ _)
      have : ¬ (x.index = idx - 1 ∧ x.value + cost < dist) := fun hh => hx hh.1 hh.2
      rw [if_neg this]
      exact ih dist (fun l hl => h l (List.mem_cons_of_mem _ hl))

theorem transp_scan_hit (idx cost : Int) :
    ∀ (es : List sim_entry) (dist : Int) (l : sim_entry),
      es.Pairwise (fun x y => x.index < y.index) → l ∈ es → l.index = idx - 1 →
      l.value + cost < dist → transp_scan es idx cost dist = l.value + cost := by
  intro es
  induction es with
  | nil => intro dist l _ hl; cases hl
  | cons x rest ih =>
    intro dist l hs hl hi hv
    rw [List.pairwise_cons] at hs
    simp only [transp_scan]
    rcases List.mem_cons.1 hl with e | hl'
    · subst e
      have h1 : ¬ l.index ≥ idx := by omega
      rw [if_neg h1, if_pos ⟨hi, hv⟩]
      apply transp_scan_skip
      intro y hy hyi
      have := hs.1 y hy
      omega
    · have h0 := hs.1 l hl'
      have h1 : ¬ x.index ≥ idx := by omega
      have h2 : ¬ (x.index = idx - 1 ∧ x.value + cost < dist) := by
        intro hh; omega
      rw [if_neg h1, if_neg h2]
      exact ih dist l hs.2 hl' hi hv

/-- A list of entries with increasing columns between `lo` and `hi` has at most
`hi - lo + 1` entries. -/
theorem sorted_band_length :
    ∀ (es : List sim_entry) (lo hi : Int), es.Pairwise (fun x y => x.index < y.index) →
      (∀ e ∈ es, lo ≤ e.index ∧ e.index ≤ hi) → lo ≤ hi + 1 →
      (es.length : Int) ≤ hi - lo + 1 := by
  intro es
  induction es with
  | nil => intro lo hi _ _ h; simp; omega
  | cons x rest ih =>
    intro lo hi hs hb _
    rw [List.pairwise_cons] at hs
    have hx := hb x (List.mem_cons_self _ _)
    have := ih (x.index + 1) hi hs.2
      (fun e he => ⟨by have := hs.1 e he; omega, (hb e (List.mem_cons_of_mem _ he)).2⟩)
      (by omega)
    simp only [List.length_cons]
    push_cast
    omega

theorem key_at_nat (q : List Nat) (j : Nat) : key_at q (j : Int) = ((q.getD j 0 : Nat) : Int) := by
  simp [key_at]

theorem key_at_pred (q : List Nat) (j : Nat) (h : 1 ≤ j) :
    key_at q ((j : Int) - 1) = ((q.getD (j - 1) 0 : Nat) : Int) := by
  have : (j : Int) - 1 = ((j - 1 : Nat) : Int) := by omega
  rw [this, key_at_nat]

/-- The body of the loop over `j`, by its stages. -/
theorem approx_cell_eq (key : List Nat) (max_dist end_ c i prev : Int) (row_im1 : sim_row)
    (e : sim_entry) (above : Option sim_entry) (next : sim_row) :
    approx_cell key max_dist end_ c i prev row_im1 e above next =
      (if (if i > 0 ∧ e.index > 0 ∧ key_at key e.index = prev - 1 ∧
              key_at key (e.index - 1) = c then
            transp_scan row_im1.entries e.index (if c = key_at key e.index then 0 else 1)
              (neighbour_min above (e.index + 1) (neighbour_min (sim_row_last next) e.index
                (e.value + (if c = key_at key e.index then 0 else 1))))
          else neighbour_min above (e.index + 1) (neighbour_min (sim_row_last next) e.index
                (e.value + (if c = key_at key e.index then 0 else 1)))) ≤ max_dist ∧
          e.index < (key.length : Int) then
        sim_row_append next end_ (e.index + 1)
          (if i > 0 ∧ e.index > 0 ∧ key_at key e.index = prev - 1 ∧
              key_at key (e.index - 1) = c then
            transp_scan row_im1.entries e.index (if c = key_at key e.index then 0 else 1)
              (neighbour_min above (e.index + 1) (neighbour_min (sim_row_last next) e.index
                (e.value + (if c = key_at key e.index then 0 else 1))))
          else neighbour_min above (e.index + 1) (neighbour_min (sim_row_last next) e.index
                (e.value + (if c = key_at key e.index then 0 else 1))))
      else some next) := by
  unfold approx_cell neighbour_min
  cases sim_row_last next <;> cases above <;> rfl

/-- A neighbour that is in the row exactly when its cell is within the bound
offers the value of that cell plus one. -/
theorem neighbour_min_spec (o : Option sim_entry) (k cur : Int) (v d : Nat)
    (h1 : ∀ l, o = some l → l.index = k → l.value = (v : Int) ∧ v ≤ d)
    (h2 : v ≤ d → ∃ l, o = some l ∧ l.index = k) :
    neighbour_min o k cur = if v ≤ d then min cur ((v : Int) + 1) else cur := by
  unfold neighbour_min
  by_cases hv : v ≤ d
  · obtain ⟨l, hl, hk⟩ := h2 hv
    obtain ⟨hval, _⟩ := h1 l hl hk
    subst hl
    simp only [hk, true_and, hval, hv, if_true]
    split <;> omega
  · rw [if_neg hv]
    cases o with
    | none => rfl
    | some l =>
      simp only
      have : ¬ l.index = k := fun hk => hv (h1 l rfl hk).2
      simp [this]

/-- The transposition scan of the row two levels up. -/
theorem transp_scan_spec (q : List Nat) (d : Nat) (u : List Nat) (es : List sim_entry)
    (hrow : RowOK q d u es) (j0 : Nat) (hj : 1 ≤ j0) (hjq : j0 ≤ q.length) (cost cur : Int) :
    transp_scan es (j0 : Int) cost cur =
      if pdist q u (j0 - 1) ≤ d ∧ (pdist q u (j0 - 1) : Int) + cost < cur then
        (pdist q u (j0 - 1) : Int) + cost
      else cur := by
  obtain ⟨hs, hval, hall⟩ := hrow
  split
  · rename_i h
    have hm := hall (j0 - 1) (by omega) h.1
    have := transp_scan_hit (j0 : Int) cost es cur _ hs hm (by simp only; omega) h.2
    rw [this]
  · rename_i h
    apply transp_scan_skip
    intro l hl hi hlt
    obtain ⟨j, hj1, hj2, hj3⟩ := hval l hl
    have : j = j0 - 1 := by omega
    subst this
    exact h ⟨hj3, by rw [← hj2]; exact hlt⟩

/-- The columns before the next entry of the old row hold no cell of the new
row. -/
theorem RowLoop.advance {q : List Nat} {d : Nat} {w : List Nat} {c : Nat} {e : sim_entry}
    {rest : List sim_entry} {next : sim_row} {J j0 : Nat}
    (h : RowLoop q d w c (e :: rest) next J) (he : e.index = (j0 : Int)) :
    RowLoop q d w c (e :: rest) next j0 := by
  have hs := List.pairwise_cons.1 h.rsorted
  obtain ⟨j, hj1, _, _, hj4⟩ := h.rval e (List.mem_cons_self _ _)
  have hJ : J ≤ j0 := by omega
  have hge : ∀ x ∈ e :: rest, (j0 : Int) ≤ x.index := by
    intro x hx
    rcases List.mem_cons.1 hx with e1 | hx
    · subst e1; omega
    · have := hs.1 x hx; omega
  refine ⟨h.rsorted, ?_, fun j hj => h.rall j (by omega), h.nsorted, ?_, ?_⟩
  · intro x hx
    obtain ⟨j, h1, h2, h3, _⟩ := h.rval x hx
    have := hge x hx
    exact ⟨j, h1, h2, h3, by omega⟩
  · intro x hx
    obtain ⟨j, h1, h2, h3, h4, h5⟩ := h.nval x hx
    exact ⟨j, h1, h2, h3, by omega, h5⟩
  · intro j hj hjq hd
    by_cases hjJ : j ≤ J
    · exact h.nall j hjJ hjq hd
    · obtain ⟨j', rfl⟩ : ∃ j', j = j' + 1 := ⟨j - 1, by omega⟩
      have h1 := pdist_diag q w c j'
      have h2 := h.rall j' (by omega) (by omega) (by omega)
      have := hge _ h2
      simp only at this
      omega

theorem sorted_le_last {es : List sim_entry} (hs : es.Pairwise (fun x y => x.index < y.index))
    {l x : sim_entry} (hl : es.getLast? = some l) (hx : x ∈ es) : x.index ≤ l.index := by
  obtain ⟨ys, rfl⟩ := List.getLast?_eq_some_iff.1 hl
  rw [List.pairwise_append] at hs
  rcases List.mem_append.1 hx with h | h
  · exact Int.le_of_lt (hs.2.2 x h l (List.mem_singleton_self _))
  · simp only [List.mem_singleton] at h; subst h; exact Int.le_refl _

theorem sorted_head_le {es : List sim_entry} (hs : es.Pairwise (fun x y => x.index < y.index))
    {l x : sim_entry} (hl : es.head? = some l) (hx : x ∈ es) : l.index ≤ x.index := by
  obtain ⟨ys, rfl⟩ := List.head?_eq_some_iff.1 hl
  rw [List.pairwise_cons] at hs
  rcases List.mem_cons.1 hx with h | h
  · subst h; exact Int.le_refl _
  · exact Int.le_of_lt (hs.1 x h)

theorem RowLoop.rest_above {q : List Nat} {d : Nat} {w : List Nat} {c : Nat} {e : sim_entry}
    {rest : List sim_entry} {next : sim_row} {j : Nat}
    (h : RowLoop q d w c (e :: rest) next j) (he : e.index = (j : Int)) :
    (∀ x ∈ rest, ∃ j' : Nat, x.index = (j' : Int) ∧ x.value = (pdist q w j' : Int) ∧
      pdist q w j' ≤ d ∧ j + 1 ≤ j') ∧
    (∀ j', j + 1 ≤ j' → j' ≤ q.length → pdist q w j' ≤ d →
      (⟨(j' : Int), (pdist q w j' : Int)⟩ : sim_entry) ∈ rest) := by
  have hs := List.pairwise_cons.1 h.rsorted
  constructor
  · intro x hx
    obtain ⟨j', h1, h2, h3, _⟩ := h.rval x (List.mem_cons_of_mem _ hx)
    have := hs.1 x hx
    exact ⟨j', h1, h2, h3, by omega⟩
  · intro j' h1 h2 h3
    rcases List.mem_cons.1 (h.rall j' (by omega) h2 h3) with e1 | h4
    · have := congrArg sim_entry.index e1
      simp only at this
      omega
    · exact h4

/-- The new row after a pass that appends nothing. -/
theorem RowLoop.step_skip {q : List Nat} {d : Nat} {w : List Nat} {c : Nat} {e : sim_entry}
    {rest : List sim_entry} {next : sim_row} {j : Nat}
    (h : RowLoop q d w c (e :: rest) next j) (he : e.index = (j : Int))
    (hno : ¬ (pdist q (w ++ [c]) (j + 1) ≤ d ∧ j < q.length)) :
    RowLoop q d w c rest next (j + 1) := by
  obtain ⟨h1, h2⟩ := h.rest_above he
  refine ⟨(List.pairwise_cons.1 h.rsorted).2, h1, h2, h.nsorted, ?_, ?_⟩
  · intro x hx
    obtain ⟨j', a1, a2, a3, a4, a5⟩ := h.nval x hx
    exact ⟨j', a1, a2, a3, by omega, a5⟩
  · intro j' hj hjq hd
    rcases Nat.eq_or_lt_of_le hj with e1 | hlt
    · subst e1; exact absurd ⟨hd, by omega⟩ hno
    · exact h.nall j' (by omega) hjq hd

/-- The new row after a pass that appends the cell of column `j + 1`. -/
theorem RowLoop.step_append {q : List Nat} {d : Nat} {w : List Nat} {c : Nat} {e : sim_entry}
    {rest : List sim_entry} {next : sim_row} {j : Nat}
    (h : RowLoop q d w c (e :: rest) next j) (he : e.index = (j : Int))
    (hd : pdist q (w ++ [c]) (j + 1) ≤ d) (hjq : j < q.length) :
    RowLoop q d w c rest
      { next with entries := next.entries ++
          [⟨((j : Int) + 1), (pdist q (w ++ [c]) (j + 1) : Int)⟩] } (j + 1) ∧
    (next.entries.length : Int) + 1 ≤ 2 * (d : Int) + 1 := by
  obtain ⟨h1, h2⟩ := h.rest_above he
  have hsorted : (next.entries ++
      [(⟨((j : Int) + 1), (pdist q (w ++ [c]) (j + 1) : Int)⟩ : sim_entry)]).Pairwise
      (fun x y => x.index < y.index) := by
    rw [List.pairwise_append]
    refine ⟨h.nsorted, List.pairwise_singleton _ _, ?_⟩
    intro x hx y hy
    simp only [List.mem_singleton] at hy
    subst hy
    obtain ⟨j', a1, _, _, a4, _⟩ := h.nval x hx
    simp only
    omega
  have hval : ∀ x ∈ next.entries ++
      [(⟨((j : Int) + 1), (pdist q (w ++ [c]) (j + 1) : Int)⟩ : sim_entry)],
      ∃ j' : Nat, x.index = (j' : Int) ∧ x.value = (pdist q (w ++ [c]) j' : Int) ∧
        pdist q (w ++ [c]) j' ≤ d ∧ j' ≤ j + 1 ∧ j' ≤ q.length := by
    intro x hx
    rcases List.mem_append.1 hx with hx | hx
    · obtain ⟨j', a1, a2, a3, a4, a5⟩ := h.nval x hx
      exact ⟨j', a1, a2, a3, by omega, a5⟩
    · simp only [List.mem_singleton] at hx
      subst hx
      exact ⟨j + 1, by push_cast; rfl, rfl, hd, Nat.le_refl _, hjq⟩
  refine ⟨⟨(List.pairwise_cons.1 h.rsorted).2, h1, h2, hsorted, hval, ?_⟩, ?_⟩
  · intro j' hj hjq' hd'
    rcases Nat.eq_or_lt_of_le hj with e1 | hlt
    · subst e1
      apply List.mem_append_right
      simp
    · exact List.mem_append_left _ (h.nall j' (by omega) hjq' hd')
  · have := sorted_band_length _ ((w.length : Int) + 1 - d) ((w.length : Int) + 1 + d) hsorted
      (by
        intro x hx
        obtain ⟨j', a1, _, a3, _, _⟩ := hval x hx
        have := pdist_band q (w ++ [c]) j'
        simp only [List.length_append, List.length_singleton] at this
        omega)
      (by omega)
    simp only [List.length_append, List.length_singleton] at this
    push_cast at this
    omega

/-- The arithmetic of one cell: the stages of the minimum taken over the
neighbours that are in their rows give the cell of the table when it is within
the bound, and a value above the bound otherwise. -/
theorem cell_min_ok (a cost b u t T d : Nat) (cond : Prop) [Decidable cond] (X : Int)
    (hcost : cost ≤ 1)
    (hT : T = if cond then min (min (a + cost) (min (b + 1) (u + 1))) (t + 1)
              else min (a + cost) (min (b + 1) (u + 1)))
    (h0 : cond → cost = 0 → a ≤ t)
    (hX : X = if cond then
            (if t ≤ d ∧ (t : Int) + cost <
                (if u ≤ d then min (if b ≤ d then min ((a : Int) + cost) ((b : Int) + 1)
                    else (a : Int) + cost) ((u : Int) + 1)
                  else (if b ≤ d then min ((a : Int) + cost) ((b : Int) + 1)
                    else (a : Int) + cost)) then (t : Int) + cost
             else (if u ≤ d then min (if b ≤ d then min ((a : Int) + cost) ((b : Int) + 1)
                    else (a : Int) + cost) ((u : Int) + 1)
                  else (if b ≤ d then min ((a : Int) + cost) ((b : Int) + 1)
                    else (a : Int) + cost)))
          else (if u ≤ d then min (if b ≤ d then min ((a : Int) + cost) ((b : Int) + 1)
                    else (a : Int) + cost) ((u : Int) + 1)
                  else (if b ≤ d then min ((a : Int) + cost) ((b : Int) + 1)
                    else (a : Int) + cost))) :
    (X ≤ (d : Int) ↔ T ≤ d) ∧ (T ≤ d → X = (T : Int)) := by
  subst hX hT
  by_cases hc : cond
  · have h0' := h0 hc
    simp only [hc, if_true]
    split_ifs <;> omega
  · simp only [hc, if_false]
    split_ifs <;> omega

/-- One pass of the loop over `j`: the entry of the old row in column `j0`
gives the cell of the new row in column `j0 + 1`. -/
theorem approx_cell_spec {q : List Nat} {d : Nat} {w : List Nat} {c : Nat} {e : sim_entry}
    {rest : List sim_entry} {next : sim_row} {j : Nat} (end_ prev : Int) (row_im1 : sim_row)
    (h : RowLoop q d w c (e :: rest) next j) (he : e.index = (j : Int))
    (hprev : 1 ≤ w.length → prev = ((w.getD (w.length - 1) 0 : Nat) : Int) + 1)
    (him1 : 1 ≤ w.length → RowOK q d w.dropLast row_im1.entries)
    (hroom : next.start + (2 * (d : Int) + 1) ≤ end_) :
    ∃ next1, approx_cell q (d : Int) end_ (c : Int) (w.length : Int) prev row_im1 e
        rest.head? next = some next1 ∧ next1.start = next.start ∧
      RowLoop q d w c rest next1 (j + 1) := by
  have hs := List.pairwise_cons.1 h.rsorted
  obtain ⟨j', hj1, hev, hed, _⟩ := h.rval e (List.mem_cons_self _ _)
  have hjj : j' = j := by omega
  subst hjj
  obtain ⟨hrest, hrall⟩ := h.rest_above he
  rw [approx_cell_eq]
  by_cases hjq : j' < q.length
  · have hlast := neighbour_min_spec (sim_row_last next) e.index
      (e.value + (if (c : Int) = key_at q e.index then 0 else 1)) (pdist q (w ++ [c]) j') d
      (by
        intro l hl hli
        obtain ⟨j2, h1, h2, h3, _⟩ := h.nval l (List.mem_of_getLast?_eq_some hl)
        have : j2 = j' := by omega
        subst this
        exact ⟨h2, h3⟩)
      (by
        intro hd
        have hm := h.nall j' (Nat.le_refl _) (by omega) hd
        cases hl : sim_row_last next with
        | none =>
          have : next.entries = [] := List.getLast?_eq_none_iff.1 hl
          rw [this] at hm; cases hm
        | some l =>
          refine ⟨l, rfl, ?_⟩
          have h1 := sorted_le_last h.nsorted hl hm
          obtain ⟨j2, h2, _, _, h5, _⟩ := h.nval l (List.mem_of_getLast?_eq_some hl)
          simp only at h1
          omega)
    have habove := fun cur => neighbour_min_spec rest.head? (e.index + 1) cur
      (pdist q w (j' + 1)) d
      (by
        intro l hl hli
        obtain ⟨j2, h1, h2, h3, _⟩ := hrest l (List.mem_of_mem_head? hl)
        have : j2 = j' + 1 := by omega
        subst this
        exact ⟨h2, h3⟩)
      (by
        intro hd
        have hm := hrall (j' + 1) (Nat.le_refl _) (by omega) hd
        cases hl : rest.head? with
        | none =>
          have : rest = [] := List.head?_eq_none_iff.1 hl
          rw [this] at hm; cases hm
        | some l =>
          refine ⟨l, rfl, ?_⟩
          have h1 := sorted_head_le hs.2 hl hm
          obtain ⟨j2, h2, _, _, h5⟩ := hrest l (List.mem_of_mem_head? hl)
          simp only at h1
          push_cast at h1
          omega)
    have hkey : key_at q e.index = ((q.getD j' 0 : Nat) : Int) := by rw [hj1, key_at_nat]
    have hcost : (if (c : Int) = key_at q e.index then (0 : Int) else 1) =
        (((if c = q.getD j' 0 then 0 else 1 : Nat) : Nat) : Int) := by
      rw [hkey]
      by_cases hc : c = q.getD j' 0
      · simp [hc]
      · have : ¬ (c : Int) = ((q.getD j' 0 : Nat) : Int) := by exact_mod_cast hc
        simp [hc, this]
    have hcond : ((w.length : Int) > 0 ∧ e.index > 0 ∧ key_at q e.index = prev - 1 ∧
        key_at q (e.index - 1) = (c : Int)) ↔
        (1 ≤ w.length ∧ 1 ≤ j' ∧ c = q.getD (j' - 1) 0 ∧
          w.getD (w.length - 1) 0 = q.getD j' 0) := by
      constructor
      · rintro ⟨h1, h2, h3, h4⟩
        have hw1 : 1 ≤ w.length := by omega
        have hj1' : 1 ≤ j' := by omega
        rw [hkey, hprev hw1] at h3
        rw [hj1, key_at_pred q j' hj1'] at h4
        refine ⟨hw1, hj1', ?_, ?_⟩
        · exact_mod_cast h4.symm
        · have : ((q.getD j' 0 : Nat) : Int) = ((w.getD (w.length - 1) 0 : Nat) : Int) := by
            omega
          exact_mod_cast this.symm
      · rintro ⟨h1, h2, h3, h4⟩
        refine ⟨by omega, by omega, ?_, ?_⟩
        · rw [hkey, hprev h1, h4]; omega
        · rw [hj1, key_at_pred q j' h2, h3]
    -- the value the code computes for the cell
    have hXT : ∀ X : Int, X = (if (w.length : Int) > 0 ∧ e.index > 0 ∧
            key_at q e.index = prev - 1 ∧ key_at q (e.index - 1) = (c : Int) then
          transp_scan row_im1.entries e.index (if (c : Int) = key_at q e.index then 0 else 1)
            (neighbour_min rest.head? (e.index + 1) (neighbour_min (sim_row_last next) e.index
              (e.value + (if (c : Int) = key_at q e.index then 0 else 1))))
        else neighbour_min rest.head? (e.index + 1) (neighbour_min (sim_row_last next) e.index
              (e.value + (if (c : Int) = key_at q e.index then 0 else 1)))) →
        (X ≤ (d : Int) ↔ pdist q (w ++ [c]) (j' + 1) ≤ d) ∧
        (pdist q (w ++ [c]) (j' + 1) ≤ d → X = (pdist q (w ++ [c]) (j' + 1) : Int)) := by
      intro X hX
      rw [hlast, habove, hev, hcost] at hX
      refine cell_min_ok (pdist q w j') (if c = q.getD j' 0 then 0 else 1)
        (pdist q (w ++ [c]) j') (pdist q w (j' + 1)) (pdist q w.dropLast (j' - 1))
        (pdist q (w ++ [c]) (j' + 1)) d
        (1 ≤ w.length ∧ 1 ≤ j' ∧ c = q.getD (j' - 1) 0 ∧ w.getD (w.length - 1) 0 = q.getD j' 0)
        X (by split <;> omega) (pdist_snoc q w c j') ?_ ?_
      · rintro hc hc0
        have hcc : c = q.getD j' 0 := by
          by_cases hcc : c = q.getD j' 0
          · exact hcc
          · rw [if_neg hcc] at hc0; cases hc0
        have hdl : w.dropLast ++ [w.getD (w.length - 1) 0] = w := by
          have hne : w ≠ [] := List.length_pos.1 (by omega)
          conv_rhs => rw [← List.dropLast_append_getLast hne]
          congr 2
          rw [List.getD_eq_getElem?_getD, List.getLast_eq_getElem,
            List.getElem?_eq_getElem (by omega)]
          rfl
        have hdiag2 := pdist_diag_le q w.dropLast (w.getD (w.length - 1) 0) (j' - 1)
        rw [hdl, show j' - 1 + 1 = j' by omega] at hdiag2
        have hsame : w.getD (w.length - 1) 0 = q.getD (j' - 1) 0 := by
          rw [hc.2.2.2, ← hcc, hc.2.2.1]
        rw [if_pos hsame] at hdiag2
        omega
      · by_cases hc : 1 ≤ w.length ∧ 1 ≤ j' ∧ c = q.getD (j' - 1) 0 ∧
            w.getD (w.length - 1) 0 = q.getD j' 0
        · rw [if_pos (hcond.2 hc), hj1, transp_scan_spec q d w.dropLast row_im1.entries
            (him1 hc.1) j' hc.2.1 (by omega)] at hX
          rw [if_pos hc, hX]
        · rw [if_neg (fun hh => hc (hcond.1 hh))] at hX
          rw [if_neg hc, hX]
    obtain ⟨hX1, hX2⟩ := hXT _ rfl
    by_cases hTd : pdist q (w ++ [c]) (j' + 1) ≤ d
    · obtain ⟨hloop, hlen⟩ := h.step_append he hTd hjq
      have hq1 : e.index < (q.length : Int) := by omega
      rw [if_pos ⟨hX1.2 hTd, hq1⟩, hX2 hTd]
      have happ : next.start + (next.entries.length : Int) < end_ := by omega
      exact ⟨{ next with entries := next.entries ++
          [⟨((j' : Int) + 1), (pdist q (w ++ [c]) (j' + 1) : Int)⟩] },
        by simp only [sim_row_append, happ, if_true, hj1], rfl, hloop⟩
    · have : ¬ (_ ≤ (d : Int) ∧ e.index < (q.length : Int)) := fun hh => hTd (hX1.1 hh.1)
      rw [if_neg this]
      exact ⟨next, rfl, rfl, h.step_skip he (fun hh => hTd hh.1)⟩
  · have : ∀ X : Int, ¬ (X ≤ (d : Int) ∧ e.index < (q.length : Int)) := by
      intro X hh; omega
    rw [if_neg (this _)]
    exact ⟨next, rfl, rfl, h.step_skip he (fun hh => hjq hh.2)⟩

/-- The loop over `j` builds the row of the child. -/
theorem approx_row_loop_spec {q : List Nat} {d : Nat} {w : List Nat} {c : Nat}
    (end_ prev : Int) (row_im1 : sim_row)
    (hprev : 1 ≤ w.length → prev = ((w.getD (w.length - 1) 0 : Nat) : Int) + 1)
    (him1 : 1 ≤ w.length → RowOK q d w.dropLast row_im1.entries) :
    ∀ (rest : List sim_entry) (next : sim_row) (J : Nat), RowLoop q d w c rest next J →
      next.start + (2 * (d : Int) + 1) ≤ end_ →
      ∃ r2, approx_row_loop q (d : Int) end_ (c : Int) (w.length : Int) prev row_im1 rest next =
          some r2 ∧ r2.start = next.start ∧ RowOK q d (w ++ [c]) r2.entries ∧
        ∀ e ∈ r2.entries, e.index ≤ (q.length : Int) := by
  intro rest
  induction rest with
  | nil =>
    intro next J h _
    refine ⟨next, rfl, rfl, ⟨h.nsorted, ?_, ?_⟩, ?_⟩
    · intro e he
      obtain ⟨j, h1, h2, h3, _⟩ := h.nval e he
      exact ⟨j, h1, h2, h3⟩
    · intro j hjq hd
      by_cases hj : j ≤ J
      · exact h.nall j hj hjq hd
      · obtain ⟨j', rfl⟩ : ∃ j', j = j' + 1 := ⟨j - 1, by omega⟩
        have h1 := pdist_diag q w c j'
        have := h.rall j' (by omega) (by omega) (by omega)
        cases this
    · intro e he
      obtain ⟨j, h1, _, _, _, h5⟩ := h.nval e he
      omega
  | cons e rest ih =>
    intro next J h hroom
    obtain ⟨j0, hj0, _⟩ := h.rval e (List.mem_cons_self _ _)
    obtain ⟨next1, h1, h2, h3⟩ := approx_cell_spec end_ prev row_im1 (h.advance hj0) hj0 hprev
      him1 hroom
    obtain ⟨r2, h4, h5, h6, h7⟩ := ih next1 (j0 + 1) h3 (by rw [h2]; exact hroom)
    exact ⟨r2, by simp only [approx_row_loop, h1, h4], by rw [h5, h2], h6, h7⟩

theorem RowOK.length_le {q : List Nat} {d : Nat} {w : List Nat} {es : List sim_entry}
    (h : RowOK q d w es) : (es.length : Int) ≤ 2 * (d : Int) + 1 := by
  have := sorted_band_length es ((w.length : Int) - d) ((w.length : Int) + d) h.1
    (by
      intro x hx
      obtain ⟨j, a1, _, a3⟩ := h.2.1 x hx
      have := pdist_band q w j
      omega)
    (by omega)
  omega

theorem RowOK.nonempty_iff {q : List Nat} {d : Nat} {w : List Nat} {es : List sim_entry}
    (h : RowOK q d w es) (hidx : ∀ e ∈ es, e.index ≤ (q.length : Int)) :
    es = [] ↔ ∀ j, j ≤ q.length → d < pdist q w j := by
  constructor
  · intro e j hj
    by_contra hd
    have := h.2.2 j hj (by omega)
    rw [e] at this; cases this
  · intro hall
    cases es with
    | nil => rfl
    | cons x rest =>
      obtain ⟨j, a1, _, a3⟩ := h.2.1 x (List.mem_cons_self _ _)
      have := hidx x (List.mem_cons_self _ _)
      have := hall j (by omega)
      omega

/-- The last entry of a row tells whether the whole query is within the
bound. -/
theorem RowOK.last_iff {q : List Nat} {d : Nat} {w : List Nat} {es : List sim_entry}
    (h : RowOK q d w es) (hidx : ∀ e ∈ es, e.index ≤ (q.length : Int)) (l : sim_entry)
    (hl : es.getLast? = some l) :
    (l.index = (q.length : Int) ↔ pdist q w q.length ≤ d) ∧
    (l.index = (q.length : Int) → l.value = (pdist q w q.length : Int)) := by
  have hm := List.mem_of_getLast?_eq_some hl
  obtain ⟨j, a1, a2, a3⟩ := h.2.1 l hm
  refine ⟨⟨?_, ?_⟩, ?_⟩
  · intro e
    have : j = q.length := by omega
    subst this; exact a3
  · intro hd
    have h1 := sorted_le_last h.1 hl (h.2.2 q.length (Nat.le_refl _) hd)
    have h2 := hidx l hm
    simp only at h1
    omega
  · intro e
    have : j = q.length := by omega
    subst this; exact a2

/-- The row of the child `w ++ [c]`, as the descent step builds it from the
row of `w`. -/
theorem child_row_spec {q : List Nat} {d : Nat} {w : List Nat} (c : Nat)
    (end_ prev : Int) (rowi row_im1 : sim_row)
    (hrow : RowOK q d w rowi.entries)
    (hprev : 1 ≤ w.length → prev = ((w.getD (w.length - 1) 0 : Nat) : Int) + 1)
    (him1 : 1 ≤ w.length → RowOK q d w.dropLast row_im1.entries)
    (hroom : rowi.start + (rowi.entries.length : Int) + (2 * (d : Int) + 1) ≤ end_) :
    ∃ r0 r1 r2, sim_row_next rowi end_ = some r0 ∧
      (if (w.length : Int) < (d : Int) then sim_row_append r0 end_ 0 ((w.length : Int) + 1)
        else some r0) = some r1 ∧
      approx_row_loop q (d : Int) end_ (c : Int) (w.length : Int) prev row_im1 rowi.entries r1 =
        some r2 ∧
      r2.start = rowi.start + (rowi.entries.length : Int) ∧
      RowOK q d (w ++ [c]) r2.entries ∧ (∀ e ∈ r2.entries, e.index ≤ (q.length : Int)) := by
  have h0 : rowi.start + (rowi.entries.length : Int) < end_ := by omega
  have hnext : sim_row_next rowi end_ =
      some { start := rowi.start + (rowi.entries.length : Int), entries := [] } := by
    simp only [sim_row_next, h0, if_true]
  obtain ⟨r1, hr1, hr1s, hr1e⟩ : ∃ r1 : sim_row,
      (if (w.length : Int) < (d : Int) then
        sim_row_append { start := rowi.start + (rowi.entries.length : Int), entries := [] }
          end_ 0 ((w.length : Int) + 1)
       else some { start := rowi.start + (rowi.entries.length : Int), entries := [] }) = some r1 ∧
      r1.start = rowi.start + (rowi.entries.length : Int) ∧
      r1.entries = if w.length < d then [⟨0, (w.length : Int) + 1⟩] else [] := by
    by_cases hd : w.length < d
    · have hd' : (w.length : Int) < (d : Int) := by omega
      refine ⟨{ start := rowi.start + (rowi.entries.length : Int),
                entries := [⟨0, (w.length : Int) + 1⟩] }, ?_, rfl, by simp [hd]⟩
      simp only [hd', if_true, sim_row_append, List.length_nil, Int.Nat.cast_ofNat_Int,
        Int.add_zero, h0, List.nil_append]
    · have hd' : ¬ (w.length : Int) < (d : Int) := by omega
      exact ⟨{ start := rowi.start + (rowi.entries.length : Int), entries := [] },
        by simp only [hd', if_false], rfl, by simp [hd]⟩
  have hinit : RowLoop q d w c rowi.entries r1 0 := by
    refine ⟨hrow.1, ?_, fun j _ => hrow.2.2 j, ?_, ?_, ?_⟩
    · intro e he
      obtain ⟨j, a1, a2, a3⟩ := hrow.2.1 e he
      exact ⟨j, a1, a2, a3, Nat.zero_le _⟩
    · rw [hr1e]; split <;> simp
    · intro e he
      rw [hr1e] at he
      split at he
      · simp only [List.mem_singleton] at he
        subst he
        refine ⟨0, rfl, ?_, ?_, Nat.le_refl _, Nat.zero_le _⟩
        · rw [pdist_snoc_zero]; push_cast; rfl
        · rw [pdist_snoc_zero]; omega
      · cases he
    · intro j hj _ hd
      have : j = 0 := by omega
      subst this
      rw [pdist_snoc_zero] at hd ⊢
      rw [hr1e, if_pos (by omega)]
      simp
  obtain ⟨r2, h1, h2, h3, h4⟩ := approx_row_loop_spec end_ prev row_im1 hprev him1 rowi.entries
    r1 0 hinit (by rw [hr1s]; omega)
  exact ⟨_, r1, r2, hnext, hr1, h1, by rw [h2, hr1s], h3, h4⟩

theorem approx_run_step (f : fsmtrie) (q : List Nat) (d end_ : Int) (s s1 : approx_state)
    (hn : s.node.isNull = false) (hs : approx_step f q d end_ s = some s1) (fuel : Nat) :
    approx_run f q d end_ (fuel + 1) s = approx_run f q d end_ fuel s1 := by
  simp only [approx_run, hn, Bool.false_eq_true, if_false, hs]

theorem approx_step_exit (f : fsmtrie) (q : List Nat) (d end_ : Int) (s : approx_state)
    (h : ¬ s.c < (f.nrnodes : Int)) :
    approx_step f q d end_ s =
      some { s with node := s.nodes s.i.toNat, i := s.i - 1,
                    c := ((s.chars (s.i - 1).toNat : Nat) : Int) } := by
  simp only [approx_step, h, if_false]

theorem approx_step_null (f : fsmtrie) (q : List Nat) (d end_ : Int) (s : approx_state)
    (h : s.c < (f.nrnodes : Int)) (hn : (s.node.nodes s.c.toNat).isNull = true) :
    approx_step f q d end_ s = some { s with c := s.c + 1 } := by
  simp only [approx_step, h, if_true, hn]

theorem lookup_snoc (R : fsmtrie_node) (w : List Nat) (c : Nat) :
    lookup R (w ++ [c]) = (lookup R w).nodes c := by
  rw [lookup_append]; rfl

/-- The descent step on an existing child: its row is built in the arena; an
empty row prunes the child, otherwise the child is reported when it is a key
within the bound and the traversal goes down. -/
theorem approx_step_child {f : fsmtrie} {q : List Nat} {d : Nat} {end_ : Int}
    (env : ApproxEnv f d end_) {w : List Nat} {s : approx_state} (c : Nat)
    (hctx : Ctx f q d w s) (hc : s.c = (c : Int)) (hchild : InT f.root (w ++ [c])) :
    ∃ r2, RowOK q d (w ++ [c]) r2.entries ∧ (∀ e ∈ r2.entries, e.index ≤ (q.length : Int)) ∧
      r2.start + (r2.entries.length : Int) ≤ (2 * (d : Int) + 1) * ((w.length : Int) + 1 + 1) ∧
      approx_step f q (d : Int) end_ s = some
        (if r2.entries = [] then
          { s with rows := Function.update s.rows (w.length + 1) r2, c := (c : Int) + 1 }
        else descend f q d w c r2 s) := by
  obtain ⟨hc1, hcnr⟩ := env.alpha w c hchild
  have hdep := env.depth _ hchild
  simp only [List.length_append, List.length_singleton] at hdep
  have hi : s.i.toNat = w.length := by rw [hctx.depth]; simp
  have hi1 : (s.i - 1).toNat = w.length - 1 := by rw [hctx.depth]; omega
  have hi2 : (s.i + 1).toNat = w.length + 1 := by rw [hctx.depth]; omega
  have hct : s.c.toNat = c := by rw [hc]; simp
  have hmul : (2 * (d : Int) + 1) * ((w.length : Int) + 1 + 1) =
      (2 * (d : Int) + 1) * ((w.length : Int) + 1) + (2 * (d : Int) + 1) := by ring
  have hmul2 : (2 * (d : Int) + 1) * ((w.length : Int) + 1 + 1) ≤
      (2 * (d : Int) + 1) * ((f.max_len : Int) + 1) :=
    Int.mul_le_mul_of_nonneg_left (by omega) (by omega)
  have harena := env.arena
  have hroom := hctx.room
  obtain ⟨r0, r1, r2, h1, h2, h3, h4, h5, h6⟩ := child_row_spec c end_
    ((s.chars (w.length - 1) : Nat) : Int) (s.rows w.length) (s.rows (w.length - 1))
    (by have := hctx.rows_ok w.length (Nat.le_refl _); rwa [List.take_length] at this)
    (by
      intro hw
      rw [hctx.chars_ok (w.length - 1) (by omega)]
      push_cast; rfl)
    (by
      intro hw
      have := hctx.rows_ok (w.length - 1) (by omega)
      rwa [← List.dropLast_eq_take] at this)
    (by omega)
  have hlen := h5.length_le
  refine ⟨r2, h5, h6, by omega, ?_⟩
  have hcn : (s.node.nodes s.c.toNat).isNull = false := by
    rw [hctx.node, hct, ← lookup_snoc]; exact hchild
  have hclt : s.c < (f.nrnodes : Int) := by rw [hc]; omega
  have hchildeq : s.node.nodes s.c.toNat = lookup f.root (w ++ [c]) := by
    rw [hctx.node, hct, ← lookup_snoc]
  have hd' : (s.i < (d : Int)) = ((w.length : Int) < (d : Int)) := by rw [hctx.depth]
  simp only [approx_step, hclt, if_true, hcn, Bool.false_eq_true, if_false, hi, hi1, hi2, h1]
  rw [hctx.depth, h2]
  simp only []
  rw [hc, h3]
  simp only []
  by_cases he : r2.entries = []
  · have : sim_row_elem r2 0 = none := by simp [sim_row_elem, he]
    simp only [this, he, if_true]
  · have hsome : ∃ x, sim_row_elem r2 0 = some x := by
      cases hr : r2.entries with
      | nil => exact absurd hr he
      | cons x rest => exact ⟨x, by simp [sim_row_elem, hr]⟩
    obtain ⟨x, hx⟩ := hsome
    have hml : toInt32 f.max_len = (f.max_len : Int) := toInt32_of_lt _ env.ml
    have hlt : (w.length : Int) < toInt32 f.max_len := by rw [hml]; omega
    have hmod : ((c : Int) + 1).toNat % 256 = c + 1 := by
      have := env.nr
      have : ((c : Int) + 1).toNat = c + 1 := by omega
      rw [this]; exact Nat.mod_eq_of_lt (by omega)
    obtain ⟨l, hl⟩ : ∃ l, sim_row_last r2 = some l := by
      cases hr : sim_row_last r2 with
      | none => exact absurd (List.getLast?_eq_none_iff.1 hr) he
      | some l => exact ⟨l, rfl⟩
    obtain ⟨hl1, hl2⟩ := h5.last_iff h6 l hl
    have hchildeq2 : s.node.nodes ((c : Int)).toNat = lookup f.root (w ++ [c]) := by
      rw [← hchildeq, hct]; simp
    simp only [hx, he, if_false, hlt, if_true, hchildeq2, hl, hmod, descend]
    have hout : (if (lookup f.root (w ++ [c])).leaf = true then
          if l.index = (q.length : Int) then
            s.out ++ [((lookup f.root (w ++ [c])).str, l.value)] else s.out
        else s.out) =
        s.out ++ (if (lookup f.root (w ++ [c])).leaf = true ∧ pdist q (w ++ [c]) q.length ≤ d
          then [((lookup f.root (w ++ [c])).str, (pdist q (w ++ [c]) q.length : Int))]
          else []) := by
      by_cases hleaf : (lookup f.root (w ++ [c])).leaf = true
      · by_cases hd : pdist q (w ++ [c]) q.length ≤ d
        · simp only [hleaf, if_true, hl1.2 hd, hd, and_self, hl2 (hl1.2 hd)]
        · have : ¬ l.index = (q.length : Int) := fun e => hd (hl1.1 e)
          simp [hleaf, this, hd]
      · simp [hleaf]
    rw [hout]
    rfl

theorem Ctx.notNull {f : fsmtrie} {q : List Nat} {d : Nat} {w : List Nat} {s : approx_state}
    (h : Ctx f q d w s) : s.node.isNull = false := by rw [h.node]; exact h.inT

theorem Ctx.set_c {f : fsmtrie} {q : List Nat} {d : Nat} {w : List Nat} {s : approx_state}
    (h : Ctx f q d w s) (x : Int) : Ctx f q d w { s with c := x } :=
  ⟨h.node, h.inT, h.depth, h.rows_ok, h.room, h.chars_ok, h.nodes_ok⟩

theorem Ctx.pruned {f : fsmtrie} {q : List Nat} {d : Nat} {w : List Nat} {s : approx_state}
    (h : Ctx f q d w s) (r2 : sim_row) (x : Int) :
    Ctx f q d w { s with rows := Function.update s.rows (w.length + 1) r2, c := x } := by
  refine ⟨h.node, h.inT, h.depth, ?_, ?_, h.chars_ok, h.nodes_ok⟩
  · intro t ht
    show RowOK q d (w.take t) (Function.update s.rows (w.length + 1) r2 t).entries
    rw [Function.update_noteq (by omega)]
    exact h.rows_ok t ht
  · show (Function.update s.rows (w.length + 1) r2 w.length).start +
      ((Function.update s.rows (w.length + 1) r2 w.length).entries.length : Int) ≤ _
    rw [Function.update_noteq (by omega)]
    exact h.room

theorem Ctx.descend {f : fsmtrie} {q : List Nat} {d : Nat} {w : List Nat} {s : approx_state}
    (h : Ctx f q d w s) (c : Nat) (r2 : sim_row) (hin : InT f.root (w ++ [c]))
    (hrow : RowOK q d (w ++ [c]) r2.entries)
    (hroom : r2.start + (r2.entries.length : Int) ≤
      (2 * (d : Int) + 1) * ((w.length : Int) + 1 + 1)) :
    Ctx f q d (w ++ [c]) (descend f q d w c r2 s) := by
  have hlen : (w ++ [c]).length = w.length + 1 := by simp
  refine ⟨rfl, hin, by rw [hlen]; push_cast; rfl, ?_, ?_, ?_, ?_⟩
  · intro t ht
    rw [hlen] at ht
    show RowOK q d ((w ++ [c]).take t) (Function.update s.rows (w.length + 1) r2 t).entries
    rcases Nat.eq_or_lt_of_le ht with e | hlt
    · subst e
      rw [Function.update_same, ← hlen, List.take_length]
      exact hrow
    · rw [Function.update_noteq (by omega), List.take_append_of_le_length (by omega)]
      exact h.rows_ok t (by omega)
  · show (Function.update s.rows (w.length + 1) r2 (w ++ [c]).length).start +
      ((Function.update s.rows (w.length + 1) r2 (w ++ [c]).length).entries.length : Int) ≤ _
    rw [hlen, Function.update_same]
    push_cast
    exact hroom
  · intro t ht
    rw [hlen] at ht
    show Function.update (Function.update s.chars w.length (c + 1)) (w.length + 1) 0 t = _
    rw [Function.update_noteq (by omega)]
    rcases Nat.eq_or_lt_of_le (Nat.le_of_lt_succ ht) with e | hlt
    · subst e
      rw [Function.update_same]
      simp [List.getD_eq_getElem?_getD]
    · rw [Function.update_noteq (by omega), getD_append_lt w [c] t hlt]
      exact h.chars_ok t hlt
  · intro t ht
    rw [hlen] at ht
    show Function.update s.nodes (w.length + 1) s.node (t + 1) = _
    rcases Nat.eq_or_lt_of_le (Nat.le_of_lt_succ ht) with e | hlt
    · subst e
      rw [Function.update_same, List.take_left, h.node]
    · rw [Function.update_noteq (by omega), List.take_append_of_le_length (by omega)]
      exact h.nodes_ok t hlt

theorem Emits_exit {f : fsmtrie} {q : List Nat} {d : Nat} {end_ : Int}
    (env : ApproxEnv f d end_) (w : List Nat) (c0 : Nat) (h : f.nrnodes ≤ c0) :
    Emits f q d w c0 [] := by
  refine ⟨[], rfl, List.nodup_nil, List.Pairwise.nil, ?_⟩
  intro k
  simp only [List.not_mem_nil, false_iff, not_and]
  rintro ⟨c, x, hc, rfl⟩ hl
  have hin : InT f.root ((w ++ [c]) ++ x) := by
    rw [List.append_assoc]; exact leaf_isNull hl
  have := (env.alpha w c (InT_of_append _ _ _ hin)).2
  omega

theorem Emits_skip {f : fsmtrie} {q : List Nat} {d : Nat} {w : List Nat} {c0 : Nat}
    {E : List (Option (List Nat) × Int)} (h : Emits f q d w (c0 + 1) E)
    (hno : ∀ x, (lookup f.root (w ++ c0 :: x)).leaf = true →
      ¬ pdist q (w ++ c0 :: x) q.length ≤ d) :
    Emits f q d w c0 E := by
  obtain ⟨L, h1, h2, hs, h3⟩ := h
  refine ⟨L, h1, h2, hs, ?_⟩
  intro k
  rw [h3]
  constructor
  · rintro ⟨⟨c, x, hc, rfl⟩, hl, hd⟩
    exact ⟨⟨c, x, by omega, rfl⟩, hl, hd⟩
  · rintro ⟨⟨c, x, hc, rfl⟩, hl, hd⟩
    rcases Nat.eq_or_lt_of_le hc with e | hlt
    · subst e; exact absurd hd (hno x hl)
    · exact ⟨⟨c, x, hlt, rfl⟩, hl, hd⟩

theorem Emits_child {f : fsmtrie} {q : List Nat} {d : Nat} {end_ : Int}
    (env : ApproxEnv f d end_) {w : List Nat} {c0 : Nat}
    {E1 E2 : List (Option (List Nat) × Int)}
    (h1 : Emits f q d (w ++ [c0]) 1 E1) (h2 : Emits f q d w (c0 + 1) E2) :
    Emits f q d w c0
      ((if (lookup f.root (w ++ [c0])).leaf = true ∧ pdist q (w ++ [c0]) q.length ≤ d then
          [((lookup f.root (w ++ [c0])).str, (pdist q (w ++ [c0]) q.length : Int))] else []) ++
        E1 ++ E2) := by
  obtain ⟨L1, a1, a2, as, a3⟩ := h1
  obtain ⟨L2, b1, b2, bs, b3⟩ := h2
  have hd2 : ∀ k ∈ L2, ∃ c x, c0 + 1 ≤ c ∧ k = w ++ c :: x := fun k hk => ((b3 k).1 hk).1
  have hd1' : ∀ k ∈ L1, ∃ c x, k = w ++ c0 :: c :: x := by
    intro k hk
    obtain ⟨⟨c, x, _, rfl⟩, _⟩ := (a3 k).1 hk
    exact ⟨c, x, by simp⟩
  refine ⟨(if (lookup f.root (w ++ [c0])).leaf = true ∧ pdist q (w ++ [c0]) q.length ≤ d then
      [w ++ [c0]] else []) ++ L1 ++ L2, ?_, ?_, ?_, ?_⟩
  · rw [List.map_append, List.map_append, ← a1, ← b1]
    split <;> rfl
  rotate_left
  · rw [List.pairwise_append]
    refine ⟨?_, bs, ?_⟩
    · rw [List.pairwise_append]
      refine ⟨by split <;> simp, as, ?_⟩
      intro k hk0 k1 hk1
      split at hk0
      · simp only [List.mem_singleton] at hk0
        obtain ⟨c, x, rfl⟩ := hd1' k1 hk1
        rw [hk0]
        have h0 : List.Lex (fun a b : Nat => a < b) [c0] (c0 :: c :: x) :=
          List.Lex.cons List.Lex.nil
        exact List.Lex.append_left _ h0 w
      · cases hk0
    · intro k hk k2 hk2
      obtain ⟨c, x, hc, rfl⟩ := hd2 k2 hk2
      rcases List.mem_append.1 hk with hk0 | hk1
      · split at hk0
        · simp only [List.mem_singleton] at hk0
          rw [hk0]
          exact List.Lex.append_left _ (List.Lex.rel (by omega)) w
        · cases hk0
      · obtain ⟨c', x', rfl⟩ := hd1' k hk1
        exact List.Lex.append_left _ (List.Lex.rel (by omega)) w
  rotate_left
  · have hd1 : ∀ k ∈ L1, (w ++ [c0]).length < k.length := by
      intro k hk
      obtain ⟨⟨c, x, _, rfl⟩, _⟩ := (a3 k).1 hk
      simp
    rw [List.nodup_append]
    refine ⟨?_, b2, ?_⟩
    · rw [List.nodup_append]
      refine ⟨by split <;> simp, a2, ?_⟩
      intro k hk0 hk1
      split at hk0
      · simp only [List.mem_singleton] at hk0
        have := hd1 k hk1
        rw [hk0] at this
        omega
      · cases hk0
    · intro k hk hk2
      obtain ⟨c, x, hc, rfl⟩ := hd2 k hk2
      rcases List.mem_append.1 hk with hk0 | hk1
      · split at hk0
        · simp only [List.mem_singleton] at hk0
          have := List.append_cancel_left hk0
          simp only [List.cons.injEq] at this
          omega
        · cases hk0
      · obtain ⟨c', x', hx'⟩ := hd1' _ hk1
        have := List.append_cancel_left hx'
        simp only [List.cons.injEq] at this
        omega
  · intro k
    simp only [List.mem_append, a3, b3]
    constructor
    · rintro ((h0 | ⟨⟨c, x, hc, rfl⟩, hl, hd⟩) | ⟨⟨c, x, hc, rfl⟩, hl, hd⟩)
      · split at h0
        · rename_i hh
          simp only [List.mem_singleton] at h0
          subst h0
          exact ⟨⟨c0, [], Nat.le_refl _, rfl⟩, hh.1, hh.2⟩
        · cases h0
      · exact ⟨⟨c0, c :: x, Nat.le_refl _, by simp⟩, hl, hd⟩
      · exact ⟨⟨c, x, by omega, rfl⟩, hl, hd⟩
    · rintro ⟨⟨c, x, hc, rfl⟩, hl, hd⟩
      rcases Nat.eq_or_lt_of_le hc with e | hlt
      · subst e
        left
        cases x with
        | nil =>
          left
          rw [if_pos ⟨hl, hd⟩]
          simp
        | cons c' x' =>
          right
          have hk : w ++ c0 :: c' :: x' = (w ++ [c0]) ++ c' :: x' := by simp
          have hin : InT f.root (((w ++ [c0]) ++ [c']) ++ x') := by
            have := leaf_isNull hl
            rw [hk] at this
            simpa using this
          have := (env.alpha _ c' (InT_of_append _ _ _ hin)).1
          exact ⟨⟨c', x', this, hk⟩, hl, hd⟩
      · right
        exact ⟨⟨c, x, hlt, rfl⟩, hl, hd⟩

theorem SubDone.extend {f : fsmtrie} {q : List Nat} {d : Nat} {w : List Nat} {c0 c1 : Nat}
    {s s1 s2 : approx_state} (h : SubDone f q d w c1 s1 s2)
    (hr : ∀ t, t ≤ w.length → s1.rows t = s.rows t)
    (hc : ∀ t, t < w.length → s1.chars t = s.chars t)
    (hn : ∀ t, t ≤ w.length → s1.nodes t = s.nodes t)
    (hout : ∀ E, s2.out = s1.out ++ E → Emits f q d w c1 E →
      ∃ E2, s2.out = s.out ++ E2 ∧ Emits f q d w c0 E2) :
    SubDone f q d w c0 s s2 := by
  obtain ⟨E, hE, hEm⟩ := h.out
  refine ⟨?_, h.depth, ?_, ?_, ?_, ?_, hout E hE hEm⟩
  · rw [h.node, hn _ (Nat.le_refl _)]
  · intro hw
    rw [h.c hw, hc _ (by omega)]
  · intro t ht; rw [h.rows t ht, hr t ht]
  · intro t ht; rw [h.chars t ht, hc t ht]
  · intro t ht; rw [h.nodes t ht, hn t ht]

/-- The loop over the children of one node, given that the traversal of each
child's subtree is right: the traversal leaves the node after a bounded number
of steps, having reported the keys below it. -/
theorem node_loop_spec {f : fsmtrie} {q : List Nat} {d : Nat} {end_ : Int}
    (env : ApproxEnv f d end_) (w : List Nat)
    (IH : ∀ c s, Ctx f q d (w ++ [c]) s → s.c = 1 →
      ∃ N s1, (∀ fuel, approx_run f q (d : Int) end_ (fuel + N) s =
          approx_run f q (d : Int) end_ fuel s1) ∧ SubDone f q d (w ++ [c]) 1 s s1) :
    ∀ (k c0 : Nat) (s : approx_state), f.nrnodes ≤ c0 + k → Ctx f q d w s → s.c = (c0 : Int) →
      ∃ N s1, (∀ fuel, approx_run f q (d : Int) end_ (fuel + N) s =
          approx_run f q (d : Int) end_ fuel s1) ∧ SubDone f q d w c0 s s1 := by
  have hexit : ∀ (c0 : Nat) (s : approx_state), f.nrnodes ≤ c0 → Ctx f q d w s →
      s.c = (c0 : Int) →
      ∃ N s1, (∀ fuel, approx_run f q (d : Int) end_ (fuel + N) s =
          approx_run f q (d : Int) end_ fuel s1) ∧ SubDone f q d w c0 s s1 := by
    intro c0 s hc0 hctx hc
    have hstep := approx_step_exit f q (d : Int) end_ s (by rw [hc]; omega)
    refine ⟨1, _, fun fuel => approx_run_step f q _ _ s _ hctx.notNull hstep fuel, ?_⟩
    have hi : s.i.toNat = w.length := by rw [hctx.depth]; simp
    have hi1 : (s.i - 1).toNat = w.length - 1 := by rw [hctx.depth]; omega
    refine ⟨?_, ?_, ?_, fun _ _ => rfl, fun _ _ => rfl, fun _ _ => rfl, [], ?_, Emits_exit env w c0 hc0⟩
    · show s.nodes s.i.toNat = _
      rw [hi]
    · show s.i - 1 = _
      rw [hctx.depth]
    · intro _
      show ((s.chars (s.i - 1).toNat : Nat) : Int) = _
      rw [hi1]
    · show s.out = s.out ++ []
      simp
  intro k
  induction k with
  | zero => intro c0 s h; exact hexit c0 s (by omega)
  | succ k ih =>
    intro c0 s hk hctx hc
    by_cases hlt : f.nrnodes ≤ c0
    · exact hexit c0 s hlt hctx hc
    · have hct : s.c.toNat = c0 := by rw [hc]; simp
      by_cases hnull : (s.node.nodes s.c.toNat).isNull = true
      · -- no child on this symbol
        have hstep := approx_step_null f q (d : Int) end_ s (by rw [hc]; omega) hnull
        obtain ⟨N, s2, hrun, hdone⟩ := ih (c0 + 1) { s with c := s.c + 1 } (by omega)
          (hctx.set_c _) (by show s.c + 1 = _; rw [hc]; push_cast; rfl)
        refine ⟨N + 1, s2, ?_, ?_⟩
        · intro fuel
          rw [← Nat.add_assoc, approx_run_step f q _ _ s _ hctx.notNull hstep]
          exact hrun fuel
        · refine hdone.extend (fun _ _ => rfl) (fun _ _ => rfl) (fun _ _ => rfl) ?_
          intro E hE hEm
          refine ⟨E, hE, Emits_skip hEm ?_⟩
          intro x hl
          have hin : InT f.root ((w ++ [c0]) ++ x) := by
            rw [List.append_assoc]; exact leaf_isNull hl
          have := InT_of_append _ _ _ hin
          rw [hctx.node, hct, ← lookup_snoc] at hnull
          rw [InT, hnull] at this
          cases this
      · have hchild : InT f.root (w ++ [c0]) := by
          rw [hctx.node, hct, ← lookup_snoc] at hnull
          simpa [InT] using hnull
        obtain ⟨r2, hrow, hidx, hroom, hstep⟩ := approx_step_child env c0 hctx hc hchild
        by_cases he : r2.entries = []
        · -- the row of the child is empty: the child is pruned
          rw [if_pos he] at hstep
          obtain ⟨N, s2, hrun, hdone⟩ := ih (c0 + 1)
            { s with rows := Function.update s.rows (w.length + 1) r2, c := (c0 : Int) + 1 }
            (by omega) (hctx.pruned r2 _) (by push_cast; rfl)
          refine ⟨N + 1, s2, ?_, ?_⟩
          · intro fuel
            rw [← Nat.add_assoc, approx_run_step f q _ _ s _ hctx.notNull hstep]
            exact hrun fuel
          · refine hdone.extend ?_ (fun _ _ => rfl) (fun _ _ => rfl) ?_
            · intro t ht
              show Function.update s.rows (w.length + 1) r2 t = _
              rw [Function.update_noteq (by omega)]
            · intro E hE hEm
              refine ⟨E, hE, Emits_skip hEm ?_⟩
              intro x _
              have hall := (hrow.nonempty_iff hidx).1 he
              have := pdist_prune q d x (w ++ [c0]) hall q.length (Nat.le_refl _)
              rw [List.append_assoc] at this
              simpa using this
        · -- the traversal goes down to the child and comes back
          rw [if_neg he] at hstep
          have hctx1 := hctx.descend c0 r2 hchild hrow hroom
          obtain ⟨N1, s1, hrun1, hdone1⟩ := IH c0 (descend f q d w c0 r2 s) hctx1 rfl
          have hlen : (w ++ [c0]).length = w.length + 1 := by simp
          have hrows1 : ∀ t, t ≤ w.length → s1.rows t = s.rows t := by
            intro t ht
            rw [hdone1.rows t (by rw [hlen]; omega)]
            show Function.update s.rows (w.length + 1) r2 t = _
            rw [Function.update_noteq (by omega)]
          have hchars1 : ∀ t, t < w.length → s1.chars t = s.chars t := by
            intro t ht
            rw [hdone1.chars t (by rw [hlen]; omega)]
            show Function.update (Function.update s.chars w.length (c0 + 1)) (w.length + 1) 0 t = _
            rw [Function.update_noteq (by omega), Function.update_noteq (by omega)]
          have hnodes1 : ∀ t, t ≤ w.length → s1.nodes t = s.nodes t := by
            intro t ht
            rw [hdone1.nodes t (by rw [hlen]; omega)]
            show Function.update s.nodes (w.length + 1) s.node t = _
            rw [Function.update_noteq (by omega)]
          have hc1 : s1.c = ((c0 + 1 : Nat) : Int) := by
            rw [hdone1.c (by rw [hlen]; omega), hlen]
            show ((Function.update (Function.update s.chars w.length (c0 + 1)) (w.length + 1) 0
              (w.length + 1 - 1) : Nat) : Int) = _
            rw [Nat.add_sub_cancel, Function.update_noteq (by omega), Function.update_same]
          have hctx2 : Ctx f q d w s1 := by
            refine ⟨?_, hctx.inT, ?_, ?_, ?_, ?_, ?_⟩
            · rw [hdone1.node, hlen]
              show Function.update s.nodes (w.length + 1) s.node (w.length + 1) = _
              rw [Function.update_same, hctx.node]
            · rw [hdone1.depth, hlen]; push_cast; omega
            · intro t ht; rw [hrows1 t ht]; exact hctx.rows_ok t ht
            · rw [hrows1 _ (Nat.le_refl _)]; exact hctx.room
            · intro t ht; rw [hchars1 t ht]; exact hctx.chars_ok t ht
            · intro t ht; rw [hnodes1 (t + 1) (by omega)]; exact hctx.nodes_ok t ht
          obtain ⟨N2, s2, hrun2, hdone2⟩ := ih (c0 + 1) s1 (by omega) hctx2 hc1
          refine ⟨N2 + N1 + 1, s2, ?_, ?_⟩
          · intro fuel
            rw [← Nat.add_assoc, approx_run_step f q _ _ s _ hctx.notNull hstep,
              ← Nat.add_assoc, hrun1]
            exact hrun2 fuel
          · refine hdone2.extend hrows1 hchars1 hnodes1 ?_
            intro E2 hE2 hEm2
            obtain ⟨E1, hE1, hEm1⟩ := hdone1.out
            refine ⟨_, ?_, Emits_child env hEm1 hEm2⟩
            rw [hE2, hE1]
            show (s.out ++ _) ++ E1 ++ E2 = _
            simp only [List.append_assoc]

/-- The traversal of the subtree of a node: after a bounded number of steps
the traversal is back at the parent, having reported exactly the keys below
the node that are within the bound. -/
theorem subtree_spec {f : fsmtrie} {q : List Nat} {d : Nat} {end_ : Int}
    (env : ApproxEnv f d end_) :
    ∀ (m : Nat) (w : List Nat) (c0 : Nat) (s : approx_state), f.max_len ≤ w.length + m →
      Ctx f q d w s → s.c = (c0 : Int) →
      ∃ N s1, (∀ fuel, approx_run f q (d : Int) end_ (fuel + N) s =
          approx_run f q (d : Int) end_ fuel s1) ∧ SubDone f q d w c0 s s1 := by
  intro m
  induction m with
  | zero =>
    intro w c0 s hm hctx hc
    refine node_loop_spec env w ?_ f.nrnodes c0 s (by omega) hctx hc
    intro c s1 hctx1 _
    have := env.depth _ hctx1.inT
    simp only [List.length_append, List.length_singleton] at this
    omega
  | succ m ih =>
    intro w c0 s hm hctx hc
    refine node_loop_spec env w ?_ f.nrnodes c0 s (by omega) hctx hc
    intro c s1 hctx1 hc1
    exact ih (w ++ [c]) 1 s1 (by simp only [List.length_append, List.length_singleton]; omega)
      hctx1 (by rw [hc1]; rfl)

/-- The optimal string alignment table is symmetric. -/
theorem osa_table_symm (a b : List Nat) :
    ∀ n i j, i + j ≤ n → osa_table a b i j = osa_table b a j i := by
  intro n
  induction n with
  | zero =>
    intro i j h
    have hi : i = 0 := by omega
    have hj : j = 0 := by omega
    subst hi; subst hj; rfl
  | succ n ih =>
    intro i j h
    cases i with
    | zero => rw [osa_table_zero_row, osa_table_zero_col]
    | succ i =>
      cases j with
      | zero => rw [osa_table_zero_row, osa_table_zero_col]
      | succ j =>
        rw [osa_table_succ, osa_table_succ, ih i j (by omega), ih (i + 1) j (by omega),
          ih i (j + 1) (by omega), ih (i - 1) (j - 1) (by omega)]
        have hcost : (if a.getD i 0 = b.getD j 0 then 0 else 1) =
            (if b.getD j 0 = a.getD i 0 then 0 else 1) := by
          by_cases h1 : a.getD i 0 = b.getD j 0
          · rw [if_pos h1, if_pos h1.symm]
          · rw [if_neg h1, if_neg (fun h => h1 h.symm)]
        have hcond : (1 ≤ i ∧ 1 ≤ j ∧ a.getD i 0 = b.getD (j - 1) 0 ∧
            a.getD (i - 1) 0 = b.getD j 0) ↔
            (1 ≤ j ∧ 1 ≤ i ∧ b.getD j 0 = a.getD (i - 1) 0 ∧
              b.getD (j - 1) 0 = a.getD i 0) := by
          constructor
          · rintro ⟨h1, h2, h3, h4⟩; exact ⟨h2, h1, h4.symm, h3.symm⟩
          · rintro ⟨h1, h2, h3, h4⟩; exact ⟨h2, h1, h4.symm, h3.symm⟩
        rw [hcost]
        by_cases hc : 1 ≤ i ∧ 1 ≤ j ∧ a.getD i 0 = b.getD (j - 1) 0 ∧
            a.getD (i - 1) 0 = b.getD j 0
        · rw [if_pos hc, if_pos (hcond.1 hc)]
          omega
        · rw [if_neg hc, if_neg (fun h => hc (hcond.2 h))]
          omega

theorem osa_distance_symm (a b : List Nat) : osa_distance a b = osa_distance b a :=
  osa_table_symm a b _ _ _ (Nat.le_refl _)

theorem pdist_eq_osa (q k : List Nat) : pdist q k q.length = osa_distance q k :=
  osa_distance_symm k q

/-- The facts the traversal relies on hold for an ASCII trie that stores
accepted inserts, when the size of the arena fits an `int`. -/
theorem ApproxEnv_of_Holds (f : fsmtrie) (A : List (List Nat × Option (List Nat)))
    (d : Nat) (hH : Holds f A) (hascii : f.mode = fsmtrie_mode_ascii) (hml : 0 < f.max_len)
    (hsz : (2 * d + 1) * (f.max_len + 1) < 2147483648) :
    ApproxEnv f d (((2 * d + 1) * (f.max_len + 1) : Nat) : Int) := by
  have hpre : ∀ w, InT f.root w → w ≠ [] → ∃ c ∈ A, w <+: c.1 := by
    intro w hw hne
    rcases (hH.exist w).1 hw with h | h
    · exact absurd h hne
    · exact h
  refine ⟨?_, ?_, ?_, ?_, ?_⟩
  · have : f.max_len + 1 ≤ (2 * d + 1) * (f.max_len + 1) := Nat.le_mul_of_pos_left _ (by omega)
    omega
  · rcases hH.wf.size with ⟨_, hs⟩ | ⟨hm, _⟩
    · omega
    · rw [hascii] at hm; cases hm
  · intro w hw
    by_cases hne : w = []
    · subst hne; simp
    · obtain ⟨c, hc, hp⟩ := hpre w hw hne
      have := (hH.acc c hc).1.1
      have := hp.length_le
      omega
  · intro w c hw
    obtain ⟨k, hk, hp⟩ := hpre (w ++ [c]) hw (by simp)
    have hmem : c ∈ k.1 := hp.subset (by simp)
    exact ⟨((hH.acc k hk).2 c hmem).1, accepts_bytes f hH.wf k.1 (hH.acc k hk).1 (hH.acc k hk).2 c hmem⟩
  · push_cast
    exact Int.le_refl _

/-- The size of the arena when it does not overflow. -/
theorem approx_mlen_eq (d ml : Nat) (hsz : (2 * d + 1) * (ml + 1) < 2147483648) :
    toInt32 ((toUInt32 (toInt32 (toUInt32 (2 * (d : Int) + 1))) * ((ml + 1) % 4294967296))
        % 4294967296) = (((2 * d + 1) * (ml + 1) : Nat) : Int) := by
  have h1 : 2 * d + 1 ≤ (2 * d + 1) * (ml + 1) := Nat.le_mul_of_pos_right _ (by omega)
  have h2 : ml + 1 ≤ (2 * d + 1) * (ml + 1) := Nat.le_mul_of_pos_left _ (by omega)
  have e1 : toUInt32 (2 * (d : Int) + 1) = 2 * d + 1 := by
    unfold toUInt32; omega
  have e2 : toInt32 (2 * d + 1) = ((2 * d + 1 : Nat) : Int) := toInt32_of_lt _ (by omega)
  have e3 : toUInt32 ((2 * d + 1 : Nat) : Int) = 2 * d + 1 := by
    unfold toUInt32; omega
  rw [e1, e2, e3, Nat.mod_eq_of_lt (by omega : ml + 1 < 4294967296),
    Nat.mod_eq_of_lt (by omega : (2 * d + 1) * (ml + 1) < 4294967296)]
  exact toInt32_of_lt _ hsz

/-- The loop that fills row 0 appends the cells `(j, j)`. -/
theorem approx_init_row_spec (d : Nat) (end_ ml : Int) (hml : (d : Int) < ml) :
    ∀ (n j : Nat) (row : sim_row), j + n = d + 1 →
      row.start + (row.entries.length : Int) + (n : Int) ≤ end_ →
      approx_init_row (d : Int) end_ ml n (j : Int) row =
        some { row with entries := row.entries ++ init_entries j n } := by
  intro n
  induction n with
  | zero => intro j row _ _; simp [approx_init_row, init_entries]
  | succ n ih =>
    intro j row hj hroom
    have hc : (j : Int) ≤ (d : Int) ∧ (j : Int) < ml := ⟨by omega, by omega⟩
    have happ : sim_row_append row end_ (j : Int) (j : Int) =
        some { row with entries := row.entries ++ [⟨(j : Int), (j : Int)⟩] } := by
      unfold sim_row_append
      rw [if_pos (by push_cast at hroom; omega)]
    simp only [approx_init_row, hc, and_self, if_true, happ]
    have := ih (j + 1) { row with entries := row.entries ++ [⟨(j : Int), (j : Int)⟩] }
      (by omega) (by
        show row.start + ((row.entries ++ [(⟨(j : Int), (j : Int)⟩ : sim_entry)]).length : Int) +
          (n : Int) ≤ end_
        rw [List.length_append, List.length_singleton]
        push_cast at hroom ⊢
        omega)
    push_cast at this
    rw [this]
    simp [init_entries, List.range'_succ]

theorem RowOK_init (q : List Nat) (d : Nat) : RowOK q d [] (init_entries 0 (d + 1)) := by
  unfold init_entries
  refine ⟨?_, ?_, ?_⟩
  · rw [List.pairwise_map]
    have := List.pairwise_lt_range' 0 (d + 1)
    exact this.imp (fun {a b} h => by
      show (a : Int) < (b : Int)
      exact_mod_cast h)
  · intro e he
    rw [List.mem_map] at he
    obtain ⟨t, ht, rfl⟩ := he
    rw [List.mem_range'_1] at ht
    exact ⟨t, rfl, by rw [pdist_nil], by rw [pdist_nil]; omega⟩
  · intro j _ hd
    rw [pdist_nil] at hd ⊢
    rw [List.mem_map]
    exact ⟨j, by rw [List.mem_range'_1]; omega, rfl⟩

/-- Approximate search on an ASCII trie that stores the accepted inserts `A`,
for a bound below `max_len` and an arena whose size fits an `int`: with enough
fuel the call returns 1 after reporting, in lexicographic order and each once,
the non-empty keys within the bound, with their string and their distance. -/
theorem approx_search_spec (f : fsmtrie) (A : List (List Nat × Option (List Nat)))
    (q : List Nat) (d : Nat) (hH : Holds f A) (hascii : f.mode = fsmtrie_mode_ascii)
    (hd : d < f.max_len) (hsz : (2 * d + 1) * (f.max_len + 1) < 2147483648) :
    ∃ (N : Nat) (L : List (List Nat)), L.Nodup ∧
      L.Pairwise (List.Lex (fun a b : Nat => a < b)) ∧
      (∀ k, k ∈ L ↔ k ≠ [] ∧ (∃ c ∈ A, c.1 = k) ∧ osa_distance q k ≤ d) ∧
      ∀ fuel, N ≤ fuel → fsmtrie_search_approx f q (d : Int) fuel =
        some (approx_outcome.returned 1
          (L.map (fun k => ((A.lookup k).getD none, (osa_distance q k : Int)))) f) := by
  have hml : 0 < f.max_len := by omega
  have env := ApproxEnv_of_Holds f A d hH hascii hml hsz
  have hmlen := approx_mlen_eq d f.max_len hsz
  have hml32 : toInt32 f.max_len = (f.max_len : Int) := toInt32_of_lt _ env.ml
  have h1 : 2 * d + 1 ≤ (2 * d + 1) * (f.max_len + 1) := Nat.le_mul_of_pos_right _ (by omega)
  have hinit := approx_init_row_spec d (((2 * d + 1) * (f.max_len + 1) : Nat) : Int)
    (f.max_len : Int) (by omega) (d + 1) 0 sim_row_first (by omega) (by
      show (0 : Int) + (([] : List sim_entry).length : Int) + ((d + 1 : Nat) : Int) ≤ _
      simp only [List.length_nil]
      omega)
  obtain ⟨N, s1, hrun, hdone⟩ := subtree_spec (q := q) env f.max_len [] 0
    { node := f.root, i := 0, c := 0, chars := fun _ => 0, nodes := fun _ => NULL,
      rows := fun _ => { sim_row_first with
        entries := sim_row_first.entries ++ init_entries 0 (d + 1) }, out := [] }
    (by simp)
    ⟨rfl, hH.wf.root, rfl, by
        intro t _
        rw [List.take_nil]
        exact RowOK_init q d, by
        show (0 : Int) + ((([] : List sim_entry) ++ init_entries 0 (d + 1)).length : Int) ≤ _
        simp only [init_entries, List.nil_append, List.length_map, List.length_range',
          List.length_nil]
        push_cast
        omega,
      fun t ht => by simp at ht, fun t ht => by simp at ht⟩ rfl
  obtain ⟨E, hE, L, hL, hnd, hsorted, hmem⟩ := hdone.out
  refine ⟨N + 1, L, hnd, hsorted, ?_, ?_⟩
  · intro k
    rw [hmem, hH.leaf k, pdist_eq_osa]
    constructor
    · rintro ⟨⟨c, x, _, rfl⟩, h2, h3⟩
      exact ⟨by simp, h2, h3⟩
    · rintro ⟨h1, h2, h3⟩
      cases k with
      | nil => exact absurd rfl h1
      | cons c x => exact ⟨⟨c, x, Nat.zero_le _, rfl⟩, h2, h3⟩
  · intro fuel hfuel
    obtain ⟨m, rfl⟩ : ∃ m, fuel = (m + 1) + N := ⟨fuel - (N + 1), by omega⟩
    have hnode : s1.node.isNull = true := by rw [hdone.node]; rfl
    have hout : s1.out = L.map (fun k => ((A.lookup k).getD none, (osa_distance q k : Int))) := by
      rw [hE, hL]
      simp only [List.nil_append]
      apply List.map_congr_left
      intro k _
      rw [hH.str k, pdist_eq_osa]
    have hne : ¬ f.max_len = 0 := by omega
    have hmode : ¬ f.mode = fsmtrie_mode_token := by rw [hascii]; decide
    have hdn : ((d : Int) + 1).toNat = d + 1 := by omega
    simp only [fsmtrie_search_approx, hne, hmode, if_false, hmlen, hml32, hdn]
    have hinit' := hinit
    simp only [Nat.cast_zero] at hinit'
    rw [hinit']
    simp only []
    rw [hrun (m + 1)]
    simp only [approx_run, hnode, if_true, hout]

theorem swap_adjacent_length (k : List Nat) (p : Nat) : (swap_adjacent k p).length = k.length := by
  simp [swap_adjacent]

theorem swap_adjacent_getD (k : List Nat) (p t : Nat) (hp : p + 1 < k.length) :
    (swap_adjacent k p).getD t 0 =
      if t = p then k.getD (p + 1) 0 else if t = p + 1 then k.getD p 0 else k.getD t 0 := by
  simp only [swap_adjacent, List.getD_eq_getElem?_getD, List.getElem?_set, List.length_set]
  by_cases h1 : t = p + 1
  · subst h1
    simp [hp]
  · by_cases h2 : t = p
    · subst h2
      have : t < k.length := by omega
      simp [this]
    · have e1 : ¬ p + 1 = t := fun h => h1 h.symm
      have e2 : ¬ p = t := fun h => h2 h.symm
      simp [h1, h2, e1, e2]

theorem osa_diag_step_eq (a b : List Nat) (i j : Nat) (h : a.getD i 0 = b.getD j 0) :
    osa_table a b (i + 1) (j + 1) ≤ osa_table a b i j := by
  rw [osa_table_succ, if_pos h]
  split <;> omega

theorem osa_transp_step (a b : List Nat) (i j : Nat) (h1 : a.getD (i + 1) 0 = b.getD j 0)
    (h2 : a.getD i 0 = b.getD (j + 1) 0) :
    osa_table a b (i + 2) (j + 2) ≤ osa_table a b i j + 1 := by
  have := osa_table_succ a b (i + 1) (j + 1)
  rw [if_pos ⟨by omega, by omega, by simpa using h1, by simpa using h2⟩] at this
  simp only [Nat.add_sub_cancel] at this
  have e : i + 1 + 1 = i + 2 := rfl
  have e' : j + 1 + 1 = j + 2 := rfl
  rw [e, e'] at this
  omega

theorem osa_diag_eq_zero (a b : List Nat) :
    ∀ i, (∀ t, t < i → a.getD t 0 = b.getD t 0) → osa_table a b i i = 0 := by
  intro i
  induction i with
  | zero => intro _; rfl
  | succ i ih =>
    intro h
    have := osa_diag_step_eq a b i i (h i (Nat.lt_succ_self i))
    have := ih (fun t ht => h t (Nat.lt_succ_of_lt ht))
    omega

theorem osa_zero_eq (a b : List Nat) :
    ∀ i, osa_table a b i i = 0 → ∀ t, t < i → a.getD t 0 = b.getD t 0 := by
  intro i
  induction i with
  | zero => intro _ t ht; omega
  | succ i ih =>
    intro h t ht
    have hm := osa_diag_mono a b i i
    have h0 : osa_table a b i i = 0 := by omega
    rcases Nat.eq_or_lt_of_le (Nat.le_of_lt_succ ht) with e | hlt
    · subst e
      by_contra hne
      have hu := osa_step_up a b t (t + 1)
      have hl := osa_step_left a b (t + 1) t
      have h1 := (osa_ge_diff a b t (t + 1)).2
      have h2 := (osa_ge_diff a b (t + 1) t).1
      have hd := osa_diag_mono a b (t - 1) (t - 1)
      rw [osa_table_succ, if_neg hne] at h
      split at h <;> omega
    · exact ih h0 t hlt

/-- A string and its copy with two adjacent different symbols swapped are at
distance 1. -/
theorem osa_swap_adjacent (k : List Nat) (p : Nat) (hp : p + 1 < k.length)
    (hne : k.getD p 0 ≠ k.getD (p + 1) 0) : osa_distance (swap_adjacent k p) k = 1 := by
  have hlen := swap_adjacent_length k p
  have hg := fun t => swap_adjacent_getD k p t hp
  have h0 : osa_table (swap_adjacent k p) k p p = 0 :=
    osa_diag_eq_zero _ _ p (fun t ht => by rw [hg, if_neg (by omega), if_neg (by omega)])
  have h2 : osa_table (swap_adjacent k p) k (p + 2) (p + 2) ≤ 1 := by
    have := osa_transp_step (swap_adjacent k p) k p p
      (by rw [hg, if_neg (by omega), if_pos rfl])
      (by rw [hg, if_pos rfl])
    omega
  have hup : ∀ n, osa_table (swap_adjacent k p) k (p + 2 + n) (p + 2 + n) ≤ 1 := by
    intro n
    induction n with
    | zero => exact h2
    | succ n ih =>
      have := osa_diag_step_eq (swap_adjacent k p) k (p + 2 + n) (p + 2 + n)
        (by rw [hg, if_neg (by omega), if_neg (by omega)])
      have e : p + 2 + (n + 1) = p + 2 + n + 1 := rfl
      rw [e]
      omega
  have hle : osa_distance (swap_adjacent k p) k ≤ 1 := by
    unfold osa_distance
    rw [hlen]
    have := hup (k.length - (p + 2))
    have e : p + 2 + (k.length - (p + 2)) = k.length := by omega
    rwa [e] at this
  have hge : osa_distance (swap_adjacent k p) k ≠ 0 := by
    intro hz
    unfold osa_distance at hz
    rw [hlen] at hz
    have := osa_zero_eq _ _ _ hz p (by omega)
    rw [hg, if_pos rfl] at this
    exact hne this.symm
  omega

/-- Approximate search after any sequence of inserts on a fresh ASCII trie,
for a bound below `max_len` and an arena whose size fits an `int`: with enough
fuel the call returns 1 after reporting, in lexicographic order and each once,
the non-empty keys within the bound, with their string and their distance. -/
theorem approx_search_reach (o : Option fsmtrie_opt) (f0 : fsmtrie)
    (ops : List (List Nat × Option (List Nat))) (q : List Nat) (d : Nat)
    (hinit : fsmtrie_init o = some f0) (hascii : f0.mode = fsmtrie_mode_ascii)
    (hops : ∀ c ∈ ops, IsCStr c.1) (hd : d < f0.max_len)
    (hsz : (2 * d + 1) * (f0.max_len + 1) < 2147483648) :
    ∃ (N : Nat) (L : List (List Nat)), L.Nodup ∧
      L.Pairwise (List.Lex (fun a b : Nat => a < b)) ∧
      (∀ k, k ∈ L ↔ k ≠ [] ∧ (∃ c ∈ accepted_inserts f0 ops, c.1 = k) ∧ osa_distance q k ≤ d) ∧
      ∀ fuel, N ≤ fuel → fsmtrie_search_approx (run_inserts f0 ops) q (d : Int) fuel =
        some (approx_outcome.returned 1
          (L.map (fun k => (((accepted_inserts f0 ops).lookup k).getD none,
            (osa_distance q k : Int)))) (run_inserts f0 ops)) := by
  have hH := Holds_reach o f0 ops hinit (by rw [hascii]; decide) hops
  obtain ⟨_, hm, hl, _⟩ := run_inserts_fixed ops f0
  exact approx_search_spec (run_inserts f0 ops) (accepted_inserts f0 ops) q d hH
    (by rw [hm, hascii]) (by rw [hl]; exact hd) (by rw [hl]; exact hsz)

/-- When the size of the arena fits an `int`, an adjacent transposition counts
as a single edit: after any sequence of inserts on a fresh ASCII trie with
`max_len` at least 2, approximate search with bound 1 for an accepted key with
two adjacent different symbols swapped returns 1 and invokes the callback with
the string of the key and the distance 1. -/
theorem approx_transposition_single_edit (o : Option fsmtrie_opt) (f0 : fsmtrie)
    (ops : List (List Nat × Option (List Nat))) (k : List Nat) (s : Option (List Nat)) (p : Nat)
    (hinit : fsmtrie_init o = some f0) (hascii : f0.mode = fsmtrie_mode_ascii)
    (hops : ∀ c ∈ ops, IsCStr c.1) (hml : 2 ≤ f0.max_len)
    (hsz : 3 * (f0.max_len + 1) < 2147483648)
    (hk : (accepted_inserts f0 ops).lookup k = some s) (hp : p + 1 < k.length)
    (hne : k.getD p 0 ≠ k.getD (p + 1) 0) :
    ∃ N, ∀ fuel, N ≤ fuel → ∃ out,
      fsmtrie_search_approx (run_inserts f0 ops) (swap_adjacent k p) 1 fuel =
        some (approx_outcome.returned 1 out (run_inserts f0 ops)) ∧ (s, (1 : Int)) ∈ out := by
  obtain ⟨N, L, _, _, hmem, hrun⟩ := approx_search_reach o f0 ops (swap_adjacent k p) 1 hinit
    hascii hops (by omega) (by omega)
  have hd := osa_swap_adjacent k p hp hne
  have hkey : ∃ c ∈ accepted_inserts f0 ops, c.1 = k := by
    have : ((accepted_inserts f0 ops).lookup k).isSome := by rw [hk]; rfl
    rw [List.lookup_isSome_iff] at this
    obtain ⟨c, hc, hck⟩ := this
    exact ⟨c, hc, (by simpa using hck : k = c.1).symm⟩
  have hkL : k ∈ L := (hmem k).2 ⟨by intro h; rw [h] at hp; simp at hp, hkey, by omega⟩
  refine ⟨N, fun fuel hfuel => ⟨_, hrun fuel hfuel, ?_⟩⟩
  rw [List.mem_map]
  exact ⟨k, hkL, by rw [hk, hd]; rfl⟩

/-- An instance of the transposition theorem: on the trie of the test
(`max_len` 64), approximate search with bound 1 for "ofo", the key "foo" with
its first two symbols swapped, reports the key "foo" with distance 1. -/
theorem approx_transposition_foo :
    swap_adjacent [102, 111, 111] 0 = [111, 102, 111] ∧
    ∃ N, ∀ fuel, N ≤ fuel → ∃ out,
      fsmtrie_search_approx (run_inserts trie_S1 calls_S1) [111, 102, 111] 1 fuel =
        some (approx_outcome.returned 1 out (run_inserts trie_S1 calls_S1)) ∧
      (some [102, 111, 111], (1 : Int)) ∈ out :=
  ⟨by decide,
   approx_transposition_single_edit (some ⟨fsmtrie_mode_ascii, true, 64⟩) trie_S1 calls_S1
    [102, 111, 111] (some [102, 111, 111]) 0 rfl rfl (by decide) (by decide) (by decide)
    (by decide) (by decide) (by decide)⟩

/-! ### Empty keys, mode mismatches and out of range bytes -/

/-- C13 fails: the empty key is not rejected.  `fsmtrie_insert` with the empty
string on the fresh ASCII trie of scenario S1 and `fsmtrie_insert_token` with
no token on a fresh token trie return true, mark the root as a leaf and set
the key count to 1; the token key that has been counted cannot be found,
`fsmtrie_search_token` with `keylen = 0` returning -1. -/
theorem C13_empty_key_accepted :
    fsmtrie_init (some ⟨fsmtrie_mode_ascii, true, 64⟩) = some trie_S1 ∧
    (fsmtrie_insert trie_S1 (some []) (some [])).1 = true ∧
    (fsmtrie_insert trie_S1 (some []) (some [])).2.key_cnt = 1 ∧
    (fsmtrie_insert trie_S1 (some []) (some [])).2.root.leaf = true ∧
    fsmtrie_init (some ⟨fsmtrie_mode_token, false, 0⟩) = some trie_tok ∧
    ∃ F, fsmtrie_insert_token trie_tok [] none = some (true, F) ∧ F.key_cnt = 1 ∧
      F.root.leaf = true ∧
      (fsmtrie_search_token F (some []) none).map (fun r => r.ret) = some (-1) :=
  ⟨rfl, by decide, by decide, by decide, rfl, _, rfl, by decide, by decide, by decide⟩

/-- What the code does with an empty key: on an initialised trie of the
matching mode an insert of the empty key returns true.  When the root is not
yet a leaf the call marks it as a leaf, stores the string there, clears the
compiled flag and increments the key count (for tokens the node count as
well); when the root is a leaf the call changes nothing. -/
theorem empty_key_insert_result (f : fsmtrie) (str : Option (List Nat))
    (hroot : f.root.isNull = false) :
    (f.mode ≠ fsmtrie_mode_token →
      fsmtrie_insert f (some []) str =
        (true, if f.root.leaf then f
               else { f with root := f.root.markLeaf str, ac_compiled := false,
                             key_cnt := f.key_cnt + 1 })) ∧
    (f.mode = fsmtrie_mode_token →
      fsmtrie_insert_token f [] str =
        some (true, if f.root.leaf then f
                    else { f with root := f.root.markLeaf str, node_cnt := f.node_cnt + 1,
                                  ac_compiled := false, key_cnt := f.key_cnt + 1 })) := by
  constructor
  · intro hm
    have hm' : ¬ (f.mode ≠ fsmtrie_mode_ascii ∧ f.mode ≠ fsmtrie_mode_eascii) := by
      cases h : f.mode
      · simp
      · simp
      · exact absurd h hm
    have hv : fsmtrie_key_validate_ascii f (some []) = (true, f) := by
      simp [fsmtrie_key_validate_ascii, hroot, validate_scan]
    by_cases hl : f.root.leaf = true
    · simp only [fsmtrie_insert, hroot, Bool.false_eq_true, if_false, hm', hv, Bool.not_true,
        Option.getD_some, insert_walk, hl, if_true, Nat.add_zero]
    · simp only [Bool.not_eq_true] at hl
      simp only [fsmtrie_insert, hroot, Bool.false_eq_true, if_false, hm', hv, Bool.not_true,
        Option.getD_some, insert_walk, hl, if_true, Nat.add_zero]
  · intro hm
    have hm' : ¬ (f.mode ≠ fsmtrie_mode_token) := by simp [hm]
    by_cases hl : f.root.leaf = true
    · simp only [fsmtrie_insert_token, hroot, Bool.false_eq_true, if_false, hm',
        List.length_nil, gt_iff_lt, Nat.not_lt_zero, and_false, insert_token_walk, hl, if_true]
    · simp only [Bool.not_eq_true] at hl
      simp only [fsmtrie_insert_token, hroot, Bool.false_eq_true, if_false, hm',
        List.length_nil, gt_iff_lt, Nat.not_lt_zero, and_false, insert_token_walk, hl]

/-- C14: every mode mismatch is an error that changes nothing but the error
buffer.  On an initialised token trie `fsmtrie_insert` returns false,
`fsmtrie_search`, `fsmtrie_search_approx` and `fsmtrie_search_substring`
return -1, the last two without invoking the callback; on an initialised byte
trie `fsmtrie_insert_token` returns false and `fsmtrie_search_token` returns
-1; and `fsmtrie_init` with token mode and partial matching returns no trie. -/
theorem C14_mode_mismatch (f : fsmtrie) (hroot : f.root.isNull = false) :
    (f.mode = fsmtrie_mode_token →
      (∀ key str, fsmtrie_insert f key str =
        (false, { f with err_buf := err_msg.incompatible "fsmtrie_insert" f.mode })) ∧
      (∀ k str0, fsmtrie_search f (some k) str0 =
        ⟨-1, str0, { f with err_buf := err_msg.incompatible "fsmtrie_search" f.mode }⟩) ∧
      (∀ str0, fsmtrie_search f none str0 =
        ⟨-1, str0, { f with err_buf := err_msg.empty_key }⟩) ∧
      (∀ q d fuel, ∃ e, fsmtrie_search_approx f q d fuel =
        some (approx_outcome.returned (-1) [] { f with err_buf := e })) ∧
      (∀ T fuel, fsmtrie_search_substring f T fuel =
        outcome.ok ⟨-1, [],
          { f with err_buf := err_msg.incompatible "fsmtrie_search_substring" f.mode }⟩)) ∧
    (f.mode ≠ fsmtrie_mode_token →
      (∀ k str, fsmtrie_insert_token f k str =
        some (false, { f with err_buf := err_msg.incompatible "fsmtrie_insert_token" f.mode })) ∧
      (∀ key str0, ∃ e, fsmtrie_search_token f key str0 =
        some ⟨-1, str0, { f with err_buf := e }⟩)) ∧
    (∀ max_len, fsmtrie_init (some ⟨fsmtrie_mode_token, true, max_len⟩) = none) := by
  refine ⟨fun hm => ⟨?_, ?_, ?_, ?_, ?_⟩, fun hm => ⟨?_, ?_⟩, fun _ => rfl⟩
  · intro key str
    simp [fsmtrie_insert, hroot, hm]
  · intro k str0
    simp [fsmtrie_search, hroot, hm]
  · intro str0
    simp [fsmtrie_search, hroot]
  · intro q d fuel
    by_cases h0 : f.max_len = 0
    · exact ⟨err_msg.requires_max_len "fsmtrie_search_approx",
        by simp only [fsmtrie_search_approx, h0, if_true]⟩
    · exact ⟨err_msg.incompatible "fsmtrie_search_approx" f.mode,
        by simp only [fsmtrie_search_approx, h0, if_false, hm, if_true]⟩
  · intro T fuel
    simp [fsmtrie_search_substring, hm]
  · intro k str
    simp [fsmtrie_insert_token, hroot, hm]
  · intro key str0
    cases key with
    | none => exact ⟨err_msg.empty_key_or_keylen, by simp [fsmtrie_search_token, hroot]⟩
    | some k =>
      by_cases hk : k.length = 0
      · exact ⟨err_msg.empty_key_or_keylen,
          by simp only [fsmtrie_search_token, hroot, Bool.false_eq_true, if_false, hk, if_true]⟩
      · exact ⟨err_msg.incompatible "fsmtrie_search_token" f.mode,
          by simp only [fsmtrie_search_token, hroot, Bool.false_eq_true, if_false, hk,
            ne_eq, hm, not_false_eq_true, if_true]⟩

theorem C14_mode_mismatch_witness :
    trie_tok.root.isNull = false ∧
    (trie_tok.mode = fsmtrie_mode_token →
      (∀ key str, fsmtrie_insert trie_tok key str =
        (false, { trie_tok with
          err_buf := err_msg.incompatible "fsmtrie_insert" trie_tok.mode })) ∧
      (∀ k str0, fsmtrie_search trie_tok (some k) str0 =
        ⟨-1, str0, { trie_tok with
          err_buf := err_msg.incompatible "fsmtrie_search" trie_tok.mode }⟩) ∧
      (∀ str0, fsmtrie_search trie_tok none str0 =
        ⟨-1, str0, { trie_tok with err_buf := err_msg.empty_key }⟩) ∧
      (∀ q d fuel, ∃ e, fsmtrie_search_approx trie_tok q d fuel =
        some (approx_outcome.returned (-1) [] { trie_tok with err_buf := e })) ∧
      (∀ T fuel, fsmtrie_search_substring trie_tok T fuel =
        outcome.ok ⟨-1, [], { trie_tok with
          err_buf := err_msg.incompatible "fsmtrie_search_substring" trie_tok.mode }⟩)) :=
  ⟨rfl, (C14_mode_mismatch trie_tok rfl).1⟩

/-- The walk of the exact search over a key whose first byte out of range
comes after the bytes `pre`. -/
theorem search_walk_bad_byte (nr : Nat) (b : Nat) (rest : List Nat) (hb : nr ≤ b) :
    ∀ (pre : List Nat) (n : fsmtrie_node), n.isNull = false → (∀ x ∈ pre, x < nr) →
      search_walk nr n (pre ++ b :: rest) =
        if (lookup n pre).isNull then walk_result.no_match else walk_result.range_error b := by
  intro pre
  induction pre with
  | nil =>
    intro n hn _
    have : ((b : Int) < 0 ∨ (b : Int) > (nr : Int) - 1) := Or.inr (by omega)
    simp [search_walk, lookup, hn, this]
  | cons p pre ih =>
    intro n hn hpre
    have hp := hpre p (List.mem_cons_self _ _)
    have : ¬ ((p : Int) < 0 ∨ (p : Int) > (nr : Int) - 1) := by omega
    by_cases hc : (n.nodes p).isNull = true
    · have hl : (lookup n (p :: pre)).isNull = true := by
        simp only [lookup]
        rw [isNull_eq_true hc]
        simp
      simp only [List.cons_append, search_walk, this, if_false, hc, if_true, hl]
    · simp only [Bool.not_eq_true] at hc
      simp only [List.cons_append, search_walk, this, if_false, hc, Bool.false_eq_true, lookup]
      exact ih (n.nodes p) hc (fun x hx => hpre x (List.mem_cons_of_mem _ hx))

/-- C15 as stated fails: on an ASCII trie that holds the key "a", the search
for "b\x80" meets a missing edge before the byte 0x80 and returns 0, not -1. -/
theorem C15_missing_edge_before_bad_byte :
    trie_ml3.mode = fsmtrie_mode_ascii ∧
    (fsmtrie_insert trie_ml3 (some [97]) none).1 = true ∧
    128 ∈ [98, 128] ∧ IsCStr [98, 128] ∧
    (fsmtrie_search (run_inserts trie_ml3 [([97], none)]) (some [98, 128]) none).ret = 0 := by
  refine ⟨rfl, by decide, by decide, by decide, by decide⟩

/-- C15 amended: on an ASCII trie a search for a key with a byte of 128 or
more never returns 1: it returns -1 when the bytes before the first such byte
spell a path of the trie and 0 when an edge is missing before that byte. -/
theorem C15_out_of_range_byte (f : fsmtrie) (hf : ByteTrie f)
    (hascii : f.mode = fsmtrie_mode_ascii) (pre rest : List Nat) (b : Nat)
    (str0 : Option (List Nat)) (hpre : ∀ x ∈ pre, x < 128) (hb : 128 ≤ b) :
    (fsmtrie_search f (some (pre ++ b :: rest)) str0).ret =
      if (lookup f.root pre).isNull then 0 else -1 := by
  have hnr : f.nrnodes = 128 := by
    rcases hf.size with ⟨_, h⟩ | ⟨h, _⟩
    · exact h
    · rw [hascii] at h; cases h
  rw [fsmtrie_search_byte f hf, search_walk_bad_byte f.nrnodes b rest (by omega) pre f.root hf.root
    (by rw [hnr]; exact hpre)]
  by_cases h : (lookup f.root pre).isNull = true
  · simp [h]
  · simp only [Bool.not_eq_true] at h
    simp [h]

theorem C15_out_of_range_byte_witness :
    ByteTrie (run_inserts trie_ml3 [([97], none)]) ∧
    (run_inserts trie_ml3 [([97], none)]).mode = fsmtrie_mode_ascii ∧
    (∀ x ∈ [97], x < 128) ∧ 128 ≤ 200 ∧
    (fsmtrie_search (run_inserts trie_ml3 [([97], none)]) (some ([97] ++ 200 :: [98])) none).ret =
      if (lookup (run_inserts trie_ml3 [([97], none)]).root [97]).isNull then 0 else -1 :=
  ⟨⟨by decide, Or.inl ⟨rfl, rfl⟩⟩, rfl, by decide, by decide,
   C15_out_of_range_byte (run_inserts trie_ml3 [([97], none)])
     ⟨by decide, Or.inl ⟨rfl, rfl⟩⟩ rfl [97] [98] 200 none (by decide) (by decide)⟩

/-- C16 fails: `fsmtrie_search` does not treat the empty string as an error.
It returns 1 on the fresh trie of scenario S1 (partial matching on) and 0 on
a fresh trie without partial matching, never -1, whereas
`fsmtrie_search_token` with `keylen = 0` returns -1 on a fresh token trie. -/
theorem C16_empty_key_search :
    trie_S1.pm_ok = true ∧ (fsmtrie_search trie_S1 (some []) none).ret = 1 ∧
    trie_ml3.pm_ok = false ∧ (fsmtrie_search trie_ml3 (some []) none).ret = 0 ∧
    (fsmtrie_search_token trie_tok (some []) none).map (fun r => r.ret) = some (-1) := by
  refine ⟨rfl, by decide, rfl, by decide, by decide⟩

/-- What the code does with an empty query: on an initialised byte trie
`fsmtrie_search` with the empty string returns 1 when partial matching is on
or the empty key was inserted (the root is a leaf) and 0 otherwise, with the
string of the root when it is a leaf; `fsmtrie_search_token` with
`keylen = 0` returns -1. -/
theorem empty_key_search_result (f : fsmtrie) (str0 : Option (List Nat))
    (hroot : f.root.isNull = false) :
    (f.mode ≠ fsmtrie_mode_token →
      fsmtrie_search f (some []) str0 =
        ⟨if f.pm_ok = true ∨ f.root.leaf = true then 1 else 0,
         if f.root.leaf then f.root.str else none, f⟩) ∧
    fsmtrie_search_token f (some []) str0 =
      some ⟨-1, str0, { f with err_buf := err_msg.empty_key_or_keylen }⟩ := by
  constructor
  · intro hm
    have hm' : ¬ (f.mode ≠ fsmtrie_mode_ascii ∧ f.mode ≠ fsmtrie_mode_eascii) := by
      cases h : f.mode
      · simp
      · simp
      · exact absurd h hm
    simp only [fsmtrie_search, hroot, Bool.false_eq_true, if_false, hm', search_walk, Bool.not_false,
      Bool.true_and]
    by_cases hp : f.pm_ok = true
    · simp [hp]
    · simp only [Bool.not_eq_true] at hp
      by_cases hl : f.root.leaf = true
      · simp [hp, hl]
      · simp only [Bool.not_eq_true] at hl
        simp [hp, hl]
  · simp [fsmtrie_search_token, hroot]

/-- C17 as stated fails when the prefix is itself a key: on the trie of
scenario S1 (partial matching on) "foo" is a non-empty proper prefix of the
inserted key "foobarbaz", and the search for "foo" returns 1 with the string
"foo", not `NULL`. -/
theorem C17_prefix_that_is_a_key :
    trie_S1.pm_ok = true ∧
    ([102, 111, 111, 98, 97, 114, 98, 97, 122], some [102, 111, 111, 98, 97, 114, 98, 97, 122]) ∈
      accepted_inserts trie_S1 calls_S1 ∧
    [102, 111, 111] <+: [102, 111, 111, 98, 97, 114, 98, 97, 122] ∧
    [102, 111, 111] ≠ [102, 111, 111, 98, 97, 114, 98, 97, 122] ∧
    (fsmtrie_search (run_inserts trie_S1 calls_S1) (some [102, 111, 111]) none).ret = 1 ∧
    (fsmtrie_search (run_inserts trie_S1 calls_S1) (some [102, 111, 111]) none).str =
      some [102, 111, 111] := by
  refine ⟨rfl, by decide, by decide, by decide, by decide, by decide⟩

/-- C17 amended: with partial matching on, for every accepted key `k` and
every prefix `p` of `k`, `fsmtrie_search(p)` returns 1; the string handed back
is the one stored with `p` when `p` is itself an accepted key, and `NULL` when
it is not. -/
theorem C17_prefix_search_payload (o : Option fsmtrie_opt) (f0 : fsmtrie)
    (ops : List (List Nat × Option (List Nat))) (k p : List Nat) (str0 : Option (List Nat))
    (hinit : fsmtrie_init o = some f0) (hmode : f0.mode ≠ fsmtrie_mode_token)
    (hpm : f0.pm_ok = true) (hops : ∀ c ∈ ops, IsCStr c.1)
    (hk : k ∈ (accepted_inserts f0 ops).map Prod.fst) (hp : p <+: k) :
    (fsmtrie_search (run_inserts f0 ops) (some p) str0).ret = 1 ∧
    (fsmtrie_search (run_inserts f0 ops) (some p) str0).str =
      ((accepted_inserts f0 ops).lookup p).getD none ∧
    (p ∉ (accepted_inserts f0 ops).map Prod.fst →
      (fsmtrie_search (run_inserts f0 ops) (some p) str0).str = none) := by
  have hH := Holds_reach o f0 ops hinit hmode hops
  obtain ⟨c, hc, hck⟩ := List.mem_map.1 hk
  have hb : ∀ b ∈ p, b < (run_inserts f0 ops).nrnodes := by
    intro b hbp
    exact accepts_bytes _ hH.wf _ (hH.acc c hc).1 (hH.acc c hc).2 b (by rw [hck]; exact hp.subset hbp)
  have hex : (lookup (run_inserts f0 ops).root p).isNull = false :=
    (hH.exist p).2 (Or.inr ⟨c, hc, by rw [hck]; exact hp⟩)
  have hpm' : (run_inserts f0 ops).pm_ok = true := by
    rw [(run_inserts_fixed ops f0).2.2.2]; exact hpm
  have hstr : (if (lookup (run_inserts f0 ops).root p).leaf = true then
      (lookup (run_inserts f0 ops).root p).str else none) =
      ((accepted_inserts f0 ops).lookup p).getD none := by
    by_cases hl : (lookup (run_inserts f0 ops).root p).leaf = true
    · rw [if_pos hl, hH.str p]
    · rw [if_neg hl]
      have hnk : ¬ ∃ c ∈ accepted_inserts f0 ops, c.1 = p := fun h => hl ((hH.leaf p).2 h)
      rw [lookup_none_of_not_mem _ _ hnk]; rfl
  rw [fsmtrie_search_in_range _ hH.wf p str0 hb]
  simp only [hex, Bool.false_eq_true, if_false, hpm', true_or, if_true]
  refine ⟨trivial, hstr, ?_⟩
  intro hnk
  rw [hstr]
  have : (accepted_inserts f0 ops).lookup p = none := lookup_none_of_not_mem _ _ (by
    rintro ⟨c, hc, hcp⟩; exact hnk (List.mem_map.2 ⟨c, hc, hcp⟩))
  rw [this]; rfl

theorem C17_prefix_search_payload_witness :
    fsmtrie_init (some ⟨fsmtrie_mode_ascii, true, 64⟩) = some trie_S1 ∧
    trie_S1.mode ≠ fsmtrie_mode_token ∧ trie_S1.pm_ok = true ∧
    (∀ c ∈ calls_S1, IsCStr c.1) ∧
    [102, 111, 111] ∈ (accepted_inserts trie_S1 calls_S1).map Prod.fst ∧
    [102, 111] <+: [102, 111, 111] ∧ [102, 111] ≠ [] ∧
    ((fsmtrie_search (run_inserts trie_S1 calls_S1) (some [102, 111]) none).ret = 1 ∧
     (fsmtrie_search (run_inserts trie_S1 calls_S1) (some [102, 111]) none).str =
       ((accepted_inserts trie_S1 calls_S1).lookup [102, 111]).getD none ∧
     ([102, 111] ∉ (accepted_inserts trie_S1 calls_S1).map Prod.fst →
       (fsmtrie_search (run_inserts trie_S1 calls_S1) (some [102, 111]) none).str = none)) :=
  ⟨rfl, by decide, rfl, by decide, by decide, by decide, by decide,
   C17_prefix_search_payload (some ⟨fsmtrie_mode_ascii, true, 64⟩) trie_S1 calls_S1
     [102, 111, 111] [102, 111] none rfl (by decide) rfl (by decide) (by decide) (by decide)⟩

set_option maxRecDepth 100000 in
/-- C18 fails for a string that is not as long as its key: the offset handed
to the callback is `amoff - strlen(n->str)`, computed from the stored string.
On the trie of scenario S1 with the key "ab" stored with the string "x", the
search of the subject "ab" reports ("x", 1) although the key starts at offset
0; with the key "a" stored with the string "xyz", the search of the subject
"a" reports ("xyz", -2). -/
theorem C18_offset_uses_string_length :
    fsmtrie_init (some ⟨fsmtrie_mode_ascii, true, 64⟩) = some trie_S1 ∧
    (fsmtrie_insert trie_S1 (some [97, 98]) (some [120])).1 = true ∧
    ([97, 98].drop 0).take 2 = [97, 98] ∧
    substring_view (fsmtrie_search_substring
      (fsmtrie_insert trie_S1 (some [97, 98]) (some [120])).2 [97, 98] 50) =
      some (1, [(some [120], 1)]) ∧
    (fsmtrie_insert trie_S1 (some [97]) (some [120, 121, 122])).1 = true ∧
    substring_view (fsmtrie_search_substring
      (fsmtrie_insert trie_S1 (some [97]) (some [120, 121, 122])).2 [97] 50) =
      some (1, [(some [120, 121, 122], -2)]) := by
  refine ⟨rfl, by decide, by decide, by decide!, by decide, by decide!⟩

/-! ### Order of the callback invocations of the substring search -/

/-- The walk along the failure links from the node `u` invokes the callback
for strings of strictly decreasing length, none longer than `u`, whose matches
all end at `a`. -/
theorem ac_emit_order {R : fsmtrie_node} (hcomp : Compiled R)
    (hrl : (lookup R []).leaf = false)
    (hstr : ∀ w, (lookup R w).leaf = true → (lookup R w).str = some w)
    (a : Nat) (ha : a < 2147483648) :
    ∀ (n : Nat) (u : List Nat), u.length = n → u.length ≤ a → InT R u →
      ∀ fuel, u.length + 2 ≤ fuel →
      ∀ out, ∃ E, ac_emit R (a : Int) fuel (some u) out = outcome.ok (out ++ E) ∧
        E.Pairwise (fun x y => match_len y < match_len x) ∧
        ∀ e ∈ E, match_end e = (a : Int) ∧ match_len e ≤ u.length := by
  intro n
  induction n using Nat.strong_induction_on with
  | _ n ih =>
    intro u hn hua hu fuel hfuel out
    obtain ⟨fuel, rfl⟩ : ∃ k, fuel = k + 1 := ⟨fuel - 1, by omega⟩
    by_cases hu0 : u = []
    · subst hu0
      obtain ⟨fuel, rfl⟩ : ∃ k, fuel = k + 1 := ⟨fuel - 1, by simp at hfuel; omega⟩
      have hrl' : R.leaf = false := hrl
      have hrs : R.suffix = none := hcomp.1
      exact ⟨[], by simp [ac_emit, hrl', hrs], List.Pairwise.nil, fun e he => by cases he⟩
    · obtain ⟨u1, hsuf, hfail, _⟩ := hcomp.2 u hu hu0
      obtain ⟨hf1, hf2, hf3, hf4⟩ := hfail
      by_cases hl : (lookup R u).leaf = true
      · obtain ⟨E, hE, hpw, hmem⟩ := ih u1.length (by omega) u1 rfl (by omega) hf3 fuel
          (by omega) (out ++ [(some u, (a : Int) - (u.length : Int))])
        refine ⟨(some u, (a : Int) - (u.length : Int)) :: E, ?_, ?_, ?_⟩
        · simp only [ac_emit, hl, if_true, hstr u hl, hsuf,
            toInt32_toUInt32 ((a : Int) - (u.length : Int)) (by omega) (by omega), hE]
          simp
        · rw [List.pairwise_cons]
          refine ⟨?_, hpw⟩
          intro e he
          have := (hmem e he).2
          show match_len e < u.length
          omega
        · intro e he
          rcases List.mem_cons.1 he with rfl | he
          · exact ⟨by simp [match_end], by simp [match_len]⟩
          · exact ⟨(hmem e he).1, by have := (hmem e he).2; omega⟩
      · obtain ⟨E, hE, hpw, hmem⟩ := ih u1.length (by omega) u1 rfl (by omega) hf3 fuel
          (by omega) out
        refine ⟨E, ?_, hpw, fun e he => ⟨(hmem e he).1, by have := (hmem e he).2; omega⟩⟩
        simp only [ac_emit, hl, hsuf, hE]
        simp

/-- The loop of the substring search keeps its callback invocations in the
order of `emit_before`. -/
theorem ac_search_loop_order {R : fsmtrie_node} (hroot : InT R []) (hcomp : Compiled R)
    (hrl : (lookup R []).leaf = false)
    (hstr : ∀ w, (lookup R w).leaf = true → (lookup R w).str = some w)
    (D fuel : Nat) (hD : ∀ w, InT R w → w.length ≤ D) (hfuel : D + 2 ≤ fuel) (T : List Nat)
    (hTlen : T.length < 2147483648) :
    ∀ (rest pre node : List Nat) (out : List (Option (List Nat) × Int)),
      T = pre ++ rest → IsState R pre node → (∀ e ∈ out, match_end e ≤ (pre.length : Int)) →
      out.Pairwise emit_before →
      ∃ out1, ac_search_loop R fuel rest pre.length node out = outcome.ok out1 ∧
        out1.Pairwise emit_before := by
  intro rest
  induction rest with
  | nil =>
    intro pre node out _ _ _ hpw
    exact ⟨out, rfl, hpw⟩
  | cons c rest ih =>
    intro pre node out hT hs hend hpw
    obtain ⟨node1, hn1, hs1⟩ := ac_next_spec hroot hcomp c hs fuel
      (by have := hD node hs.2.1; omega)
    have hT1 : T = (pre ++ [c]) ++ rest := by rw [hT]; simp
    have hlen1 : (pre ++ [c]).length = pre.length + 1 := by simp
    have hpos : pre.length + 1 < 2147483648 := by
      have := congrArg List.length hT1
      simp only [List.length_append, List.length_singleton] at this
      omega
    simp only [ac_search_loop, hn1, toInt32_of_lt _ hpos]
    by_cases ho : (lookup R node1).output = true
    · obtain ⟨E, hE1, hpwE, hmem⟩ := ac_emit_order hcomp hrl hstr (pre.length + 1) hpos
        node1.length node1 rfl (by have := hs1.1.length_le; rw [hlen1] at this; exact this)
        hs1.2.1 fuel (by have := hD node1 hs1.2.1; omega) out
      simp only [ho, if_true, hE1, outcome.bind]
      rw [← hlen1]
      refine ih (pre ++ [c]) node1 (out ++ E) hT1 hs1 ?_ ?_
      · intro e he
        rw [hlen1]
        rcases List.mem_append.1 he with h | h
        · have := hend e h; push_cast; omega
        · rw [(hmem e h).1]
      · rw [List.pairwise_append]
        refine ⟨hpw, ?_, ?_⟩
        · refine List.Pairwise.imp_of_mem ?_ hpwE
          intro x y hx hy hxy
          exact Or.inr ⟨by rw [(hmem x hx).1, (hmem y hy).1], hxy⟩
        · intro x hx y hy
          left
          have := hend x hx
          rw [(hmem y hy).1]
          push_cast; omega
    · simp only [ho, if_false]
      rw [← hlen1]
      refine ih (pre ++ [c]) node1 out hT1 hs1 ?_ hpw
      intro e he
      have := hend e he
      rw [hlen1]; push_cast; omega

/-- The callback invocations of a substring search are in the order of
`emit_before`. -/
theorem substring_order (f : fsmtrie) (A : List (List Nat × Option (List Nat)))
    (hI : ACInv f A) (T : List Nat) (hTlen : T.length < 2147483648)
    (hsz : 2 * f.node_cnt < 2147483648) (fuel : Nat) (hfuel : f.node_cnt + 2 ≤ fuel) :
    ∃ r, fsmtrie_search_substring f T fuel = outcome.ok r ∧ r.ret = 1 ∧
      r.out.Pairwise emit_before := by
  have hm : f.mode ≠ fsmtrie_mode_token := by
    rcases hI.holds.wf.size with ⟨hm, _⟩ | ⟨hm, _⟩ <;> simp [hm]
  have hloop : ∀ f1 : fsmtrie, ACInv f1 A → f1.ac_compiled = true → f1.node_cnt = f.node_cnt →
      ∃ out, ac_search_loop f1.root fuel T 0 [] [] = outcome.ok out ∧
        out.Pairwise emit_before := by
    intro f1 h1 hc hn
    exact ac_search_loop_order h1.holds.wf.root (h1.comp hc) h1.rootleaf h1.str_leaf
      f1.node_cnt fuel (depth_le h1.cnt) (by omega) T hTlen T [] [] [] rfl
      (IsState_nil h1.holds.wf.root) (fun e he => by cases he) List.Pairwise.nil
  unfold fsmtrie_search_substring
  simp only [hm, if_false, hI.holds.wf.root, Bool.false_eq_true]
  by_cases hc : f.ac_compiled = true
  · obtain ⟨out, h1, h2⟩ := hloop f hI hc rfl
    simp only [hc, if_true, outcome.bind, h1]
    exact ⟨_, rfl, rfl, h2⟩
  · obtain ⟨R1, h1, h2, h3, h4⟩ := ac_compile_spec f hI.holds.wf.root hI.alpha hI.out1 hI.cnt
      hsz fuel (by omega)
    have hI1 := hI.compiled h2 h3 h4
    obtain ⟨out, h5, h6⟩ := hloop _ hI1 rfl rfl
    simp only [hc, Bool.false_eq_true, if_false, h1, outcome.bind, h5]
    exact ⟨_, rfl, rfl, h6⟩

/-- C19: on a fresh ASCII or EASCII trie, after any interleaving of inserts of
non-empty keys (each with the key as its string) and substring searches, a
substring search of a subject `T` returns 1 (with enough fuel for its loops)
and its callback invocations come in the order of the position at which the
match ends (the offset plus the length of the key): of two invocations the
earlier one ends at a smaller position, or at the same position with a
strictly longer key.  The sizes are those the `int` variables of the code can
hold, as for the soundness and completeness of the search. -/
theorem C19_substring_emission_order (o : Option fsmtrie_opt) (f0 : fsmtrie)
    (ops : List ac_op) (T : List Nat)
    (hinit : fsmtrie_init o = some f0) (hmode : f0.mode ≠ fsmtrie_mode_token)
    (hops : ∀ op ∈ ops, op_ok f0.nrnodes op) (hkeys : keys_length ops < 1073741824)
    (hT : IsCStr T ∧ (∀ b ∈ T, b < f0.nrnodes) ∧ T.length < 2147483648) :
    ∃ N, ∀ fuel, N ≤ fuel →
      ∃ f r, run_ac_ops fuel f0 ops = outcome.ok f ∧
        fsmtrie_search_substring f T fuel = outcome.ok r ∧ r.ret = 1 ∧
        r.out.Pairwise (fun x y => match_end x < match_end y ∨
          (match_end x = match_end y ∧ match_len y < match_len x)) := by
  have hn0 : f0.node_cnt = 0 := by
    unfold fsmtrie_init at hinit
    rcases o with _ | ⟨m, pm, ml⟩
    · simp at hinit; subst hinit; rfl
    · cases m
      · simp at hinit; subst hinit; rfl
      · simp at hinit; subst hinit; rfl
      · simp at hinit; obtain ⟨_, h⟩ := hinit; subst h; rfl
  refine ⟨f0.node_cnt + keys_length ops + 2, fun fuel hfuel => ?_⟩
  obtain ⟨f, h1, h2, hsz, h3⟩ := run_ac_ops_spec fuel ops f0 []
    (ACInv_init o f0 hinit hmode) hops (by omega) hfuel
  obtain ⟨r, h4, h5, h6⟩ := substring_order f _ h2 T hT.2.2 (by omega) fuel h3
  exact ⟨f, r, h1, h4, h5, h6⟩

theorem C19_substring_emission_order_witness :
    fsmtrie_init (some ⟨fsmtrie_mode_ascii, true, 64⟩) = some trie_S1 ∧
    trie_S1.mode ≠ fsmtrie_mode_token ∧ (∀ op ∈ ops_ushers, op_ok trie_S1.nrnodes op) ∧
    keys_length ops_ushers < 1073741824 ∧
    (IsCStr [117, 115, 104, 101, 114, 115] ∧
      (∀ b ∈ [117, 115, 104, 101, 114, 115], b < trie_S1.nrnodes) ∧
      [117, 115, 104, 101, 114, 115].length < 2147483648) ∧
    ∃ N, ∀ fuel, N ≤ fuel →
      ∃ f r, run_ac_ops fuel trie_S1 ops_ushers = outcome.ok f ∧
        fsmtrie_search_substring f [117, 115, 104, 101, 114, 115] fuel = outcome.ok r ∧
        r.ret = 1 ∧
        r.out.Pairwise (fun x y => match_end x < match_end y ∨
          (match_end x = match_end y ∧ match_len y < match_len x)) :=
  ⟨rfl, by decide, by decide, by decide, by decide,
   C19_substring_emission_order (some ⟨fsmtrie_mode_ascii, true, 64⟩) trie_S1 ops_ushers
     [117, 115, 104, 101, 114, 115] rfl (by decide) (by decide) (by decide) (by decide)⟩

/-! ### Duplicate inserts and the key count -/

theorem insert_walk_dup_created (nr : Nat) (mode : fsmtrie_mode) (st : Option (List Nat)) :
    ∀ (k : List Nat) (n : fsmtrie_node), (lookup n k).leaf = true →
      (insert_walk nr mode st n k).2.1 = 0 ∧ (insert_walk nr mode st n k).2.2 = false := by
  intro k
  induction k with
  | nil =>
    intro n h
    have h' : n.leaf = true := h
    simp [insert_walk, h']
  | cons p rest ih =>
    intro n h
    have hl : (lookup (n.nodes p) rest).leaf = true := h
    have hnn : (n.nodes p).isNull = false := by
      cases hc : (n.nodes p).isNull
      · rfl
      · rw [isNull_eq_true hc] at hl; simp at hl
    simp only [insert_walk, hnn, Bool.false_eq_true, if_false]
    exact ih _ hl

/-- The key count after a byte insert: it grows by one exactly when the call
is accepted and the key is not yet in the trie. -/
theorem fsmtrie_insert_key_cnt (f : fsmtrie) (hf : ByteTrie f) (k : List Nat)
    (str : Option (List Nat)) :
    (fsmtrie_insert f (some k) str).2.key_cnt =
      f.key_cnt + if (fsmtrie_insert f (some k) str).1 = true ∧ (lookup f.root k).leaf = false
        then 1 else 0 := by
  by_cases ha : accepts f k
  · have hb := (fsmtrie_insert_byte f hf k str).1.2 ha
    rw [fsmtrie_insert_accepted f hf k str ha, (insert_walk_spec f.nrnodes f.mode str k f.root
      hf.root).2.1, hb]
    cases hl : (lookup f.root k).leaf <;> simp
  · have hb : (fsmtrie_insert f (some k) str).1 = false := by
      cases h : (fsmtrie_insert f (some k) str).1
      · rfl
      · exact absurd ((fsmtrie_insert_byte f hf k str).1.1 h) ha
    obtain ⟨e, he⟩ := fsmtrie_insert_rejected f (some k) str hb
    rw [hb, he]
    simp

theorem card_keys_append (A : List (List Nat × Option (List Nat))) (k : List Nat)
    (s : Option (List Nat)) :
    ((A ++ [(k, s)]).map Prod.fst).toFinset.card =
      (A.map Prod.fst).toFinset.card + if (∃ c ∈ A, c.1 = k) then 0 else 1 := by
  have e : ((A ++ [(k, s)]).map Prod.fst).toFinset = insert k (A.map Prod.fst).toFinset := by
    ext x
    simp only [List.map_append, List.map_cons, List.map_nil, List.toFinset_append,
      List.toFinset_cons, List.toFinset_nil, Finset.mem_union, Finset.mem_insert,
      Finset.not_mem_empty, or_false]
    tauto
  rw [e]
  by_cases h : ∃ c ∈ A, c.1 = k
  · obtain ⟨c, hc, hck⟩ := h
    have hm : k ∈ (A.map Prod.fst).toFinset := by
      rw [List.mem_toFinset, List.mem_map]; exact ⟨c, hc, hck⟩
    rw [Finset.insert_eq_of_mem hm, if_pos ⟨c, hc, hck⟩, Nat.add_zero]
  · have hm : k ∉ (A.map Prod.fst).toFinset := by
      rw [List.mem_toFinset, List.mem_map]
      rintro ⟨c, hc, hck⟩; exact h ⟨c, hc, hck⟩
    rw [Finset.card_insert_of_not_mem hm, if_neg h]

theorem key_cnt_run (ops : List (List Nat × Option (List Nat))) :
    ∀ (f : fsmtrie) (A : List (List Nat × Option (List Nat))), Holds f A →
      (∀ c ∈ ops, IsCStr c.1) → f.key_cnt = (A.map Prod.fst).toFinset.card →
      (run_inserts f ops).key_cnt =
        ((A ++ accepted_inserts f ops).map Prod.fst).toFinset.card := by
  induction ops with
  | nil => intro f A _ _ h; simpa [run_inserts, accepted_inserts] using h
  | cons c rest ih =>
    intro f A hH hc hk
    have hs := Holds_step f A hH c.1 c.2 (hc c (List.mem_cons_self _ _))
    have hcnt := fsmtrie_insert_key_cnt f hH.wf c.1 c.2
    simp only [run_inserts, accepted_inserts]
    by_cases hb : (fsmtrie_insert f (some c.1) c.2).1 = true
    · simp only [hb, if_true] at hs hcnt ⊢
      have := ih _ _ hs (fun c' hc' => hc c' (List.mem_cons_of_mem _ hc')) (by
        rw [hcnt, card_keys_append, hk]
        congr 1
        by_cases hl : (lookup f.root c.1).leaf = true
        · rw [if_pos ((hH.leaf c.1).1 hl)]; simp [hl]
        · rw [if_neg (fun h => hl ((hH.leaf c.1).2 h))]
          simp only [Bool.not_eq_true] at hl
          simp [hl])
      rw [this]
      simp
    · simp only [hb, Bool.false_eq_true, if_false, List.append_nil] at hs ⊢
      simp only [hb, Bool.false_eq_true, false_and, if_false, Nat.add_zero] at hcnt
      exact ih _ _ hs (fun c' hc' => hc c' (List.mem_cons_of_mem _ hc')) (by rw [hcnt, hk])

theorem fsmtrie_init_counts (o : Option fsmtrie_opt) (f0 : fsmtrie)
    (h : fsmtrie_init o = some f0) : f0.key_cnt = 0 ∧ f0.node_cnt = 0 := by
  unfold fsmtrie_init at h
  rcases o with _ | ⟨m, pm, ml⟩
  · simp at h; subst h; exact ⟨rfl, rfl⟩
  · cases m
    · simp at h; subst h; exact ⟨rfl, rfl⟩
    · simp at h; subst h; exact ⟨rfl, rfl⟩
    · simp at h; obtain ⟨_, h⟩ := h; subst h; exact ⟨rfl, rfl⟩

/-- The key count of a byte trie: after any sequence of `fsmtrie_insert` calls
on a fresh ASCII or EASCII trie, `fsmtrie_get_keycnt` is the number of
distinct keys whose insert returned true (as a `uint32_t`). -/
theorem byte_key_count (o : Option fsmtrie_opt) (f0 : fsmtrie)
    (ops : List (List Nat × Option (List Nat)))
    (hinit : fsmtrie_init o = some f0) (hmode : f0.mode ≠ fsmtrie_mode_token)
    (hops : ∀ c ∈ ops, IsCStr c.1) :
    (run_inserts f0 ops).key_cnt = ((accepted_inserts f0 ops).map Prod.fst).toFinset.card ∧
    fsmtrie_get_keycnt (run_inserts f0 ops) =
      ((accepted_inserts f0 ops).map Prod.fst).toFinset.card % 4294967296 := by
  have h := key_cnt_run ops f0 [] (Holds_init o f0 hinit hmode) hops
    (by rw [(fsmtrie_init_counts o f0 hinit).1]; rfl)
  simp only [List.nil_append] at h
  exact ⟨h, by rw [fsmtrie_get_keycnt, h]⟩

theorem TokWF.node_present {N : Nat} {node : fsmtrie_node} {cnt : Nat} (h : TokWF N node cnt) :
    node.isNull = false := by
  cases h with | mk _ _ h1 _ _ _ _ => exact h1

/-- The token insertion walk on any well formed subtree, a child count that
wraps included: the walk returns, the subtree stays well formed, and every
path it has afterwards was there before or is a prefix of the key. -/
theorem insert_token_walk_wf (str : Option (List Nat)) :
    ∀ (k : List Nat) (node : fsmtrie_node) (cnt : Nat), TokWF 65535 node cnt →
      ∃ node' cnt' e,
        insert_token_walk str node cnt k = some (node', cnt', e) ∧
        TokWF 65535 node' cnt' ∧ node'.tval = node.tval ∧
        ∀ w : List Nat, (tlookup node' cnt' w).isNull = false →
          (tlookup node cnt w).isNull = false ∨ w <+: k := by
  intro k
  induction k with
  | nil =>
    intro node cnt h
    have hn := h.node_present
    by_cases hl : node.leaf = true
    · exact ⟨node, cnt, token_walk_end.duplicate, by simp [insert_token_walk, hl], h, rfl,
        fun w hw => Or.inl hw⟩
    · simp only [Bool.not_eq_true] at hl
      refine ⟨node.markLeaf str, cnt, token_walk_end.added, by simp [insert_token_walk, hl],
        TokWF_congr _ node _ cnt h (by simp) (by simp), by simp, fun w hw => ?_⟩
      left
      cases w with
      | nil => exact hn
      | cons t w' =>
        simp only [tlookup, tchild_congr node (node.markLeaf str) cnt t (by simp)] at hw ⊢
        exact hw
  | cons t rest ih =>
    intro node cnt h
    cases h with
    | mk _ _ hn hc hk hs hr =>
      rcases get_token_idx_spec node t cnt hs with ⟨m, hm, hmt, hget⟩ | ⟨p, hp, hlow, hup, hget⟩
      · -- the token is present at index `m`
        obtain ⟨c', cc', e, hwalk, hwf, htv, hfacts⟩ :=
          ih (node.nodes m) (node.nodes m).nnodes (hr m hm)
        have hch := tchild_of_idx node cnt t m hs hm hmt
        have hcn : c'.isNull = false := hwf.node_present
        obtain ⟨hs', hch'⟩ := replace_child node (c'.setNnodes cc') cnt m hn hs hm
          (by simp [htv])
        refine ⟨node.setNode m (c'.setNnodes cc'), cnt, e, ?_, ?_, by simp, fun w hw => ?_⟩
        · simp only [insert_token_walk, hget, Option.getD_some]
          simp only [show ¬ ((0 : Int) < 0) by omega, show ¬ ((0 : Int) > 0) by omega, if_false,
            hwalk]
        · refine TokWF.mk _ cnt (by simp [hn]) hc (fun i hi => ?_) hs' (fun i hi => ?_)
          · by_cases him : i = m
            · subst him; simp [hn, hcn]
            · simp [hn, him]; exact hk i hi
          · by_cases him : i = m
            · subst him
              simp only [nodes_setNode, hn, Bool.false_eq_true, if_false, if_true,
                nnodes_setNnodes, hcn]
              exact TokWF_congr _ c' _ cc' hwf (by simp) (by simp)
            · simp only [nodes_setNode, hn, Bool.false_eq_true, if_false, him]
              exact hr i hi
        · cases w with
          | nil => left; exact hn
          | cons t' w' =>
            simp only [tlookup, hch'] at hw ⊢
            by_cases htt : t' = t
            · subst htt
              rw [if_pos hmt.symm] at hw
              simp only [nnodes_setNnodes, hcn, Bool.false_eq_true, if_false] at hw
              rw [(tlookup_congr c' (c'.setNnodes cc') cc' w' (by simp) (by simp) (by simp)
                (by simp)).1] at hw
              rcases hfacts w' hw with h1 | h1
              · left; rw [hch]; exact h1
              · right; exact List.cons_prefix_cons.2 ⟨rfl, h1⟩
            · rw [if_neg (by rw [hmt]; exact htt)] at hw
              left; exact hw
      · -- the token is absent: a new child is created at index `p`
        have hnew : TokWF 65535 ((_fsmtrie_node_new fsmtrie_mode_token).1.setTval t) 0 :=
          TokWF.mk _ 0 (by simp) (by omega) (fun i hi => by omega)
            (fun i j _ hj => by omega) (fun i hi => by omega)
        obtain ⟨c', cc', e, hwalk, hwf, htv, hfacts⟩ := ih _ 0 hnew
        have hcn : c'.isNull = false := hwf.node_present
        have hc't : (c'.setNnodes cc').tval = t := by simp [htv]
        have hll := fun w => tlookup_leafless ((_fsmtrie_node_new fsmtrie_mode_token).1.setTval t)
          (by simp) w
        have hsame : ((token_make_room node cnt p).setNode p
              ((_fsmtrie_node_new fsmtrie_mode_token).1.setTval t)).setNode p (c'.setNnodes cc')
            = (token_make_room node cnt p).setNode p (c'.setNnodes cc') := by
          cases node with
          | NULL => rfl
          | mk s l o st tv n ns => simp [token_make_room, setNode]
        have hwalk' : insert_token_walk str node cnt (t :: rest) =
            some ((token_make_room node cnt p).setNode p (c'.setNnodes cc'),
              (cnt + 1) % 65536, e) := by
          simp only [insert_token_walk, hget, Option.getD_some]
          simp only [show ¬ ((1 : Int) < 0) by omega, show ((1 : Int) > 0) by omega, if_false,
            if_true, nodes_setNode, isNull_make_room, hn, Bool.false_eq_true, nnodes_setTval,
            node_new_nnodes, hwalk, hsame]
        refine ⟨_, _, e, hwalk', ?_, by simp, fun w hw => ?_⟩
        · by_cases hfull : cnt = 65535
          · subst hfull
            exact TokWF.mk _ _ (by simp [hn]) (by omega) (fun i hi => by simp at hi)
              (fun i j _ hj => by simp at hj) (fun i hi => by simp at hi)
          · have hmod : (cnt + 1) % 65536 = cnt + 1 := Nat.mod_eq_of_lt (by omega)
            obtain ⟨hnodes, hs', _⟩ := insert_child node (c'.setNnodes cc') cnt p t hn hs hp hlow
              hup hc't
            rw [hmod]
            refine TokWF.mk _ (cnt + 1) (by simp [hn]) (by omega) (fun i hi => ?_) hs'
              (fun i hi => ?_)
            · rw [hnodes]
              by_cases h1 : i < p
              · simp only [h1, if_true]; exact hk i (by omega)
              · by_cases h2 : i = p
                · simp [h2, hcn]
                · have h3 : i ≤ cnt := by omega
                  simp only [h1, h2, h3, if_false, if_true]; exact hk (i - 1) (by omega)
            · rw [hnodes]
              by_cases h1 : i < p
              · simp only [h1, if_true]; exact hr i (by omega)
              · by_cases h2 : i = p
                · simp only [h2, lt_irrefl, if_false, if_true, nnodes_setNnodes, hcn,
                    Bool.false_eq_true]
                  exact TokWF_congr _ c' _ cc' hwf (by simp) (by simp)
                · have h3 : i ≤ cnt := by omega
                  simp only [h1, h2, h3, if_false, if_true]
                  exact hr (i - 1) (by omega)
        · cases w with
          | nil => left; exact hn
          | cons t' w' =>
            by_cases hfull : cnt = 65535
            · subst hfull
              exfalso
              have : tchild ((token_make_room node 65535 p).setNode p (c'.setNnodes cc'))
                  ((65535 + 1) % 65536) t' = NULL :=
                tchild_none _ _ _ (fun i hi => by simp at hi)
              simp only [tlookup, this, tlookup_NULL, isNull_NULL] at hw
              cases hw
            · have hmod : (cnt + 1) % 65536 = cnt + 1 := Nat.mod_eq_of_lt (by omega)
              obtain ⟨_, _, hch'⟩ := insert_child node (c'.setNnodes cc') cnt p t hn hs hp hlow
                hup hc't
              rw [hmod] at hw
              simp only [tlookup, hch'] at hw ⊢
              by_cases htt : t' = t
              · subst htt
                rw [if_pos rfl] at hw
                simp only [nnodes_setNnodes, hcn, Bool.false_eq_true, if_false] at hw
                rw [(tlookup_congr c' (c'.setNnodes cc') cc' w' (by simp) (by simp) (by simp)
                  (by simp)).1] at hw
                right
                rcases hfacts w' hw with h1 | h1
                · by_cases hw' : w' = []
                  · subst hw'; exact List.cons_prefix_cons.2 ⟨rfl, List.nil_prefix⟩
                  · rw [(hll w').2 hw'] at h1; cases h1
                · exact List.cons_prefix_cons.2 ⟨rfl, h1⟩
              · rw [if_neg htt] at hw
                left; exact hw

theorem TokInv_init (o : Option fsmtrie_opt) (f0 : fsmtrie) (h : fsmtrie_init o = some f0)
    (hm : f0.mode = fsmtrie_mode_token) : TokInv f0 := by
  have hH := THolds_init o f0 h hm
  refine ⟨hm, TokWF_mono 0 65535 (by omega) _ _ hH.wf, fun w hw => ?_⟩
  rcases (hH.exist w).1 hw with e | ⟨c, hc, _⟩
  · subst e; right; simp
  · cases hc

/-- Every `fsmtrie_insert_token` call on a reachable token trie returns and
leaves a reachable token trie. -/
theorem TokInv_step (f : fsmtrie) (hI : TokInv f) (k : List Nat) (s : Option (List Nat)) :
    ∃ b f', fsmtrie_insert_token f k s = some (b, f') ∧ TokInv f' ∧
      f'.max_len = f.max_len := by
  have hroot : f.root.isNull = false := hI.wf.node_present
  have hmode : ¬ (f.mode ≠ fsmtrie_mode_token) := by simp [hI.mode]
  by_cases hlen : f.max_len > 0 ∧ k.length > f.max_len
  · refine ⟨false, { f with err_buf := err_msg.token_string_too_long k.length f.max_len }, ?_,
      ⟨hI.mode, hI.wf, hI.depth⟩, rfl⟩
    simp [fsmtrie_insert_token, hroot, hmode, hlen]
  · obtain ⟨node', cnt', e, hwalk, hwf, _, hpaths⟩ :=
      insert_token_walk_wf s k f.root f.nrnodes hI.wf
    have hdepth : ∀ w, (tlookup node' cnt' w).isNull = false →
        f.max_len = 0 ∨ w.length ≤ f.max_len := by
      intro w hw
      rcases hpaths w hw with h1 | h1
      · exact hI.depth w h1
      · have := h1.length_le; omega
    have hne := insert_token_walk_never_fails s k f.root f.nrnodes _ hwalk
    cases e with
    | cannot_insert => exact absurd rfl hne
    | duplicate =>
      refine ⟨true, { f with root := node', nrnodes := cnt' }, ?_, ⟨hI.mode, hwf, hdepth⟩, rfl⟩
      simp only [fsmtrie_insert_token, hroot, Bool.false_eq_true, if_false, hmode, hlen, hwalk]
    | added =>
      have hv : fsmtrie_insert_token f k s = some (true,
          { f with root := node', nrnodes := cnt', node_cnt := f.node_cnt + 1,
                   ac_compiled := false, key_cnt := f.key_cnt + 1 }) := by
        simp only [fsmtrie_insert_token, hroot, Bool.false_eq_true, if_false, hmode, hlen, hwalk]
      exact ⟨true, _, hv, ⟨hI.mode, hwf, hdepth⟩, rfl⟩

/-- Every sequence of `fsmtrie_insert_token` calls on a reachable token trie
runs to its end. -/
theorem TokInv_run (ops : List (List Nat × Option (List Nat))) :
    ∀ f : fsmtrie, TokInv f → ∃ F, run_token_inserts f ops = some F ∧ TokInv F := by
  induction ops with
  | nil => intro f h; exact ⟨f, rfl, h⟩
  | cons c rest ih =>
    intro f h
    obtain ⟨b, f', h1, h2, _⟩ := TokInv_step f h c.1 c.2
    obtain ⟨F, h3, h4⟩ := ih f' h2
    exact ⟨F, by simp only [run_token_inserts, h1, h3], h4⟩

/-- The key count after a token insert below the wrap of the child counts: it
grows by one exactly when the call is accepted and the key is new. -/
theorem token_key_cnt_step (f : fsmtrie) (A : List (List Nat × Option (List Nat))) (N : Nat)
    (hH : THolds f A N) (hN : N < 65535) (k : List Nat) (s : Option (List Nat)) (b : Bool)
    (f' : fsmtrie) (h : fsmtrie_insert_token f k s = some (b, f')) :
    f'.key_cnt = f.key_cnt + if (b = true ∧ ¬ ∃ c ∈ A, c.1 = k) then 1 else 0 := by
  have hroot : f.root.isNull = false := hH.wf.node_present
  have hmode : ¬ (f.mode ≠ fsmtrie_mode_token) := by simp [hH.mode]
  by_cases hlen : f.max_len > 0 ∧ k.length > f.max_len
  · have hv : fsmtrie_insert_token f k s = some (false,
        { f with err_buf := err_msg.token_string_too_long k.length f.max_len }) := by
      simp [fsmtrie_insert_token, hroot, hmode, hlen]
    rw [hv] at h
    cases h
    simp
  · obtain ⟨node', cnt', hwalk, _, _, _⟩ := insert_token_walk_spec N hN s k f.root f.nrnodes hH.wf
    by_cases hl : (tlookup f.root f.nrnodes k).leaf = true
    · have hv : fsmtrie_insert_token f k s = some (true,
          { f with root := node', nrnodes := cnt' }) := by
        simp only [fsmtrie_insert_token, hroot, Bool.false_eq_true, if_false, hmode, hlen, hwalk,
          hl, if_true]
      rw [hv] at h
      cases h
      rw [if_neg (fun hh => hh.2 ((hH.leaf k).1 hl))]
      rfl
    · have hnk : ¬ ∃ c ∈ A, c.1 = k := fun hh => hl ((hH.leaf k).2 hh)
      have hv : fsmtrie_insert_token f k s = some (true,
          { f with root := node', nrnodes := cnt', node_cnt := f.node_cnt + 1,
                   ac_compiled := false, key_cnt := f.key_cnt + 1 }) := by
        simp only [fsmtrie_insert_token, hroot, Bool.false_eq_true, if_false, hmode, hlen, hwalk,
          hl]
      rw [hv] at h
      cases h
      rw [if_pos ⟨rfl, hnk⟩]

theorem token_key_cnt_run (ops : List (List Nat × Option (List Nat))) :
    ∀ (f : fsmtrie) (A : List (List Nat × Option (List Nat))) (N : Nat), THolds f A N →
      N + ops.length ≤ 65535 → f.key_cnt = (A.map Prod.fst).toFinset.card →
      ∃ F, run_token_inserts f ops = some F ∧
        F.key_cnt = ((A ++ accepted_token_inserts f ops).map Prod.fst).toFinset.card := by
  induction ops with
  | nil =>
    intro f A N _ _ hk
    exact ⟨f, rfl, by simpa [accepted_token_inserts] using hk⟩
  | cons c rest ih =>
    intro f A N hH hN hk
    simp only [List.length_cons] at hN
    obtain ⟨b, f', h1, _, _, h4⟩ := THolds_step f A N hH (by omega) c.1 c.2
    have hcnt := token_key_cnt_step f A N hH (by omega) c.1 c.2 b f' h1
    cases b with
    | true =>
      simp only [if_true] at h4
      obtain ⟨F, h5, h6⟩ := ih f' _ (N + 1) h4 (by omega) (by
        rw [hcnt, card_keys_append, hk]
        congr 1
        by_cases hex : ∃ c' ∈ A, c'.1 = c.1
        · simp [hex]
        · simp [hex])
      refine ⟨F, by simp only [run_token_inserts, h1, h5], ?_⟩
      rw [h6]
      simp only [accepted_token_inserts, h1, if_true, List.append_assoc, List.singleton_append]
    | false =>
      simp only [Bool.false_eq_true, if_false, List.append_nil] at h4
      obtain ⟨F, h5, h6⟩ := ih f' _ (N + 1) h4 (by omega) (by
        rw [hcnt, hk]; simp)
      refine ⟨F, by simp only [run_token_inserts, h1, h5], ?_⟩
      rw [h6]
      simp only [accepted_token_inserts, h1, Bool.false_eq_true, if_false]

/-- The key count of a token trie below the wrap of the child counts: after at
most 65535 `fsmtrie_insert_token` calls on a fresh token trie,
`fsmtrie_get_keycnt` is the number of distinct keys whose insert returned
true. -/
theorem token_key_count_below_wrap (o : Option fsmtrie_opt) (f0 : fsmtrie)
    (ops : List (List Nat × Option (List Nat)))
    (hinit : fsmtrie_init o = some f0) (hmode : f0.mode = fsmtrie_mode_token)
    (hlen : ops.length ≤ 65535) :
    ∃ F, run_token_inserts f0 ops = some F ∧
      F.key_cnt = ((accepted_token_inserts f0 ops).map Prod.fst).toFinset.card ∧
      fsmtrie_get_keycnt F =
        ((accepted_token_inserts f0 ops).map Prod.fst).toFinset.card % 4294967296 := by
  obtain ⟨F, h1, h2⟩ := token_key_cnt_run ops f0 [] 0 (THolds_init o f0 hinit hmode)
    (by omega) (by rw [(fsmtrie_init_counts o f0 hinit).1]; rfl)
  simp only [List.nil_append] at h2
  exact ⟨F, h1, h2, by rw [fsmtrie_get_keycnt, h2]⟩

/-- The insert of a one token key whose token is not among the children of
the root counted by `nrnodes`: the call returns true, the 16 bit count is
incremented and the key count grows by one. -/
theorem insert_new_single_token (f : fsmtrie) (hroot : f.root.isNull = false)
    (hmode : f.mode = fsmtrie_mode_token) (hml : f.max_len = 0)
    (hs : SortedKids f.root f.nrnodes) (t : Nat)
    (habs : ∀ i, i < f.nrnodes → (f.root.nodes i).tval ≠ t) (s : Option (List Nat)) :
    ∃ root', root'.isNull = false ∧ fsmtrie_insert_token f [t] s =
      some (true, { f with root := root', nrnodes := (f.nrnodes + 1) % 65536,
                           node_cnt := f.node_cnt + 1, ac_compiled := false,
                           key_cnt := f.key_cnt + 1 }) := by
  have hmode' : ¬ (f.mode ≠ fsmtrie_mode_token) := by simp [hmode]
  rcases get_token_idx_spec f.root t f.nrnodes hs with ⟨m, hm, hmt, _⟩ | ⟨p, hp, _, _, hget⟩
  · exact absurd hmt (habs m hm)
  · have hw : insert_token_walk s f.root f.nrnodes [t] =
        some ((token_make_room f.root f.nrnodes p).setNode p
          ((((_fsmtrie_node_new fsmtrie_mode_token).1.setTval t).markLeaf s).setNnodes 0),
          (f.nrnodes + 1) % 65536, token_walk_end.added) := by
      simp only [insert_token_walk, hget, Option.getD_some]
      simp only [show ¬ ((1 : Int) < 0) by omega, show ((1 : Int) > 0) by omega, if_false,
        if_true, nodes_setNode, isNull_make_room, hroot, Bool.false_eq_true, leaf_setTval,
        node_new_leaf, nnodes_setTval, node_new_nnodes]
      have hsame : ∀ (x y : fsmtrie_node),
          ((token_make_room f.root f.nrnodes p).setNode p x).setNode p y
            = (token_make_room f.root f.nrnodes p).setNode p y := by
        intro x y
        cases f.root with
        | NULL => rfl
        | mk s l o st tv n ns => simp [token_make_room, setNode]
      simp [hsame]
    refine ⟨(token_make_room f.root f.nrnodes p).setNode p
        ((((_fsmtrie_node_new fsmtrie_mode_token).1.setTval t).markLeaf s).setNnodes 0),
      by simp [hroot], ?_⟩
    simp only [fsmtrie_insert_token, hroot, Bool.false_eq_true, if_false, hmode', hml,
      gt_iff_lt, lt_irrefl, false_and, hw]

theorem insert_new_single_token_facts (f : fsmtrie) (hroot : f.root.isNull = false)
    (hmode : f.mode = fsmtrie_mode_token) (hml : f.max_len = 0)
    (hs : SortedKids f.root f.nrnodes) (t : Nat)
    (habs : ∀ i, i < f.nrnodes → (f.root.nodes i).tval ≠ t) (s : Option (List Nat)) :
    ∃ f', fsmtrie_insert_token f [t] s = some (true, f') ∧ f'.root.isNull = false ∧
      f'.mode = fsmtrie_mode_token ∧ f'.max_len = 0 ∧
      f'.nrnodes = (f.nrnodes + 1) % 65536 ∧ f'.key_cnt = f.key_cnt + 1 := by
  obtain ⟨root', h1, h2⟩ := insert_new_single_token f hroot hmode hml hs t habs s
  exact ⟨_, h2, h1, hmode, hml, rfl, rfl⟩

theorem card_single_token_calls (n : Nat) :
    ((single_token_calls n).map Prod.fst).toFinset.card = n := by
  have hnd : ((single_token_calls n).map Prod.fst).Nodup := by
    simp only [single_token_calls, List.map_map]
    rw [List.nodup_map_iff_inj_on (List.nodup_range n)]
    intro a _ b _ h
    simpa using h
  rw [List.toFinset_card_of_nodup hnd]
  simp [single_token_calls]

/-- C12 fails once the child count of the root has wrapped: after the 65536
accepted inserts of the one token keys 0 .. 65535 on a fresh token trie the
root count `nrnodes` is 0, so a second insert of the key 0 does not find it,
returns true and increments the key count: every call of the sequence returned
true, the keys are 65536 in number, and `fsmtrie_get_keycnt` is 65537. -/
theorem C12_key_count_after_wrap :
    fsmtrie_init (some ⟨fsmtrie_mode_token, false, 0⟩) = some trie_tok ∧
    ∃ F, run_token_inserts trie_tok (single_token_calls 65536 ++ [([0], none)]) = some F ∧
      accepted_token_inserts trie_tok (single_token_calls 65536 ++ [([0], none)]) =
        single_token_calls 65536 ++ [([0], none)] ∧
      ((single_token_calls 65536 ++ [([0], none)]).map Prod.fst).toFinset.card = 65536 ∧
      fsmtrie_get_keycnt F = 65537 := by
  refine ⟨rfl, ?_⟩
  have hlen : (single_token_calls 65535).length = 65535 := by simp [single_token_calls]
  have h0 := THolds_init (some ⟨fsmtrie_mode_token, false, 0⟩) trie_tok rfl rfl
  obtain ⟨F1, hrun1, hml1, hH1⟩ := THolds_run (single_token_calls 65535) trie_tok [] 0 h0
    (by rw [hlen])
  obtain ⟨F1', hrun1', hk1⟩ := token_key_cnt_run (single_token_calls 65535) trie_tok [] 0 h0
    (by rw [hlen]) rfl
  rw [hrun1] at hrun1'
  cases hrun1'
  have hacc1 := accepted_all (single_token_calls 65535) trie_tok [] 0 h0 (by rw [hlen]) rfl
  rw [hlen] at hH1
  simp only [List.nil_append, hacc1, Nat.zero_add] at hH1 hk1
  rw [card_single_token_calls] at hk1
  have hml : F1.max_len = 0 := hml1
  have hroot1 : F1.root.isNull = false := hH1.wf.node_present
  cases hwf : hH1.wf with
  | mk _ _ hn hc hk hs hr =>
    have hcnt : F1.nrnodes = 65535 := by
      have := kids_ge F1.root F1.nrnodes 65535 (by
        intro i hi
        have hex := (hH1.exist [i]).2 (Or.inr ⟨([i], none),
          List.mem_map.2 ⟨i, List.mem_range.2 hi, rfl⟩, List.prefix_refl _⟩)
        simp only [tlookup] at hex
        rcases tchild_cases F1.root F1.nrnodes i hs with ⟨j, hj, hji, _⟩ | ⟨_, hnone⟩
        · exact ⟨j, hj, hji⟩
        · rw [hnone] at hex; cases hex)
      omega
    have habs : ∀ i, i < F1.nrnodes → (F1.root.nodes i).tval ≠ 65535 := by
      intro i hi hit
      have hex : (tlookup F1.root F1.nrnodes [65535]).isNull = false := by
        simp only [tlookup]
        rw [tchild_of_idx F1.root F1.nrnodes 65535 i hs hi hit]
        exact hk i hi
      rcases (hH1.exist [65535]).1 hex with e | ⟨c, hc', hpre⟩
      · cases e
      · obtain ⟨j, hj, hjc⟩ := List.mem_map.1 hc'
        subst hjc
        have hj' := List.mem_range.1 hj
        have : (65535 : Nat) = j := (List.cons_prefix_cons.1 hpre).1
        omega
    obtain ⟨F2, hins2, hroot2, hmode2, hml2, hnr2, hk2⟩ := insert_new_single_token_facts F1
      hroot1 hH1.mode hml hs 65535 habs none
    rw [hcnt] at hnr2
    have hnr2' : F2.nrnodes = 0 := hnr2
    obtain ⟨F3, hins3, _, _, _, _, hk3⟩ := insert_new_single_token_facts F2 hroot2 hmode2 hml2
      (fun i j _ hj => by rw [hnr2'] at hj; omega) 0 (fun i hi => by rw [hnr2'] at hi; omega) none
    have hrun2 : run_token_inserts trie_tok (single_token_calls 65536) = some F2 := by
      rw [single_token_calls_succ, run_token_inserts_append, hrun1]
      simp [run_token_inserts, hins2]
    have hacc2 : accepted_token_inserts trie_tok (single_token_calls 65536) =
        single_token_calls 65536 := by
      rw [single_token_calls_succ, accepted_token_inserts_append _ _ _ _ hrun1, hacc1]
      simp [accepted_token_inserts, hins2]
    refine ⟨F3, ?_, ?_, ?_, ?_⟩
    · rw [run_token_inserts_append, hrun2]
      simp only [Option.bind, run_token_inserts, hins3]
    · rw [accepted_token_inserts_append _ _ _ _ hrun2, hacc2]
      simp [accepted_token_inserts, hins3]
    · have e : ((single_token_calls 65536 ++ [([0], none)]).map Prod.fst).toFinset =
          ((single_token_calls 65536).map Prod.fst).toFinset := by
        ext x
        simp only [List.map_append, List.map_cons, List.map_nil, List.toFinset_append,
          List.toFinset_cons, List.toFinset_nil, Finset.mem_union, Finset.mem_insert,
          Finset.not_mem_empty, or_false, List.mem_toFinset]
        constructor
        · rintro (h | h)
          · exact h
          · subst h
            exact List.mem_map.2 ⟨([0], none),
              List.mem_map.2 ⟨0, List.mem_range.2 (by omega), rfl⟩, rfl⟩
        · intro h; exact Or.inl h
      rw [e, card_single_token_calls]
    · rw [fsmtrie_get_keycnt, hk3, hk2, hk1]

/-! ### Return code of the approximate search -/

theorem approx_run_ret (f : fsmtrie) (q : List Nat) (d end_ : Int) :
    ∀ (fuel : Nat) (s : approx_state) (ret : Int) (out : List (Option (List Nat) × Int))
      (f' : fsmtrie), approx_run f q d end_ fuel s = some (approx_outcome.returned ret out f') →
      ret = 1 ∧ f' = f := by
  intro fuel
  induction fuel with
  | zero => intro s ret out f' h; cases h
  | succ fuel ih =>
    intro s ret out f' h
    simp only [approx_run] at h
    by_cases hn : s.node.isNull = true
    · simp only [hn, if_true, Option.some.injEq, approx_outcome.returned.injEq] at h
      exact ⟨h.1.symm, h.2.2.symm⟩
    · simp only [hn, Bool.false_eq_true, if_false] at h
      cases hs : approx_step f q d end_ s with
      | none => rw [hs] at h; cases h
      | some s1 => rw [hs] at h; exact ih s1 ret out f' h

/-- Whenever `fsmtrie_search_approx` returns, it returns -1 without a
callback invocation if `max_len` is 0 or the mode is token, and 1 otherwise;
the trie is unchanged up to the error buffer. -/
theorem approx_return_code (f : fsmtrie) (q : List Nat) (d : Int) (fuel : Nat) (ret : Int)
    (out : List (Option (List Nat) × Int)) (f' : fsmtrie)
    (h : fsmtrie_search_approx f q d fuel = some (approx_outcome.returned ret out f')) :
    (ret = -1 ∧ out = [] ∧ (f.max_len = 0 ∨ f.mode = fsmtrie_mode_token)) ∨
    (ret = 1 ∧ f.max_len ≠ 0 ∧ f.mode ≠ fsmtrie_mode_token) := by
  unfold fsmtrie_search_approx at h
  by_cases h0 : f.max_len = 0
  · simp only [h0, if_true, Option.some.injEq, approx_outcome.returned.injEq] at h
    exact Or.inl ⟨h.1.symm, h.2.1.symm, Or.inl h0⟩
  · by_cases hm : f.mode = fsmtrie_mode_token
    · simp only [h0, if_false, hm, if_true, Option.some.injEq,
        approx_outcome.returned.injEq] at h
      exact Or.inl ⟨h.1.symm, h.2.1.symm, Or.inr hm⟩
    · simp only [h0, if_false, hm] at h
      right
      split at h
      · cases h
      · exact ⟨(approx_run_ret f q d _ fuel _ ret out f' h).1, h0, hm⟩

theorem trie_ff_root_nodes (n : Nat) :
    trie_ff.root.nodes n = if n = 255 then lookup trie_ff.root [255] else NULL := by
  have h : trie_ff.root = (insert_walk 256 fsmtrie_mode_eascii (some [255])
      (_fsmtrie_node_new fsmtrie_mode_eascii).1 [255]).1 := rfl
  rw [h, lookup, lookup, insert_walk_nodes _ _ _ _ (by rfl)]
  by_cases hn : n = 255
  · subst hn
    rw [if_pos rfl, if_pos rfl, insert_walk_nodes _ _ _ _ (by rfl), if_pos rfl]
  · rw [if_neg hn, if_neg hn]
    rfl

theorem trie_ff_key_node :
    lookup trie_ff.root [255] = mk none true true (some [255]) 0 256 (fun _ => NULL) := by
  rfl

/-- One step of the traversal of `trie_ff` from a state of the loop leads to
a state of the loop: the traversal never reaches the end of the root's
children, because the descent on the byte 0xFF stores `chars[0] = 0`. -/
theorem loop_ff_step (s : approx_state) (h : loop_ff s) :
    s.node.isNull = false ∧ ∃ s1, approx_step trie_ff [97] 1 195 s = some s1 ∧ loop_ff s1 := by
  obtain ⟨hr, hch, hc0, hcase⟩ := h
  have hnr : (trie_ff.nrnodes : Int) = 256 := rfl
  rcases hcase with ⟨hnode, hi, hc⟩ | ⟨hnode, hi, hn1⟩
  · -- at the root
    refine ⟨by rw [hnode]; rfl, ?_⟩
    have hlt : s.c < (trie_ff.nrnodes : Int) := by rw [hnr]; omega
    by_cases h255 : s.c = 255
    · obtain ⟨node, i, c, chars, nodes, rows, out⟩ := s
      simp only at hr hch hnode hi h255
      subst hnode hi h255
      have hchild : trie_ff.root.nodes 255 = mk none true true (some [255]) 0 256
          (fun _ => NULL) := by
        rw [trie_ff_root_nodes, ← trie_ff_key_node]; rfl
      have t1 : Int.toNat 255 = 255 := rfl
      have t2 : Int.toNat 0 = 0 := rfl
      have t3 : ((0 : Int) - 1).toNat = 0 := rfl
      have t4 : ((0 : Int) + 1).toNat = 1 := rfl
      have t5 : (255 : Int) < 256 := by decide
      have e1 : sim_row_next row0_d1 195 = some ⟨2, []⟩ := by decide
      have e2 : sim_row_append ⟨2, []⟩ 195 0 (0 + 1) = some ⟨2, [⟨0, 1⟩]⟩ := by decide
      have e3 : approx_row_loop [97] 1 195 255 0 ((0 : Nat) : Int) row0_d1 row0_d1.entries
          ⟨2, [⟨0, 1⟩]⟩ = some ⟨2, [⟨0, 1⟩, ⟨1, 1⟩]⟩ := by decide
      have e4 : sim_row_elem ⟨2, [⟨0, 1⟩, ⟨1, 1⟩]⟩ 0 = some ⟨0, 1⟩ := rfl
      have e5 : sim_row_last ⟨2, [⟨0, 1⟩, ⟨1, 1⟩]⟩ = some ⟨1, 1⟩ := rfl
      have e6 : (0 : Int) < toInt32 trie_ff.max_len := by decide
      have e7 : ((255 : Int) + 1).toNat % 256 = 0 := by decide
      refine ⟨{ node := mk none true true (some [255]) 0 256 (fun _ => NULL), i := 0 + 1,
                c := 0 + 1,
                chars := Function.update (Function.update chars 0 0) 1 0,
                nodes := Function.update nodes 1 trie_ff.root,
                rows := Function.update rows 1 ⟨2, [⟨0, 1⟩, ⟨1, 1⟩]⟩,
                out := out ++ [(some [255], 1)] }, ?_, ?_⟩
      · simp only [approx_step, hnr, t1, t2, t3, t4, t5, if_true, hchild, hr, hch,
          fsmtrie_node.isNull, fsmtrie_node.leaf, fsmtrie_node.str, Bool.false_eq_true, if_false,
          e1, e2, e3, e4, e5, e6, e7, show ((0 : Int) < 1) by decide,
          show (([97] : List Nat).length : Int) = 1 by rfl]
      · refine ⟨?_, ?_, ?_, Or.inr ⟨trie_ff_key_node.symm, rfl, ?_⟩⟩
        · show Function.update rows 1 (⟨2, [⟨0, 1⟩, ⟨1, 1⟩]⟩ : sim_row) 0 = row0_d1
          rw [Function.update_noteq (by decide)]; exact hr
        · show Function.update (Function.update chars 0 0) 1 0 0 = 0
          rw [Function.update_noteq (by decide), Function.update_same]
        · show (0 : Int) ≤ 0 + 1
          decide
        · show Function.update nodes 1 trie_ff.root 1 = trie_ff.root
          rw [Function.update_same]
    · have hnull : (s.node.nodes s.c.toNat).isNull = true := by
        rw [hnode, trie_ff_root_nodes, if_neg (by omega)]; rfl
      refine ⟨{ s with c := s.c + 1 }, approx_step_null _ _ _ _ s hlt hnull, hr, hch, ?_,
        Or.inl ⟨hnode, hi, ?_⟩⟩
      · show 0 ≤ s.c + 1
        omega
      · show s.c + 1 ≤ 255
        omega
  · -- at the node of the key
    refine ⟨by rw [hnode]; rfl, ?_⟩
    by_cases hlt : s.c < (trie_ff.nrnodes : Int)
    · have hnull : (s.node.nodes s.c.toNat).isNull = true := by
        rw [hnode, trie_ff_key_node]; rfl
      refine ⟨{ s with c := s.c + 1 }, approx_step_null _ _ _ _ s hlt hnull, hr, hch, ?_,
        Or.inr ⟨hnode, hi, hn1⟩⟩
      show 0 ≤ s.c + 1
      omega
    · refine ⟨_, approx_step_exit _ _ _ _ s hlt, hr, ?_, ?_, Or.inl ⟨?_, ?_, ?_⟩⟩
      · exact hch
      · show (0 : Int) ≤ ((s.chars (s.i - 1).toNat : Nat) : Int)
        omega
      · show s.nodes s.i.toNat = _
        rw [hi]; exact hn1
      · show s.i - 1 = 0
        rw [hi]; rfl
      · show ((s.chars (s.i - 1).toNat : Nat) : Int) ≤ 255
        rw [hi]
        have : ((1 : Int) - 1).toNat = 0 := rfl
        rw [this, hch]
        decide

/-- From a state of the loop the traversal of `trie_ff` does not end, whatever
the number of passes. -/
theorem loop_ff_run : ∀ (fuel : Nat) (s : approx_state), loop_ff s →
    approx_run trie_ff [97] 1 195 fuel s = none := by
  intro fuel
  induction fuel with
  | zero => intro s _; rfl
  | succ fuel ih =>
    intro s h
    obtain ⟨hn, s1, hs, h1⟩ := loop_ff_step s h
    rw [approx_run_step _ _ _ _ s s1 hn hs]
    exact ih s1 h1

set_option maxRecDepth 100000 in
/-- C20 fails for a key with the byte 0xFF: on an EASCII trie with `max_len`
64 that holds the key "\xff" (one byte, at distance 1 from the query "a"),
`fsmtrie_search_approx` with the query "a" and the bound 1 is not in the error
case (`max_len` is not 0, the mode is not token), yet it returns neither 1 nor
anything else: no number of passes of its loop suffices.  The descent stores
`chars[i++] = c + 1` in an `unsigned char`, 0 for `c = 255`, and the loop over
the children of the root starts over. -/
theorem C20_search_never_returns :
    fsmtrie_init (some ⟨fsmtrie_mode_eascii, false, 64⟩) = some trie_eascii ∧
    IsCStr [255] ∧ (fsmtrie_insert trie_eascii (some [255]) (some [255])).1 = true ∧
    trie_ff = run_inserts trie_eascii [([255], some [255])] ∧
    trie_ff.max_len ≠ 0 ∧ trie_ff.mode ≠ fsmtrie_mode_token ∧
    osa_distance [97] [255] = 1 ∧
    ∀ fuel, fsmtrie_search_approx trie_ff [97] 1 fuel = none := by
  refine ⟨rfl, by decide, by decide, rfl, by decide, by decide, by decide, fun fuel => ?_⟩
  have hmlen : toInt32 ((toUInt32 (toInt32 (toUInt32 (2 * (1 : Int) + 1))) *
      ((trie_ff.max_len + 1) % 4294967296)) % 4294967296) = 195 := by decide
  have hinit : approx_init_row 1 195 (toInt32 trie_ff.max_len) ((1 : Int) + 1).toNat 0
      sim_row_first = some row0_d1 := by decide
  have h0 : ¬ trie_ff.max_len = 0 := by decide
  have hm : ¬ trie_ff.mode = fsmtrie_mode_token := by decide
  simp only [fsmtrie_search_approx, h0, hm, if_false, hmlen, hinit]
  exact loop_ff_run fuel _ ⟨rfl, rfl, by decide, Or.inl ⟨rfl, rfl, by decide⟩⟩

/-! ### Validation outside ASCII mode -/

/-- C26 fails for a key longer than a positive `max_len` and for the `NULL`
key: these checks of `fsmtrie_key_validate_ascii` come before the test of
the mode.  On a fresh EASCII trie with `max_len` 3 the key "abcd" is refused
with "key too long (4 > 3)" and the `NULL` key with "empty key", and on a
fresh token trie with `max_len` 2 the key "abc" is refused with "key too
long (3 > 2)". -/
theorem C26_long_key_refused :
    fsmtrie_init (some ⟨fsmtrie_mode_eascii, false, 3⟩) = some trie_eascii3 ∧
    (fsmtrie_key_validate_ascii trie_eascii3 (some [97, 98, 99, 100])).1 = false ∧
    (fsmtrie_key_validate_ascii trie_eascii3 (some [97, 98, 99, 100])).2.err_buf =
      err_msg.key_too_long 4 3 ∧
    (fsmtrie_key_validate_ascii trie_eascii3 none).1 = false ∧
    (fsmtrie_key_validate_ascii trie_eascii3 none).2.err_buf = err_msg.empty_key ∧
    fsmtrie_init (some ⟨fsmtrie_mode_token, false, 2⟩) = some trie_tok2 ∧
    (fsmtrie_key_validate_ascii trie_tok2 (some [97, 98, 99])).1 = false ∧
    (fsmtrie_key_validate_ascii trie_tok2 (some [97, 98, 99])).2.err_buf =
      err_msg.key_too_long 3 2 := by
  refine ⟨rfl, by decide, by decide, by decide, by decide, rfl, by decide, by decide⟩

/-- What the code does outside ASCII mode: on an initialised EASCII or token
trie, `fsmtrie_key_validate_ascii` looks at no byte of the key: it returns
true exactly when the key is not `NULL` and is no longer than a positive
`max_len` (every key when `max_len` is 0), and then leaves the trie
unchanged. -/
theorem validate_outside_ascii (f : fsmtrie) (key : Option (List Nat))
    (hroot : f.root.isNull = false) (hmode : f.mode ≠ fsmtrie_mode_ascii) :
    ((fsmtrie_key_validate_ascii f key).1 = true ↔
      ∃ k, key = some k ∧ (f.max_len = 0 ∨ k.length ≤ f.max_len)) ∧
    ((fsmtrie_key_validate_ascii f key).1 = true → (fsmtrie_key_validate_ascii f key).2 = f) := by
  unfold fsmtrie_key_validate_ascii
  simp only [hroot, Bool.false_eq_true, if_false, hmode]
  cases key with
  | none => simp
  | some k =>
    by_cases hl : f.max_len > 0 ∧ k.length > f.max_len
    · simp only [hl, and_self, if_true]
      constructor
      · constructor
        · intro h; cases h
        · rintro ⟨k', hk, h⟩
          cases hk
          omega
      · intro h; cases h
    · simp only [hl, if_false]
      refine ⟨⟨fun _ => ⟨k, rfl, by omega⟩, fun _ => trivial⟩, fun _ => trivial⟩

/-! ### The `AC_COMPILED` flag after an insert -/

/-- A token insert either clears the `AC_COMPILED` flag or leaves the flag and
the key count as they were. -/
theorem fsmtrie_insert_token_flag (f f' : fsmtrie) (k : List Nat) (str : Option (List Nat))
    (b : Bool) (h : fsmtrie_insert_token f k str = some (b, f')) :
    f'.ac_compiled = false ∨ (f'.ac_compiled = f.ac_compiled ∧ f'.key_cnt = f.key_cnt) := by
  unfold fsmtrie_insert_token at h
  split at h
  · simp only [Option.some.injEq, Prod.mk.injEq] at h; rw [← h.2]; exact Or.inr ⟨rfl, rfl⟩
  · split at h
    · simp only [Option.some.injEq, Prod.mk.injEq] at h; rw [← h.2]; exact Or.inr ⟨rfl, rfl⟩
    · split at h
      · simp only [Option.some.injEq, Prod.mk.injEq] at h; rw [← h.2]; exact Or.inr ⟨rfl, rfl⟩
      · split at h
        · cases h
        · simp only [Option.some.injEq, Prod.mk.injEq] at h; rw [← h.2]; exact Or.inr ⟨rfl, rfl⟩
        · simp only [Option.some.injEq, Prod.mk.injEq] at h; rw [← h.2]; exact Or.inr ⟨rfl, rfl⟩
        · simp only [Option.some.injEq, Prod.mk.injEq] at h; rw [← h.2]; exact Or.inl rfl

/-- The `AC_COMPILED` flag is clear in every token trie that is reached from a
token trie in which it is clear. -/
theorem token_flag_run (ops : List (List Nat × Option (List Nat))) :
    ∀ f : fsmtrie, TokInv f → f.ac_compiled = false →
      ∃ F, run_token_inserts f ops = some F ∧ F.ac_compiled = false := by
  induction ops with
  | nil => intro f _ h; exact ⟨f, rfl, h⟩
  | cons c rest ih =>
    intro f hI h
    obtain ⟨b, f', h1, h2, _⟩ := TokInv_step f hI c.1 c.2
    have h3 : f'.ac_compiled = false := by
      rcases fsmtrie_insert_token_flag f f' c.1 c.2 b h1 with e | ⟨e, _⟩
      · exact e
      · rw [e]; exact h
    obtain ⟨F, h4, h5⟩ := ih f' h2 h3
    exact ⟨F, by simp only [run_token_inserts, h1, h4], h5⟩

theorem fsmtrie_init_flag (o : Option fsmtrie_opt) (f0 : fsmtrie)
    (h : fsmtrie_init o = some f0) : f0.ac_compiled = false := by
  unfold fsmtrie_init at h
  rcases o with _ | ⟨m, pm, ml⟩
  · simp at h; subst h; rfl
  · cases m
    · simp at h; subst h; rfl
    · simp at h; subst h; rfl
    · simp at h; obtain ⟨_, h⟩ := h; subst h; rfl

set_option maxRecDepth 100000 in
/-- C22 fails for a key that is already present: `fsmtrie_insert` returns
true for a duplicate before it reaches `f->flags &= ~FSMTRIE_AC_COMPILED`.  On
the trie of scenario S1 with the key "he", a substring search of "he" returns
1 and sets the flag; the insert of "he" that follows returns true and the flag
is still set. -/
theorem C22_duplicate_keeps_flag :
    fsmtrie_init (some ⟨fsmtrie_mode_ascii, true, 64⟩) = some trie_S1 ∧
    (fsmtrie_insert trie_S1 (some [104, 101]) (some [104, 101])).1 = true ∧
    substring_view (fsmtrie_search_substring
      (fsmtrie_insert trie_S1 (some [104, 101]) (some [104, 101])).2 [104, 101] 40) =
      some (1, [(some [104, 101], 0)]) ∧
    insert_after_search (fsmtrie_insert trie_S1 (some [104, 101]) (some [104, 101])).2
      [104, 101] 40 (some [104, 101]) (some [104, 101]) = some (true, true, true) := by
  refine ⟨rfl, by decide, by decide!, by decide!⟩

/-- C22, amended: an insert that returns true clears the `AC_COMPILED` flag
when the key was not in the trie; for a key that is already in the trie
`fsmtrie_insert` returns true and leaves the trie, with its flag, as it was.
A token insert that returns true either clears the flag or leaves the flag and
the key count as they were, and in every token trie reached from a fresh one
the flag is clear. -/
theorem C22_new_key_clears_flag (f : fsmtrie) (k : List Nat) (str : Option (List Nat)) :
    ((fsmtrie_insert f (some k) str).1 = true →
      ((lookup f.root k).leaf = false →
        (fsmtrie_insert f (some k) str).2.ac_compiled = false) ∧
      ((lookup f.root k).leaf = true → (fsmtrie_insert f (some k) str).2 = f)) ∧
    (∀ f', fsmtrie_insert_token f k str = some (true, f') →
      f'.ac_compiled = false ∨ (f'.ac_compiled = f.ac_compiled ∧ f'.key_cnt = f.key_cnt)) ∧
    (∀ (o : Option fsmtrie_opt) (f0 : fsmtrie) (ops : List (List Nat × Option (List Nat))),
      fsmtrie_init o = some f0 → f0.mode = fsmtrie_mode_token →
      ∃ F, run_token_inserts f0 ops = some F ∧ F.ac_compiled = false) := by
  refine ⟨fun h => ?_, fun f' h => fsmtrie_insert_token_flag f f' k str true h,
    fun o f0 ops hinit hm =>
      token_flag_run ops f0 (TokInv_init o f0 hinit hm) (fsmtrie_init_flag o f0 hinit)⟩
  by_cases hroot : f.root.isNull = true
  · simp [fsmtrie_insert, hroot] at h
  simp only [Bool.not_eq_true] at hroot
  by_cases hm : f.mode ≠ fsmtrie_mode_ascii ∧ f.mode ≠ fsmtrie_mode_eascii
  · simp [fsmtrie_insert, hroot, hm] at h
  by_cases hv : (fsmtrie_key_validate_ascii f (some k)).1 = true
  · have hv2 := validate_frame f (some k) hv
    obtain ⟨_, h2, _⟩ := insert_walk_spec f.nrnodes f.mode str k f.root hroot
    have hins : fsmtrie_insert f (some k) str =
        if (insert_walk f.nrnodes f.mode str f.root k).2.2 then
          (true, { f with root := (insert_walk f.nrnodes f.mode str f.root k).1,
                          node_cnt := f.node_cnt + (insert_walk f.nrnodes f.mode str f.root k).2.1,
                          ac_compiled := false, key_cnt := f.key_cnt + 1 })
        else
          (true, { f with root := (insert_walk f.nrnodes f.mode str f.root k).1,
                          node_cnt := f.node_cnt +
                            (insert_walk f.nrnodes f.mode str f.root k).2.1 }) := by
      unfold fsmtrie_insert
      simp only [hroot, hm, hv, hv2, Bool.false_eq_true, if_false, Bool.not_true,
        Option.getD_some]
    constructor
    · intro hl
      rw [hins, h2, hl]
      rfl
    · intro hl
      obtain ⟨h3, h4⟩ := insert_walk_dup_created f.nrnodes f.mode str k f.root hl
      have h5 := insert_walk_dup f.nrnodes f.mode str k f.root hl
      rw [hins, h4, h5, h3]
      rfl
  · simp only [Bool.not_eq_true] at hv
    simp [fsmtrie_insert, hroot, hm, hv] at h

set_option maxRecDepth 100000 in
theorem C22_new_key_clears_flag_witness :
    ((fsmtrie_insert trie_S1 (some [104, 101]) none).1 = true →
      ((lookup trie_S1.root [104, 101]).leaf = false →
        (fsmtrie_insert trie_S1 (some [104, 101]) none).2.ac_compiled = false) ∧
      ((lookup trie_S1.root [104, 101]).leaf = true →
        (fsmtrie_insert trie_S1 (some [104, 101]) none).2 = trie_S1)) ∧
    (∀ f', fsmtrie_insert_token trie_S1 [104, 101] none = some (true, f') →
      f'.ac_compiled = false ∨
        (f'.ac_compiled = trie_S1.ac_compiled ∧ f'.key_cnt = trie_S1.key_cnt)) ∧
    (∀ (o : Option fsmtrie_opt) (f0 : fsmtrie) (ops : List (List Nat × Option (List Nat))),
      fsmtrie_init o = some f0 → f0.mode = fsmtrie_mode_token →
      ∃ F, run_token_inserts f0 ops = some F ∧ F.ac_compiled = false) ∧
    (fsmtrie_insert trie_S1 (some [104, 101]) none).1 = true ∧
    (lookup trie_S1.root [104, 101]).leaf = false :=
  ⟨(C22_new_key_clears_flag trie_S1 [104, 101] none).1,
   (C22_new_key_clears_flag trie_S1 [104, 101] none).2.1,
   (C22_new_key_clears_flag trie_S1 [104, 101] none).2.2, by decide, by decide⟩

/-! ### The node count of a token trie and the order of its children -/

/-- A token insert adds the same amount to `node_cnt` and to `key_cnt`. -/
theorem fsmtrie_insert_token_counts (f f' : fsmtrie) (k : List Nat) (str : Option (List Nat))
    (b : Bool) (h : fsmtrie_insert_token f k str = some (b, f')) :
    f'.node_cnt + f.key_cnt = f.node_cnt + f'.key_cnt := by
  unfold fsmtrie_insert_token at h
  split at h
  · simp only [Option.some.injEq, Prod.mk.injEq] at h; rw [← h.2]
  · split at h
    · simp only [Option.some.injEq, Prod.mk.injEq] at h; rw [← h.2]
    · split at h
      · simp only [Option.some.injEq, Prod.mk.injEq] at h; rw [← h.2]
      · split at h
        · cases h
        · simp only [Option.some.injEq, Prod.mk.injEq] at h; rw [← h.2]
        · simp only [Option.some.injEq, Prod.mk.injEq] at h; rw [← h.2]
        · simp only [Option.some.injEq, Prod.mk.injEq] at h; rw [← h.2]
          show f.node_cnt + 1 + f.key_cnt = f.node_cnt + (f.key_cnt + 1)
          omega

/-- In a token trie `node_cnt` moves with `key_cnt`: after any sequence of
`fsmtrie_insert_token` calls on a fresh trie the two counters are equal. -/
theorem token_node_cnt_eq_key_cnt (ops : List (List Nat × Option (List Nat))) :
    ∀ (f F : fsmtrie), run_token_inserts f ops = some F →
      F.node_cnt + f.key_cnt = f.node_cnt + F.key_cnt := by
  induction ops with
  | nil => intro f F h; simp only [run_token_inserts, Option.some.injEq] at h; rw [h]
  | cons c rest ih =>
    intro f F h
    simp only [run_token_inserts] at h
    cases h1 : fsmtrie_insert_token f c.1 c.2 with
    | none => rw [h1] at h; cases h
    | some r =>
      rw [h1] at h
      have h2 := fsmtrie_insert_token_counts f r.2 c.1 c.2 r.1 h1
      have h3 := ih r.2 F h
      omega

set_option maxRecDepth 100000 in
/-- C25 fails: `fsmtrie_insert_token` increments `node_cnt` once per new key,
next to `key_cnt`, and not once per created node.  After the insert of the
three token key (1, 2, 3) into a fresh token trie the trie has three nodes
below the root, those of the paths (1), (1, 2) and (1, 2, 3), and
`fsmtrie_get_nodecnt` is 1, as is `fsmtrie_get_keycnt`. -/
theorem C25_token_node_count_counts_keys :
    fsmtrie_init (some ⟨fsmtrie_mode_token, false, 0⟩) = some trie_tok ∧
    ∃ F, run_token_inserts trie_tok [([1, 2, 3], none)] = some F ∧
      accepted_token_inserts trie_tok [([1, 2, 3], none)] = [([1, 2, 3], none)] ∧
      (tlookup F.root F.nrnodes [1]).isNull = false ∧
      (tlookup F.root F.nrnodes [1, 2]).isNull = false ∧
      (tlookup F.root F.nrnodes [1, 2, 3]).isNull = false ∧
      fsmtrie_get_nodecnt F = 1 ∧ fsmtrie_get_keycnt F = 1 := by
  refine ⟨rfl, _, rfl, by decide, by decide, by decide, by decide, by decide, by decide⟩

theorem TokWF_tnode_at (N : Nat) : ∀ (p : List Nat) (n : fsmtrie_node) (cnt : Nat)
    (m : fsmtrie_node) (c : Nat), TokWF N n cnt → tnode_at n cnt p = some (m, c) →
    TokWF N m c := by
  intro p
  induction p with
  | nil =>
    intro n cnt m c h ht
    simp only [tnode_at, Option.some.injEq, Prod.mk.injEq] at ht
    rw [← ht.1, ← ht.2]; exact h
  | cons i p ih =>
    intro n cnt m c h ht
    simp only [tnode_at] at ht
    by_cases hi : i < cnt
    · simp only [hi, if_true] at ht
      cases h with
      | mk _ _ hn hc hk hs hr => exact ih _ _ m c (hr i hi) ht
    · simp only [hi, if_false] at ht
      cases ht

/-- C28: in every state reached from a fresh token trie by
`fsmtrie_insert_token` calls, every node of the trie, the root included, is
present with all the children that its child count (`nrnodes` for the root,
`nnodes` for the others) covers, and these children are strictly increasing
by token value; so no two of them carry the same token. -/
theorem C28_token_children_sorted (o : Option fsmtrie_opt) (f0 : fsmtrie)
    (ops : List (List Nat × Option (List Nat)))
    (hinit : fsmtrie_init o = some f0) (hmode : f0.mode = fsmtrie_mode_token) :
    ∃ F, run_token_inserts f0 ops = some F ∧
      ∀ p node cnt, tnode_at F.root F.nrnodes p = some (node, cnt) →
        node.isNull = false ∧ (∀ i, i < cnt → (node.nodes i).isNull = false) ∧
        (∀ i j, i < j → j < cnt → (node.nodes i).tval < (node.nodes j).tval) ∧
        (∀ i j, i < cnt → j < cnt → (node.nodes i).tval = (node.nodes j).tval → i = j) := by
  obtain ⟨F, h1, h2⟩ := TokInv_run ops f0 (TokInv_init o f0 hinit hmode)
  refine ⟨F, h1, fun p node cnt hp => ?_⟩
  have hwf := TokWF_tnode_at 65535 p F.root F.nrnodes node cnt h2.wf hp
  cases hwf with
  | mk _ _ hn hc hk hs hr =>
    refine ⟨hn, hk, hs, fun i j hi hj he => ?_⟩
    rcases Nat.lt_trichotomy i j with h | h | h
    · have := hs i j h hj; omega
    · exact h
    · have := hs j i h hi; omega

set_option maxRecDepth 100000 in
theorem C28_token_children_sorted_witness :
    fsmtrie_init (some ⟨fsmtrie_mode_token, false, 0⟩) = some trie_tok ∧
    trie_tok.mode = fsmtrie_mode_token ∧
    ∃ F, run_token_inserts trie_tok [([5, 2], none), ([3], none), ([5, 1], none)] = some F ∧
      ∀ p node cnt, tnode_at F.root F.nrnodes p = some (node, cnt) →
        node.isNull = false ∧ (∀ i, i < cnt → (node.nodes i).isNull = false) ∧
        (∀ i j, i < j → j < cnt → (node.nodes i).tval < (node.nodes j).tval) ∧
        (∀ i j, i < cnt → j < cnt → (node.nodes i).tval = (node.nodes j).tval → i = j) :=
  ⟨rfl, rfl, C28_token_children_sorted (some ⟨fsmtrie_mode_token, false, 0⟩) trie_tok
    [([5, 2], none), ([3], none), ([5, 1], none)] rfl rfl⟩

/-! ### The binary search over the children of a token node -/

/-- The loop of `_fsmtrie_get_token_idx` reads between `slow` and `shigh`,
and ends there. -/
theorem token_idx_loop_range (node : fsmtrie_node) (token : Nat) :
    ∀ (fuel : Nat) (slow shigh sidx : Int), 0 ≤ slow → slow ≤ shigh → sidx ≠ -1 →
      (∀ i ∈ token_idx_loop_reads node token fuel slow shigh sidx, slow ≤ i ∧ i ≤ shigh) ∧
      (∀ b s, token_idx_loop node token fuel slow shigh sidx = some (b, s) →
        slow ≤ s ∧ s ≤ shigh) := by
  intro fuel
  induction fuel with
  | zero =>
    intro slow shigh sidx _ _ _
    exact ⟨fun i hi => by simp [token_idx_loop_reads] at hi,
      fun b s h => by simp [token_idx_loop] at h⟩
  | succ fuel ih =>
    intro slow shigh sidx h0 hle hs
    have h1 : slow ≤ ((shigh - slow) + 1) / 2 + slow := by omega
    have h2 : ((shigh - slow) + 1) / 2 + slow ≤ shigh := by omega
    generalize hm : ((shigh - slow) + 1) / 2 + slow = m at h1 h2
    by_cases heq : (node.nodes m.toNat).tval = token
    · constructor
      · intro i hi
        simp only [token_idx_loop_reads, hs, if_false, hm, heq, if_true, List.mem_singleton] at hi
        omega
      · intro b s h
        simp only [token_idx_loop, hs, if_false, hm, heq, if_true, Option.some.injEq,
          Prod.mk.injEq] at h
        omega
    by_cases hlh : slow = shigh
    · have hlh1 := eq_true hlh
      constructor
      · intro i hi
        simp only [token_idx_loop_reads, hs, if_false, hm, heq, hlh1, if_true,
          List.mem_singleton] at hi
        omega
      · intro b s h
        simp only [token_idx_loop, hs, if_false, hm, heq, hlh1, if_true, Option.some.injEq,
          Prod.mk.injEq] at h
        omega
    by_cases hsv : (node.nodes m.toNat).tval < token
    · by_cases hex : (m + 1 > shigh ∨ shigh < m + 1)
      · constructor
        · intro i hi
          simp only [token_idx_loop_reads, hs, if_false, hm, heq, hlh, hsv, if_true, hex,
            List.mem_singleton] at hi
          omega
        · intro b s h
          simp only [token_idx_loop, hs, if_false, hm, heq, hlh, hsv, if_true, hex,
            Option.some.injEq, Prod.mk.injEq] at h
          omega
      · have hr := ih (m + 1) shigh m (by omega) (by omega) (by omega)
        constructor
        · intro i hi
          simp only [token_idx_loop_reads, hs, if_false, hm, heq, hlh, hsv, if_true, hex,
            List.mem_cons] at hi
          rcases hi with e | hi
          · omega
          · have := hr.1 i hi
            omega
        · intro b s h
          simp only [token_idx_loop, hs, if_false, hm, heq, hlh, hsv, if_true, hex] at h
          have := hr.2 b s h
          omega
    · have hgt : (node.nodes m.toNat).tval > token := by omega
      by_cases hex : (slow > m - 1 ∨ m - 1 < slow)
      · constructor
        · intro i hi
          simp only [token_idx_loop_reads, hs, if_false, hm, heq, hlh, hsv, hgt, if_true, hex,
            List.mem_singleton] at hi
          omega
        · intro b s h
          simp only [token_idx_loop, hs, if_false, hm, heq, hlh, hsv, hgt, if_true, hex,
            Option.some.injEq, Prod.mk.injEq] at h
          omega
      · have hr := ih slow (m - 1) m h0 (by omega) (by omega)
        constructor
        · intro i hi
          simp only [token_idx_loop_reads, hs, if_false, hm, heq, hlh, hsv, hgt, if_true, hex,
            List.mem_cons] at hi
          rcases hi with e | hi
          · omega
          · have := hr.1 i hi
            omega
        · intro b s h
          simp only [token_idx_loop, hs, if_false, hm, heq, hlh, hsv, hgt, if_true, hex] at h
          have := hr.2 b s h
          omega

/-- Without `do_insert` every index that `_fsmtrie_get_token_idx` reads is one
of the `nodecnt` children; with `do_insert` every index it reads is a slot of
the block that `realloc` has returned, which the `memmove` reads up to
`5 * nodecnt - 1`. -/
theorem token_idx_reads_range (node : fsmtrie_node) (cnt token : Nat) (do_insert : Bool) :
    ∀ i ∈ token_idx_reads node cnt token do_insert,
      0 ≤ i ∧ (do_insert = false → i < (cnt : Int)) ∧ i < (token_block_slots cnt : Int) := by
  intro i hi
  have hblock : token_block_slots cnt = 5 * cnt + 1 := by
    simp only [token_block_slots, sizeof_fsmtrie_node, sizeof_node_ptr]
    omega
  rw [hblock]
  by_cases hc : cnt = 0
  · subst hc
    simp [token_idx_reads, token_idx_loop_reads, token_idx_loop] at hi
  · have hr := token_idx_loop_range node token (cnt + 1) 0 ((cnt : Int) - 1) 0 (by omega)
      (by omega) (by omega)
    simp only [token_idx_reads, hc, if_false, List.mem_append] at hi
    rcases hi with hi | hi
    · have := hr.1 i hi
      refine ⟨by omega, fun _ => by omega, by omega⟩
    · split at hi
      · rename_i sidx hl
        have hb := hr.2 false sidx hl
        have hn : ¬ (sidx < 0) := by omega
        simp only [hn, if_false, List.mem_append, List.mem_singleton] at hi
        rcases hi with e | hi
        · refine ⟨by omega, fun _ => by omega, by omega⟩
        · cases do_insert with
          | false => simp at hi
          | true =>
            simp only [if_true, List.mem_map, sizeof_fsmtrie_node, sizeof_node_ptr] at hi
            obtain ⟨a, ha, rfl⟩ := hi
            rw [List.mem_range'_1] at ha
            refine ⟨by omega, (fun h => absurd h (by decide)), ?_⟩
            split at ha <;> omega
      · simp at hi

/-- Without `do_insert` the child lookup differs from the lookup with
`do_insert` only when the token is absent: it then returns -1 and leaves the
node alone. -/
theorem get_token_idx_no_insert (node : fsmtrie_node) (cnt token : Nat) :
    _fsmtrie_get_token_idx node cnt token false =
      match _fsmtrie_get_token_idx node cnt token true with
      | none => none
      | some r => if r.ret = 0 then some r else some ⟨-1, node, none⟩ := by
  unfold _fsmtrie_get_token_idx
  split <;> simp

/-- The binary search of `_fsmtrie_get_token_idx` over `nodecnt` children
that are strictly increasing by token value.  The call returns (the loop ends
within `nodecnt + 1` passes).  If the child at index `m` carries the token, the
result is 0 with `*pidx = m` and the node as it was.  If no child carries the
token, the call without `do_insert` returns -1 and leaves the node as it was,
and the call with `do_insert` returns 1 with `*pidx = p`, where every child
before `p` has a smaller token and every child from `p` on a greater one; the
array has an empty slot at `p`, the children before `p` are where they were and
the children from `p` on are one slot up.  Every index the call reads
without `do_insert` is in `0 .. nodecnt - 1`; with `do_insert` the indices
read are slots of the block that `realloc` has returned. -/
theorem token_binary_search (node : fsmtrie_node) (cnt token : Nat)
    (hs : SortedKids node cnt) :
    (∀ do_insert, ∃ r, _fsmtrie_get_token_idx node cnt token do_insert = some r) ∧
    (∀ m, m < cnt → (node.nodes m).tval = token → ∀ do_insert,
      _fsmtrie_get_token_idx node cnt token do_insert = some ⟨0, node, some m⟩) ∧
    ((∀ m, m < cnt → (node.nodes m).tval ≠ token) →
      _fsmtrie_get_token_idx node cnt token false = some ⟨-1, node, none⟩ ∧
      ∃ p, p ≤ cnt ∧ (∀ i, i < p → (node.nodes i).tval < token) ∧
        (∀ i, p ≤ i → i < cnt → token < (node.nodes i).tval) ∧
        _fsmtrie_get_token_idx node cnt token true =
          some ⟨1, token_make_room node cnt p, some p⟩ ∧
        (∀ i, i < p → (token_make_room node cnt p).nodes i = node.nodes i) ∧
        (token_make_room node cnt p).nodes p = NULL ∧
        (∀ i, p ≤ i → i < cnt → (token_make_room node cnt p).nodes (i + 1) = node.nodes i)) ∧
    (∀ do_insert, ∀ i ∈ token_idx_reads node cnt token do_insert,
      0 ≤ i ∧ (do_insert = false → i < (cnt : Int)) ∧ i < (token_block_slots cnt : Int)) := by
  have hspec := get_token_idx_spec node token cnt hs
  have hno := get_token_idx_no_insert node cnt token
  refine ⟨fun b => ?_, fun m hm ht b => ?_, fun habs => ?_,
    fun b => token_idx_reads_range node cnt token b⟩
  · rcases hspec with ⟨m, _, _, h⟩ | ⟨p, _, _, _, h⟩
    · cases b
      · rw [hno, h]; exact ⟨_, rfl⟩
      · exact ⟨_, h⟩
    · cases b
      · rw [hno, h]; exact ⟨_, rfl⟩
      · exact ⟨_, h⟩
  · rcases hspec with ⟨m', hm', ht', h⟩ | ⟨p, _, hlow, hup, _⟩
    · have e : m' = m := by
        rcases Nat.lt_trichotomy m' m with hlt | he | hlt
        · have := hs m' m hlt hm; omega
        · exact he
        · have := hs m m' hlt hm'; omega
      subst e
      cases b
      · rw [hno, h]; rfl
      · exact h
    · exfalso
      rcases Nat.lt_or_ge m p with hlt | hge
      · have := hlow m hlt; omega
      · have := hup m hge hm; omega
  · rcases hspec with ⟨m, hm, ht, _⟩ | ⟨p, hp, hlow, hup, h⟩
    · exact absurd ht (habs m hm)
    · refine ⟨by rw [hno, h]; rfl, p, hp, hlow, hup, h, fun i hi => ?_, ?_, fun i h1 h2 => ?_⟩
      · rw [nodes_make_room, if_pos hi]
      · rw [nodes_make_room, if_neg (by omega), if_pos rfl]
      · rw [nodes_make_room, if_neg (by omega), if_neg (by omega), if_pos (by omega)]
        rfl

/-! ### A traversal that does not end -/

/-- One pass of the traversal of `trie_ff` from the state after `m` passes
leads to the state after `m + 1` passes: the pass at the root on the byte 0xFF
invokes the callback, and 511 passes later the traversal is at the root again,
with `c = chars[0] = 0`. -/
theorem loop_ff_at_step (m : Nat) (s : approx_state) (h : loop_ff_at m s) :
    s.node.isNull = false ∧
      ∃ s1, approx_step trie_ff [97] 1 195 s = some s1 ∧ loop_ff_at (m + 1) s1 := by
  obtain ⟨⟨hr, hch, hc0, hcase⟩, hc256, hc1, hm⟩ := h
  have hnr : (trie_ff.nrnodes : Int) = 256 := rfl
  rcases hcase with ⟨hnode, hi, hc⟩ | ⟨hnode, hi, hn1⟩
  · -- at the root
    refine ⟨by rw [hnode]; rfl, ?_⟩
    have hlt : s.c < (trie_ff.nrnodes : Int) := by rw [hnr]; omega
    rw [if_pos hi] at hm
    by_cases h255 : s.c = 255
    · obtain ⟨node, i, c, chars, nodes, rows, out⟩ := s
      simp only at hr hch hnode hi h255 hm
      subst hnode hi h255
      have hchild : trie_ff.root.nodes 255 = mk none true true (some [255]) 0 256
          (fun _ => NULL) := by
        rw [trie_ff_root_nodes, ← trie_ff_key_node]; rfl
      have t1 : Int.toNat 255 = 255 := rfl
      have t2 : Int.toNat 0 = 0 := rfl
      have t3 : ((0 : Int) - 1).toNat = 0 := rfl
      have t4 : ((0 : Int) + 1).toNat = 1 := rfl
      have t5 : (255 : Int) < 256 := by decide
      have e1 : sim_row_next row0_d1 195 = some ⟨2, []⟩ := by decide
      have e2 : sim_row_append ⟨2, []⟩ 195 0 (0 + 1) = some ⟨2, [⟨0, 1⟩]⟩ := by decide
      have e3 : approx_row_loop [97] 1 195 255 0 ((0 : Nat) : Int) row0_d1 row0_d1.entries
          ⟨2, [⟨0, 1⟩]⟩ = some ⟨2, [⟨0, 1⟩, ⟨1, 1⟩]⟩ := by decide
      have e4 : sim_row_elem ⟨2, [⟨0, 1⟩, ⟨1, 1⟩]⟩ 0 = some ⟨0, 1⟩ := rfl
      have e5 : sim_row_last ⟨2, [⟨0, 1⟩, ⟨1, 1⟩]⟩ = some ⟨1, 1⟩ := rfl
      have e6 : (0 : Int) < toInt32 trie_ff.max_len := by decide
      have e7 : ((255 : Int) + 1).toNat % 256 = 0 := by decide
      refine ⟨{ node := mk none true true (some [255]) 0 256 (fun _ => NULL), i := 0 + 1,
                c := 0 + 1,
                chars := Function.update (Function.update chars 0 0) 1 0,
                nodes := Function.update nodes 1 trie_ff.root,
                rows := Function.update rows 1 ⟨2, [⟨0, 1⟩, ⟨1, 1⟩]⟩,
                out := out ++ [(some [255], 1)] }, ?_,
              ⟨?_, ?_, ?_, Or.inr ⟨trie_ff_key_node.symm, rfl, ?_⟩⟩, ?_, ?_, ?_⟩
      · simp only [approx_step, hnr, t1, t2, t3, t4, t5, if_true, hchild, hr, hch,
          fsmtrie_node.isNull, fsmtrie_node.leaf, fsmtrie_node.str, Bool.false_eq_true, if_false,
          e1, e2, e3, e4, e5, e6, e7, show ((0 : Int) < 1) by decide,
          show (([97] : List Nat).length : Int) = 1 by rfl]
      · show Function.update rows 1 (⟨2, [⟨0, 1⟩, ⟨1, 1⟩]⟩ : sim_row) 0 = row0_d1
        rw [Function.update_noteq (by decide)]; exact hr
      · show Function.update (Function.update chars 0 0) 1 0 0 = 0
        rw [Function.update_noteq (by decide), Function.update_same]
      · show (0 : Int) ≤ 0 + 1
        decide
      · show Function.update nodes 1 trie_ff.root 1 = trie_ff.root
        rw [Function.update_same]
      · show (0 : Int) + 1 ≤ 256
        decide
      · intro _
        show (1 : Int) ≤ 0 + 1
        decide
      · show ((m + 1 : Nat) : Int) = if (0 : Int) + 1 = 0 then
            512 * ((out ++ [(some [255], (1 : Int))]).length : Int) + (0 + 1)
          else 512 * ((out ++ [(some [255], (1 : Int))]).length : Int) - 257 + (0 + 1)
        rw [if_neg (by decide), List.length_append]
        simp only [List.length_singleton]
        push_cast
        omega
    · have hnull : (s.node.nodes s.c.toNat).isNull = true := by
        rw [hnode, trie_ff_root_nodes, if_neg (by omega)]; rfl
      refine ⟨{ s with c := s.c + 1 }, approx_step_null _ _ _ _ s hlt hnull,
        ⟨hr, hch, ?_, Or.inl ⟨hnode, hi, ?_⟩⟩, ?_, ?_, ?_⟩
      · show 0 ≤ s.c + 1
        omega
      · show s.c + 1 ≤ 255
        omega
      · show s.c + 1 ≤ 256
        omega
      · intro h1
        have : s.i = 1 := h1
        omega
      · show ((m + 1 : Nat) : Int) = if s.i = 0 then 512 * (s.out.length : Int) + (s.c + 1)
          else 512 * (s.out.length : Int) - 257 + (s.c + 1)
        rw [if_pos hi]
        push_cast
        omega
  · -- at the node of the key
    refine ⟨by rw [hnode]; rfl, ?_⟩
    have hi0 : ¬ s.i = 0 := by omega
    rw [if_neg hi0] at hm
    by_cases hlt : s.c < (trie_ff.nrnodes : Int)
    · have hnull : (s.node.nodes s.c.toNat).isNull = true := by
        rw [hnode, trie_ff_key_node]; rfl
      refine ⟨{ s with c := s.c + 1 }, approx_step_null _ _ _ _ s hlt hnull,
        ⟨hr, hch, ?_, Or.inr ⟨hnode, hi, hn1⟩⟩, ?_, ?_, ?_⟩
      · show 0 ≤ s.c + 1
        omega
      · show s.c + 1 ≤ 256
        omega
      · intro _
        show 1 ≤ s.c + 1
        omega
      · show ((m + 1 : Nat) : Int) = if s.i = 0 then 512 * (s.out.length : Int) + (s.c + 1)
          else 512 * (s.out.length : Int) - 257 + (s.c + 1)
        rw [if_neg hi0]
        push_cast
        omega
    · have hz : ((s.chars (s.i - 1).toNat : Nat) : Int) = 0 := by
        rw [hi]
        have : ((1 : Int) - 1).toNat = 0 := rfl
        rw [this, hch]
        rfl
      refine ⟨_, approx_step_exit _ _ _ _ s hlt, ⟨hr, hch, ?_, Or.inl ⟨?_, ?_, ?_⟩⟩, ?_, ?_, ?_⟩
      · show (0 : Int) ≤ ((s.chars (s.i - 1).toNat : Nat) : Int)
        omega
      · show s.nodes s.i.toNat = _
        rw [hi]; exact hn1
      · show s.i - 1 = 0
        rw [hi]; rfl
      · show ((s.chars (s.i - 1).toNat : Nat) : Int) ≤ 255
        omega
      · show ((s.chars (s.i - 1).toNat : Nat) : Int) ≤ 256
        omega
      · intro h1
        have : s.i - 1 = 1 := h1
        omega
      · show ((m + 1 : Nat) : Int) = if s.i - 1 = 0 then
            512 * (s.out.length : Int) + ((s.chars (s.i - 1).toNat : Nat) : Int)
          else 512 * (s.out.length : Int) - 257 + ((s.chars (s.i - 1).toNat : Nat) : Int)
        rw [if_pos (by omega), hz]
        rw [hnr] at hlt
        push_cast
        omega

/-- From the state after `m` passes the traversal of `trie_ff` makes any
number of further passes. -/
theorem loop_ff_at_passes : ∀ (n m : Nat) (s : approx_state), loop_ff_at m s →
    ∃ s1, approx_passes trie_ff [97] 1 195 n s = some s1 ∧ loop_ff_at (m + n) s1 := by
  intro n
  induction n with
  | zero => intro m s h; exact ⟨s, rfl, h⟩
  | succ n ih =>
    intro m s h
    obtain ⟨hn, s1, hs, h1⟩ := loop_ff_at_step m s h
    obtain ⟨s2, h2, h3⟩ := ih (m + 1) s1 h1
    refine ⟨s2, ?_, ?_⟩
    · simp only [approx_passes, hn, Bool.false_eq_true, if_false, hs]
      exact h2
    · have e : m + (n + 1) = m + 1 + n := by omega
      rw [e]; exact h3

set_option maxRecDepth 100000 in
/-- C21 fails for a key with the byte 0xFF: on an EASCII trie with `max_len`
64 that holds the key "\xff", the loop of `fsmtrie_search_approx` for the
query "a" and the bound 1 is still running after any number `n` of passes, and
by then the callback has been invoked at least `(n - 255) / 512` times: the
call makes callback invocations without end and does not return, whatever the
fuel.  The descent
on the byte 0xFF stores `chars[i++] = c + 1` in an `unsigned char`, which is 0,
so the loop over the children of the root starts over after the subtree of the
key has been visited. -/
theorem C21_callback_invoked_without_end :
    fsmtrie_init (some ⟨fsmtrie_mode_eascii, false, 64⟩) = some trie_eascii ∧
    IsCStr [255] ∧ (fsmtrie_insert trie_eascii (some [255]) (some [255])).1 = true ∧
    trie_ff = run_inserts trie_eascii [([255], some [255])] ∧ 0 < trie_ff.max_len ∧
    (∀ n, ∃ s, approx_trace trie_ff [97] 1 n = some s ∧ s.node.isNull = false ∧
      n ≤ 512 * s.out.length + 255) ∧
    ∀ fuel, approx_view (fsmtrie_search_approx trie_ff [97] 1 fuel) = none := by
  have hmlen : toInt32 ((toUInt32 (toInt32 (toUInt32 (2 * (1 : Int) + 1))) *
      ((trie_ff.max_len + 1) % 4294967296)) % 4294967296) = 195 := by decide
  have hinit : approx_init_row 1 195 (toInt32 trie_ff.max_len) ((1 : Int) + 1).toNat 0
      sim_row_first = some row0_d1 := by decide
  have h0 : ¬ trie_ff.max_len = 0 := by decide
  have hm : ¬ trie_ff.mode = fsmtrie_mode_token := by decide
  refine ⟨rfl, by decide, by decide, rfl, by decide, fun n => ?_, fun fuel => ?_⟩
  swap
  · simp only [fsmtrie_search_approx, h0, hm, if_false, hmlen, hinit]
    rw [loop_ff_run fuel _ ⟨rfl, rfl, by decide, Or.inl ⟨rfl, rfl, by decide⟩⟩]
    rfl
  have hstart : loop_ff_at 0
      { node := trie_ff.root, i := 0, c := 0, chars := fun _ => 0, nodes := fun _ => NULL,
        rows := fun _ => row0_d1, out := [] } :=
    ⟨⟨rfl, rfl, by decide, Or.inl ⟨rfl, rfl, by decide⟩⟩, by decide,
      (fun h => absurd h (by decide)), rfl⟩
  obtain ⟨s, hs, hl⟩ := loop_ff_at_passes n 0 _ hstart
  refine ⟨s, ?_, (loop_ff_at_step _ s hl).1, ?_⟩
  · simp only [approx_trace, h0, hm, if_false, hmlen, hinit]
    exact hs
  · obtain ⟨⟨_, _, _, hcase⟩, hc256, _, hcount⟩ := hl
    rw [Nat.zero_add] at hcount
    rcases hcase with ⟨_, hi, hc⟩ | ⟨_, hi, _⟩
    · rw [if_pos hi] at hcount
      omega
    · rw [if_neg (by omega)] at hcount
      omega

/-! ### Scenario S3: the approximate search for "foobar" -/

set_option maxRecDepth 100000 in
theorem accepted_calls_S3 : accepted_inserts trie_S1 calls_S3 = calls_S3 := by
  decide

set_option maxRecDepth 100000 in
/-- No key of scenario S3 is within distance 2 of "foobar". -/
theorem calls_S3_far (c : List Nat × Option (List Nat)) (hc : c ∈ calls_S3) :
    2 < osa_distance [102, 111, 111, 98, 97, 114] c.1 := by
  have hlen : ∀ k : List Nat, k.length + 3 ≤ 6 ∨ 9 ≤ k.length →
      2 < osa_distance [102, 111, 111, 98, 97, 114] k := by
    intro k hk
    have := osa_ge_diff [102, 111, 111, 98, 97, 114] k 6 k.length
    have e : osa_distance [102, 111, 111, 98, 97, 114] k =
        osa_table [102, 111, 111, 98, 97, 114] k 6 k.length := rfl
    omega
  simp only [calls_S3, List.map_cons, List.map_nil, List.mem_cons, List.mem_singleton,
    List.not_mem_nil, or_false] at hc
  rcases hc with rfl | rfl | rfl | rfl | rfl | rfl | rfl | rfl | rfl | rfl | rfl | rfl | rfl
  · exact hlen _ (by decide)
  · exact hlen _ (by decide)
  · decide
  · decide
  · exact hlen _ (by decide)
  · exact hlen _ (by decide)
  · decide
  · exact hlen _ (by decide)
  · decide
  · decide
  · decide
  · decide
  · exact hlen _ (Or.inr (by rw [List.length_replicate]; decide))

/-- The approximate search of scenario S3 for "foobar" with the bound 2
returns 1 without a callback invocation. -/
theorem approx_S3_foobar_two :
    ∃ N, ∀ fuel, N ≤ fuel →
      fsmtrie_search_approx (run_inserts trie_S1 calls_S3) [102, 111, 111, 98, 97, 114] 2 fuel =
        some (approx_outcome.returned 1 [] (run_inserts trie_S1 calls_S3)) := by
  obtain ⟨N, L, _, _, hmem, hrun⟩ := approx_search_reach (some ⟨fsmtrie_mode_ascii, true, 64⟩)
    trie_S1 calls_S3 [102, 111, 111, 98, 97, 114] 2 rfl rfl (by decide) (by decide) (by decide)
  have hL : L = [] := by
    rw [List.eq_nil_iff_forall_not_mem]
    intro k hk
    obtain ⟨_, ⟨c, hc, hck⟩, hd⟩ := (hmem k).1 hk
    rw [accepted_calls_S3] at hc
    have := calls_S3_far c hc
    rw [hck] at this
    omega
  refine ⟨N, fun fuel hfuel => ?_⟩
  have h := hrun fuel hfuel
  rw [hL] at h
  exact h

/-- Scenario S3 in the traversal whose character stack is large enough: the
approximate search for "foobar" with the bound 2 returns 1 and invokes the
callback for no key, none of the thirteen keys being within distance 2 of
"foobar"; "foo" is at distance 3, and with the bound 3 the call returns 1 and
invokes the callback with ("foo", 3). -/
theorem scenario_S3_foobar_large_stack :
    fsmtrie_init (some ⟨fsmtrie_mode_ascii, true, 64⟩) = some trie_S1 ∧
    accepted_inserts trie_S1 calls_S3 = calls_S3 ∧
    (∀ c ∈ calls_S3, 2 < osa_distance [102, 111, 111, 98, 97, 114] c.1) ∧
    osa_distance [102, 111, 111, 98, 97, 114] [102, 111, 111] = 3 ∧
    (∃ N, ∀ fuel, N ≤ fuel →
      fsmtrie_search_approx (run_inserts trie_S1 calls_S3) [102, 111, 111, 98, 97, 114] 2 fuel =
        some (approx_outcome.returned 1 [] (run_inserts trie_S1 calls_S3))) ∧
    (∃ N, ∀ fuel, N ≤ fuel → ∃ out,
      fsmtrie_search_approx (run_inserts trie_S1 calls_S3) [102, 111, 111, 98, 97, 114] 3 fuel =
        some (approx_outcome.returned 1 out (run_inserts trie_S1 calls_S3)) ∧
      (some [102, 111, 111], (3 : Int)) ∈ out) := by
  refine ⟨rfl, accepted_calls_S3, calls_S3_far, by decide, approx_S3_foobar_two, ?_⟩
  obtain ⟨N, L, _, _, hmem, hrun⟩ := approx_search_reach (some ⟨fsmtrie_mode_ascii, true, 64⟩)
    trie_S1 calls_S3 [102, 111, 111, 98, 97, 114] 3 rfl rfl (by decide) (by decide) (by decide)
  have hd : osa_distance [102, 111, 111, 98, 97, 114] [102, 111, 111] = 3 := by decide
  have hfoo : [102, 111, 111] ∈ L :=
    (hmem _).2 ⟨by decide, ⟨([102, 111, 111], some [102, 111, 111]),
      by rw [accepted_calls_S3]; decide, rfl⟩, by rw [hd]⟩
  refine ⟨N, fun fuel hfuel => ⟨_, hrun fuel hfuel, ?_⟩⟩
  rw [List.mem_map]
  refine ⟨[102, 111, 111], hfoo, ?_⟩
  rw [accepted_calls_S3, hd]
  rfl

/-! ### The node count of a byte trie -/

theorem mem_inits_tail (k w : List Nat) : w ∈ k.inits.tail ↔ w ≠ [] ∧ w <+: k := by
  cases k with
  | nil => simp
  | cons a l =>
    simp only [List.inits_cons, List.tail_cons, List.mem_map, List.mem_inits]
    constructor
    · rintro ⟨s, hs, rfl⟩
      exact ⟨by simp, by simpa using hs⟩
    · rintro ⟨hne, hp⟩
      cases w with
      | nil => exact absurd rfl hne
      | cons b w =>
        obtain ⟨e, hp'⟩ := List.cons_prefix_cons.1 hp
        exact ⟨w, hp', by rw [e]⟩

theorem mem_nonempty_prefixes (ks : List (List Nat)) (w : List Nat) :
    w ∈ nonempty_prefixes ks ↔ w ≠ [] ∧ ∃ k ∈ ks, w <+: k := by
  simp only [nonempty_prefixes, List.mem_flatten, List.mem_map]
  constructor
  · rintro ⟨l, ⟨k, hk, rfl⟩, hw⟩
    obtain ⟨h1, h2⟩ := (mem_inits_tail k w).1 hw
    exact ⟨h1, k, hk, h2⟩
  · rintro ⟨h1, k, hk, h2⟩
    exact ⟨_, ⟨k, hk, rfl⟩, (mem_inits_tail k w).2 ⟨h1, h2⟩⟩

/-- The number of nodes an insertion walk creates: one for every non-empty
prefix of the key that is not yet a path of the trie. -/
theorem insert_walk_created_eq (nr : Nat) (mode : fsmtrie_mode) (st : Option (List Nat)) :
    ∀ (k : List Nat) (n : fsmtrie_node),
      (insert_walk nr mode st n k).2.1 =
        (List.range k.length).countP (fun j => (lookup n (k.take (j + 1))).isNull) := by
  intro k
  induction k with
  | nil => intro n; simp only [insert_walk]; split <;> simp
  | cons p rest ih =>
    intro n
    have hr : List.range (p :: rest).length = 0 :: (List.range rest.length).map Nat.succ := by
      rw [List.length_cons, List.range_succ_eq_map]
    rw [hr, List.countP_cons, List.countP_map]
    have hcomp : ((fun j => (lookup n ((p :: rest).take (j + 1))).isNull) ∘ Nat.succ) =
        fun j => (lookup (n.nodes p) (rest.take (j + 1))).isNull := by
      funext j; rfl
    rw [hcomp]
    by_cases hc : (n.nodes p).isNull = true
    · have hnull : n.nodes p = NULL := isNull_eq_true hc
      simp only [insert_walk, hc, if_true, ih]
      have h0 : (lookup n ((p :: rest).take (0 + 1))).isNull = true := by
        simp [hc]
      rw [h0, if_pos rfl]
      congr 1
      apply List.countP_congr
      intro j hj
      rw [List.mem_range] at hj
      have : rest.take (j + 1) ≠ [] := by
        intro h
        have h2 : (rest.take (j + 1)).length = 0 := by rw [h]; rfl
        rw [List.length_take] at h2
        omega
      cases hw : rest.take (j + 1) with
      | nil => exact absurd hw this
      | cons c w => simp [hnull]
    · simp only [Bool.not_eq_true] at hc
      simp only [insert_walk, hc, Bool.false_eq_true, if_false, ih]
      have h0 : (lookup n ((p :: rest).take (0 + 1))).isNull = false := by
        simp [hc]
      rw [h0]
      simp

/-- The distinct non-empty prefixes after one more string: those of before
and the prefixes of the new string that are not yet among them. -/
theorem card_prefixes_append (ks : List (List Nat)) (k : List Nat) :
    (nonempty_prefixes (ks ++ [k])).toFinset.card =
      (nonempty_prefixes ks).toFinset.card +
        (List.range k.length).countP (fun j => decide (k.take (j + 1) ∉ nonempty_prefixes ks)) := by
  have hnd : (((List.range k.length).filter
      (fun j => decide (k.take (j + 1) ∉ nonempty_prefixes ks))).map
        (fun j => k.take (j + 1))).Nodup := by
    apply List.Nodup.map_on
    · intro a ha b hb hab
      rw [List.mem_filter, List.mem_range] at ha hb
      have := congrArg List.length hab
      rw [List.length_take, List.length_take] at this
      omega
    · exact (List.nodup_range _).filter _
  have hdisj : Disjoint (nonempty_prefixes ks).toFinset
      (((List.range k.length).filter
        (fun j => decide (k.take (j + 1) ∉ nonempty_prefixes ks))).map
          (fun j => k.take (j + 1))).toFinset := by
    rw [Finset.disjoint_left]
    intro w hw hw'
    rw [List.mem_toFinset] at hw hw'
    rw [List.mem_map] at hw'
    obtain ⟨j, hj, rfl⟩ := hw'
    rw [List.mem_filter] at hj
    exact (of_decide_eq_true hj.2) hw
  have e : (nonempty_prefixes (ks ++ [k])).toFinset =
      (nonempty_prefixes ks).toFinset ∪
      (((List.range k.length).filter
        (fun j => decide (k.take (j + 1) ∉ nonempty_prefixes ks))).map
          (fun j => k.take (j + 1))).toFinset := by
    ext w
    simp only [Finset.mem_union, List.mem_toFinset, mem_nonempty_prefixes, List.mem_append,
      List.mem_singleton, List.mem_map, List.mem_filter, List.mem_range, decide_eq_true_eq]
    constructor
    · rintro ⟨hne, k', hk', hp⟩
      rcases hk' with hk' | rfl
      · exact Or.inl ⟨hne, k', hk', hp⟩
      · by_cases hin : w ≠ [] ∧ ∃ k ∈ ks, w <+: k
        · exact Or.inl hin
        · right
          have hlen := hp.length_le
          have hpos : 0 < w.length := List.length_pos.2 hne
          have hw : k'.take (w.length - 1 + 1) = w := by
            rw [Nat.sub_add_cancel hpos]
            exact (List.prefix_iff_eq_take.1 hp).symm
          refine ⟨w.length - 1, ⟨by omega, ?_⟩, hw⟩
          rw [hw]; exact hin
    · rintro (h | ⟨j, ⟨hj, _⟩, rfl⟩)
      · obtain ⟨hne, k', hk', hp⟩ := h
        exact ⟨hne, k', Or.inl hk', hp⟩
      · refine ⟨?_, k, Or.inr rfl, List.take_prefix _ _⟩
        intro h
        have h2 : (k.take (j + 1)).length = 0 := by rw [h]; rfl
        rw [List.length_take] at h2
        omega
  rw [e, Finset.card_union_of_disjoint hdisj, List.toFinset_card_of_nodup hnd, List.length_map,
    List.countP_eq_length_filter]

theorem node_cnt_run (ops : List (List Nat × Option (List Nat))) :
    ∀ (f : fsmtrie) (A : List (List Nat × Option (List Nat))), Holds f A →
      (∀ c ∈ ops, IsCStr c.1) →
      f.node_cnt = (nonempty_prefixes (A.map Prod.fst)).toFinset.card →
      (run_inserts f ops).node_cnt =
        (nonempty_prefixes ((A ++ accepted_inserts f ops).map Prod.fst)).toFinset.card := by
  induction ops with
  | nil => intro f A _ _ h; simpa [run_inserts, accepted_inserts] using h
  | cons c rest ih =>
    intro f A hH hc hk
    have hs := Holds_step f A hH c.1 c.2 (hc c (List.mem_cons_self _ _))
    simp only [run_inserts, accepted_inserts]
    by_cases hb : (fsmtrie_insert f (some c.1) c.2).1 = true
    · simp only [hb, if_true] at hs ⊢
      have ha : accepts f c.1 := (fsmtrie_insert_byte f hH.wf c.1 c.2).1.1 hb
      have hcnt : (fsmtrie_insert f (some c.1) c.2).2.node_cnt =
          f.node_cnt + (insert_walk f.nrnodes f.mode c.2 f.root c.1).2.1 := by
        rw [fsmtrie_insert_accepted f hH.wf c.1 c.2 ha]
        split <;> rfl
      have := ih _ _ hs (fun c' hc' => hc c' (List.mem_cons_of_mem _ hc')) (by
        rw [hcnt, insert_walk_created_eq, List.map_append, List.map_cons, List.map_nil,
          card_prefixes_append, hk]
        congr 1
        apply List.countP_congr
        intro j hj
        rw [List.mem_range] at hj
        have hne : c.1.take (j + 1) ≠ [] := by
          intro h
          have h2 : (c.1.take (j + 1)).length = 0 := by rw [h]; rfl
          rw [List.length_take] at h2
          omega
        simp only [decide_eq_true_eq, mem_nonempty_prefixes, List.mem_map]
        have hex := hH.exist (c.1.take (j + 1))
        constructor
        · intro hnull
          rintro ⟨_, k, ⟨a, ha', rfl⟩, hp⟩
          have : (lookup f.root (c.1.take (j + 1))).isNull = false :=
            hex.2 (Or.inr ⟨a, ha', hp⟩)
          rw [this] at hnull
          cases hnull
        · intro hnot
          cases hn : (lookup f.root (c.1.take (j + 1))).isNull
          · exfalso
            rcases hex.1 hn with h | ⟨a, ha', hp⟩
            · exact hne h
            · exact hnot ⟨hne, a.1, ⟨a, ha', rfl⟩, hp⟩
          · rfl)
      rw [this]
      simp
    · simp only [hb, Bool.false_eq_true, if_false, List.append_nil] at hs ⊢
      have hb' : (fsmtrie_insert f (some c.1) c.2).1 = false := by
        simpa using hb
      obtain ⟨e, he⟩ := fsmtrie_insert_rejected f (some c.1) c.2 hb'
      exact ih _ _ hs (fun c' hc' => hc c' (List.mem_cons_of_mem _ hc')) (by rw [he]; exact hk)

/-- C24: after any sequence of `fsmtrie_insert` calls on a fresh ASCII or
EASCII trie, the non-root nodes of the trie are the distinct non-empty
prefixes of the keys whose insert returned true, `node_cnt` is their number,
and `fsmtrie_get_nodecnt`, which hands the counter back as a `uint32_t`, is
that number as long as it is below 2^32. -/
theorem C24_node_count (o : Option fsmtrie_opt) (f0 : fsmtrie)
    (ops : List (List Nat × Option (List Nat)))
    (hinit : fsmtrie_init o = some f0) (hmode : f0.mode ≠ fsmtrie_mode_token)
    (hops : ∀ c ∈ ops, IsCStr c.1) :
    (∀ w, w ∈ nonempty_prefixes ((accepted_inserts f0 ops).map Prod.fst) ↔
      w ≠ [] ∧ ∃ c ∈ accepted_inserts f0 ops, w <+: c.1) ∧
    (∀ w, w ∈ (nonempty_prefixes ((accepted_inserts f0 ops).map Prod.fst)).toFinset ↔
      w ≠ [] ∧ (lookup (run_inserts f0 ops).root w).isNull = false) ∧
    (run_inserts f0 ops).node_cnt =
      (nonempty_prefixes ((accepted_inserts f0 ops).map Prod.fst)).toFinset.card ∧
    ((nonempty_prefixes ((accepted_inserts f0 ops).map Prod.fst)).toFinset.card < 4294967296 →
      fsmtrie_get_nodecnt (run_inserts f0 ops) =
        (nonempty_prefixes ((accepted_inserts f0 ops).map Prod.fst)).toFinset.card) := by
  have hH := Holds_reach o f0 ops hinit hmode hops
  have hcnt := node_cnt_run ops f0 [] (Holds_init o f0 hinit hmode) hops
    (by rw [(fsmtrie_init_counts o f0 hinit).2]; rfl)
  simp only [List.nil_append] at hcnt
  have hmem : ∀ w, w ∈ nonempty_prefixes ((accepted_inserts f0 ops).map Prod.fst) ↔
      w ≠ [] ∧ ∃ c ∈ accepted_inserts f0 ops, w <+: c.1 := by
    intro w
    rw [mem_nonempty_prefixes]
    constructor
    · rintro ⟨h1, k, hk, hp⟩
      rw [List.mem_map] at hk
      obtain ⟨c, hc, rfl⟩ := hk
      exact ⟨h1, c, hc, hp⟩
    · rintro ⟨h1, c, hc, hp⟩
      exact ⟨h1, c.1, List.mem_map.2 ⟨c, hc, rfl⟩, hp⟩
  refine ⟨hmem, fun w => ?_, hcnt, fun hlt => ?_⟩
  · rw [List.mem_toFinset, hmem, hH.exist w]
    constructor
    · rintro ⟨h1, h2⟩; exact ⟨h1, Or.inr h2⟩
    · rintro ⟨h1, h2 | h2⟩
      · exact absurd h2 h1
      · exact ⟨h1, h2⟩
  · rw [fsmtrie_get_nodecnt, hcnt, Nat.mod_eq_of_lt hlt]

set_option maxRecDepth 100000 in
theorem C24_node_count_witness :
    fsmtrie_init (some ⟨fsmtrie_mode_ascii, true, 64⟩) = some trie_S1 ∧
    trie_S1.mode ≠ fsmtrie_mode_token ∧ (∀ c ∈ calls_S1, IsCStr c.1) ∧
    (nonempty_prefixes ((accepted_inserts trie_S1 calls_S1).map Prod.fst)).toFinset.card = 17 ∧
    (∀ w, w ∈ nonempty_prefixes ((accepted_inserts trie_S1 calls_S1).map Prod.fst) ↔
      w ≠ [] ∧ ∃ c ∈ accepted_inserts trie_S1 calls_S1, w <+: c.1) ∧
    (∀ w, w ∈ (nonempty_prefixes ((accepted_inserts trie_S1 calls_S1).map Prod.fst)).toFinset ↔
      w ≠ [] ∧ (lookup (run_inserts trie_S1 calls_S1).root w).isNull = false) ∧
    (run_inserts trie_S1 calls_S1).node_cnt =
      (nonempty_prefixes ((accepted_inserts trie_S1 calls_S1).map Prod.fst)).toFinset.card ∧
    ((nonempty_prefixes ((accepted_inserts trie_S1 calls_S1).map Prod.fst)).toFinset.card <
        4294967296 →
      fsmtrie_get_nodecnt (run_inserts trie_S1 calls_S1) =
        (nonempty_prefixes ((accepted_inserts trie_S1 calls_S1).map Prod.fst)).toFinset.card) :=
  ⟨rfl, by decide, by decide, by decide,
   C24_node_count (some ⟨fsmtrie_mode_ascii, true, 64⟩) trie_S1 calls_S1 rfl (by decide)
     (by decide)⟩

/-! ### The failure links after the compilation -/

/-- Byte inserts keep `OUTPUT` equal to `LEAF` at the children of the root. -/
theorem out1_run (ops : List (List Nat × Option (List Nat))) :
    ∀ (f : fsmtrie) (A : List (List Nat × Option (List Nat))), Holds f A →
      (∀ c ∈ ops, IsCStr c.1) → (∀ c, (f.root.nodes c).output = (f.root.nodes c).leaf) →
      ∀ c, ((run_inserts f ops).root.nodes c).output = ((run_inserts f ops).root.nodes c).leaf := by
  induction ops with
  | nil => intro f A _ _ h; exact h
  | cons c rest ih =>
    intro f A hH hc ho
    have hs := Holds_step f A hH c.1 c.2 (hc c (List.mem_cons_self _ _))
    simp only [run_inserts]
    refine ih _ _ hs (fun c' hc' => hc c' (List.mem_cons_of_mem _ hc')) ?_
    by_cases ha : accepts f c.1
    · rw [(fsmtrie_insert_byte f hH.wf c.1 c.2).2.1 ha]
      exact insert_walk_out1 _ _ _ _ hH.wf.root _ ho
    · have hb : (fsmtrie_insert f (some c.1) c.2).1 = false := by
        cases h : (fsmtrie_insert f (some c.1) c.2).1
        · rfl
        · exact absurd ((fsmtrie_insert_byte f hH.wf c.1 c.2).1.1 h) ha
      obtain ⟨e, he⟩ := fsmtrie_insert_rejected f (some c.1) c.2 hb
      rw [he]; exact ho

theorem fsmtrie_init_root (o : Option fsmtrie_opt) (f0 : fsmtrie)
    (h : fsmtrie_init o = some f0) : f0.root = (_fsmtrie_node_new f0.mode).1 := by
  unfold fsmtrie_init at h
  rcases o with _ | ⟨m, pm, ml⟩
  · simp at h; subst h; rfl
  · cases m
    · simp at h; subst h; rfl
    · simp at h; subst h; rfl
    · simp at h; obtain ⟨_, h⟩ := h; subst h; rfl

/-- C30: after any sequence of `fsmtrie_insert` calls on a fresh ASCII or
EASCII trie (with less than 2^30 nodes, the queue size `2 * node_cnt` being an
`int`), `_fsmtrie_ac_compile` returns with enough fuel; it leaves the paths of
the trie as they were, the failure link of the root is `NULL`, and the failure
link of every other node, which spells `w`, is the node that spells the
longest proper suffix of `w` that is a path of the trie (the root when only
the empty suffix is one). -/
theorem C30_failure_links (o : Option fsmtrie_opt) (f0 : fsmtrie)
    (ops : List (List Nat × Option (List Nat)))
    (hinit : fsmtrie_init o = some f0) (hmode : f0.mode ≠ fsmtrie_mode_token)
    (hops : ∀ c ∈ ops, IsCStr c.1) (hsz : (run_inserts f0 ops).node_cnt < 1073741824) :
    ∃ N, ∀ fuel, N ≤ fuel → ∃ f1,
      _fsmtrie_ac_compile (run_inserts f0 ops) fuel = outcome.ok f1 ∧
      f1.root.suffix = none ∧
      (∀ w, (lookup f1.root w).isNull = (lookup (run_inserts f0 ops).root w).isNull) ∧
      ∀ w, w ≠ [] → (lookup f1.root w).isNull = false →
        ∃ u, (lookup f1.root w).suffix = some u ∧ u <:+ w ∧ u.length < w.length ∧
          (lookup f1.root u).isNull = false ∧
          ∀ v, v <:+ w → v.length < w.length → (lookup f1.root v).isNull = false →
            v.length ≤ u.length := by
  have hH := Holds_reach o f0 ops hinit hmode hops
  have hcnt := node_cnt_run ops f0 [] (Holds_init o f0 hinit hmode) hops
    (by rw [(fsmtrie_init_counts o f0 hinit).2]; rfl)
  simp only [List.nil_append] at hcnt
  have ho1 := out1_run ops f0 [] (Holds_init o f0 hinit hmode) hops
    (fun c => by rw [fsmtrie_init_root o f0 hinit]; rfl)
  have halpha : ∀ w c, InT (run_inserts f0 ops).root (w ++ [c]) →
      c < (run_inserts f0 ops).nrnodes := by
    intro w c hin
    rcases (hH.exist (w ++ [c])).1 hin with e | ⟨k, hk, hpre⟩
    · simp at e
    · apply accepts_bytes _ hH.wf k.1 (hH.acc k hk).1 (hH.acc k hk).2
      exact hpre.subset (by simp)
  have hbound : ∀ L : List (List Nat), L.Nodup →
      (∀ w ∈ L, InT (run_inserts f0 ops).root w ∧ w ≠ []) →
      L.length ≤ (run_inserts f0 ops).node_cnt := by
    intro L hL hmem
    rw [hcnt, ← List.toFinset_card_of_nodup hL]
    apply Finset.card_le_card
    intro w hw
    rw [List.mem_toFinset] at hw ⊢
    obtain ⟨h1, h2⟩ := hmem w hw
    rw [mem_nonempty_prefixes]
    rcases (hH.exist w).1 h1 with e | ⟨c, hc, hp⟩
    · exact absurd e h2
    · exact ⟨h2, c.1, List.mem_map.2 ⟨c, hc, rfl⟩, hp⟩
  refine ⟨(run_inserts f0 ops).node_cnt + 1, fun fuel hfuel => ?_⟩
  obtain ⟨R1, h1, h2, _, h4⟩ := ac_compile_spec (run_inserts f0 ops) hH.wf.root halpha ho1
    hbound (by omega) fuel hfuel
  refine ⟨_, h1, h4.1, fun w => (h2 w).1, fun w hne hw => ?_⟩
  obtain ⟨u, hu, hf, _⟩ := h4.2 w hw hne
  exact ⟨u, hu, hf.1, hf.2.1, hf.2.2.1, hf.2.2.2⟩

set_option maxRecDepth 100000 in
theorem C30_failure_links_witness :
    fsmtrie_init (some ⟨fsmtrie_mode_ascii, true, 64⟩) = some trie_S1 ∧
    trie_S1.mode ≠ fsmtrie_mode_token ∧ (∀ c ∈ calls_S1, IsCStr c.1) ∧
    (run_inserts trie_S1 calls_S1).node_cnt < 1073741824 ∧
    ∃ N, ∀ fuel, N ≤ fuel → ∃ f1,
      _fsmtrie_ac_compile (run_inserts trie_S1 calls_S1) fuel = outcome.ok f1 ∧
      f1.root.suffix = none ∧
      (∀ w, (lookup f1.root w).isNull = (lookup (run_inserts trie_S1 calls_S1).root w).isNull) ∧
      ∀ w, w ≠ [] → (lookup f1.root w).isNull = false →
        ∃ u, (lookup f1.root w).suffix = some u ∧ u <:+ w ∧ u.length < w.length ∧
          (lookup f1.root u).isNull = false ∧
          ∀ v, v <:+ w → v.length < w.length → (lookup f1.root v).isNull = false →
            v.length ≤ u.length :=
  ⟨rfl, by decide, by decide, by decide,
   C30_failure_links (some ⟨fsmtrie_mode_ascii, true, 64⟩) trie_S1 calls_S1 rfl (by decide)
     (by decide) (by decide)⟩

/-! ### The Aho-Corasick state and the other searches -/

theorem SameButAC_refl (R : fsmtrie_node) : SameButAC R R := fun _ => ⟨rfl, rfl, rfl, rfl, rfl⟩

theorem SameButAC_trans {R R1 R2 : fsmtrie_node} (h1 : SameButAC R R1) (h2 : SameButAC R1 R2) :
    SameButAC R R2 := by
  intro w
  obtain ⟨a1, a2, a3, a4, a5⟩ := h1 w
  obtain ⟨b1, b2, b3, b4, b5⟩ := h2 w
  exact ⟨b1.trans a1, b2.trans a2, b3.trans a3, b4.trans a4, b5.trans a5⟩

theorem SameButAC_child {R R1 : fsmtrie_node} (h : SameButAC R R1) (c : Nat) :
    SameButAC (R.nodes c) (R1.nodes c) := fun w => h (c :: w)

theorem ACOnly_setSuffix (s : Option (List Nat)) : ACOnly (fun n => n.setSuffix s) :=
  ⟨HeaderOnly_setSuffix s, fun n => by cases n <;> exact ⟨rfl, rfl⟩⟩

theorem ACOnly_setOutput (o : Bool) : ACOnly (fun n => n.setOutput o) :=
  ⟨HeaderOnly_setOutput o, fun n => by cases n <;> exact ⟨rfl, rfl⟩⟩

theorem ACOnly_reset : ACOnly (fun n => (n.setSuffix (some [])).setOutput n.leaf) :=
  ⟨HeaderOnly_reset, fun n => by cases n <;> exact ⟨rfl, rfl⟩⟩

/-- A write of Aho-Corasick fields at `p` keeps the token values and the
child counts along every path. -/
theorem lookup_update_at_counts (g : fsmtrie_node → fsmtrie_node) (hg : ACOnly g) :
    ∀ (p : List Nat) (R : fsmtrie_node) (w : List Nat),
      (lookup (update_at R p g) w).tval = (lookup R w).tval ∧
      (lookup (update_at R p g) w).nnodes = (lookup R w).nnodes := by
  intro p
  induction p with
  | nil =>
    intro R w
    cases w with
    | nil => simp [update_at, (hg.2 R).1, (hg.2 R).2]
    | cons c w => simp [update_at, (hg.1 R).2.2.2 c]
  | cons c p ih =>
    intro R w
    by_cases hR : R.isNull = true
    · have hR' := isNull_eq_true hR
      subst hR'
      simp [update_at, setNode]
    · simp only [Bool.not_eq_true] at hR
      cases w with
      | nil => simp [update_at]
      | cons c' w =>
        by_cases hc : c' = c
        · subst hc
          have := ih (R.nodes c') w
          simpa [update_at, hR] using this
        · simp [update_at, hR, hc]

theorem SameButAC_update {R R1 : fsmtrie_node} (h : SameButAC R R1)
    (g : fsmtrie_node → fsmtrie_node) (hg : ACOnly g) (p : List Nat) :
    SameButAC R (update_at R1 p g) := by
  intro w
  obtain ⟨h1, h2, h3, _⟩ := lookup_update_at g hg.1 p R1 w
  obtain ⟨h4, h5⟩ := lookup_update_at_counts g hg p R1 w
  rw [h1, h2, h3, h4, h5]; exact h w

theorem ac_root_loop_same {R : fsmtrie_node} : ∀ (cs : List Nat) (R1 : fsmtrie_node)
    (q : _fsmtrie_nodeq) (s : fsmtrie_node × _fsmtrie_nodeq), SameButAC R R1 →
    ac_root_loop cs (R1, q) = outcome.ok s → SameButAC R s.1 := by
  intro cs
  induction cs with
  | nil =>
    intro R1 q s h hs
    simp only [ac_root_loop, outcome.ok.injEq] at hs
    rw [← hs]; exact h
  | cons c cs ih =>
    intro R1 q s h hs
    simp only [ac_root_loop] at hs
    split at hs
    · exact ih R1 q s h hs
    · split at hs
      · cases hs
      · exact ih _ _ s (SameButAC_update h _ (ACOnly_setSuffix _) [c]) hs

theorem ac_child_same {R : fsmtrie_node} (fuel : Nat) (node : List Nat) (c : Nat)
    (s s1 : fsmtrie_node × _fsmtrie_nodeq) (h : SameButAC R s.1)
    (hs : ac_child fuel node c s = outcome.ok s1) : SameButAC R s1.1 := by
  simp only [ac_child] at hs
  split at hs
  · cases hs
  · have h1 := SameButAC_update h _ ACOnly_reset (node ++ [c])
    split at hs
    · cases hs
    · simp only [outcome.ok.injEq] at hs
      rw [← hs]; exact h1
    · rename_i t _
      have h2 := SameButAC_update h1 _ (ACOnly_setSuffix (some t)) (node ++ [c])
      split at hs
      · simp only [outcome.ok.injEq] at hs
        rw [← hs]; exact SameButAC_update h2 _ (ACOnly_setOutput true) (node ++ [c])
      · simp only [outcome.ok.injEq] at hs
        rw [← hs]; exact h2

theorem ac_node_loop_same {R : fsmtrie_node} (fuel : Nat) (node : List Nat) :
    ∀ (cs : List Nat) (s s1 : fsmtrie_node × _fsmtrie_nodeq), SameButAC R s.1 →
    ac_node_loop fuel node cs s = outcome.ok s1 → SameButAC R s1.1 := by
  intro cs
  induction cs with
  | nil =>
    intro s s1 h hs
    simp only [ac_node_loop, outcome.ok.injEq] at hs
    rw [← hs]; exact h
  | cons c cs ih =>
    intro s s1 h hs
    simp only [ac_node_loop] at hs
    split at hs
    · exact ih s s1 h hs
    · cases hc : ac_child fuel node c s with
      | ok s2 =>
        rw [hc] at hs
        exact ih s2 s1 (ac_child_same fuel node c s s2 h hc) hs
      | aborted => rw [hc] at hs; cases hs
      | no_fuel => rw [hc] at hs; cases hs

theorem ac_while_same {R : fsmtrie_node} (nr scan : Nat) :
    ∀ (fuel : Nat) (s : fsmtrie_node × _fsmtrie_nodeq) (R1 : fsmtrie_node), SameButAC R s.1 →
    ac_while nr scan fuel s = outcome.ok R1 → SameButAC R R1 := by
  intro fuel
  induction fuel with
  | zero => intro s R1 _ hs; cases hs
  | succ fuel ih =>
    intro s R1 h hs
    simp only [ac_while] at hs
    split at hs
    · simp only [outcome.ok.injEq] at hs
      rw [← hs]; exact h
    · split at hs
      · cases hs
      · rename_i node _
        cases hc : ac_node_loop scan node (List.range nr) (s.1, (_fsmtrie_nodeq_dequeue s.2).2) with
        | ok s2 =>
          rw [hc] at hs
          exact ih s2 R1 (ac_node_loop_same scan node _ (s.1, (_fsmtrie_nodeq_dequeue s.2).2) s2 h hc) hs
        | aborted => rw [hc] at hs; cases hs
        | no_fuel => rw [hc] at hs; cases hs

/-- The compilation writes failure links, `OUTPUT` bits and the `AC_COMPILED`
flag, and nothing else. -/
theorem ac_compile_same (f f1 : fsmtrie) (fuel : Nat)
    (h : _fsmtrie_ac_compile f fuel = outcome.ok f1) :
    SameButAC f.root f1.root ∧ f1 = { f with root := f1.root, ac_compiled := true } := by
  simp only [_fsmtrie_ac_compile] at h
  cases h1 : ac_root_loop (List.range f.nrnodes)
      (update_at f.root [] (fun n => n.setSuffix none),
       _fsmtrie_nodeq_init (toInt32 (2 * f.node_cnt))) with
  | ok s =>
    rw [h1] at h
    simp only [outcome.bind] at h
    cases h2 : ac_while f.nrnodes fuel fuel s with
    | ok R1 =>
      rw [h2] at h
      simp only [outcome.bind, outcome.ok.injEq] at h
      have hs := ac_root_loop_same (R := f.root) _ _ _ s
        (SameButAC_update (SameButAC_refl f.root) _ (ACOnly_setSuffix none) []) h1
      have hR := ac_while_same f.nrnodes fuel fuel s R1 hs h2
      rw [← h]
      exact ⟨hR, rfl⟩
    | aborted => rw [h2] at h; cases h
    | no_fuel => rw [h2] at h; cases h
  | aborted => rw [h1] at h; cases h
  | no_fuel => rw [h1] at h; cases h

/-- The substring search, with the compilation it triggers, writes failure
links, `OUTPUT` bits and the `AC_COMPILED` flag (the error message on a token
trie), and nothing else. -/
theorem substring_same (f : fsmtrie) (T : List Nat) (fuel : Nat) (r : substring_result)
    (h : fsmtrie_search_substring f T fuel = outcome.ok r) :
    SameButAC f.root r.f.root ∧ r.f.nrnodes = f.nrnodes ∧ r.f.node_cnt = f.node_cnt ∧
    r.f.key_cnt = f.key_cnt ∧ r.f.max_len = f.max_len ∧ r.f.mode = f.mode ∧
    r.f.pm_ok = f.pm_ok ∧ (f.mode ≠ fsmtrie_mode_token → r.f.err_buf = f.err_buf) := by
  simp only [fsmtrie_search_substring] at h
  split at h
  · rename_i hm
    simp only [outcome.ok.injEq] at h
    rw [← h]
    exact ⟨SameButAC_refl _, rfl, rfl, rfl, rfl, rfl, rfl, fun hn => absurd hm hn⟩
  · split at h
    · cases h
    · have key : ∀ f1, (if f.ac_compiled = true then outcome.ok f else _fsmtrie_ac_compile f fuel) =
          outcome.ok f1 →
          SameButAC f.root f1.root ∧ f1.nrnodes = f.nrnodes ∧ f1.node_cnt = f.node_cnt ∧
          f1.key_cnt = f.key_cnt ∧ f1.max_len = f.max_len ∧ f1.mode = f.mode ∧
          f1.pm_ok = f.pm_ok ∧ f1.err_buf = f.err_buf := by
        intro f1 h1
        split at h1
        · simp only [outcome.ok.injEq] at h1
          rw [← h1]
          exact ⟨SameButAC_refl _, rfl, rfl, rfl, rfl, rfl, rfl, rfl⟩
        · obtain ⟨h2, h3⟩ := ac_compile_same f f1 fuel h1
          rw [h3]
          exact ⟨h2, rfl, rfl, rfl, rfl, rfl, rfl, rfl⟩
      cases h1 : (if f.ac_compiled = true then outcome.ok f else _fsmtrie_ac_compile f fuel) with
      | ok f1 =>
        rw [h1] at h
        simp only [outcome.bind] at h
        cases h2 : ac_search_loop f1.root fuel T 0 [] [] with
        | ok out =>
          rw [h2] at h
          simp only [outcome.bind, outcome.ok.injEq] at h
          obtain ⟨k1, k2, k3, k4, k5, k6, k7, k8⟩ := key f1 h1
          rw [← h]
          exact ⟨k1, k2, k3, k4, k5, k6, k7, fun _ => k8⟩
        | aborted => rw [h2] at h; cases h
        | no_fuel => rw [h2] at h; cases h
      | aborted => rw [h1] at h; cases h
      | no_fuel => rw [h1] at h; cases h

/-- The walk of an exact search does not look at the Aho-Corasick fields. -/
theorem search_walk_same (nr : Nat) : ∀ (k : List Nat) (R R1 : fsmtrie_node), SameButAC R R1 →
    (∃ v, search_walk nr R k = walk_result.range_error v ∧
      search_walk nr R1 k = walk_result.range_error v) ∨
    (search_walk nr R k = walk_result.no_match ∧ search_walk nr R1 k = walk_result.no_match) ∨
    (∃ m m1, search_walk nr R k = walk_result.arrived m ∧
      search_walk nr R1 k = walk_result.arrived m1 ∧ SameButAC m m1) := by
  intro k
  induction k with
  | nil => intro R R1 h; exact Or.inr (Or.inr ⟨R, R1, rfl, rfl, h⟩)
  | cons p rest ih =>
    intro R R1 h
    have hc := SameButAC_child h p
    have e1 : (R1.nodes p).isNull = (R.nodes p).isNull := (hc []).1
    by_cases hr : (p : Int) < 0 ∨ (p : Int) > (nr : Int) - 1
    · exact Or.inl ⟨p, by simp only [search_walk, hr, if_true],
        by simp only [search_walk, hr, if_true]⟩
    · by_cases hn : (R.nodes p).isNull = true
      · exact Or.inr (Or.inl ⟨by simp only [search_walk, hr, if_false, hn, if_true],
          by simp only [search_walk, hr, if_false, e1, hn, if_true]⟩)
      · simp only [Bool.not_eq_true] at hn
        have hL : search_walk nr R (p :: rest) = search_walk nr (R.nodes p) rest := by
          simp only [search_walk, hr, if_false, hn, Bool.false_eq_true]
        have hR : search_walk nr R1 (p :: rest) = search_walk nr (R1.nodes p) rest := by
          simp only [search_walk, hr, if_false, e1, hn, Bool.false_eq_true]
        rw [hL, hR]
        exact ih _ _ hc

/-- An exact search returns the same value and the same string on two tries
that differ at most in their Aho-Corasick fields and flag. -/
theorem fsmtrie_search_same (f f1 : fsmtrie) (h : SameButAC f.root f1.root)
    (hn : f1.nrnodes = f.nrnodes) (hm : f1.mode = f.mode) (hp : f1.pm_ok = f.pm_ok)
    (key str0 : Option (List Nat)) :
    (fsmtrie_search f1 key str0).ret = (fsmtrie_search f key str0).ret ∧
    (fsmtrie_search f1 key str0).str = (fsmtrie_search f key str0).str := by
  have e1 : f1.root.isNull = f.root.isNull := (h []).1
  unfold fsmtrie_search
  rw [e1, hn, hm, hp]
  by_cases h1 : f.root.isNull = true
  · simp [h1]
  · cases key with
    | none => simp [h1]
    | some k =>
      by_cases h2 : (f.mode ≠ fsmtrie_mode_ascii ∧ f.mode ≠ fsmtrie_mode_eascii)
      · simp [h1, h2]
      · simp only [h1, h2, if_false]
        rcases search_walk_same f.nrnodes k f.root f1.root h with
          ⟨v, a, b⟩ | ⟨a, b⟩ | ⟨m, m1, a, b, hmm⟩
        · rw [a, b]; exact ⟨rfl, rfl⟩
        · rw [a, b]; exact ⟨rfl, rfl⟩
        · rw [a, b]
          have c1 : m1.isNull = m.isNull := (hmm []).1
          have c2 : m1.leaf = m.leaf := (hmm []).2.1
          have c3 : m1.str = m.str := (hmm []).2.2.1
          simp only [c1, c2, c3]
          by_cases hl : m.leaf = true <;> by_cases hq : (!m.isNull && f.pm_ok) = true <;>
            simp [hl, hq]

/-- An exact search leaves the trie as it was, up to the error message. -/
theorem fsmtrie_search_frame (g : fsmtrie) (key str0 : Option (List Nat)) :
    ∃ e, (fsmtrie_search g key str0).f = { g with err_buf := e } := by
  unfold fsmtrie_search
  split
  · exact ⟨_, rfl⟩
  · split
    · exact ⟨_, rfl⟩
    · split
      · exact ⟨_, rfl⟩
      · split
        · exact ⟨_, rfl⟩
        · exact ⟨g.err_buf, rfl⟩
        · rename_i m _
          by_cases hq : (if (!m.isNull && g.pm_ok) = true then true else m.leaf) = true
          · simp only [hq, if_true]; exact ⟨g.err_buf, rfl⟩
          · simp only [hq, if_false]; exact ⟨g.err_buf, rfl⟩

/-- One pass of the traversal of the approximate search does not look at the
Aho-Corasick fields. -/
theorem approx_step_same (f f1 : fsmtrie) (key : List Nat) (d e : Int) (s s1 : approx_state)
    (hn : f1.nrnodes = f.nrnodes) (hml : f1.max_len = f.max_len) (h : SameState s s1) :
    (approx_step f key d e s = none ∧ approx_step f1 key d e s1 = none) ∨
    ∃ t t1, approx_step f key d e s = some t ∧ approx_step f1 key d e s1 = some t1 ∧
      SameState t t1 := by
  obtain ⟨node, i, c, chars, nodes, rows, out⟩ := s
  obtain ⟨node1, i1, c1, chars1, nodes1, rows1, out1⟩ := s1
  obtain ⟨hnode, hi, hc, hch, hnodes, hrows, hout⟩ := h
  simp only at hnode hi hc hch hnodes hrows hout
  subst hi hc hch hrows hout
  have hchild := SameButAC_child hnode c1.toNat
  have e1 : (node1.nodes c1.toNat).isNull = (node.nodes c1.toNat).isNull := (hchild []).1
  have e2 : (node1.nodes c1.toNat).leaf = (node.nodes c1.toNat).leaf := (hchild []).2.1
  have e3 : (node1.nodes c1.toNat).str = (node.nodes c1.toNat).str := (hchild []).2.2.1
  by_cases hlt : c1 < (f.nrnodes : Int)
  · by_cases hnull : (node.nodes c1.toNat).isNull = true
    · simp only [approx_step, hn, hlt, if_true, e1, hnull]
      exact Or.inr ⟨_, _, rfl, rfl, hnode, rfl, rfl, rfl, hnodes, rfl, rfl⟩
    · cases hr0 : sim_row_next (rows1 i1.toNat) e with
      | none =>
        simp only [approx_step, hn, hlt, if_true, e1, hnull, hr0]
        exact Or.inl ⟨rfl, rfl⟩
      | some r0 =>
        cases hr1 : (if i1 < d then sim_row_append r0 e 0 (i1 + 1) else some r0) with
        | none =>
          simp only [approx_step, hn, hlt, if_true, e1, hnull, hr0, hr1]
          exact Or.inl ⟨rfl, rfl⟩
        | some r1 =>
          cases hr2 : approx_row_loop key d e c1 i1 ((chars1 (i1 - 1).toNat : Nat) : Int)
              (rows1 (i1 - 1).toNat) (rows1 i1.toNat).entries r1 with
          | none =>
            simp only [approx_step, hn, hlt, if_true, e1, hnull, hr0, hr1, hr2]
            exact Or.inl ⟨rfl, rfl⟩
          | some r2 =>
            cases hel : sim_row_elem r2 0 with
            | none =>
              simp only [approx_step, hn, hlt, if_true, e1, hnull, hr0, hr1, hr2, hel]
              exact Or.inr ⟨_, _, rfl, rfl, hnode, rfl, rfl, rfl, hnodes, rfl, rfl⟩
            | some x =>
              by_cases hd : i1 < toInt32 f.max_len
              · simp only [approx_step, hn, hml, hlt, if_true, e1, e2, e3, hnull, hr0, hr1, hr2,
                  hel, hd]
                refine Or.inr ⟨_, _, rfl, rfl, hchild, rfl, rfl, rfl, ?_, rfl, rfl⟩
                intro t
                show SameButAC (Function.update nodes (i1 + 1).toNat node t)
                  (Function.update nodes1 (i1 + 1).toNat node1 t)
                by_cases ht : t = (i1 + 1).toNat
                · subst ht
                  rw [Function.update_same, Function.update_same]; exact hnode
                · rw [Function.update_noteq ht, Function.update_noteq ht]; exact hnodes t
              · simp only [approx_step, hn, hml, hlt, if_true, e1, e2, e3, hnull, hr0, hr1, hr2,
                  hel, hd, if_false]
                exact Or.inr ⟨_, _, rfl, rfl, hnode, rfl, rfl, rfl, hnodes, rfl, rfl⟩
  · simp only [approx_step, hn, hlt, if_false]
    exact Or.inr ⟨_, _, rfl, rfl, hnodes _, rfl, rfl, rfl, hnodes, rfl, rfl⟩

/-- The traversal of the approximate search makes the same callback
invocations and ends in the same way on two tries that differ at most in
their Aho-Corasick fields. -/
theorem approx_run_same (f f1 : fsmtrie) (key : List Nat) (d e : Int)
    (hn : f1.nrnodes = f.nrnodes) (hml : f1.max_len = f.max_len) :
    ∀ (fuel : Nat) (s s1 : approx_state), SameState s s1 →
      approx_view (approx_run f1 key d e fuel s1) = approx_view (approx_run f key d e fuel s) := by
  intro fuel
  induction fuel with
  | zero => intro s s1 _; rfl
  | succ fuel ih =>
    intro s s1 h
    have e1 : s1.node.isNull = s.node.isNull := (h.1 []).1
    have e2 : s1.out = s.out := h.2.2.2.2.2.2
    simp only [approx_run, e1]
    by_cases hnull : s.node.isNull = true
    · simp only [hnull, if_true, approx_view, e2]
    · simp only [Bool.not_eq_true] at hnull
      simp only [hnull, Bool.false_eq_true, if_false]
      rcases approx_step_same f f1 key d e s s1 hn hml h with ⟨a, b⟩ | ⟨t, t1, a, b, htt⟩
      · rw [a, b]
        simp only [approx_view, e2]
      · rw [a, b]
        exact ih t t1 htt

/-- An approximate search makes the same callback invocations and returns the
same value on two tries that differ at most in their Aho-Corasick fields and
flag. -/
theorem fsmtrie_search_approx_same (f f1 : fsmtrie) (h : SameButAC f.root f1.root)
    (hn : f1.nrnodes = f.nrnodes) (hml : f1.max_len = f.max_len) (hm : f1.mode = f.mode)
    (key : List Nat) (d : Int) (fuel : Nat) :
    approx_view (fsmtrie_search_approx f1 key d fuel) =
      approx_view (fsmtrie_search_approx f key d fuel) := by
  unfold fsmtrie_search_approx
  rw [hml, hm]
  by_cases h0 : f.max_len = 0
  · simp only [h0, if_true, approx_view]
  · by_cases ht : f.mode = fsmtrie_mode_token
    · simp only [h0, if_false, ht, if_true, approx_view]
    · simp only [h0, ht, if_false]
      split
      · rfl
      · exact approx_run_same f f1 key d _ hn hml fuel _ _
          ⟨h, rfl, rfl, rfl, fun _ => SameButAC_refl _, rfl, rfl⟩

/-- An approximate search that returns leaves the trie as it was, up to the
error message. -/
theorem fsmtrie_search_approx_frame (g : fsmtrie) (key : List Nat) (d : Int) (fuel : Nat)
    (ret : Int) (out : List (Option (List Nat) × Int)) (g1 : fsmtrie)
    (h : fsmtrie_search_approx g key d fuel = some (approx_outcome.returned ret out g1)) :
    ∃ e, g1 = { g with err_buf := e } := by
  unfold fsmtrie_search_approx at h
  split at h
  · simp only [Option.some.injEq, approx_outcome.returned.injEq] at h
    exact ⟨_, h.2.2.symm⟩
  · split at h
    · simp only [Option.some.injEq, approx_outcome.returned.injEq] at h
      exact ⟨_, h.2.2.symm⟩
    · simp only at h
      split at h
      · cases h
      · exact ⟨g.err_buf, (approx_run_ret g key d _ fuel _ ret out g1 h).2⟩

theorem outcome.ok_getD {α : Type} (o : outcome α) (d : α) (h : o.isOk = true) :
    o = outcome.ok (o.getD d) := by
  cases o with
  | ok a => rfl
  | aborted => cases h
  | no_fuel => cases h

/-- C23: a substring search that returns, with the compilation it triggers,
writes failure links, `OUTPUT` bits and the `AC_COMPILED` flag (on a token
trie: the error message) and nothing else: `nrnodes`, `node_cnt`, `key_cnt`,
`max_len`, the mode and the partial match flag are as before, and along every
path the nodes, leaf bits, strings, token values and child counts are as
before.  So every exact search returns the same value and the same string,
and every approximate search makes the same callback invocations and ends in
the same way, on the trie after the substring search as on the trie before
it.  An exact or approximate search on any trie `g` leaves `g` as it was, the
`AC_COMPILED` flag included, up to the error message of a call that fails. -/
theorem C23_ac_state_frame (f : fsmtrie) (T : List Nat) (fuel : Nat) (r : substring_result)
    (h : fsmtrie_search_substring f T fuel = outcome.ok r) :
    (r.f.nrnodes = f.nrnodes ∧ r.f.node_cnt = f.node_cnt ∧ r.f.key_cnt = f.key_cnt ∧
      r.f.max_len = f.max_len ∧ r.f.mode = f.mode ∧ r.f.pm_ok = f.pm_ok ∧
      (f.mode ≠ fsmtrie_mode_token → r.f.err_buf = f.err_buf)) ∧
    (∀ w, (lookup r.f.root w).isNull = (lookup f.root w).isNull ∧
      (lookup r.f.root w).leaf = (lookup f.root w).leaf ∧
      (lookup r.f.root w).str = (lookup f.root w).str ∧
      (lookup r.f.root w).tval = (lookup f.root w).tval ∧
      (lookup r.f.root w).nnodes = (lookup f.root w).nnodes) ∧
    (∀ key str0, (fsmtrie_search r.f key str0).ret = (fsmtrie_search f key str0).ret ∧
      (fsmtrie_search r.f key str0).str = (fsmtrie_search f key str0).str) ∧
    (∀ key d fuel2, approx_view (fsmtrie_search_approx r.f key d fuel2) =
      approx_view (fsmtrie_search_approx f key d fuel2)) ∧
    (∀ (g : fsmtrie) key str0, ∃ e, (fsmtrie_search g key str0).f = { g with err_buf := e }) ∧
    (∀ (g : fsmtrie) key d fuel2 ret out g1,
      fsmtrie_search_approx g key d fuel2 = some (approx_outcome.returned ret out g1) →
      ∃ e, g1 = { g with err_buf := e }) := by
  obtain ⟨h1, h2, h3, h4, h5, h6, h7, h8⟩ := substring_same f T fuel r h
  exact ⟨⟨h2, h3, h4, h5, h6, h7, h8⟩, h1,
    fun key str0 => fsmtrie_search_same f r.f h1 h2 h6 h7 key str0,
    fun key d fuel2 => fsmtrie_search_approx_same f r.f h1 h2 h5 h6 key d fuel2,
    fun g key str0 => fsmtrie_search_frame g key str0,
    fun g key d fuel2 ret out g1 hg => fsmtrie_search_approx_frame g key d fuel2 ret out g1 hg⟩

set_option maxRecDepth 100000 in
theorem C23_ac_state_frame_witness :
    fsmtrie_search_substring trie_he [104, 101] 40 = outcome.ok res_he ∧
    (res_he.f.nrnodes = trie_he.nrnodes ∧ res_he.f.node_cnt = trie_he.node_cnt ∧
      res_he.f.key_cnt = trie_he.key_cnt ∧ res_he.f.max_len = trie_he.max_len ∧
      res_he.f.mode = trie_he.mode ∧ res_he.f.pm_ok = trie_he.pm_ok ∧
      (trie_he.mode ≠ fsmtrie_mode_token → res_he.f.err_buf = trie_he.err_buf)) ∧
    (∀ w, (lookup res_he.f.root w).isNull = (lookup trie_he.root w).isNull ∧
      (lookup res_he.f.root w).leaf = (lookup trie_he.root w).leaf ∧
      (lookup res_he.f.root w).str = (lookup trie_he.root w).str ∧
      (lookup res_he.f.root w).tval = (lookup trie_he.root w).tval ∧
      (lookup res_he.f.root w).nnodes = (lookup trie_he.root w).nnodes) ∧
    (∀ key str0, (fsmtrie_search res_he.f key str0).ret = (fsmtrie_search trie_he key str0).ret ∧
      (fsmtrie_search res_he.f key str0).str = (fsmtrie_search trie_he key str0).str) ∧
    (∀ key d fuel2, approx_view (fsmtrie_search_approx res_he.f key d fuel2) =
      approx_view (fsmtrie_search_approx trie_he key d fuel2)) ∧
    (∀ (g : fsmtrie) key str0, ∃ e, (fsmtrie_search g key str0).f = { g with err_buf := e }) ∧
    (∀ (g : fsmtrie) key d fuel2 ret out g1,
      fsmtrie_search_approx g key d fuel2 = some (approx_outcome.returned ret out g1) →
      ∃ e, g1 = { g with err_buf := e }) := by
  have hok : fsmtrie_search_substring trie_he [104, 101] 40 = outcome.ok res_he :=
    outcome.ok_getD _ _ (by decide!)
  exact ⟨hok, C23_ac_state_frame trie_he [104, 101] 40 res_he hok⟩

/-! ### The output bits after the compilation -/

theorem CInv_init (o : Option fsmtrie_opt) (f0 : fsmtrie) (h : fsmtrie_init o = some f0)
    (hm : f0.mode ≠ fsmtrie_mode_token) : CInv f0 [] := by
  have hr := fsmtrie_init_root o f0 h
  refine ⟨Holds_init o f0 h hm, by simp, fun c => by rw [hr]; rfl, ?_⟩
  intro L _ hmem
  cases L with
  | nil => simp
  | cons w L =>
    obtain ⟨h1, h2⟩ := hmem w (List.mem_cons_self _ _)
    unfold InT at h1
    rw [hr, lookup_new] at h1
    simp [h2] at h1

/-- An insert of a non-empty key keeps the invariant of the compilation. -/
theorem CInv_insert (f : fsmtrie) (A : List (List Nat × Option (List Nat))) (hI : CInv f A)
    (k : List Nat) (str : Option (List Nat)) (hk : IsCStr k) (hne : k ≠ []) :
    CInv (fsmtrie_insert f (some k) str).2
      (A ++ if (fsmtrie_insert f (some k) str).1 then [(k, str)] else []) := by
  have hH := Holds_step f A hI.holds k str hk
  obtain ⟨h1, _⟩ := fsmtrie_insert_byte f hI.holds.wf k str
  have hne' : ∀ c ∈ A ++ (if (fsmtrie_insert f (some k) str).1 then [(k, str)] else []),
      c.1 ≠ [] := by
    intro c hc
    rcases List.mem_append.1 hc with hc | hc
    · exact hI.nonempty c hc
    · split at hc
      · simp only [List.mem_singleton] at hc; subst hc; exact hne
      · cases hc
  by_cases ha : accepts f k
  · have heq := fsmtrie_insert_accepted f hI.holds.wf k str ha
    obtain ⟨_, hnew, hspec⟩ := insert_walk_spec f.nrnodes f.mode str k f.root hI.holds.wf.root
    have hroot : (fsmtrie_insert f (some k) str).2.root =
        (insert_walk f.nrnodes f.mode str f.root k).1 := by rw [heq]; split <;> rfl
    have hcnt : (fsmtrie_insert f (some k) str).2.node_cnt =
        f.node_cnt + (insert_walk f.nrnodes f.mode str f.root k).2.1 := by
      rw [heq]; split <;> rfl
    refine ⟨hH, hne', ?_, ?_⟩
    · intro c
      rw [hroot]
      exact insert_walk_out1 _ _ _ _ hI.holds.wf.root _ hI.out1 c
    · intro L hL hmem
      rw [hcnt]
      have hsplit := List.length_eq_length_filter_add (l := L)
        (fun w => !(lookup f.root w).isNull)
      have hold : (L.filter (fun w => !(lookup f.root w).isNull)).length ≤ f.node_cnt := by
        apply hI.cnt _ (hL.filter _)
        intro w hw
        rw [List.mem_filter] at hw
        exact ⟨by simpa [InT] using hw.2, (hmem w hw.1).2⟩
      have hnw : (L.filter (fun w => !!(lookup f.root w).isNull)).length ≤
          (insert_walk f.nrnodes f.mode str f.root k).2.1 := by
        apply insert_walk_new_count _ _ _ _ _ hI.holds.wf.root _ (hL.filter _)
        intro w hw
        rw [List.mem_filter] at hw
        have h3 : (lookup f.root w).isNull = true := by simpa using hw.2
        have h4 := (hmem w hw.1).1
        unfold InT at h4
        rw [hroot, (hspec w).1, h3] at h4
        simp only [Bool.true_and, Bool.not_eq_eq_eq_not, Bool.not_false, decide_eq_true_eq] at h4
        exact ⟨h4, h3⟩
      omega
  · have hf : (fsmtrie_insert f (some k) str).1 = false := by
      cases h : (fsmtrie_insert f (some k) str).1
      · rfl
      · exact absurd (h1.1 h) ha
    obtain ⟨e, he⟩ := fsmtrie_insert_rejected f (some k) str hf
    refine ⟨hH, hne', ?_, ?_⟩
    · rw [he]; exact hI.out1
    · rw [he]; exact hI.cnt

theorem CInv_alpha {f : fsmtrie} {A : List (List Nat × Option (List Nat))}
    (h : CInv f A) (w : List Nat) (c : Nat) (hin : InT f.root (w ++ [c])) : c < f.nrnodes := by
  rcases (h.holds.exist (w ++ [c])).1 hin with e | ⟨k, hk, hpre⟩
  · simp at e
  · apply accepts_bytes f h.holds.wf k.1 (h.holds.acc k hk).1 (h.holds.acc k hk).2
    exact hpre.subset (by simp)

/-- The compilation keeps the invariant of the compilation. -/
theorem CInv_after_compile {f : fsmtrie} {A : List (List Nat × Option (List Nat))}
    (h : CInv f A) {R1 : fsmtrie_node} (hs : Skel f.root R1)
    (ho : ∀ w : List Nat, w.length ≤ 1 → (lookup R1 w).output = (lookup f.root w).output) :
    CInv { f with root := R1, ac_compiled := true } A := by
  refine ⟨⟨⟨?_, h.holds.wf.size⟩, ?_, ?_, ?_, h.holds.acc⟩, h.nonempty, ?_, ?_⟩
  · have := (hs []).1
    simp only [lookup_nil] at this
    show R1.isNull = false
    rw [this]; exact h.holds.wf.root
  · intro w; show (lookup R1 w).isNull = false ↔ _; rw [(hs w).1]; exact h.holds.exist w
  · intro w; show (lookup R1 w).leaf = true ↔ _; rw [(hs w).2.1]; exact h.holds.leaf w
  · intro w; show (lookup R1 w).str = _; rw [(hs w).2.2]; exact h.holds.str w
  · intro c
    have h1 := ho [c] (by simp)
    have h2 := (hs [c]).2.1
    simp only [lookup_cons, lookup_nil] at h1 h2
    show (R1.nodes c).output = (R1.nodes c).leaf
    rw [h1, h2]; exact h.out1 c
  · intro L hL hmem
    exact h.cnt L hL (fun w hw => ⟨(hs.inT w).1 (hmem w hw).1, (hmem w hw).2⟩)

/-- The compilation of a trie that satisfies the invariant returns, keeps the
invariant and leaves valid Aho-Corasick metadata. -/
theorem CInv_compile {f : fsmtrie} {A : List (List Nat × Option (List Nat))}
    (h : CInv f A) (hsz : f.node_cnt < 1073741824) (fuel : Nat) (hfuel : f.node_cnt + 1 ≤ fuel) :
    ∃ f1, _fsmtrie_ac_compile f fuel = outcome.ok f1 ∧ CInv f1 A ∧ Compiled f1.root ∧
      f1.node_cnt = f.node_cnt ∧ f1.nrnodes = f.nrnodes := by
  obtain ⟨R1, h1, h2, h3, h4⟩ := ac_compile_spec f h.holds.wf.root (CInv_alpha h) h.out1 h.cnt
    (by omega) fuel hfuel
  exact ⟨_, h1, CInv_after_compile h h2 h3, h4, rfl, rfl⟩

/-- Every interleaving of inserts of non-empty keys and compilations runs to
its end with enough fuel, and keeps the invariant of the compilation for the
calls that returned true. -/
theorem run_cops_spec (fuel : Nat) : ∀ (ops : List cop) (f : fsmtrie)
    (A : List (List Nat × Option (List Nat))), CInv f A →
    (∀ op ∈ ops, cop_ok op) → f.node_cnt + cops_length ops < 1073741824 →
    f.node_cnt + cops_length ops + 1 ≤ fuel →
    ∃ f1, run_cops fuel f ops = outcome.ok f1 ∧ CInv f1 (A ++ accepted_cops fuel f ops) ∧
      f1.node_cnt ≤ f.node_cnt + cops_length ops := by
  intro ops
  induction ops with
  | nil =>
    intro f A hI _ _ _
    exact ⟨f, rfl, by simpa [accepted_cops] using hI, by simp [cops_length]⟩
  | cons op rest ih =>
    intro f A hI hok hsz hfuel
    have hrest : ∀ op' ∈ rest, cop_ok op' := fun op' h => hok op' (List.mem_cons_of_mem _ h)
    cases op with
    | insert k s =>
      have hk : IsCStr k ∧ k ≠ [] := hok _ (List.mem_cons_self _ _)
      have hI1 := CInv_insert f A hI k s hk.1 hk.2
      have hn := fsmtrie_insert_node_cnt f hI.holds.wf k s
      simp only [cops_length] at hsz hfuel ⊢
      obtain ⟨f1, h1, h2, h3⟩ := ih _ _ hI1 hrest (by omega) (by omega)
      refine ⟨f1, by simpa [run_cops] using h1, ?_, by omega⟩
      simpa [accepted_cops, List.append_assoc] using h2
    | compile =>
      simp only [cops_length] at hsz hfuel ⊢
      obtain ⟨f1, h1, h2, _, h4, _⟩ := CInv_compile hI (by omega) fuel (by omega)
      obtain ⟨f2, h5, h6, h7⟩ := ih f1 A h2 hrest (by rw [h4]; omega) (by rw [h4]; omega)
      refine ⟨f2, by simp only [run_cops, h1, outcome.bind, h5], ?_, by rw [h4] at h7; exact h7⟩
      simpa [accepted_cops, h1] using h6

/-- On a compiled trie the chain of failure links that starts at the node `w`
passes through the suffixes of `w` that are paths of the trie, and through no
other node; it ends before `w.length + 1` links are followed. -/
theorem suffix_chain_mem {R : fsmtrie_node} (hroot : InT R []) (hcomp : Compiled R) :
    ∀ (n : Nat) (w : List Nat), w.length = n → InT R w → ∀ fuel, w.length + 1 ≤ fuel →
      ∀ u, u ∈ suffix_chain R fuel (some w) ↔ u <:+ w ∧ InT R u := by
  intro n
  induction n using Nat.strong_induction_on with
  | _ n ih =>
    intro w hlen hw fuel hfuel u
    obtain ⟨m, rfl⟩ : ∃ m, fuel = m + 1 := ⟨fuel - 1, by omega⟩
    simp only [suffix_chain, List.mem_cons]
    by_cases hne : w = []
    · subst hne
      have h0 : (lookup R []).suffix = none := hcomp.1
      rw [h0]
      have : suffix_chain R m none = [] := by cases m <;> rfl
      rw [this]
      simp only [List.not_mem_nil, or_false, List.suffix_nil]
      constructor
      · intro h; exact ⟨h, h ▸ hroot⟩
      · intro h; exact h.1
    · obtain ⟨u0, hu0, hfail, _⟩ := hcomp.2 w hw hne
      rw [hu0]
      have hrec := ih u0.length (by rw [← hlen]; exact hfail.2.1) u0 rfl hfail.2.2.1 m
        (by have := hfail.2.1; omega) u
      rw [hrec]
      constructor
      · rintro (h | ⟨h1, h2⟩)
        · rw [h]; exact ⟨List.suffix_refl _, hw⟩
        · exact ⟨h1.trans hfail.1, h2⟩
      · rintro ⟨h1, h2⟩
        by_cases e : u = w
        · exact Or.inl e
        · right
          have hlt : u.length < w.length := by
            rcases Nat.lt_or_ge u.length w.length with h | h
            · exact h
            · exact absurd (h1.eq_of_length_le h) e
          have hle := hfail.2.2.2 u h1 hlt h2
          exact ⟨List.suffix_of_suffix_length_le h1 hfail.1 hle, h2⟩

/-- C31: after any interleaving of inserts of non-empty keys and compilations
on a fresh ASCII or EASCII trie (with less than 2^30 bytes of keys, so that
the queue size `2 * node_cnt` is an `int`), `_fsmtrie_ac_compile` returns with
enough fuel, and then every node below the root, which spells `w`, has its
`OUTPUT` bit set exactly when some node on its chain of failure links, the
node itself first, is a leaf; that is, exactly when a key whose insert
returned true is a suffix of `w`. -/
theorem C31_output_bits (o : Option fsmtrie_opt) (f0 : fsmtrie) (ops : List cop)
    (hinit : fsmtrie_init o = some f0) (hmode : f0.mode ≠ fsmtrie_mode_token)
    (hops : ∀ op ∈ ops, cop_ok op) (hsz : cops_length ops < 1073741824) :
    ∃ N, ∀ fuel, N ≤ fuel → ∃ f1 f2,
      run_cops fuel f0 ops = outcome.ok f1 ∧ _fsmtrie_ac_compile f1 fuel = outcome.ok f2 ∧
      ∀ w, w ≠ [] → (lookup f2.root w).isNull = false →
        (∀ n, w.length + 1 ≤ n →
          ((lookup f2.root w).output = true ↔
            ∃ u ∈ suffix_chain f2.root n (some w), (lookup f2.root u).leaf = true)) ∧
        ((lookup f2.root w).output = true ↔
          ∃ c ∈ accepted_cops fuel f0 ops, c.1 <:+ w) := by
  have h0 := CInv_init o f0 hinit hmode
  have hc0 := (fsmtrie_init_counts o f0 hinit).2
  refine ⟨cops_length ops + 1, fun fuel hfuel => ?_⟩
  obtain ⟨f1, h1, h2, h3⟩ := run_cops_spec fuel ops f0 [] h0 hops (by omega) (by omega)
  obtain ⟨f2, h4, h5, h6, _, _⟩ := CInv_compile h2 (by omega) fuel (by omega)
  simp only [List.nil_append] at h5
  refine ⟨f1, f2, h1, h4, fun w hne hw => ?_⟩
  obtain ⟨u0, _, _, hout⟩ := h6.2 w hw hne
  have hrl : (lookup f2.root []).leaf = false := by
    cases hl : (lookup f2.root []).leaf
    · rfl
    · obtain ⟨c, hc, hcw⟩ := (h5.holds.leaf []).1 hl
      exact absurd hcw (h5.nonempty c hc)
  constructor
  · intro n hn
    rw [hout]
    constructor
    · rintro ⟨v, hv, _, hl⟩
      exact ⟨v, (suffix_chain_mem h5.holds.wf.root h6 _ w rfl hw n hn v).2
        ⟨hv, leaf_isNull hl⟩, hl⟩
    · rintro ⟨u, hu, hl⟩
      obtain ⟨hs, _⟩ := (suffix_chain_mem h5.holds.wf.root h6 _ w rfl hw n hn u).1 hu
      refine ⟨u, hs, ?_, hl⟩
      intro e
      rw [e, hrl] at hl
      cases hl
  · rw [hout]
    constructor
    · rintro ⟨v, hv, _, hl⟩
      obtain ⟨c, hc, hcv⟩ := (h5.holds.leaf v).1 hl
      exact ⟨c, hc, by rw [hcv]; exact hv⟩
    · rintro ⟨c, hc, hs⟩
      exact ⟨c.1, hs, h5.nonempty c hc, (h5.holds.leaf c.1).2 ⟨c, hc, rfl⟩⟩

set_option maxRecDepth 100000 in
theorem C31_output_bits_witness :
    fsmtrie_init (some ⟨fsmtrie_mode_ascii, true, 64⟩) = some trie_S1 ∧
    trie_S1.mode ≠ fsmtrie_mode_token ∧ (∀ op ∈ cops_ushers, cop_ok op) ∧
    cops_length cops_ushers < 1073741824 ∧
    ∃ N, ∀ fuel, N ≤ fuel → ∃ f1 f2,
      run_cops fuel trie_S1 cops_ushers = outcome.ok f1 ∧
      _fsmtrie_ac_compile f1 fuel = outcome.ok f2 ∧
      ∀ w, w ≠ [] → (lookup f2.root w).isNull = false →
        (∀ n, w.length + 1 ≤ n →
          ((lookup f2.root w).output = true ↔
            ∃ u ∈ suffix_chain f2.root n (some w), (lookup f2.root u).leaf = true)) ∧
        ((lookup f2.root w).output = true ↔
          ∃ c ∈ accepted_cops fuel trie_S1 cops_ushers, c.1 <:+ w) :=
  ⟨rfl, by decide, by decide, by decide,
   C31_output_bits (some ⟨fsmtrie_mode_ascii, true, 64⟩) trie_S1 cops_ushers rfl (by decide)
     (by decide) (by decide)⟩

/-! ### The leaf bit of the root -/

theorem get_token_idx_leaf (node : fsmtrie_node) (cnt tok : Nat) (b : Bool)
    (r : token_idx_result) (h : _fsmtrie_get_token_idx node cnt tok b = some r) :
    r.node.leaf = node.leaf := by
  unfold _fsmtrie_get_token_idx at h
  split at h
  · cases h
  · simp only [Option.some.injEq] at h; subst h; rfl
  · cases b with
    | false =>
      simp only [Bool.not_false, if_true, Option.some.injEq] at h; subst h; rfl
    | true =>
      simp only [Bool.not_true, Bool.false_eq_true, if_false, Option.some.injEq] at h
      subst h; simp

/-- The walk of a token insert sets the leaf bit of the node it starts from
exactly when the key is empty. -/
theorem insert_token_walk_root_leaf (str : Option (List Nat)) (k : List Nat)
    (node : fsmtrie_node) (cnt : Nat) (r : fsmtrie_node × Nat × token_walk_end)
    (hn : node.isNull = false) (h : insert_token_walk str node cnt k = some r) :
    r.1.leaf = (node.leaf || decide (k = [])) := by
  cases k with
  | nil =>
    simp only [insert_token_walk] at h
    split at h
    · rename_i hl
      simp only [Option.some.injEq] at h; subst h
      simp [hl]
    · rename_i hl
      simp only [Option.some.injEq] at h; subst h
      cases node with
      | NULL => cases hn
      | mk _ _ _ _ _ _ _ => simp [markLeaf, fsmtrie_node.leaf]
  | cons t rest =>
    simp only [insert_token_walk] at h
    cases hg : _fsmtrie_get_token_idx node cnt t true with
    | none => rw [hg] at h; cases h
    | some g =>
      rw [hg] at h
      have hret := get_token_idx_ret node cnt t g hg
      have hl := get_token_idx_leaf node cnt t true g hg
      simp only [hret, if_false] at h
      split at h
      · cases h
      · simp only [Option.some.injEq] at h
        subst h
        simp only [leaf_setNode, List.cons_ne_nil, decide_False, Bool.or_false]
        split
        · simp [hl]
        · exact hl

/-- A token insert sets the leaf bit of the root exactly when it returns true
for the empty key. -/
theorem fsmtrie_insert_token_root_leaf (f f1 : fsmtrie) (k : List Nat)
    (str : Option (List Nat)) (b : Bool) (h : fsmtrie_insert_token f k str = some (b, f1)) :
    f1.root.leaf = (f.root.leaf || (b && decide (k = []))) := by
  by_cases hb : b = false
  · subst hb
    obtain ⟨e, he⟩ := fsmtrie_insert_token_rejected f f1 k str h
    rw [he]; simp
  · have hbt : b = true := by simpa using hb
    subst hbt
    unfold fsmtrie_insert_token at h
    split at h
    · simp at h
    · rename_i hroot
      simp only [Bool.not_eq_true] at hroot
      split at h
      · simp at h
      · split at h
        · simp at h
        · split at h
          · cases h
          · simp at h
          · rename_i root cnt hw
            simp only [Option.some.injEq, Prod.mk.injEq, true_and] at h
            rw [← h]
            simpa using insert_token_walk_root_leaf str k f.root f.nrnodes _ hroot hw
          · rename_i root cnt hw
            simp only [Option.some.injEq, Prod.mk.injEq, true_and] at h
            rw [← h]
            simpa using insert_token_walk_root_leaf str k f.root f.nrnodes _ hroot hw

/-- The root of a token trie is a leaf after a sequence of inserts exactly
when it was one before or an insert of the empty key returned true. -/
theorem token_root_leaf_run (ops : List (List Nat × Option (List Nat))) :
    ∀ f : fsmtrie, TokInv f → ∃ F, run_token_inserts f ops = some F ∧
      (F.root.leaf = true ↔
        f.root.leaf = true ∨ ∃ c ∈ accepted_token_inserts f ops, c.1 = []) := by
  induction ops with
  | nil => intro f _; exact ⟨f, rfl, by simp [accepted_token_inserts]⟩
  | cons c rest ih =>
    intro f hI
    obtain ⟨b, f1, h1, h2, _⟩ := TokInv_step f hI c.1 c.2
    obtain ⟨F, h3, h4⟩ := ih f1 h2
    have hl := fsmtrie_insert_token_root_leaf f f1 c.1 c.2 b h1
    refine ⟨F, by simp only [run_token_inserts, h1, h3], ?_⟩
    rw [h4, hl]
    simp only [accepted_token_inserts, h1]
    cases b with
    | false =>
      simp only [Bool.false_and, Bool.or_false, Bool.false_eq_true, if_false]
    | true =>
      simp only [Bool.true_and, Bool.or_eq_true, decide_eq_true_eq, if_true, List.mem_cons]
      constructor
      · rintro ((h | h) | ⟨c1, hc1, he⟩)
        · exact Or.inl h
        · exact Or.inr ⟨c, Or.inl rfl, h⟩
        · exact Or.inr ⟨c1, Or.inr hc1, he⟩
      · rintro (h | ⟨c1, hc1 | hc1, he⟩)
        · exact Or.inl (Or.inl h)
        · subst hc1; exact Or.inl (Or.inr he)
        · exact Or.inr ⟨c1, hc1, he⟩

theorem fsmtrie_init_root_leaf (o : Option fsmtrie_opt) (f0 : fsmtrie)
    (h : fsmtrie_init o = some f0) : f0.root.leaf = false := by
  unfold fsmtrie_init at h
  rcases o with _ | ⟨m, pm, ml⟩
  · simp at h; subst h; rfl
  · cases m
    · simp at h; subst h; rfl
    · simp at h; subst h; rfl
    · simp at h; obtain ⟨_, h⟩ := h; subst h; rfl

set_option maxRecDepth 100000 in
/-- C32 fails once the empty key, which no insert rejects, has been inserted:
on the fresh ASCII trie of scenario S1 the insert of the empty string,
followed by the inserts of the scenario, leaves the root a leaf, and so does
the insert of the key without tokens, followed by the insert of the key
(1, 2), on a fresh token trie; the exact search for the empty string then
returns 1. -/
theorem C32_root_leaf_after_empty_key :
    fsmtrie_init (some ⟨fsmtrie_mode_ascii, true, 64⟩) = some trie_S1 ∧
    accepted_inserts trie_S1 (([], none) :: calls_S1) = ([], none) :: calls_S1 ∧
    (run_inserts trie_S1 (([], none) :: calls_S1)).root.leaf = true ∧
    (fsmtrie_search (run_inserts trie_S1 (([], none) :: calls_S1)) (some []) none).ret = 1 ∧
    fsmtrie_init (some ⟨fsmtrie_mode_token, false, 0⟩) = some trie_tok ∧
    accepted_token_inserts trie_tok [([], none), ([1, 2], none)] =
      [([], none), ([1, 2], none)] ∧
    ∃ F, run_token_inserts trie_tok [([], none), ([1, 2], none)] = some F ∧
      F.root.leaf = true :=
  ⟨rfl, by decide, by decide, by decide, rfl, by decide, _, rfl, by decide⟩

/-- The only way to a leaf root: in every state reached from `fsmtrie_init` by
a sequence of `fsmtrie_insert` calls (on an ASCII or EASCII trie) or of
`fsmtrie_insert_token` calls (on a token trie), the root is a leaf exactly
when an insert of the empty key has returned true; a fresh trie has a root
that is not a leaf. -/
theorem root_leaf_iff_empty_key (o : Option fsmtrie_opt) (f0 : fsmtrie)
    (ops : List (List Nat × Option (List Nat))) (hinit : fsmtrie_init o = some f0) :
    f0.root.leaf = false ∧
    (f0.mode ≠ fsmtrie_mode_token → (∀ c ∈ ops, IsCStr c.1) →
      ((run_inserts f0 ops).root.leaf = true ↔ ∃ c ∈ accepted_inserts f0 ops, c.1 = [])) ∧
    (f0.mode = fsmtrie_mode_token →
      ∃ F, run_token_inserts f0 ops = some F ∧
        (F.root.leaf = true ↔ ∃ c ∈ accepted_token_inserts f0 ops, c.1 = [])) := by
  have h0 := fsmtrie_init_root_leaf o f0 hinit
  refine ⟨h0, fun hm hops => ?_, fun hm => ?_⟩
  · exact (Holds_reach o f0 ops hinit hm hops).leaf []
  · obtain ⟨F, h1, h2⟩ := token_root_leaf_run ops f0 (TokInv_init o f0 hinit hm)
    refine ⟨F, h1, ?_⟩
    rw [h2, h0]
    simp

/-! ### Sizes in the approximate search -/

set_option maxRecDepth 100000 in
/-- C33 fails when the size of the arena overflows: on the ASCII trie of the
test (`max_len` 64) with the key "a", the bound 561649569 gives
`2 * max_dist + 1 = 1123299139`, and `1123299139 * 65` is 3 modulo 2^32: the
arena has three cells, row 0 asks for 64, and the fourth `sim_row_append` of
the loop that fills row 0 fails its assertion. -/
theorem C33_arena_size_wraps :
    fsmtrie_init (some ⟨fsmtrie_mode_ascii, true, 64⟩) = some trie_S1 ∧
    (fsmtrie_insert trie_S1 (some [97]) (some [97])).1 = true ∧
    toInt32 ((toUInt32 (toInt32 (toUInt32 (2 * (561649569 : Int) + 1))) *
      ((trie_S1.max_len + 1) % 4294967296)) % 4294967296) = 3 ∧
    approx_init_row 561649569 3 (toInt32 trie_S1.max_len) ((561649569 : Int) + 1).toNat 0
      sim_row_first = none ∧
    approx_view (fsmtrie_search_approx (run_inserts trie_S1 [([97], some [97])]) [97]
      561649569 300) = some (none, []) := by
  refine ⟨rfl, by decide, by decide, by decide!, by decide!⟩

set_option maxRecDepth 100000 in
/-- C37 fails for a key that is longer than the query: on the ASCII trie of
the test (`max_len` 64) with the key "ab", the search for the query "a"
(`keylen` 1, so `chars` has two slots) with the bound 1 reports the key with
distance 1 and then descends to its node: the pass 196 of the loop executes
`chars[i++] = c + 1` with `i = 1` and `chars[i] = 0` with `i = 2`, and the
passes that follow read `chars[2]` and `chars[1]`. -/
theorem C37_chars_written_past_keylen :
    fsmtrie_init (some ⟨fsmtrie_mode_ascii, true, 64⟩) = some trie_S1 ∧
    (fsmtrie_insert trie_S1 (some [97, 98]) (some [97, 98])).1 = true ∧
    ([97] : List Nat).length = 1 ∧
    (approx_trace (run_inserts trie_S1 [([97, 98], some [97, 98])]) [97] 1 195).map
      (fun s => (s.node.isNull, s.i, s.c)) = some (false, 1, 98) ∧
    (approx_trace (run_inserts trie_S1 [([97, 98], some [97, 98])]) [97] 1 196).map
      (fun s => (s.node.isNull, s.i, s.c)) = some (false, 2, 1) ∧
    (approx_trace (run_inserts trie_S1 [([97, 98], some [97, 98])]) [97] 1 196).map
      (fun s => (s.chars 1, s.chars 2)) = some (99, 0) ∧
    (approx_trace (run_inserts trie_S1 [([97, 98], some [97, 98])]) [97] 1 196).map
      (fun s => s.out) = some [(some [97, 98], 1)] ∧
    approx_view (fsmtrie_search_approx (run_inserts trie_S1 [([97, 98], some [97, 98])]) [97]
      1 1000) = some (some 1, [(some [97, 98], 1)]) := by
  refine ⟨rfl, by decide, rfl, by decide!, by decide!, by decide!, by decide!, by decide!⟩


set_option maxRecDepth 100000 in
/-- C38 fails for a bound above the length of the query: the loop that fills
row 0 is bounded by `max_len`, not by `keylen`.  On the ASCII trie of the test
(`max_len` 64) with the key "a", the search for the query "a" (`keylen` 1,
a buffer of two bytes) with the bound 2 starts with the columns 0, 1, 2 in
row 0; pass 98 of the loop finds the child on `c = 97` and runs the loop over
`j` on these entries, reading `key_u[2]` behind the terminating NUL. -/
theorem C38_row_zero_past_keylen :
    fsmtrie_init (some ⟨fsmtrie_mode_ascii, true, 64⟩) = some trie_S1 ∧
    (fsmtrie_insert trie_S1 (some [97]) (some [97])).1 = true ∧
    ([97] : List Nat).length = 1 ∧
    (approx_trace (run_inserts trie_S1 [([97], some [97])]) [97] 2 0).map
      (fun s => ((s.rows 0).entries.map (fun e => e.index))) = some [0, 1, 2] ∧
    (approx_trace (run_inserts trie_S1 [([97], some [97])]) [97] 2 97).map
      (fun s => (s.node.isNull, s.i, s.c)) = some (false, 0, 97) ∧
    (approx_trace (run_inserts trie_S1 [([97], some [97])]) [97] 2 97).map
      (fun s => ((s.node.nodes s.c.toNat).isNull,
        (s.rows s.i.toNat).entries.map (fun e => e.index))) = some (false, [0, 1, 2]) ∧
    (approx_trace (run_inserts trie_S1 [([97], some [97])]) [97] 2 98).map
      (fun s => (s.i, (s.rows 1).entries.map (fun e => e.index))) = some (1, [0, 1]) ∧
    approx_view (fsmtrie_search_approx (run_inserts trie_S1 [([97], some [97])]) [97] 2 1000) =
      some (some 1, [(some [97], 0)]) := by
  refine ⟨rfl, by decide, rfl, by decide!, by decide!, by decide!, by decide!, by decide!⟩

/-! ### The order of the traversal of the approximate search -/

theorem lex_trans {a b c : List Nat} (h1 : List.Lex (fun a b : Nat => a < b) a b)
    (h2 : List.Lex (fun a b : Nat => a < b) b c) : List.Lex (fun a b : Nat => a < b) a c := by
  induction h1 generalizing c with
  | nil =>
    cases h2 with
    | cons _ => exact List.Lex.nil
    | rel _ => exact List.Lex.nil
  | cons _ ih =>
    cases h2 with
    | cons h => exact List.Lex.cons (ih h)
    | rel h => exact List.Lex.rel h
  | rel h =>
    cases h2 with
    | cons _ => exact List.Lex.rel h
    | rel h' => exact List.Lex.rel (Nat.lt_trans h h')

theorem lex_irrefl (a : List Nat) : ¬ List.Lex (fun a b : Nat => a < b) a a := by
  induction a with
  | nil => intro h; cases h
  | cons x l ih =>
    intro h
    cases h with
    | cons h => exact ih h
    | rel h => exact Nat.lt_irrefl _ h

theorem lex_snoc_succ (w : List Nat) (c : Nat) :
    List.Lex (fun a b : Nat => a < b) (w ++ [c]) (w ++ [c + 1]) :=
  List.Lex.append_left _ (List.Lex.rel (Nat.lt_succ_self c)) w

theorem lex_snoc_child (w : List Nat) (c c1 : Nat) :
    List.Lex (fun a b : Nat => a < b) (w ++ [c]) ((w ++ [c]) ++ [c1]) := by
  have h : List.Lex (fun a b : Nat => a < b) [c] [c, c1] := List.Lex.cons List.Lex.nil
  have := List.Lex.append_left (fun a b : Nat => a < b) h w
  simpa using this

theorem lex_snoc_exit (w : List Nat) (c0 c : Nat) :
    List.Lex (fun a b : Nat => a < b) ((w ++ [c0]) ++ [c]) (w ++ [c0 + 1]) := by
  have h : List.Lex (fun a b : Nat => a < b) [c0, c] [c0 + 1] :=
    List.Lex.rel (Nat.lt_succ_self c0)
  have := List.Lex.append_left (fun a b : Nat => a < b) h w
  simpa using this

theorem Increasing_nodup {f : fsmtrie} {out : List (Option (List Nat) × Int)}
    {L : List (List Nat)} (h : Increasing f out L) : L.Nodup :=
  h.2.1.imp (fun {a b} hab e => by subst e; exact lex_irrefl _ hab)

/-- The state in which the traversal starts satisfies the invariant. -/
theorem TravInv_start (f : fsmtrie) (row0 : sim_row) :
    TravInv f { node := f.root, i := 0, c := 0, chars := fun _ => 0, nodes := fun _ => NULL,
                rows := fun _ => row0, out := [] } :=
  ⟨[], ⟨rfl, List.Pairwise.nil, fun k hk => by cases hk⟩, Or.inr ⟨[],
    ⟨rfl, rfl, le_refl _, fun t ht => by simp at ht, fun t ht => by simp at ht, rfl⟩,
    fun k hk => by cases hk⟩⟩

/-- The state after `c++`. -/
theorem TravInv_next (f : fsmtrie) (s : approx_state) (rows1 : Nat → sim_row)
    (out1 : List (Option (List Nat) × Int)) (w : List Nat) (L1 : List (List Nat))
    (hw : AtPath f w s) (hL1 : Increasing f out1 L1)
    (hlt : ∀ k ∈ L1, k = w ++ [s.c.toNat] ∨
      List.Lex (fun a b : Nat => a < b) k (w ++ [s.c.toNat])) :
    TravInv f { s with rows := rows1, out := out1, c := s.c + 1 } := by
  have hc := hw.c_nonneg
  refine ⟨L1, hL1, Or.inr ⟨w, ⟨hw.node, hw.depth, ?_, hw.chars_ok, hw.nodes_ok, hw.nodes_zero⟩, ?_⟩⟩
  · show 0 ≤ s.c + 1
    omega
  · intro k hk
    show List.Lex _ k (w ++ [(s.c + 1).toNat])
    have e : (s.c + 1).toNat = s.c.toNat + 1 := by omega
    rw [e]
    rcases hlt k hk with h | h
    · rw [h]; exact lex_snoc_succ w _
    · exact lex_trans h (lex_snoc_succ w _)

/-- One pass of the loop keeps the invariant, whatever the rows hold. -/
theorem TravInv_step (f : fsmtrie) (hnr : f.nrnodes ≤ 255) (q : List Nat) (d end_ : Int)
    (s s1 : approx_state) (hI : TravInv f s) (hn : s.node.isNull = false)
    (hs : approx_step f q d end_ s = some s1) : TravInv f s1 := by
  obtain ⟨L, hL, hcase⟩ := hI
  rcases hcase with hnull | ⟨w, hw, hlt⟩
  · rw [hn] at hnull; cases hnull
  have hc0 := hw.c_nonneg
  have hi := hw.depth
  by_cases hc : s.c < (f.nrnodes : Int)
  · by_cases hch : (s.node.nodes s.c.toNat).isNull = true
    · rw [approx_step_null f q d end_ s hc hch, Option.some.injEq] at hs
      subst hs
      exact TravInv_next f s s.rows s.out w L hw hL (fun k hk => Or.inr (hlt k hk))
    · have hch' : (s.node.nodes s.c.toNat).isNull = false := by
        simpa using hch
      have hchild : s.node.nodes s.c.toNat = lookup f.root (w ++ [s.c.toNat]) := by
        rw [lookup_snoc, ← hw.node]
      simp only [approx_step, hc, if_true, hch', Bool.false_eq_true, if_false] at hs
      cases h1 : sim_row_next (s.rows s.i.toNat) end_ with
      | none => rw [h1] at hs; cases hs
      | some r0 =>
        rw [h1] at hs
        simp only at hs
        cases h2 : (if s.i < d then sim_row_append r0 end_ 0 (s.i + 1) else some r0) with
        | none => rw [h2] at hs; cases hs
        | some r1 =>
          rw [h2] at hs
          simp only at hs
          cases h3 : approx_row_loop q d end_ s.c s.i ((s.chars (s.i - 1).toNat : Nat) : Int)
              (s.rows (s.i - 1).toNat) (s.rows s.i.toNat).entries r1 with
          | none => rw [h3] at hs; cases hs
          | some r2 =>
            rw [h3] at hs
            simp only at hs
            cases h4 : sim_row_elem r2 0 with
            | none =>
              rw [h4] at hs
              simp only [Option.some.injEq] at hs
              subst hs
              exact TravInv_next f s _ s.out w L hw hL (fun k hk => Or.inr (hlt k hk))
            | some e0 =>
              rw [h4] at hs
              simp only at hs
              -- the callback invocation of the child
              have hout : ∃ L1, Increasing f
                  (if (s.node.nodes s.c.toNat).leaf then
                    match sim_row_last r2 with
                    | some l => if l.index = (q.length : Int) then
                        s.out ++ [((s.node.nodes s.c.toNat).str, l.value)] else s.out
                    | none => s.out
                   else s.out) L1 ∧
                  ∀ k ∈ L1, k = w ++ [s.c.toNat] ∨
                    List.Lex (fun a b : Nat => a < b) k (w ++ [s.c.toNat]) := by
                have hsame : ∃ L1, Increasing f s.out L1 ∧
                    ∀ k ∈ L1, k = w ++ [s.c.toNat] ∨
                      List.Lex (fun a b : Nat => a < b) k (w ++ [s.c.toNat]) :=
                  ⟨L, hL, fun k hk => Or.inr (hlt k hk)⟩
                by_cases hleaf : (s.node.nodes s.c.toNat).leaf = true
                · simp only [hleaf, if_true]
                  cases sim_row_last r2 with
                  | none => exact hsame
                  | some l =>
                    simp only
                    by_cases hidx : l.index = (q.length : Int)
                    · simp only [hidx, if_true]
                      refine ⟨L ++ [w ++ [s.c.toNat]], ⟨?_, ?_, ?_⟩, ?_⟩
                      · rw [List.map_append, List.map_append, hL.1, hchild]
                        rfl
                      · rw [List.pairwise_append]
                        refine ⟨hL.2.1, List.pairwise_singleton _ _, ?_⟩
                        intro a ha b hb
                        rw [List.mem_singleton] at hb
                        rw [hb]
                        exact hlt a ha
                      · intro k hk
                        rcases List.mem_append.1 hk with h | h
                        · exact hL.2.2 k h
                        · rw [List.mem_singleton] at h
                          rw [h, ← hchild]
                          exact hleaf
                      · intro k hk
                        rcases List.mem_append.1 hk with h | h
                        · exact Or.inr (hlt k h)
                        · rw [List.mem_singleton] at h
                          exact Or.inl h
                    · simp only [hidx, if_false]
                      exact hsame
                · simp only [hleaf, Bool.false_eq_true, if_false]
                  exact hsame
              obtain ⟨L1, hL1, hlt1⟩ := hout
              by_cases hd : s.i < toInt32 f.max_len
              · simp only [hd, if_true, Option.some.injEq] at hs
                subst hs
                refine ⟨L1, hL1, Or.inr ⟨w ++ [s.c.toNat], ⟨?_, ?_, ?_, ?_, ?_, ?_⟩, ?_⟩⟩
                · exact hchild
                · show s.i + 1 = ((w ++ [s.c.toNat]).length : Int)
                  rw [List.length_append, List.length_singleton]
                  push_cast
                  omega
                · show (0 : Int) ≤ 0 + 1
                  omega
                · intro t ht
                  rw [List.length_append, List.length_singleton] at ht
                  show Function.update (Function.update s.chars s.i.toNat ((s.c + 1).toNat % 256))
                    (s.i + 1).toNat 0 t = _
                  have e1 : s.i.toNat = w.length := by omega
                  have e2 : (s.i + 1).toNat = w.length + 1 := by omega
                  rw [e1, e2, Function.update_noteq (by omega)]
                  by_cases ht' : t = w.length
                  · subst ht'
                    rw [Function.update_same]
                    have : (s.c + 1).toNat = s.c.toNat + 1 := by omega
                    rw [this, Nat.mod_eq_of_lt (by omega)]
                    simp [List.getD_eq_getElem?_getD]
                  · rw [Function.update_noteq ht', hw.chars_ok t (by omega)]
                    simp [List.getD_eq_getElem?_getD, List.getElem?_append_left
                      (show t < w.length by omega)]
                · intro t ht
                  rw [List.length_append, List.length_singleton] at ht
                  show Function.update s.nodes (s.i + 1).toNat s.node (t + 1) = _
                  have e2 : (s.i + 1).toNat = w.length + 1 := by omega
                  rw [e2]
                  by_cases ht' : t = w.length
                  · subst ht'
                    rw [Function.update_same, List.take_left, hw.node]
                  · rw [Function.update_noteq (by omega), hw.nodes_ok t (by omega),
                      List.take_append_of_le_length (by omega)]
                · show Function.update s.nodes (s.i + 1).toNat s.node 0 = NULL
                  have e2 : (s.i + 1).toNat = w.length + 1 := by omega
                  rw [e2, Function.update_noteq (by omega)]
                  exact hw.nodes_zero
                · intro k hk
                  show List.Lex _ k ((w ++ [s.c.toNat]) ++ [((0 : Int) + 1).toNat])
                  rcases hlt1 k hk with h | h
                  · rw [h]; exact lex_snoc_child w _ _
                  · exact lex_trans h (lex_snoc_child w _ _)
              · simp only [hd, if_false, Option.some.injEq] at hs
                subst hs
                exact TravInv_next f s _ _ w L1 hw hL1 hlt1
  · rw [approx_step_exit f q d end_ s hc, Option.some.injEq] at hs
    subst hs
    refine ⟨L, hL, ?_⟩
    rcases List.eq_nil_or_concat w with hw0 | ⟨w0, c0, hw0⟩
    · left
      subst hw0
      show (s.nodes s.i.toNat).isNull = true
      have : s.i.toNat = 0 := by rw [hi]; rfl
      rw [this, hw.nodes_zero]
      rfl
    · right
      rw [List.concat_eq_append] at hw0
      subst hw0
      have hlen : (w0 ++ [c0]).length = w0.length + 1 := by simp
      rw [hlen] at hi
      have e1 : s.i.toNat = w0.length + 1 := by omega
      have e2 : (s.i - 1).toNat = w0.length := by omega
      have hch := hw.chars_ok w0.length (by omega)
      have hg : (w0 ++ [c0]).getD w0.length 0 = c0 := by simp [List.getD_eq_getElem?_getD]
      rw [hg] at hch
      refine ⟨w0, ⟨?_, ?_, ?_, ?_, ?_, hw.nodes_zero⟩, ?_⟩
      · show s.nodes s.i.toNat = _
        rw [e1, hw.nodes_ok w0.length (by omega), List.take_left]
      · show s.i - 1 = _
        omega
      · show (0 : Int) ≤ ((s.chars (s.i - 1).toNat : Nat) : Int)
        omega
      · intro t ht
        show s.chars t = _
        rw [hw.chars_ok t (by omega)]
        simp [List.getD_eq_getElem?_getD, List.getElem?_append_left ht]
      · intro t ht
        show s.nodes (t + 1) = _
        rw [hw.nodes_ok t (by omega), List.take_append_of_le_length (by omega)]
      · intro k hk
        show List.Lex _ k (w0 ++ [(((s.chars (s.i - 1).toNat : Nat) : Int)).toNat])
        rw [e2, hch]
        have : (((c0 + 1 : Nat) : Int)).toNat = c0 + 1 := by omega
        rw [this]
        exact lex_trans (hlt k hk) (lex_snoc_exit w0 c0 _)

theorem TravInv_passes (f : fsmtrie) (hnr : f.nrnodes ≤ 255) (q : List Nat) (d end_ : Int) :
    ∀ (n : Nat) (s s1 : approx_state), TravInv f s →
      approx_passes f q d end_ n s = some s1 → TravInv f s1 := by
  intro n
  induction n with
  | zero =>
    intro s s1 hI h
    simp only [approx_passes, Option.some.injEq] at h
    subst h; exact hI
  | succ n ih =>
    intro s s1 hI h
    simp only [approx_passes] at h
    by_cases hn : s.node.isNull = true
    · simp only [hn, if_true] at h; cases h
    · have hn' : s.node.isNull = false := by simpa using hn
      simp only [hn', Bool.false_eq_true, if_false] at h
      cases hs : approx_step f q d end_ s with
      | none => rw [hs] at h; cases h
      | some s2 =>
        rw [hs] at h
        exact ih s2 s1 (TravInv_step f hnr q d end_ s s2 hI hn' hs) h

theorem TravInv_run (f : fsmtrie) (hnr : f.nrnodes ≤ 255) (q : List Nat) (d end_ : Int) :
    ∀ (fuel : Nat) (s : approx_state) (ret : Option Int)
      (out : List (Option (List Nat) × Int)), TravInv f s →
      approx_view (approx_run f q d end_ fuel s) = some (ret, out) →
      ∃ L, Increasing f out L := by
  intro fuel
  induction fuel with
  | zero => intro s ret out _ h; simp [approx_run, approx_view] at h
  | succ fuel ih =>
    intro s ret out hI h
    simp only [approx_run] at h
    by_cases hn : s.node.isNull = true
    · simp only [hn, if_true, approx_view, Option.some.injEq, Prod.mk.injEq] at h
      obtain ⟨L, hL, _⟩ := hI
      rw [← h.2]
      exact ⟨L, hL⟩
    · have hn' : s.node.isNull = false := by simpa using hn
      simp only [hn', Bool.false_eq_true, if_false] at h
      cases hs : approx_step f q d end_ s with
      | none =>
        rw [hs] at h
        simp only [approx_view, Option.some.injEq, Prod.mk.injEq] at h
        obtain ⟨L, hL, _⟩ := hI
        rw [← h.2]
        exact ⟨L, hL⟩
      | some s2 =>
        rw [hs] at h
        exact ih s2 ret out (TravInv_step f hnr q d end_ s s2 hI hn' hs) h

/-- Every state of the traversal of `fsmtrie_search_approx` satisfies the
invariant. -/
theorem TravInv_trace (f : fsmtrie) (hnr : f.nrnodes ≤ 255) (q : List Nat) (d : Int) (n : Nat)
    (s : approx_state) (h : approx_trace f q d n = some s) : TravInv f s := by
  unfold approx_trace at h
  split at h
  · cases h
  · split at h
    · cases h
    · simp only at h
      split at h
      · cases h
      · exact TravInv_passes f hnr q d _ n _ s (TravInv_start f _) h

/-- The callback invocations of a call of `fsmtrie_search_approx` that has
ended, by a return or by a failed assertion, are in increasing order. -/
theorem TravInv_search (f : fsmtrie) (hnr : f.nrnodes ≤ 255) (q : List Nat) (d : Int) (fuel : Nat)
    (ret : Option Int) (out : List (Option (List Nat) × Int))
    (h : approx_view (fsmtrie_search_approx f q d fuel) = some (ret, out)) :
    ∃ L, Increasing f out L := by
  have hnil : ∃ L, Increasing f [] L := ⟨[], rfl, List.Pairwise.nil, fun k hk => by cases hk⟩
  unfold fsmtrie_search_approx at h
  split at h
  · simp only [approx_view, Option.some.injEq, Prod.mk.injEq] at h
    rw [← h.2]; exact hnil
  · split at h
    · simp only [approx_view, Option.some.injEq, Prod.mk.injEq] at h
      rw [← h.2]; exact hnil
    · simp only at h
      split at h
      · simp only [approx_view, Option.some.injEq, Prod.mk.injEq] at h
        rw [← h.2]; exact hnil
      · exact TravInv_run f hnr q d _ fuel _ ret out (TravInv_start f _) h

theorem Increasing_reports {f : fsmtrie} {A : List (List Nat × Option (List Nat))}
    (hH : Holds f A) {out : List (Option (List Nat) × Int)} {L : List (List Nat)}
    (h : Increasing f out L) :
    ReportsKeys A out L ∧ L.Pairwise (List.Lex (fun a b : Nat => a < b)) ∧ L.Nodup := by
  refine ⟨⟨?_, fun k hk => (hH.leaf k).1 (h.2.2 k hk)⟩, h.2.1, Increasing_nodup h⟩
  rw [h.1]
  apply List.map_congr_left
  intro k _
  exact hH.str k

/-- The order of the callback invocations in the traversal whose character
stack is large enough: on an ASCII trie built by inserts on a fresh trie, for
every query and every bound, the callback invocations of
`fsmtrie_search_approx` made up to any pass of the traversal, and those of a
call that has ended (by its return or by a failed assertion), report accepted
keys that are strictly increasing in bytewise lexicographic order, a key
before its extensions; so no key is reported twice. -/
theorem approx_emissions_increase (o : Option fsmtrie_opt) (f0 : fsmtrie)
    (ops : List (List Nat × Option (List Nat))) (q : List Nat) (d : Int)
    (hinit : fsmtrie_init o = some f0) (hascii : f0.mode = fsmtrie_mode_ascii)
    (hops : ∀ c ∈ ops, IsCStr c.1) :
    (∀ n s, approx_trace (run_inserts f0 ops) q d n = some s →
      ∃ L, ReportsKeys (accepted_inserts f0 ops) s.out L ∧
        L.Pairwise (List.Lex (fun a b : Nat => a < b)) ∧ L.Nodup) ∧
    (∀ fuel ret out,
      approx_view (fsmtrie_search_approx (run_inserts f0 ops) q d fuel) = some (ret, out) →
      ∃ L, ReportsKeys (accepted_inserts f0 ops) out L ∧
        L.Pairwise (List.Lex (fun a b : Nat => a < b)) ∧ L.Nodup) := by
  have hH := Holds_reach o f0 ops hinit (by rw [hascii]; decide) hops
  obtain ⟨_, hm, _, _⟩ := run_inserts_fixed ops f0
  have hnr : (run_inserts f0 ops).nrnodes ≤ 255 := by
    rcases hH.wf.size with ⟨_, hs⟩ | ⟨hm', _⟩
    · omega
    · rw [hm, hascii] at hm'; cases hm'
  constructor
  · intro n s h
    obtain ⟨L, hL, _⟩ := TravInv_trace _ hnr q d n s h
    exact ⟨L, Increasing_reports hH hL⟩
  · intro fuel ret out h
    obtain ⟨L, hL⟩ := TravInv_search _ hnr q d fuel ret out h
    exact ⟨L, Increasing_reports hH hL⟩


/-! ### The transposition test of the approximate search -/

/-- The descent step uses `chars[i - 1]` only in the test of the transposition
case: the body of the loop over `j` with that test named. -/
theorem approx_cell_transp_test (key : List Nat) (max_dist end_ c i prev : Int)
    (row_im1 : sim_row) (e : sim_entry) (above : Option sim_entry) (next : sim_row) :
    approx_cell key max_dist end_ c i prev row_im1 e above next =
      (let cost : Int := if c = key_at key e.index then 0 else 1
       let dist2 := neighbour_min above (e.index + 1)
         (neighbour_min (sim_row_last next) e.index (e.value + cost))
       let dist3 := if transp_test key c i prev e.index = true then
           transp_scan row_im1.entries e.index cost dist2 else dist2
       if dist3 ≤ max_dist ∧ e.index < (key.length : Int) then
         sim_row_append next end_ (e.index + 1) dist3
       else some next) := by
  simp only [approx_cell, transp_test, decide_eq_true_eq, neighbour_min]

set_option maxRecDepth 100000 in
/-- C35 fails: `chars[i - 1]` holds the symbol of the previous descent plus
one, so `chars[i - 1] - 1` is that symbol itself.  On the ASCII trie of the
test with the key "ab", the search for "ba" with the bound 1 goes down from
the root along the symbol 97 in pass 98 and leaves `chars[0] = 98`; at the
descent from depth 1 along `c = 98` the test for the entry in column 1 holds,
with `key[1] = 97 = chars[0] - 1` and `key[0] = 98 = c`, and it would not hold
if `chars[0]` were the symbol 97; the key "ab" is reported with distance 1. -/
theorem C35_previous_symbol_itself :
    fsmtrie_init (some ⟨fsmtrie_mode_ascii, true, 64⟩) = some trie_S1 ∧
    (fsmtrie_insert trie_S1 (some [97, 98]) (some [97, 98])).1 = true ∧
    (approx_trace (run_inserts trie_S1 [([97, 98], some [97, 98])]) [98, 97] 1 97).map
      (fun s => (s.node.isNull, s.i, s.c)) = some (false, 0, 97) ∧
    (approx_trace (run_inserts trie_S1 [([97, 98], some [97, 98])]) [98, 97] 1 98).map
      (fun s => (s.i, s.c, s.chars 0)) = some (1, 1, 98) ∧
    (approx_trace (run_inserts trie_S1 [([97, 98], some [97, 98])]) [98, 97] 1 195).map
      (fun s => (s.i, s.c, s.chars 0)) = some (1, 98, 98) ∧
    key_at [98, 97] 1 = 97 ∧ key_at [98, 97] 0 = 98 ∧
    transp_test [98, 97] 98 1 98 1 = true ∧
    transp_test [98, 97] 98 1 97 1 = false ∧
    approx_view (fsmtrie_search_approx (run_inserts trie_S1 [([97, 98], some [97, 98])]) [98, 97]
      1 1000) = some (some 1, [(some [97, 98], 1)]) := by
  refine ⟨rfl, by decide, by decide!, by decide!, by decide!, by decide, by decide, by decide,
    by decide, by decide!⟩

/-- C35 amended: in every state of the traversal of `fsmtrie_search_approx` on
an ASCII trie built by inserts, at a depth `i > 0`, the current node is the
child of the node `nodes[i]` on a symbol `p`, the symbol of the previous
descent, and `chars[i - 1]` is `p + 1`.  So the transposition case for the
entry in column `index`, in the descent along `c`, is taken exactly when
`index > 0`, `key[index] = p` and `key[index - 1] = c`: the classical rule. -/
theorem C35_transposition_test (o : Option fsmtrie_opt) (f0 : fsmtrie)
    (ops : List (List Nat × Option (List Nat))) (q : List Nat) (d : Int) (n : Nat)
    (s : approx_state)
    (hinit : fsmtrie_init o = some f0) (hascii : f0.mode = fsmtrie_mode_ascii)
    (hops : ∀ c ∈ ops, IsCStr c.1)
    (hs : approx_trace (run_inserts f0 ops) q d n = some s) (hn : s.node.isNull = false)
    (hi : 0 < s.i) :
    ∃ (w : List Nat) (p : Nat), s.i = (w.length : Int) + 1 ∧
      s.nodes s.i.toNat = lookup (run_inserts f0 ops).root w ∧
      s.node = (s.nodes s.i.toNat).nodes p ∧ s.chars (s.i - 1).toNat = p + 1 ∧
      ∀ c index, transp_test q c s.i ((s.chars (s.i - 1).toNat : Nat) : Int) index = true ↔
        (index > 0 ∧ key_at q index = (p : Int) ∧ key_at q (index - 1) = c) := by
  have hH := Holds_reach o f0 ops hinit (by rw [hascii]; decide) hops
  obtain ⟨_, hm, _, _⟩ := run_inserts_fixed ops f0
  have hnr : (run_inserts f0 ops).nrnodes ≤ 255 := by
    rcases hH.wf.size with ⟨_, hs⟩ | ⟨hm', _⟩
    · omega
    · rw [hm, hascii] at hm'; cases hm'
  obtain ⟨L, _, hcase⟩ := TravInv_trace _ hnr q d n s hs
  rcases hcase with hnull | ⟨w, hw, _⟩
  · rw [hn] at hnull; cases hnull
  rcases List.eq_nil_or_concat w with hw0 | ⟨w0, p, hw0⟩
  · subst hw0
    have := hw.depth
    simp only [List.length_nil, Nat.cast_zero] at this
    omega
  · rw [List.concat_eq_append] at hw0
    subst hw0
    have hlen : (w0 ++ [p]).length = w0.length + 1 := by simp
    have hd := hw.depth
    rw [hlen] at hd
    have e1 : s.i.toNat = w0.length + 1 := by omega
    have e2 : (s.i - 1).toNat = w0.length := by omega
    have hch := hw.chars_ok w0.length (by omega)
    have hg : (w0 ++ [p]).getD w0.length 0 = p := by simp [List.getD_eq_getElem?_getD]
    rw [hg] at hch
    have hnodes : s.nodes s.i.toNat = lookup (run_inserts f0 ops).root w0 := by
      rw [e1, hw.nodes_ok w0.length (by omega), List.take_left]
    refine ⟨w0, p, by push_cast at hd; omega, hnodes, ?_, by rw [e2, hch], ?_⟩
    · rw [hnodes, hw.node, lookup_snoc]
    · intro c index
      rw [e2, hch]
      simp only [transp_test, decide_eq_true_eq]
      constructor
      · rintro ⟨_, h1, h2, h3⟩
        exact ⟨h1, by rw [h2]; push_cast; omega, h3⟩
      · rintro ⟨h1, h2, h3⟩
        exact ⟨hi, h1, by rw [h2]; push_cast; omega, h3⟩

theorem some_getD_of_isSome {α : Type} (o : Option α) (x : α) (h : o.isSome = true) :
    o = some (o.getD x) := by
  cases o with
  | none => cases h
  | some a => rfl

set_option maxRecDepth 100000 in
theorem C35_transposition_test_witness :
    fsmtrie_init (some ⟨fsmtrie_mode_ascii, true, 64⟩) = some trie_S1 ∧
    trie_S1.mode = fsmtrie_mode_ascii ∧
    (∀ c ∈ [(([97, 98] : List Nat), some ([97, 98] : List Nat))], IsCStr c.1) ∧
    approx_trace (run_inserts trie_S1 [([97, 98], some [97, 98])]) [98, 97] 1 195 =
      some state_ba ∧
    state_ba.node.isNull = false ∧ 0 < state_ba.i ∧
    ∃ (w : List Nat) (p : Nat), state_ba.i = (w.length : Int) + 1 ∧
      state_ba.nodes state_ba.i.toNat =
        lookup (run_inserts trie_S1 [([97, 98], some [97, 98])]).root w ∧
      state_ba.node = (state_ba.nodes state_ba.i.toNat).nodes p ∧
      state_ba.chars (state_ba.i - 1).toNat = p + 1 ∧
      ∀ c index,
        transp_test [98, 97] c state_ba.i ((state_ba.chars (state_ba.i - 1).toNat : Nat) : Int)
          index = true ↔
        (index > 0 ∧ key_at [98, 97] index = (p : Int) ∧ key_at [98, 97] (index - 1) = c) :=
  ⟨rfl, rfl, by decide, some_getD_of_isSome _ _ (by decide!), by decide!, by decide!,
   C35_transposition_test (some ⟨fsmtrie_mode_ascii, true, 64⟩) trie_S1
    [([97, 98], some [97, 98])] [98, 97] 1 195 state_ba rfl rfl (by decide)
    (some_getD_of_isSome _ _ (by decide!)) (by decide!) (by decide!)⟩

/-! ### The queue of the compilation -/

theorem ac_root_loop_log_fst : ∀ (cs : List Nat) (R : fsmtrie_node) (q : _fsmtrie_nodeq)
    (enq : List (List Nat)),
    (ac_root_loop_log cs ((R, q), enq)).bind (fun r => outcome.ok r.1) =
      ac_root_loop cs (R, q) := by
  intro cs
  induction cs with
  | nil => intro R q enq; rfl
  | cons c cs ih =>
    intro R q enq
    simp only [ac_root_loop_log, ac_root_loop]
    split
    · exact ih R q enq
    · cases _fsmtrie_nodeq_enqueue q [c] with
      | none => rfl
      | some q1 => exact ih _ q1 _

theorem ac_node_loop_log_fst (fuel : Nat) (node : List Nat) :
    ∀ (cs : List Nat) (s : fsmtrie_node × _fsmtrie_nodeq) (enq : List (List Nat)),
    (ac_node_loop_log fuel node cs (s, enq)).bind (fun r => outcome.ok r.1) =
      ac_node_loop fuel node cs s := by
  intro cs
  induction cs with
  | nil => intro s enq; rfl
  | cons c cs ih =>
    intro s enq
    simp only [ac_node_loop_log, ac_node_loop]
    split
    · exact ih s enq
    · cases ac_child fuel node c s with
      | ok s1 => simp only [outcome.bind]; exact ih s1 _
      | aborted => rfl
      | no_fuel => rfl

theorem ac_while_log_fst (nr scan : Nat) :
    ∀ (fuel : Nat) (s : fsmtrie_node × _fsmtrie_nodeq) (enq deq : List (List Nat)),
    (ac_while_log nr scan fuel (s, enq) deq).bind (fun r => outcome.ok r.1.1) =
      ac_while nr scan fuel s := by
  intro fuel
  induction fuel with
  | zero => intro s enq deq; rfl
  | succ fuel ih =>
    intro s enq deq
    simp only [ac_while_log, ac_while]
    split
    · rfl
    · cases (_fsmtrie_nodeq_dequeue s.2).1 with
      | none => rfl
      | some node =>
        simp only []
        rw [← ac_node_loop_log_fst scan node (List.range nr) (s.1, (_fsmtrie_nodeq_dequeue s.2).2)
          enq]
        cases ac_node_loop_log scan node (List.range nr)
            ((s.1, (_fsmtrie_nodeq_dequeue s.2).2), enq) with
        | ok s1 => simp only [outcome.bind]; exact ih s1.1 s1.2 _
        | aborted => rfl
        | no_fuel => rfl

/-- The function `_fsmtrie_ac_compile` is its logged variant without the
logs. -/
theorem ac_compile_log_fst (f : fsmtrie) (fuel : Nat) :
    (ac_compile_log f fuel).bind (fun t => outcome.ok t.f) = _fsmtrie_ac_compile f fuel := by
  simp only [ac_compile_log, _fsmtrie_ac_compile]
  rw [← ac_root_loop_log_fst (List.range f.nrnodes) _ _ []]
  cases ac_root_loop_log (List.range f.nrnodes)
      ((update_at f.root [] (fun n => n.setSuffix none),
        _fsmtrie_nodeq_init (toInt32 (2 * f.node_cnt))), []) with
  | ok s =>
    simp only [outcome.bind]
    rw [← ac_while_log_fst f.nrnodes fuel fuel s.1 s.2 []]
    cases ac_while_log f.nrnodes fuel fuel (s.1, s.2) [] with
    | ok r => rfl
    | aborted => rfl
    | no_fuel => rfl
  | aborted => rfl
  | no_fuel => rfl

/-- The first loop of the compilation over the slots `m, ..., m + k - 1` of
the root: the log holds the queued nodes. -/
theorem ac_root_loop_log_spec {R0 : fsmtrie_node} {N : Nat} (hroot : InT R0 [])
    (hcnt : ∀ L : List (List Nat), L.Nodup → (∀ w ∈ L, InT R0 w ∧ w ≠ []) → L.length ≤ N)
    (ho1 : ∀ c, (lookup R0 [c]).output = (lookup R0 [c]).leaf) :
    ∀ (k m : Nat) (R : fsmtrie_node) (Q : List (List Nat)) (q : _fsmtrie_nodeq),
      BInv R0 R [] Q [] m → QRep q N [] Q →
      ∃ R1 Q1 q1, ac_root_loop_log (List.range' m k) ((R, q), Q) = outcome.ok ((R1, q1), Q1) ∧
        BInv R0 R1 [] Q1 [] (m + k) ∧ QRep q1 N [] Q1 := by
  intro k
  induction k with
  | zero => intro m R Q q h hq; exact ⟨R, Q, q, rfl, h, hq⟩
  | succ k ih =>
    intro m R Q q h hq
    simp only [List.range'_succ, ac_root_loop_log]
    by_cases hn : (R.nodes m).isNull = true
    · simp only [hn, if_true]
      have hp : ¬ InT R0 ([] ++ [m]) := by
        intro hin
        have : (lookup R [m]).isNull = false := by rw [(h.skel _).1]; exact hin
        rw [show lookup R [m] = R.nodes m from rfl, hn] at this; cases this
      obtain ⟨R1, Q1, q1, h1, h2, h3⟩ := ih (m + 1) R Q q (h.skip hp) hq
      exact ⟨R1, Q1, q1, h1, by rw [Nat.add_succ, ← Nat.succ_add]; exact h2, h3⟩
    · simp only [hn, if_false]
      have hp : InT R0 [m] := by
        have : (lookup R [m]).isNull = false := by
          simpa [show lookup R [m] = R.nodes m from rfl] using hn
        rw [(h.skel _).1] at this; exact this
      obtain ⟨q1, hq1, hb, hq1r⟩ := ac_root_step h hroot hp hq hcnt (ho1 m)
      simp only [hq1]
      obtain ⟨R1, Q1, q2, h1, h2, h3⟩ := ih (m + 1) _ _ q1 hb hq1r
      exact ⟨R1, Q1, q2, h1, by rw [Nat.add_succ, ← Nat.succ_add]; exact h2, h3⟩

/-- The loop over the slots `m, ..., m + k - 1` of a dequeued node: the log
holds the dequeued nodes followed by the queued ones. -/
theorem ac_node_loop_log_spec {R0 : fsmtrie_node} {N : Nat} {V : List (List Nat)} {u : List Nat}
    (fuel : Nat) (hroot : InT R0 [])
    (hcnt : ∀ L : List (List Nat), L.Nodup → (∀ w ∈ L, InT R0 w ∧ w ≠ []) → L.length ≤ N)
    (hu : u ∈ V) (hfuel : N + 1 ≤ fuel) :
    ∀ (k m : Nat) (R : fsmtrie_node) (Q : List (List Nat)) (q : _fsmtrie_nodeq),
      BInv R0 R V Q u m → QRep q N V Q →
      ∃ R1 Q1 q1, ac_node_loop_log fuel u (List.range' m k) ((R, q), V ++ Q) =
          outcome.ok ((R1, q1), V ++ Q1) ∧
        BInv R0 R1 V Q1 u (m + k) ∧ QRep q1 N V Q1 := by
  intro k
  induction k with
  | zero => intro m R Q q h hq; exact ⟨R, Q, q, rfl, h, hq⟩
  | succ k ih =>
    intro m R Q q h hq
    simp only [List.range'_succ, ac_node_loop_log]
    by_cases hn : (lookup R (u ++ [m])).isNull = true
    · simp only [hn, if_true]
      have hp : ¬ InT R0 (u ++ [m]) := by
        intro hin
        have : (lookup R (u ++ [m])).isNull = false := by rw [(h.skel _).1]; exact hin
        rw [hn] at this; cases this
      obtain ⟨R1, Q1, q1, h1, h2, h3⟩ := ih (m + 1) R Q q (h.skip hp) hq
      exact ⟨R1, Q1, q1, h1, by rw [Nat.add_succ, ← Nat.succ_add]; exact h2, h3⟩
    · simp only [hn, if_false]
      have hp : InT R0 (u ++ [m]) := by
        have : (lookup R (u ++ [m])).isNull = false := by simpa using hn
        rw [(h.skel _).1] at this; exact this
      obtain ⟨R1, q1, hc, hb, hq1r⟩ := ac_child_spec fuel h hu hroot hp hq hcnt hfuel
      rw [hc]
      simp only [outcome.bind]
      obtain ⟨R2, Q2, q2, h1, h2, h3⟩ := ih (m + 1) R1 _ q1 hb hq1r
      rw [List.append_assoc]
      exact ⟨R2, Q2, q2, h1, by rw [Nat.add_succ, ← Nat.succ_add]; exact h2, h3⟩

/-- The `while` loop of the compilation ends with an empty queue that has not
wrapped around: every node below the root has been enqueued once and dequeued
once. -/
theorem ac_while_log_spec {R0 : fsmtrie_node} {N : Nat} (nr scan : Nat) (hroot : InT R0 [])
    (hcnt : ∀ L : List (List Nat), L.Nodup → (∀ w ∈ L, InT R0 w ∧ w ≠ []) → L.length ≤ N)
    (halpha : ∀ w c, InT R0 (w ++ [c]) → c < nr) (hscan : N + 1 ≤ scan) :
    ∀ (fuel : Nat) (V Q : List (List Nat)) (R : fsmtrie_node) (q : _fsmtrie_nodeq)
      (u : List Nat), BInv R0 R V Q u nr → QRep q N V Q → N + 1 ≤ fuel + V.length →
      ∃ R1 q1 L, ac_while_log nr scan fuel ((R, q), V ++ Q) V = outcome.ok ((R1, q1), L, L) ∧
        L.Nodup ∧ (∀ w, w ∈ L ↔ InT R0 w ∧ w ≠ []) ∧ QRep q1 N L [] := by
  intro fuel
  induction fuel with
  | zero =>
    intro V Q R q u h _ hf
    have := h.count hcnt
    omega
  | succ fuel ih =>
    intro V Q R q u h hq hf
    cases Q with
    | nil =>
      refine ⟨R, q, V, by simp only [ac_while_log, hq.empty, if_true, List.append_nil], ?_, ?_,
        hq⟩
      · simpa using h.nodup
      · intro w
        constructor
        · intro hw
          have := h.mem w (List.mem_append_left _ hw)
          exact ⟨this.1, this.2.1⟩
        · rintro ⟨hw, hne⟩
          rcases h.cover w hw hne with h1 | ⟨a, ha, _⟩ | ⟨c, hc, t, ht⟩
          · simpa using h1
          · cases ha
          · have := halpha u c (InT_of_append R0 _ t (ht ▸ hw))
            omega
    | cons u1 Q =>
      have hcount := h.count hcnt
      simp only [List.length_cons] at hcount
      obtain ⟨he, hd, hqr⟩ := hq.dequeue (by omega)
      have hb := h.next (Nat.le_refl nr) halpha
      obtain ⟨R1, Q1, q1, h1, h2, h3⟩ := ac_node_loop_log_spec scan hroot hcnt
        (List.mem_append_right V (List.mem_singleton_self u1)) hscan nr 0 R Q _ hb hqr
      have e : V ++ u1 :: Q = (V ++ [u1]) ++ Q := by simp
      simp only [ac_while_log, he, Bool.false_eq_true, if_false, hd, List.range_eq_range', e, h1,
        outcome.bind]
      rw [Nat.zero_add] at h2
      exact ih _ _ R1 q1 u1 h2 h3 (by simp only [List.length_append, List.length_singleton]; omega)

/-- The logged compilation of a trie: it returns with the queue empty, its
head and tail at the number of nodes below the root. -/
theorem ac_compile_log_spec (f : fsmtrie) (hroot : f.root.isNull = false)
    (halpha : ∀ w c, InT f.root (w ++ [c]) → c < f.nrnodes)
    (ho1 : ∀ c, (f.root.nodes c).output = (f.root.nodes c).leaf)
    (hcnt : ∀ L : List (List Nat), L.Nodup → (∀ w ∈ L, InT f.root w ∧ w ≠ []) →
      L.length ≤ f.node_cnt)
    (hsz : 2 * f.node_cnt < 2147483648)
    (fuel : Nat) (hfuel : f.node_cnt + 1 ≤ fuel) :
    ∃ t, ac_compile_log f fuel = outcome.ok t ∧ t.dequeued = t.enqueued ∧ t.enqueued.Nodup ∧
      (∀ w, w ∈ t.enqueued ↔ InT f.root w ∧ w ≠ []) ∧
      QRep t.queue f.node_cnt t.enqueued [] := by
  have hg := HeaderOnly_setSuffix none
  have hinit : BInv f.root (update_at f.root [] (fun n => n.setSuffix none)) [] [] [] 0 := by
    refine ⟨(Skel.refl f.root).update _ hg [], ?_, ?_, by simp, by simp, by simp, by simp,
      by simp, by simp, Or.inl rfl, ?_⟩
    · intro w _
      obtain ⟨_, _, _, _, h2⟩ := lookup_update_at _ hg [] f.root w
      rw [h2]; split
      · rename_i e; subst e; simp
      · rfl
    · rw [(upd_self _ hg [] f.root).1]; simp
    · intro w _ hne
      cases w with
      | nil => exact absurd rfl hne
      | cons c w => exact Or.inr (Or.inr ⟨c, Nat.zero_le _, ⟨w, rfl⟩⟩)
  have hq0 : QRep (_fsmtrie_nodeq_init (toInt32 (2 * f.node_cnt))) f.node_cnt [] [] :=
    ⟨by rw [toInt32_of_lt _ hsz]; simp [_fsmtrie_nodeq_init], rfl, rfl,
      fun i x hx => by simp at hx⟩
  obtain ⟨R1, Q1, q1, h1, h2, h3⟩ := ac_root_loop_log_spec (N := f.node_cnt) hroot hcnt ho1
    f.nrnodes 0 _ _ _ hinit hq0
  rw [Nat.zero_add] at h2
  obtain ⟨R2, q2, L, h4, h5, h6, h7⟩ := ac_while_log_spec f.nrnodes fuel hroot hcnt halpha hfuel
    fuel [] Q1 R1 q1 [] h2 h3 (by simpa using hfuel)
  simp only [List.nil_append] at h4
  exact ⟨compile_trace.mk { f with root := R2, ac_compiled := true } q2 L L,
    by simp only [ac_compile_log, List.range_eq_range', h1, outcome.bind, h4], rfl, h5, h6, h7⟩

/-- C36: after any sequence of `fsmtrie_insert` calls on a fresh ASCII or
EASCII trie that leaves at least one node below the root (and less than 2^30,
the queue size `2 * node_cnt` being an `int`), `_fsmtrie_ac_compile` returns
with enough fuel: no call of `_fsmtrie_nodeq_enqueue` fails and no call of
`_fsmtrie_nodeq_dequeue` returns `NULL`.  The nodes passed to
`_fsmtrie_nodeq_enqueue` are the nodes below the root, each once; they are
`node_cnt` in number, half the size of the queue, and they are dequeued in
the order in which they were enqueued. -/
theorem C36_queue_never_fills (o : Option fsmtrie_opt) (f0 : fsmtrie)
    (ops : List (List Nat × Option (List Nat)))
    (hinit : fsmtrie_init o = some f0) (hmode : f0.mode ≠ fsmtrie_mode_token)
    (hops : ∀ c ∈ ops, IsCStr c.1) (hpos : 1 ≤ (run_inserts f0 ops).node_cnt)
    (hsz : (run_inserts f0 ops).node_cnt < 1073741824) :
    ∃ N, ∀ fuel, N ≤ fuel → ∃ t,
      ac_compile_log (run_inserts f0 ops) fuel = outcome.ok t ∧
      _fsmtrie_ac_compile (run_inserts f0 ops) fuel = outcome.ok t.f ∧
      t.enqueued.Nodup ∧
      (∀ w, w ∈ t.enqueued ↔ w ≠ [] ∧ (lookup (run_inserts f0 ops).root w).isNull = false) ∧
      t.dequeued = t.enqueued ∧
      t.enqueued.length = (run_inserts f0 ops).node_cnt ∧
      t.queue.size = 2 * ((run_inserts f0 ops).node_cnt : Int) ∧
      t.queue.head = ((run_inserts f0 ops).node_cnt : Int) ∧
      t.queue.tail = ((run_inserts f0 ops).node_cnt : Int) := by
  have hH := Holds_reach o f0 ops hinit hmode hops
  have hcnt := node_cnt_run ops f0 [] (Holds_init o f0 hinit hmode) hops
    (by rw [(fsmtrie_init_counts o f0 hinit).2]; rfl)
  simp only [List.nil_append] at hcnt
  have ho1 := out1_run ops f0 [] (Holds_init o f0 hinit hmode) hops
    (fun c => by rw [fsmtrie_init_root o f0 hinit]; rfl)
  have halpha : ∀ w c, InT (run_inserts f0 ops).root (w ++ [c]) →
      c < (run_inserts f0 ops).nrnodes := by
    intro w c hin
    rcases (hH.exist (w ++ [c])).1 hin with e | ⟨k, hk, hpre⟩
    · simp at e
    · apply accepts_bytes _ hH.wf k.1 (hH.acc k hk).1 (hH.acc k hk).2
      exact hpre.subset (by simp)
  have hnode : ∀ w, w ∈ nonempty_prefixes ((accepted_inserts f0 ops).map Prod.fst) ↔
      InT (run_inserts f0 ops).root w ∧ w ≠ [] := by
    intro w
    rw [mem_nonempty_prefixes]
    constructor
    · rintro ⟨h1, k, hk, hp⟩
      rw [List.mem_map] at hk
      obtain ⟨c, hc, rfl⟩ := hk
      exact ⟨(hH.exist w).2 (Or.inr ⟨c, hc, hp⟩), h1⟩
    · rintro ⟨h1, h2⟩
      rcases (hH.exist w).1 h1 with e | ⟨c, hc, hp⟩
      · exact absurd e h2
      · exact ⟨h2, c.1, List.mem_map.2 ⟨c, hc, rfl⟩, hp⟩
  have hbound : ∀ L : List (List Nat), L.Nodup →
      (∀ w ∈ L, InT (run_inserts f0 ops).root w ∧ w ≠ []) →
      L.length ≤ (run_inserts f0 ops).node_cnt := by
    intro L hL hmem
    rw [hcnt, ← List.toFinset_card_of_nodup hL]
    apply Finset.card_le_card
    intro w hw
    rw [List.mem_toFinset] at hw ⊢
    exact (hnode w).2 (hmem w hw)
  refine ⟨(run_inserts f0 ops).node_cnt + 1, fun fuel hfuel => ?_⟩
  obtain ⟨t, h1, h2, h3, h4, h5⟩ := ac_compile_log_spec (run_inserts f0 ops) hH.wf.root halpha
    ho1 hbound (by omega) fuel hfuel
  have hlen : t.enqueued.length = (run_inserts f0 ops).node_cnt := by
    rw [hcnt, ← List.toFinset_card_of_nodup h3]
    congr 1
    ext w
    rw [List.mem_toFinset, List.mem_toFinset, h4, hnode]
  refine ⟨t, h1, ?_, h3, fun w => ?_, h2, hlen, h5.size, ?_, ?_⟩
  · rw [← ac_compile_log_fst, h1]
    rfl
  · rw [h4]
    exact ⟨fun h => ⟨h.2, h.1⟩, fun h => ⟨h.2, h.1⟩⟩
  · rw [h5.head, hlen]
  · rw [h5.tail, List.length_nil, Nat.add_zero, hlen]

set_option maxRecDepth 100000 in
theorem C36_queue_never_fills_witness :
    fsmtrie_init (some ⟨fsmtrie_mode_ascii, true, 64⟩) = some trie_S1 ∧
    trie_S1.mode ≠ fsmtrie_mode_token ∧ (∀ c ∈ calls_S1, IsCStr c.1) ∧
    1 ≤ (run_inserts trie_S1 calls_S1).node_cnt ∧
    (run_inserts trie_S1 calls_S1).node_cnt < 1073741824 ∧
    ∃ N, ∀ fuel, N ≤ fuel → ∃ t,
      ac_compile_log (run_inserts trie_S1 calls_S1) fuel = outcome.ok t ∧
      _fsmtrie_ac_compile (run_inserts trie_S1 calls_S1) fuel = outcome.ok t.f ∧
      t.enqueued.Nodup ∧
      (∀ w, w ∈ t.enqueued ↔
        w ≠ [] ∧ (lookup (run_inserts trie_S1 calls_S1).root w).isNull = false) ∧
      t.dequeued = t.enqueued ∧
      t.enqueued.length = (run_inserts trie_S1 calls_S1).node_cnt ∧
      t.queue.size = 2 * ((run_inserts trie_S1 calls_S1).node_cnt : Int) ∧
      t.queue.head = ((run_inserts trie_S1 calls_S1).node_cnt : Int) ∧
      t.queue.tail = ((run_inserts trie_S1 calls_S1).node_cnt : Int) :=
  ⟨rfl, by decide, by decide, by decide, by decide,
   C36_queue_never_fills (some ⟨fsmtrie_mode_ascii, true, 64⟩) trie_S1 calls_S1 rfl (by decide)
     (by decide) (by decide) (by decide)⟩

/-! ### Token inserts at the wrap of a child count -/

/-- The insert of a one token key that is not among the children of the root:
the call returns true, the new leaf sits in the slot `p` that
`_fsmtrie_get_token_idx` has made, and the 16 bit child count is incremented. -/
theorem insert_single_token_root (f : fsmtrie) (hroot : f.root.isNull = false)
    (hmode : f.mode = fsmtrie_mode_token) (hml : f.max_len = 0)
    (hs : SortedKids f.root f.nrnodes) (t : Nat)
    (habs : ∀ i, i < f.nrnodes → (f.root.nodes i).tval ≠ t) (s : Option (List Nat)) :
    ∃ p f1, p ≤ f.nrnodes ∧ (∀ i, i < p → (f.root.nodes i).tval < t) ∧
      (∀ i, p ≤ i → i < f.nrnodes → t < (f.root.nodes i).tval) ∧
      fsmtrie_insert_token f [t] s = some (true, f1) ∧
      f1.nrnodes = (f.nrnodes + 1) % 65536 ∧ f1.mode = fsmtrie_mode_token ∧ f1.max_len = 0 ∧
      f1.root.isNull = false ∧
      (∀ i, i < p → f1.root.nodes i = f.root.nodes i) ∧
      (∀ i, p < i → i ≤ f.nrnodes → f1.root.nodes i = f.root.nodes (i - 1)) ∧
      (∀ i, f.nrnodes < i → f1.root.nodes i = NULL) ∧
      (f1.root.nodes p).isNull = false ∧ (f1.root.nodes p).tval = t ∧
      (f1.root.nodes p).leaf = true ∧ (f1.root.nodes p).nnodes = 0 := by
  have hmode' : ¬ (f.mode ≠ fsmtrie_mode_token) := by simp [hmode]
  rcases get_token_idx_spec f.root t f.nrnodes hs with ⟨m, hm, hmt, _⟩ | ⟨p, hp, hlow, hup, hget⟩
  · exact absurd hmt (habs m hm)
  · have hw : insert_token_walk s f.root f.nrnodes [t] =
        some ((token_make_room f.root f.nrnodes p).setNode p
          ((((_fsmtrie_node_new fsmtrie_mode_token).1.setTval t).markLeaf s).setNnodes 0),
          (f.nrnodes + 1) % 65536, token_walk_end.added) := by
      simp only [insert_token_walk, hget, Option.getD_some]
      simp only [show ¬ ((1 : Int) < 0) by omega, show ((1 : Int) > 0) by omega, if_false,
        if_true, nodes_setNode, isNull_make_room, hroot, Bool.false_eq_true, leaf_setTval,
        node_new_leaf, nnodes_setTval, node_new_nnodes]
      have hsame : ∀ (x y : fsmtrie_node),
          ((token_make_room f.root f.nrnodes p).setNode p x).setNode p y
            = (token_make_room f.root f.nrnodes p).setNode p y := by
        intro x y
        cases f.root with
        | NULL => rfl
        | mk s l o st tv n ns => simp [token_make_room, setNode]
      simp [hsame]
    refine ⟨p,
      { f with
        root := ((token_make_room f.root f.nrnodes p).setNode p
          ((((_fsmtrie_node_new fsmtrie_mode_token).1.setTval t).markLeaf s).setNnodes 0)),
        nrnodes := (f.nrnodes + 1) % 65536, node_cnt := f.node_cnt + 1, ac_compiled := false,
        key_cnt := f.key_cnt + 1 }, hp, hlow, hup, ?_, rfl, hmode, hml, by simp [hroot],
      fun i hi => ?_, fun i h1 h2 => ?_, fun i hi => ?_, ?_, ?_, ?_, ?_⟩
    · simp only [fsmtrie_insert_token, hroot, Bool.false_eq_true, if_false, hmode', hml,
        gt_iff_lt, lt_irrefl, false_and, hw]
    · show ((token_make_room f.root f.nrnodes p).setNode p _).nodes i = _
      rw [nodes_setNode, isNull_make_room, hroot, nodes_make_room]
      simp only [Bool.false_eq_true, if_false, show ¬ i = p by omega, hi, if_true]
    · show ((token_make_room f.root f.nrnodes p).setNode p _).nodes i = _
      rw [nodes_setNode, isNull_make_room, hroot, nodes_make_room]
      simp only [Bool.false_eq_true, if_false, show ¬ i = p by omega, show ¬ i < p by omega,
        h2, if_true]
    · show ((token_make_room f.root f.nrnodes p).setNode p _).nodes i = _
      rw [nodes_setNode, isNull_make_room, hroot, nodes_make_room]
      simp only [Bool.false_eq_true, if_false, show ¬ i = p by omega, show ¬ i < p by omega,
        show ¬ i ≤ f.nrnodes by omega]
    · show (((token_make_room f.root f.nrnodes p).setNode p _).nodes p).isNull = false
      rw [nodes_setNode, isNull_make_room, hroot]
      simp
    · show (((token_make_room f.root f.nrnodes p).setNode p _).nodes p).tval = t
      rw [nodes_setNode, isNull_make_room, hroot]
      simp
    · show (((token_make_room f.root f.nrnodes p).setNode p _).nodes p).leaf = true
      rw [nodes_setNode, isNull_make_room, hroot]
      simp
    · show (((token_make_room f.root f.nrnodes p).setNode p _).nodes p).nnodes = 0
      rw [nodes_setNode, isNull_make_room, hroot]
      simp

/-- The token trie after the inserts of the one token keys 0 .. 65534: every
call has returned true and the root has 65535 children, all with a token
below 65535. -/
theorem token_trie_65535 :
    ∃ F, run_token_inserts trie_tok (single_token_calls 65535) = some F ∧
      accepted_token_inserts trie_tok (single_token_calls 65535) = single_token_calls 65535 ∧
      F.nrnodes = 65535 ∧ F.max_len = 0 ∧ F.mode = fsmtrie_mode_token ∧
      F.root.isNull = false ∧ SortedKids F.root 65535 ∧
      ∀ i, i < 65535 → (F.root.nodes i).isNull = false ∧ (F.root.nodes i).tval < 65535 := by
  have hlen : (single_token_calls 65535).length = 65535 := by simp [single_token_calls]
  have h0 := THolds_init (some ⟨fsmtrie_mode_token, false, 0⟩) trie_tok rfl rfl
  obtain ⟨F1, hrun1, hml1, hH1⟩ := THolds_run (single_token_calls 65535) trie_tok [] 0 h0
    (by rw [hlen])
  have hacc1 := accepted_all (single_token_calls 65535) trie_tok [] 0 h0 (by rw [hlen]) rfl
  rw [hlen] at hH1
  simp only [List.nil_append, hacc1, Nat.zero_add] at hH1
  have hml : F1.max_len = 0 := hml1
  have hroot1 : F1.root.isNull = false := hH1.wf.node_present
  cases hwf : hH1.wf with
  | mk _ _ hn hc hk hs hr =>
    have hcnt : F1.nrnodes = 65535 := by
      have := kids_ge F1.root F1.nrnodes 65535 (by
        intro i hi
        have hex := (hH1.exist [i]).2 (Or.inr ⟨([i], none),
          List.mem_map.2 ⟨i, List.mem_range.2 hi, rfl⟩, List.prefix_refl _⟩)
        simp only [tlookup] at hex
        rcases tchild_cases F1.root F1.nrnodes i hs with ⟨j, hj, hji, _⟩ | ⟨_, hnone⟩
        · exact ⟨j, hj, hji⟩
        · rw [hnone] at hex; cases hex)
      omega
    refine ⟨F1, hrun1, hacc1, hcnt, hml, hH1.mode, hroot1, by rw [← hcnt]; exact hs, ?_⟩
    intro i hi
    rw [← hcnt] at hi
    refine ⟨hk i hi, ?_⟩
    have hex : (tlookup F1.root F1.nrnodes [(F1.root.nodes i).tval]).isNull = false := by
      simp only [tlookup]
      rw [tchild_of_idx F1.root F1.nrnodes _ i hs hi rfl]
      exact hk i hi
    rcases (hH1.exist _).1 hex with e | ⟨c, hc', hpre⟩
    · cases e
    · obtain ⟨j, hj, hjc⟩ := List.mem_map.1 hc'
      subst hjc
      have hj' := List.mem_range.1 hj
      have : (F1.root.nodes i).tval = j := (List.cons_prefix_cons.1 hpre).1
      omega

/-- C39 fails at the 65536th child: after the 65536 accepted inserts of the
one token keys 0 .. 65535 on a fresh token trie, the array of the root holds
65536 children, strictly increasing by token, and the stored 16 bit count
`nrnodes` is 0. -/
theorem C39_count_differs_from_children :
    fsmtrie_init (some ⟨fsmtrie_mode_token, false, 0⟩) = some trie_tok ∧
    ∃ F, run_token_inserts trie_tok (single_token_calls 65536) = some F ∧
      accepted_token_inserts trie_tok (single_token_calls 65536) = single_token_calls 65536 ∧
      (∀ i, i < 65536 → (F.root.nodes i).isNull = false) ∧
      (∀ i j, i < j → j < 65536 → (F.root.nodes i).tval < (F.root.nodes j).tval) ∧
      (F.root.nodes 65535).tval = 65535 ∧ F.nrnodes = 0 := by
  refine ⟨rfl, ?_⟩
  obtain ⟨F1, hrun1, hacc1, hcnt, hml, hmode, hroot, hs, hkids⟩ := token_trie_65535
  obtain ⟨p, F2, hp, hlow, hup, hins, hnr, _, _, _, hbelow, _, _, hnn, htv, _, _⟩ :=
    insert_single_token_root F1 hroot hmode hml (by rw [hcnt]; exact hs) 65535
      (fun i hi => by rw [hcnt] at hi; have := (hkids i hi).2; omega) none
  have hp' : p = 65535 := by
    rcases Nat.lt_or_ge p 65535 with h | h
    · have h1 := hup p (le_refl p) (by rw [hcnt]; exact h)
      have h2 := (hkids p h).2
      omega
    · rw [hcnt] at hp; omega
  subst hp'
  have hrun : run_token_inserts trie_tok (single_token_calls 65536) = some F2 := by
    rw [single_token_calls_succ, run_token_inserts_append, hrun1]
    simp [run_token_inserts, hins]
  have hacc : accepted_token_inserts trie_tok (single_token_calls 65536) =
      single_token_calls 65536 := by
    rw [single_token_calls_succ, accepted_token_inserts_append _ _ _ _ hrun1, hacc1]
    simp [accepted_token_inserts, hins]
  refine ⟨F2, hrun, hacc, fun i hi => ?_, fun i j hij hj => ?_, htv, by rw [hnr, hcnt]⟩
  · rcases Nat.lt_or_ge i 65535 with h | h
    · rw [hbelow i h]; exact (hkids i h).1
    · have : i = 65535 := by omega
      subst this; exact hnn
  · rcases Nat.lt_or_ge j 65535 with h | h
    · rw [hbelow i (by omega), hbelow j h]; exact hs i j hij h
    · have : j = 65535 := by omega
      subst this
      rw [hbelow i hij, htv]
      exact (hkids i hij).2

/-- A token search for a one token key on a trie whose root has one counted
child. -/
theorem search_token_single_child (f : fsmtrie) (hroot : f.root.isNull = false)
    (hmode : f.mode = fsmtrie_mode_token) (hnr : f.nrnodes = 1)
    (hnn : (f.root.nodes 0).isNull = false) (hl : (f.root.nodes 0).leaf = true) (x : Nat) :
    (fsmtrie_search_token f (some [x]) none).map (fun r => r.ret) =
      some (if (f.root.nodes 0).tval = x then 1 else 0) := by
  have hmode' : ¬ (f.mode ≠ fsmtrie_mode_token) := by simp [hmode]
  have e0 : (((1 : Nat) : Int) - 1 - 0 + 1) / 2 + 0 = 0 := by decide
  by_cases hx : (f.root.nodes 0).tval = x
  · simp [fsmtrie_search_token, hroot, hmode', hnr, search_token_walk, search_token_loop, e0, hx,
      hnn, hl]
  · simp [fsmtrie_search_token, hroot, hmode', hnr, search_token_walk, search_token_loop, e0, hx]

/-- C40 fails at the wrap of a child count: on the token trie that holds the
one token keys 0 .. 65534, the inserts of the keys (65535) and (65536) all
return true in either order, but they leave different tries.  The first of
the two inserts makes the 16 bit count `nrnodes` wrap to 0, so the second one
finds no children and puts its key into slot 0: after (65535) then (65536) the
root has the one counted child 65536 and a search for (65535) returns 0, after
(65536) then (65535) the root has the one counted child 65535 and a search for
(65535) returns 1. -/
theorem C40_order_matters_at_wrap :
    fsmtrie_init (some ⟨fsmtrie_mode_token, false, 0⟩) = some trie_tok ∧
    ∃ F Sab Sba, run_token_inserts trie_tok (single_token_calls 65535) = some F ∧
      run_token_inserts F [([65535], none), ([65536], none)] = some Sab ∧
      accepted_token_inserts F [([65535], none), ([65536], none)] =
        [([65535], none), ([65536], none)] ∧
      run_token_inserts F [([65536], none), ([65535], none)] = some Sba ∧
      accepted_token_inserts F [([65536], none), ([65535], none)] =
        [([65536], none), ([65535], none)] ∧
      Sab.nrnodes = 1 ∧ Sba.nrnodes = 1 ∧
      (Sab.root.nodes 0).tval = 65536 ∧ (Sba.root.nodes 0).tval = 65535 ∧
      (fsmtrie_search_token Sab (some [65535]) none).map (fun r => r.ret) = some 0 ∧
      (fsmtrie_search_token Sba (some [65535]) none).map (fun r => r.ret) = some 1 ∧
      (fsmtrie_search_token Sab (some [65536]) none).map (fun r => r.ret) = some 1 ∧
      (fsmtrie_search_token Sba (some [65536]) none).map (fun r => r.ret) = some 0 := by
  refine ⟨rfl, ?_⟩
  obtain ⟨F1, hrun1, _, hcnt, hml, hmode, hroot, hs, hkids⟩ := token_trie_65535
  have two : ∀ a b : Nat, 65535 ≤ a → 65535 ≤ b → a ≠ b →
      ∃ S, run_token_inserts F1 [([a], none), ([b], none)] = some S ∧
        accepted_token_inserts F1 [([a], none), ([b], none)] = [([a], none), ([b], none)] ∧
        S.nrnodes = 1 ∧ (S.root.nodes 0).tval = b ∧
        ∀ x, (fsmtrie_search_token S (some [x]) none).map (fun r => r.ret) =
          some (if b = x then 1 else 0) := by
    intro a b ha hb hab
    obtain ⟨p, F2, _, _, _, hins, hnr, hmode2, hml2, hroot2, _⟩ :=
      insert_single_token_root F1 hroot hmode hml (by rw [hcnt]; exact hs) a
        (fun i hi => by rw [hcnt] at hi; have := (hkids i hi).2; omega) none
    have hnr2 : F2.nrnodes = 0 := by rw [hnr, hcnt]
    obtain ⟨q, F3, hq, _, _, hins3, hnr3, hmode3, _, hroot3, _, _, _, hnn3, htv3, hl3, _⟩ :=
      insert_single_token_root F2 hroot2 hmode2 hml2
        (fun i j _ hj => by rw [hnr2] at hj; omega) b
        (fun i hi => by rw [hnr2] at hi; omega) none
    have hq0 : q = 0 := by rw [hnr2] at hq; omega
    subst hq0
    have hnr3' : F3.nrnodes = 1 := by rw [hnr3, hnr2]
    refine ⟨F3, ?_, ?_, hnr3', htv3, fun x => ?_⟩
    · simp only [run_token_inserts, hins, hins3]
    · simp only [accepted_token_inserts, hins, hins3, if_true]
    · rw [search_token_single_child F3 hroot3 hmode3 hnr3' hnn3 hl3 x, htv3]
  obtain ⟨Sab, h1, h2, h3, h4, h5⟩ := two 65535 65536 (by omega) (by omega) (by omega)
  obtain ⟨Sba, k1, k2, k3, k4, k5⟩ := two 65536 65535 (by omega) (by omega) (by omega)
  exact ⟨F1, Sab, Sba, hrun1, h1, h2, k1, k2, h3, k3, h4, k4, by rw [h5]; rfl, by rw [k5]; rfl,
    by rw [h5]; rfl, by rw [k5]; rfl⟩

/-! ### Byte inserts of distinct keys commute -/

theorem setNode_setNode (n x y : fsmtrie_node) (p : Nat) :
    (n.setNode p x).setNode p y = n.setNode p y := by
  cases n with
  | NULL => rfl
  | mk _ _ _ _ _ _ ns => simp [setNode]

theorem setNode_comm (n x y : fsmtrie_node) (p q : Nat) (h : p ≠ q) :
    (n.setNode p x).setNode q y = (n.setNode q y).setNode p x := by
  cases n with
  | NULL => rfl
  | mk _ _ _ _ _ _ ns => simp [setNode, Function.update_comm h]

theorem markLeaf_setNode (n x : fsmtrie_node) (p : Nat) (s : Option (List Nat)) :
    (n.markLeaf s).setNode p x = (n.setNode p x).markLeaf s := by
  cases n with
  | NULL => rfl
  | mk _ _ _ _ _ _ ns => rfl

/-- The walks of two inserts of distinct keys commute: the node they leave,
the number of nodes they create in all, and whether each key was new do not
depend on the order. -/
theorem insert_walk_comm (nr : Nat) (mode : fsmtrie_mode) (sa sb : Option (List Nat)) :
    ∀ (a b : List Nat) (n : fsmtrie_node), a ≠ b → n.isNull = false →
      (insert_walk nr mode sb (insert_walk nr mode sa n a).1 b).1 =
        (insert_walk nr mode sa (insert_walk nr mode sb n b).1 a).1 ∧
      (insert_walk nr mode sa n a).2.1 +
          (insert_walk nr mode sb (insert_walk nr mode sa n a).1 b).2.1 =
        (insert_walk nr mode sb n b).2.1 +
          (insert_walk nr mode sa (insert_walk nr mode sb n b).1 a).2.1 ∧
      (insert_walk nr mode sb (insert_walk nr mode sa n a).1 b).2.2 =
        (insert_walk nr mode sb n b).2.2 ∧
      (insert_walk nr mode sa (insert_walk nr mode sb n b).1 a).2.2 =
        (insert_walk nr mode sa n a).2.2 := by
  -- a key that ends at the node against a key that goes on below it
  have hend : ∀ (s1 s2 : Option (List Nat)) (p : Nat) (rest : List Nat) (n : fsmtrie_node),
      n.isNull = false →
      (insert_walk nr mode s2 (insert_walk nr mode s1 n []).1 (p :: rest)).1 =
        (insert_walk nr mode s1 (insert_walk nr mode s2 n (p :: rest)).1 []).1 ∧
      (insert_walk nr mode s1 n []).2.1 +
          (insert_walk nr mode s2 (insert_walk nr mode s1 n []).1 (p :: rest)).2.1 =
        (insert_walk nr mode s2 n (p :: rest)).2.1 +
          (insert_walk nr mode s1 (insert_walk nr mode s2 n (p :: rest)).1 []).2.1 ∧
      (insert_walk nr mode s2 (insert_walk nr mode s1 n []).1 (p :: rest)).2.2 =
        (insert_walk nr mode s2 n (p :: rest)).2.2 ∧
      (insert_walk nr mode s1 (insert_walk nr mode s2 n (p :: rest)).1 []).2.2 =
        (insert_walk nr mode s1 n []).2.2 := by
    intro s1 s2 p rest n hn
    by_cases hl : n.leaf = true
    · by_cases hc : (n.nodes p).isNull = true
      · simp [insert_walk, hl, hc]
      · simp [insert_walk, hl, hc]
    · by_cases hc : (n.nodes p).isNull = true
      · simp [insert_walk, hl, hc, markLeaf_setNode]
      · simp [insert_walk, hl, hc, markLeaf_setNode]
  intro a
  induction a with
  | nil =>
    intro b n hab hn
    cases b with
    | nil => exact absurd rfl hab
    | cons p rest => exact hend sa sb p rest n hn
  | cons p a ih =>
    intro b n hab hn
    cases b with
    | nil =>
      obtain ⟨h1, h2, h3, h4⟩ := hend sb sa p a n hn
      exact ⟨h1.symm, h2.symm, h4, h3⟩
    | cons q b =>
      by_cases hpq : p = q
      · subst hpq
        have hab' : a ≠ b := fun e => hab (by rw [e])
        have key : ∀ child : fsmtrie_node, child.isNull = false →
            (insert_walk nr mode sa child a).1.isNull = false ∧
            (insert_walk nr mode sb child b).1.isNull = false := fun child hc =>
          ⟨(insert_walk_spec nr mode sa a child hc).1, (insert_walk_spec nr mode sb b child hc).1⟩
        by_cases hc : (n.nodes p).isNull = true
        · have hfresh : ((_fsmtrie_node_new mode).1.setNnodes nr).isNull = false := by simp
          obtain ⟨k1, k2⟩ := key _ hfresh
          obtain ⟨i1, i2, i3, i4⟩ := ih b _ hab' hfresh
          simp only [insert_walk, hc, if_true, nodes_setNode, hn, Bool.false_eq_true, if_false,
            k1, k2, setNode_setNode]
          exact ⟨by rw [i1], by omega, i3, i4⟩
        · have hc' : (n.nodes p).isNull = false := by simpa using hc
          obtain ⟨k1, k2⟩ := key _ hc'
          obtain ⟨i1, i2, i3, i4⟩ := ih b _ hab' hc'
          simp only [insert_walk, hc', Bool.false_eq_true, if_false, nodes_setNode, hn,
            if_true, k1, k2, setNode_setNode]
          exact ⟨by rw [i1], i2, i3, i4⟩
      · have hqp : ¬ q = p := fun e => hpq e.symm
        by_cases hcp : (n.nodes p).isNull = true <;> by_cases hcq : (n.nodes q).isNull = true
        all_goals
          simp only [insert_walk, hcp, hcq, if_true, if_false, nodes_setNode, hn,
            Bool.false_eq_true, hpq, hqp]
          exact ⟨setNode_comm _ _ _ _ _ hpq, by omega, trivial, trivial⟩

theorem accepts_insert (f : fsmtrie) (k k1 : List Nat) (str : Option (List Nat)) :
    accepts (fsmtrie_insert f (some k) str).2 k1 ↔ accepts f k1 := by
  obtain ⟨_, h2, h3, _⟩ := fsmtrie_insert_fixed f (some k) str
  unfold accepts
  rw [h2, h3]

/-- Inserts of two distinct keys that `fsmtrie_insert` accepts commute: on
every initialised ASCII or EASCII trie the four calls return true, and the
trie after a then b is the trie after b then a, node by node and counter by
counter, the `AC_COMPILED` flag included. -/
theorem byte_inserts_commute (f : fsmtrie) (hf : ByteTrie f) (a b : List Nat)
    (sa sb : Option (List Nat)) (hab : a ≠ b) (ha : accepts f a) (hb : accepts f b) :
    (fsmtrie_insert f (some a) sa).1 = true ∧ (fsmtrie_insert f (some b) sb).1 = true ∧
    (fsmtrie_insert (fsmtrie_insert f (some a) sa).2 (some b) sb).1 = true ∧
    (fsmtrie_insert (fsmtrie_insert f (some b) sb).2 (some a) sa).1 = true ∧
    (fsmtrie_insert (fsmtrie_insert f (some a) sa).2 (some b) sb).2 =
      (fsmtrie_insert (fsmtrie_insert f (some b) sb).2 (some a) sa).2 := by
  have hfa := ByteTrie_insert f hf a sa
  have hfb := ByteTrie_insert f hf b sb
  have hb' := (accepts_insert f a b sa).2 hb
  have ha' := (accepts_insert f b a sb).2 ha
  refine ⟨(fsmtrie_insert_byte f hf a sa).1.2 ha, (fsmtrie_insert_byte f hf b sb).1.2 hb,
    (fsmtrie_insert_byte _ hfa b sb).1.2 hb', (fsmtrie_insert_byte _ hfb a sa).1.2 ha', ?_⟩
  obtain ⟨c1, c2, c3, c4⟩ := insert_walk_comm f.nrnodes f.mode sa sb a b f.root hab hf.root
  rw [fsmtrie_insert_accepted _ hfa b sb hb', fsmtrie_insert_accepted _ hfb a sa ha',
    fsmtrie_insert_accepted f hf a sa ha, fsmtrie_insert_accepted f hf b sb hb]
  cases hna : (insert_walk f.nrnodes f.mode sa f.root a).2.2 <;>
    cases hnb : (insert_walk f.nrnodes f.mode sb f.root b).2.2 <;>
    simp only [hna, hnb, Bool.false_eq_true, if_false, if_true] at c3 c4 ⊢ <;>
    simp only [c3, c4, Bool.false_eq_true, if_false, if_true, c1] <;>
    simp only [fsmtrie.mk.injEq, true_and, and_true] <;>
    omega

/-! ### Reads of the token lookup behind the children -/

/-- C29 fails in its last sentence: with `do_insert` the `memmove` of
`_fsmtrie_get_token_idx` copies `sizeof(**nodep)` bytes, the size of a node,
for each child from `sidx` on, which is five slots of `nodes[]` each.  On the
token trie that holds the keys (1), (3) and (5), the lookup of the token 0
that `fsmtrie_insert_token` makes at the root, with `nodecnt = 3`, probes
the slots 1 and 0, reads slot 0 again after the loop and then copies the 15
slots 0 .. 14, of which only 0 .. 2 are children; it returns 1 with
`*pidx = 0`.  The block that `realloc` has returned has 16 slots. -/
theorem C29_memmove_reads_past_children :
    fsmtrie_init (some ⟨fsmtrie_mode_token, false, 0⟩) = some trie_tok ∧
    accepted_token_inserts trie_tok [([1], none), ([3], none), ([5], none)] =
      [([1], none), ([3], none), ([5], none)] ∧
    (run_token_inserts trie_tok [([1], none), ([3], none), ([5], none)]).map
      (fun F => (F.nrnodes, (List.range 3).map (fun i => (F.root.nodes i).tval))) =
        some (3, [1, 3, 5]) ∧
    (run_token_inserts trie_tok [([1], none), ([3], none), ([5], none)]).map
      (fun F => token_idx_reads F.root F.nrnodes 0 true) =
        some [1, 0, 0, 0, 1, 2, 3, 4, 5, 6, 7, 8, 9, 10, 11, 12, 13, 14] ∧
    (run_token_inserts trie_tok [([1], none), ([3], none), ([5], none)]).map
      (fun F => (_fsmtrie_get_token_idx F.root F.nrnodes 0 true).map
        (fun r => (r.ret, r.pidx))) = some (some (1, some 0)) ∧
    token_block_slots 3 = 16 := by
  refine ⟨rfl, by decide, by decide, by decide, by decide, by decide⟩

/-! ### Callbacks behind the end of the character stack -/

end FSM
